import Mathlib

/-!
# FractureCrypto: the AES-128 engine and its four modes of operation

A shallow embedding of `src/aes.cpp` and `src/aes.h`.  Bytes (`uint8_t`) are natural numbers
below 256, byte arrays are lists, `size_t` values are natural numbers reduced modulo `2 ^ 64`
where the source can wrap around.  An object is a structure that every member function takes and
returns; a pointer into a buffer that is handed to a block function is the 16-byte window read
at that offset, which the caller writes back afterwards.
-/

namespace FractureCrypto

/-! ## Loops and buffer windows -/

/-- The loop `for (i = a; i < a + n; i++) body`: `n` passes with a rising index. -/
def forLoop {σ : Type} (body : Nat → σ → σ) : Nat → Nat → σ → σ
  | 0, _, s => s
  | n + 1, i, s => forLoop body n (i + 1) (body i s)

/-- The loop `for (i = a; ...; i--) body`: `n` passes with a falling index. -/
def forLoopDown {σ : Type} (body : Nat → σ → σ) : Nat → Nat → σ → σ
  | 0, _, s => s
  | n + 1, i, s => forLoopDown body n (i - 1) (body i s)

/-- The bytes `mem[off], ..., mem[off + len - 1]`, the window a pointer `mem + off` gives. -/
def readAt (mem : List Nat) (off len : Nat) : List Nat :=
  (mem.drop off).take len

/-- The buffer after `memcpy(mem + off, data, data.length)`. -/
def writeAt (mem : List Nat) (off : Nat) (data : List Nat) : List Nat :=
  mem.take off ++ data ++ mem.drop (off + data.length)

/-! ## The constant tables of `aes_config.h` -/

/-- Modelled from the spec: the table `sBox[16][16]` of `aes_config.h`, which is not among the sources; section 4.1 names it the fixed non-linear S-box of AES, indexed by the high and the low nibble of a byte. -/
def sBox : List (List Nat) :=
  [[0x63, 0x7c, 0x77, 0x7b, 0xf2, 0x6b, 0x6f, 0xc5, 0x30, 0x01, 0x67, 0x2b, 0xfe, 0xd7, 0xab, 0x76],
   [0xca, 0x82, 0xc9, 0x7d, 0xfa, 0x59, 0x47, 0xf0, 0xad, 0xd4, 0xa2, 0xaf, 0x9c, 0xa4, 0x72, 0xc0],
   [0xb7, 0xfd, 0x93, 0x26, 0x36, 0x3f, 0xf7, 0xcc, 0x34, 0xa5, 0xe5, 0xf1, 0x71, 0xd8, 0x31, 0x15],
   [0x04, 0xc7, 0x23, 0xc3, 0x18, 0x96, 0x05, 0x9a, 0x07, 0x12, 0x80, 0xe2, 0xeb, 0x27, 0xb2, 0x75],
   [0x09, 0x83, 0x2c, 0x1a, 0x1b, 0x6e, 0x5a, 0xa0, 0x52, 0x3b, 0xd6, 0xb3, 0x29, 0xe3, 0x2f, 0x84],
   [0x53, 0xd1, 0x00, 0xed, 0x20, 0xfc, 0xb1, 0x5b, 0x6a, 0xcb, 0xbe, 0x39, 0x4a, 0x4c, 0x58, 0xcf],
   [0xd0, 0xef, 0xaa, 0xfb, 0x43, 0x4d, 0x33, 0x85, 0x45, 0xf9, 0x02, 0x7f, 0x50, 0x3c, 0x9f, 0xa8],
   [0x51, 0xa3, 0x40, 0x8f, 0x92, 0x9d, 0x38, 0xf5, 0xbc, 0xb6, 0xda, 0x21, 0x10, 0xff, 0xf3, 0xd2],
   [0xcd, 0x0c, 0x13, 0xec, 0x5f, 0x97, 0x44, 0x17, 0xc4, 0xa7, 0x7e, 0x3d, 0x64, 0x5d, 0x19, 0x73],
   [0x60, 0x81, 0x4f, 0xdc, 0x22, 0x2a, 0x90, 0x88, 0x46, 0xee, 0xb8, 0x14, 0xde, 0x5e, 0x0b, 0xdb],
   [0xe0, 0x32, 0x3a, 0x0a, 0x49, 0x06, 0x24, 0x5c, 0xc2, 0xd3, 0xac, 0x62, 0x91, 0x95, 0xe4, 0x79],
   [0xe7, 0xc8, 0x37, 0x6d, 0x8d, 0xd5, 0x4e, 0xa9, 0x6c, 0x56, 0xf4, 0xea, 0x65, 0x7a, 0xae, 0x08],
   [0xba, 0x78, 0x25, 0x2e, 0x1c, 0xa6, 0xb4, 0xc6, 0xe8, 0xdd, 0x74, 0x1f, 0x4b, 0xbd, 0x8b, 0x8a],
   [0x70, 0x3e, 0xb5, 0x66, 0x48, 0x03, 0xf6, 0x0e, 0x61, 0x35, 0x57, 0xb9, 0x86, 0xc1, 0x1d, 0x9e],
   [0xe1, 0xf8, 0x98, 0x11, 0x69, 0xd9, 0x8e, 0x94, 0x9b, 0x1e, 0x87, 0xe9, 0xce, 0x55, 0x28, 0xdf],
   [0x8c, 0xa1, 0x89, 0x0d, 0xbf, 0xe6, 0x42, 0x68, 0x41, 0x99, 0x2d, 0x0f, 0xb0, 0x54, 0xbb, 0x16]]

/-- Modelled from the spec: the table `sBoxInv[16][16]` of `aes_config.h`, which is not among the sources; section 4.1 names it the inverse of the AES S-box. -/
def sBoxInv : List (List Nat) :=
  [[0x52, 0x09, 0x6a, 0xd5, 0x30, 0x36, 0xa5, 0x38, 0xbf, 0x40, 0xa3, 0x9e, 0x81, 0xf3, 0xd7, 0xfb],
   [0x7c, 0xe3, 0x39, 0x82, 0x9b, 0x2f, 0xff, 0x87, 0x34, 0x8e, 0x43, 0x44, 0xc4, 0xde, 0xe9, 0xcb],
   [0x54, 0x7b, 0x94, 0x32, 0xa6, 0xc2, 0x23, 0x3d, 0xee, 0x4c, 0x95, 0x0b, 0x42, 0xfa, 0xc3, 0x4e],
   [0x08, 0x2e, 0xa1, 0x66, 0x28, 0xd9, 0x24, 0xb2, 0x76, 0x5b, 0xa2, 0x49, 0x6d, 0x8b, 0xd1, 0x25],
   [0x72, 0xf8, 0xf6, 0x64, 0x86, 0x68, 0x98, 0x16, 0xd4, 0xa4, 0x5c, 0xcc, 0x5d, 0x65, 0xb6, 0x92],
   [0x6c, 0x70, 0x48, 0x50, 0xfd, 0xed, 0xb9, 0xda, 0x5e, 0x15, 0x46, 0x57, 0xa7, 0x8d, 0x9d, 0x84],
   [0x90, 0xd8, 0xab, 0x00, 0x8c, 0xbc, 0xd3, 0x0a, 0xf7, 0xe4, 0x58, 0x05, 0xb8, 0xb3, 0x45, 0x06],
   [0xd0, 0x2c, 0x1e, 0x8f, 0xca, 0x3f, 0x0f, 0x02, 0xc1, 0xaf, 0xbd, 0x03, 0x01, 0x13, 0x8a, 0x6b],
   [0x3a, 0x91, 0x11, 0x41, 0x4f, 0x67, 0xdc, 0xea, 0x97, 0xf2, 0xcf, 0xce, 0xf0, 0xb4, 0xe6, 0x73],
   [0x96, 0xac, 0x74, 0x22, 0xe7, 0xad, 0x35, 0x85, 0xe2, 0xf9, 0x37, 0xe8, 0x1c, 0x75, 0xdf, 0x6e],
   [0x47, 0xf1, 0x1a, 0x71, 0x1d, 0x29, 0xc5, 0x89, 0x6f, 0xb7, 0x62, 0x0e, 0xaa, 0x18, 0xbe, 0x1b],
   [0xfc, 0x56, 0x3e, 0x4b, 0xc6, 0xd2, 0x79, 0x20, 0x9a, 0xdb, 0xc0, 0xfe, 0x78, 0xcd, 0x5a, 0xf4],
   [0x1f, 0xdd, 0xa8, 0x33, 0x88, 0x07, 0xc7, 0x31, 0xb1, 0x12, 0x10, 0x59, 0x27, 0x80, 0xec, 0x5f],
   [0x60, 0x51, 0x7f, 0xa9, 0x19, 0xb5, 0x4a, 0x0d, 0x2d, 0xe5, 0x7a, 0x9f, 0x93, 0xc9, 0x9c, 0xef],
   [0xa0, 0xe0, 0x3b, 0x4d, 0xae, 0x2a, 0xf5, 0xb0, 0xc8, 0xeb, 0xbb, 0x3c, 0x83, 0x53, 0x99, 0x61],
   [0x17, 0x2b, 0x04, 0x7e, 0xba, 0x77, 0xd6, 0x26, 0xe1, 0x69, 0x14, 0x63, 0x55, 0x21, 0x0c, 0x7d]]

/-- Modelled from the spec: the table `mul_2[256]` of `aes_config.h`, which is not among the sources; section 4.1 names it the AES finite-field multiplication table of the coefficient 2. -/
def mul_2 : List Nat :=
  [0x00, 0x02, 0x04, 0x06, 0x08, 0x0a, 0x0c, 0x0e, 0x10, 0x12, 0x14, 0x16, 0x18, 0x1a, 0x1c, 0x1e,
   0x20, 0x22, 0x24, 0x26, 0x28, 0x2a, 0x2c, 0x2e, 0x30, 0x32, 0x34, 0x36, 0x38, 0x3a, 0x3c, 0x3e,
   0x40, 0x42, 0x44, 0x46, 0x48, 0x4a, 0x4c, 0x4e, 0x50, 0x52, 0x54, 0x56, 0x58, 0x5a, 0x5c, 0x5e,
   0x60, 0x62, 0x64, 0x66, 0x68, 0x6a, 0x6c, 0x6e, 0x70, 0x72, 0x74, 0x76, 0x78, 0x7a, 0x7c, 0x7e,
   0x80, 0x82, 0x84, 0x86, 0x88, 0x8a, 0x8c, 0x8e, 0x90, 0x92, 0x94, 0x96, 0x98, 0x9a, 0x9c, 0x9e,
   0xa0, 0xa2, 0xa4, 0xa6, 0xa8, 0xaa, 0xac, 0xae, 0xb0, 0xb2, 0xb4, 0xb6, 0xb8, 0xba, 0xbc, 0xbe,
   0xc0, 0xc2, 0xc4, 0xc6, 0xc8, 0xca, 0xcc, 0xce, 0xd0, 0xd2, 0xd4, 0xd6, 0xd8, 0xda, 0xdc, 0xde,
   0xe0, 0xe2, 0xe4, 0xe6, 0xe8, 0xea, 0xec, 0xee, 0xf0, 0xf2, 0xf4, 0xf6, 0xf8, 0xfa, 0xfc, 0xfe,
   0x1b, 0x19, 0x1f, 0x1d, 0x13, 0x11, 0x17, 0x15, 0x0b, 0x09, 0x0f, 0x0d, 0x03, 0x01, 0x07, 0x05,
   0x3b, 0x39, 0x3f, 0x3d, 0x33, 0x31, 0x37, 0x35, 0x2b, 0x29, 0x2f, 0x2d, 0x23, 0x21, 0x27, 0x25,
   0x5b, 0x59, 0x5f, 0x5d, 0x53, 0x51, 0x57, 0x55, 0x4b, 0x49, 0x4f, 0x4d, 0x43, 0x41, 0x47, 0x45,
   0x7b, 0x79, 0x7f, 0x7d, 0x73, 0x71, 0x77, 0x75, 0x6b, 0x69, 0x6f, 0x6d, 0x63, 0x61, 0x67, 0x65,
   0x9b, 0x99, 0x9f, 0x9d, 0x93, 0x91, 0x97, 0x95, 0x8b, 0x89, 0x8f, 0x8d, 0x83, 0x81, 0x87, 0x85,
   0xbb, 0xb9, 0xbf, 0xbd, 0xb3, 0xb1, 0xb7, 0xb5, 0xab, 0xa9, 0xaf, 0xad, 0xa3, 0xa1, 0xa7, 0xa5,
   0xdb, 0xd9, 0xdf, 0xdd, 0xd3, 0xd1, 0xd7, 0xd5, 0xcb, 0xc9, 0xcf, 0xcd, 0xc3, 0xc1, 0xc7, 0xc5,
   0xfb, 0xf9, 0xff, 0xfd, 0xf3, 0xf1, 0xf7, 0xf5, 0xeb, 0xe9, 0xef, 0xed, 0xe3, 0xe1, 0xe7, 0xe5]

/-- Modelled from the spec: the table `mul_3[256]` of `aes_config.h`, which is not among the sources; section 4.1 names it the AES finite-field multiplication table of the coefficient 3. -/
def mul_3 : List Nat :=
  [0x00, 0x03, 0x06, 0x05, 0x0c, 0x0f, 0x0a, 0x09, 0x18, 0x1b, 0x1e, 0x1d, 0x14, 0x17, 0x12, 0x11,
   0x30, 0x33, 0x36, 0x35, 0x3c, 0x3f, 0x3a, 0x39, 0x28, 0x2b, 0x2e, 0x2d, 0x24, 0x27, 0x22, 0x21,
   0x60, 0x63, 0x66, 0x65, 0x6c, 0x6f, 0x6a, 0x69, 0x78, 0x7b, 0x7e, 0x7d, 0x74, 0x77, 0x72, 0x71,
   0x50, 0x53, 0x56, 0x55, 0x5c, 0x5f, 0x5a, 0x59, 0x48, 0x4b, 0x4e, 0x4d, 0x44, 0x47, 0x42, 0x41,
   0xc0, 0xc3, 0xc6, 0xc5, 0xcc, 0xcf, 0xca, 0xc9, 0xd8, 0xdb, 0xde, 0xdd, 0xd4, 0xd7, 0xd2, 0xd1,
   0xf0, 0xf3, 0xf6, 0xf5, 0xfc, 0xff, 0xfa, 0xf9, 0xe8, 0xeb, 0xee, 0xed, 0xe4, 0xe7, 0xe2, 0xe1,
   0xa0, 0xa3, 0xa6, 0xa5, 0xac, 0xaf, 0xaa, 0xa9, 0xb8, 0xbb, 0xbe, 0xbd, 0xb4, 0xb7, 0xb2, 0xb1,
   0x90, 0x93, 0x96, 0x95, 0x9c, 0x9f, 0x9a, 0x99, 0x88, 0x8b, 0x8e, 0x8d, 0x84, 0x87, 0x82, 0x81,
   0x9b, 0x98, 0x9d, 0x9e, 0x97, 0x94, 0x91, 0x92, 0x83, 0x80, 0x85, 0x86, 0x8f, 0x8c, 0x89, 0x8a,
   0xab, 0xa8, 0xad, 0xae, 0xa7, 0xa4, 0xa1, 0xa2, 0xb3, 0xb0, 0xb5, 0xb6, 0xbf, 0xbc, 0xb9, 0xba,
   0xfb, 0xf8, 0xfd, 0xfe, 0xf7, 0xf4, 0xf1, 0xf2, 0xe3, 0xe0, 0xe5, 0xe6, 0xef, 0xec, 0xe9, 0xea,
   0xcb, 0xc8, 0xcd, 0xce, 0xc7, 0xc4, 0xc1, 0xc2, 0xd3, 0xd0, 0xd5, 0xd6, 0xdf, 0xdc, 0xd9, 0xda,
   0x5b, 0x58, 0x5d, 0x5e, 0x57, 0x54, 0x51, 0x52, 0x43, 0x40, 0x45, 0x46, 0x4f, 0x4c, 0x49, 0x4a,
   0x6b, 0x68, 0x6d, 0x6e, 0x67, 0x64, 0x61, 0x62, 0x73, 0x70, 0x75, 0x76, 0x7f, 0x7c, 0x79, 0x7a,
   0x3b, 0x38, 0x3d, 0x3e, 0x37, 0x34, 0x31, 0x32, 0x23, 0x20, 0x25, 0x26, 0x2f, 0x2c, 0x29, 0x2a,
   0x0b, 0x08, 0x0d, 0x0e, 0x07, 0x04, 0x01, 0x02, 0x13, 0x10, 0x15, 0x16, 0x1f, 0x1c, 0x19, 0x1a]

/-- Modelled from the spec: the table `mul_9[256]` of `aes_config.h`, which is not among the sources; section 4.1 names it the AES finite-field multiplication table of the coefficient 9. -/
def mul_9 : List Nat :=
  [0x00, 0x09, 0x12, 0x1b, 0x24, 0x2d, 0x36, 0x3f, 0x48, 0x41, 0x5a, 0x53, 0x6c, 0x65, 0x7e, 0x77,
   0x90, 0x99, 0x82, 0x8b, 0xb4, 0xbd, 0xa6, 0xaf, 0xd8, 0xd1, 0xca, 0xc3, 0xfc, 0xf5, 0xee, 0xe7,
   0x3b, 0x32, 0x29, 0x20, 0x1f, 0x16, 0x0d, 0x04, 0x73, 0x7a, 0x61, 0x68, 0x57, 0x5e, 0x45, 0x4c,
   0xab, 0xa2, 0xb9, 0xb0, 0x8f, 0x86, 0x9d, 0x94, 0xe3, 0xea, 0xf1, 0xf8, 0xc7, 0xce, 0xd5, 0xdc,
   0x76, 0x7f, 0x64, 0x6d, 0x52, 0x5b, 0x40, 0x49, 0x3e, 0x37, 0x2c, 0x25, 0x1a, 0x13, 0x08, 0x01,
   0xe6, 0xef, 0xf4, 0xfd, 0xc2, 0xcb, 0xd0, 0xd9, 0xae, 0xa7, 0xbc, 0xb5, 0x8a, 0x83, 0x98, 0x91,
   0x4d, 0x44, 0x5f, 0x56, 0x69, 0x60, 0x7b, 0x72, 0x05, 0x0c, 0x17, 0x1e, 0x21, 0x28, 0x33, 0x3a,
   0xdd, 0xd4, 0xcf, 0xc6, 0xf9, 0xf0, 0xeb, 0xe2, 0x95, 0x9c, 0x87, 0x8e, 0xb1, 0xb8, 0xa3, 0xaa,
   0xec, 0xe5, 0xfe, 0xf7, 0xc8, 0xc1, 0xda, 0xd3, 0xa4, 0xad, 0xb6, 0xbf, 0x80, 0x89, 0x92, 0x9b,
   0x7c, 0x75, 0x6e, 0x67, 0x58, 0x51, 0x4a, 0x43, 0x34, 0x3d, 0x26, 0x2f, 0x10, 0x19, 0x02, 0x0b,
   0xd7, 0xde, 0xc5, 0xcc, 0xf3, 0xfa, 0xe1, 0xe8, 0x9f, 0x96, 0x8d, 0x84, 0xbb, 0xb2, 0xa9, 0xa0,
   0x47, 0x4e, 0x55, 0x5c, 0x63, 0x6a, 0x71, 0x78, 0x0f, 0x06, 0x1d, 0x14, 0x2b, 0x22, 0x39, 0x30,
   0x9a, 0x93, 0x88, 0x81, 0xbe, 0xb7, 0xac, 0xa5, 0xd2, 0xdb, 0xc0, 0xc9, 0xf6, 0xff, 0xe4, 0xed,
   0x0a, 0x03, 0x18, 0x11, 0x2e, 0x27, 0x3c, 0x35, 0x42, 0x4b, 0x50, 0x59, 0x66, 0x6f, 0x74, 0x7d,
   0xa1, 0xa8, 0xb3, 0xba, 0x85, 0x8c, 0x97, 0x9e, 0xe9, 0xe0, 0xfb, 0xf2, 0xcd, 0xc4, 0xdf, 0xd6,
   0x31, 0x38, 0x23, 0x2a, 0x15, 0x1c, 0x07, 0x0e, 0x79, 0x70, 0x6b, 0x62, 0x5d, 0x54, 0x4f, 0x46]

/-- Modelled from the spec: the table `mul_11[256]` of `aes_config.h`, which is not among the sources; section 4.1 names it the AES finite-field multiplication table of the coefficient 11. -/
def mul_11 : List Nat :=
  [0x00, 0x0b, 0x16, 0x1d, 0x2c, 0x27, 0x3a, 0x31, 0x58, 0x53, 0x4e, 0x45, 0x74, 0x7f, 0x62, 0x69,
   0xb0, 0xbb, 0xa6, 0xad, 0x9c, 0x97, 0x8a, 0x81, 0xe8, 0xe3, 0xfe, 0xf5, 0xc4, 0xcf, 0xd2, 0xd9,
   0x7b, 0x70, 0x6d, 0x66, 0x57, 0x5c, 0x41, 0x4a, 0x23, 0x28, 0x35, 0x3e, 0x0f, 0x04, 0x19, 0x12,
   0xcb, 0xc0, 0xdd, 0xd6, 0xe7, 0xec, 0xf1, 0xfa, 0x93, 0x98, 0x85, 0x8e, 0xbf, 0xb4, 0xa9, 0xa2,
   0xf6, 0xfd, 0xe0, 0xeb, 0xda, 0xd1, 0xcc, 0xc7, 0xae, 0xa5, 0xb8, 0xb3, 0x82, 0x89, 0x94, 0x9f,
   0x46, 0x4d, 0x50, 0x5b, 0x6a, 0x61, 0x7c, 0x77, 0x1e, 0x15, 0x08, 0x03, 0x32, 0x39, 0x24, 0x2f,
   0x8d, 0x86, 0x9b, 0x90, 0xa1, 0xaa, 0xb7, 0xbc, 0xd5, 0xde, 0xc3, 0xc8, 0xf9, 0xf2, 0xef, 0xe4,
   0x3d, 0x36, 0x2b, 0x20, 0x11, 0x1a, 0x07, 0x0c, 0x65, 0x6e, 0x73, 0x78, 0x49, 0x42, 0x5f, 0x54,
   0xf7, 0xfc, 0xe1, 0xea, 0xdb, 0xd0, 0xcd, 0xc6, 0xaf, 0xa4, 0xb9, 0xb2, 0x83, 0x88, 0x95, 0x9e,
   0x47, 0x4c, 0x51, 0x5a, 0x6b, 0x60, 0x7d, 0x76, 0x1f, 0x14, 0x09, 0x02, 0x33, 0x38, 0x25, 0x2e,
   0x8c, 0x87, 0x9a, 0x91, 0xa0, 0xab, 0xb6, 0xbd, 0xd4, 0xdf, 0xc2, 0xc9, 0xf8, 0xf3, 0xee, 0xe5,
   0x3c, 0x37, 0x2a, 0x21, 0x10, 0x1b, 0x06, 0x0d, 0x64, 0x6f, 0x72, 0x79, 0x48, 0x43, 0x5e, 0x55,
   0x01, 0x0a, 0x17, 0x1c, 0x2d, 0x26, 0x3b, 0x30, 0x59, 0x52, 0x4f, 0x44, 0x75, 0x7e, 0x63, 0x68,
   0xb1, 0xba, 0xa7, 0xac, 0x9d, 0x96, 0x8b, 0x80, 0xe9, 0xe2, 0xff, 0xf4, 0xc5, 0xce, 0xd3, 0xd8,
   0x7a, 0x71, 0x6c, 0x67, 0x56, 0x5d, 0x40, 0x4b, 0x22, 0x29, 0x34, 0x3f, 0x0e, 0x05, 0x18, 0x13,
   0xca, 0xc1, 0xdc, 0xd7, 0xe6, 0xed, 0xf0, 0xfb, 0x92, 0x99, 0x84, 0x8f, 0xbe, 0xb5, 0xa8, 0xa3]

/-- Modelled from the spec: the table `mul_13[256]` of `aes_config.h`, which is not among the sources; section 4.1 names it the AES finite-field multiplication table of the coefficient 13. -/
def mul_13 : List Nat :=
  [0x00, 0x0d, 0x1a, 0x17, 0x34, 0x39, 0x2e, 0x23, 0x68, 0x65, 0x72, 0x7f, 0x5c, 0x51, 0x46, 0x4b,
   0xd0, 0xdd, 0xca, 0xc7, 0xe4, 0xe9, 0xfe, 0xf3, 0xb8, 0xb5, 0xa2, 0xaf, 0x8c, 0x81, 0x96, 0x9b,
   0xbb, 0xb6, 0xa1, 0xac, 0x8f, 0x82, 0x95, 0x98, 0xd3, 0xde, 0xc9, 0xc4, 0xe7, 0xea, 0xfd, 0xf0,
   0x6b, 0x66, 0x71, 0x7c, 0x5f, 0x52, 0x45, 0x48, 0x03, 0x0e, 0x19, 0x14, 0x37, 0x3a, 0x2d, 0x20,
   0x6d, 0x60, 0x77, 0x7a, 0x59, 0x54, 0x43, 0x4e, 0x05, 0x08, 0x1f, 0x12, 0x31, 0x3c, 0x2b, 0x26,
   0xbd, 0xb0, 0xa7, 0xaa, 0x89, 0x84, 0x93, 0x9e, 0xd5, 0xd8, 0xcf, 0xc2, 0xe1, 0xec, 0xfb, 0xf6,
   0xd6, 0xdb, 0xcc, 0xc1, 0xe2, 0xef, 0xf8, 0xf5, 0xbe, 0xb3, 0xa4, 0xa9, 0x8a, 0x87, 0x90, 0x9d,
   0x06, 0x0b, 0x1c, 0x11, 0x32, 0x3f, 0x28, 0x25, 0x6e, 0x63, 0x74, 0x79, 0x5a, 0x57, 0x40, 0x4d,
   0xda, 0xd7, 0xc0, 0xcd, 0xee, 0xe3, 0xf4, 0xf9, 0xb2, 0xbf, 0xa8, 0xa5, 0x86, 0x8b, 0x9c, 0x91,
   0x0a, 0x07, 0x10, 0x1d, 0x3e, 0x33, 0x24, 0x29, 0x62, 0x6f, 0x78, 0x75, 0x56, 0x5b, 0x4c, 0x41,
   0x61, 0x6c, 0x7b, 0x76, 0x55, 0x58, 0x4f, 0x42, 0x09, 0x04, 0x13, 0x1e, 0x3d, 0x30, 0x27, 0x2a,
   0xb1, 0xbc, 0xab, 0xa6, 0x85, 0x88, 0x9f, 0x92, 0xd9, 0xd4, 0xc3, 0xce, 0xed, 0xe0, 0xf7, 0xfa,
   0xb7, 0xba, 0xad, 0xa0, 0x83, 0x8e, 0x99, 0x94, 0xdf, 0xd2, 0xc5, 0xc8, 0xeb, 0xe6, 0xf1, 0xfc,
   0x67, 0x6a, 0x7d, 0x70, 0x53, 0x5e, 0x49, 0x44, 0x0f, 0x02, 0x15, 0x18, 0x3b, 0x36, 0x21, 0x2c,
   0x0c, 0x01, 0x16, 0x1b, 0x38, 0x35, 0x22, 0x2f, 0x64, 0x69, 0x7e, 0x73, 0x50, 0x5d, 0x4a, 0x47,
   0xdc, 0xd1, 0xc6, 0xcb, 0xe8, 0xe5, 0xf2, 0xff, 0xb4, 0xb9, 0xae, 0xa3, 0x80, 0x8d, 0x9a, 0x97]

/-- Modelled from the spec: the table `mul_14[256]` of `aes_config.h`, which is not among the sources; section 4.1 names it the AES finite-field multiplication table of the coefficient 14. -/
def mul_14 : List Nat :=
  [0x00, 0x0e, 0x1c, 0x12, 0x38, 0x36, 0x24, 0x2a, 0x70, 0x7e, 0x6c, 0x62, 0x48, 0x46, 0x54, 0x5a,
   0xe0, 0xee, 0xfc, 0xf2, 0xd8, 0xd6, 0xc4, 0xca, 0x90, 0x9e, 0x8c, 0x82, 0xa8, 0xa6, 0xb4, 0xba,
   0xdb, 0xd5, 0xc7, 0xc9, 0xe3, 0xed, 0xff, 0xf1, 0xab, 0xa5, 0xb7, 0xb9, 0x93, 0x9d, 0x8f, 0x81,
   0x3b, 0x35, 0x27, 0x29, 0x03, 0x0d, 0x1f, 0x11, 0x4b, 0x45, 0x57, 0x59, 0x73, 0x7d, 0x6f, 0x61,
   0xad, 0xa3, 0xb1, 0xbf, 0x95, 0x9b, 0x89, 0x87, 0xdd, 0xd3, 0xc1, 0xcf, 0xe5, 0xeb, 0xf9, 0xf7,
   0x4d, 0x43, 0x51, 0x5f, 0x75, 0x7b, 0x69, 0x67, 0x3d, 0x33, 0x21, 0x2f, 0x05, 0x0b, 0x19, 0x17,
   0x76, 0x78, 0x6a, 0x64, 0x4e, 0x40, 0x52, 0x5c, 0x06, 0x08, 0x1a, 0x14, 0x3e, 0x30, 0x22, 0x2c,
   0x96, 0x98, 0x8a, 0x84, 0xae, 0xa0, 0xb2, 0xbc, 0xe6, 0xe8, 0xfa, 0xf4, 0xde, 0xd0, 0xc2, 0xcc,
   0x41, 0x4f, 0x5d, 0x53, 0x79, 0x77, 0x65, 0x6b, 0x31, 0x3f, 0x2d, 0x23, 0x09, 0x07, 0x15, 0x1b,
   0xa1, 0xaf, 0xbd, 0xb3, 0x99, 0x97, 0x85, 0x8b, 0xd1, 0xdf, 0xcd, 0xc3, 0xe9, 0xe7, 0xf5, 0xfb,
   0x9a, 0x94, 0x86, 0x88, 0xa2, 0xac, 0xbe, 0xb0, 0xea, 0xe4, 0xf6, 0xf8, 0xd2, 0xdc, 0xce, 0xc0,
   0x7a, 0x74, 0x66, 0x68, 0x42, 0x4c, 0x5e, 0x50, 0x0a, 0x04, 0x16, 0x18, 0x32, 0x3c, 0x2e, 0x20,
   0xec, 0xe2, 0xf0, 0xfe, 0xd4, 0xda, 0xc8, 0xc6, 0x9c, 0x92, 0x80, 0x8e, 0xa4, 0xaa, 0xb8, 0xb6,
   0x0c, 0x02, 0x10, 0x1e, 0x34, 0x3a, 0x28, 0x26, 0x7c, 0x72, 0x60, 0x6e, 0x44, 0x4a, 0x58, 0x56,
   0x37, 0x39, 0x2b, 0x25, 0x0f, 0x01, 0x13, 0x1d, 0x47, 0x49, 0x5b, 0x55, 0x7f, 0x71, 0x63, 0x6d,
   0xd7, 0xd9, 0xcb, 0xc5, 0xef, 0xe1, 0xf3, 0xfd, 0xa7, 0xa9, 0xbb, 0xb5, 0x9f, 0x91, 0x83, 0x8d]

/-- Modelled from the spec: the table `rcon_table` of `aes_config.h`, which is not among the
sources; section 4.2 names it the round constants of the AES-128 key expansion. -/
def rcon_table : List Nat :=
  [0x01, 0x02, 0x04, 0x08, 0x10, 0x20, 0x40, 0x80, 0x1b, 0x36]

/-- Modelled from the spec: the matrix `constMatrix[4][4]` of `aes_config.h`, which is not among
the sources; section 4.3 names it the forward mix-column matrix of AES, with the coefficients
1, 2 and 3. -/
def constMatrix : List (List Nat) :=
  [[2, 3, 1, 1], [1, 2, 3, 1], [1, 1, 2, 3], [3, 1, 1, 2]]

/-- Modelled from the spec: the matrix `constMatrixInv[4][4]` of `aes_config.h`, which is not
among the sources; section 4.3 names it the inverse mix-column matrix of AES, with the
coefficients 9, 11, 13 and 14. -/
def constMatrixInv : List (List Nat) :=
  [[14, 11, 13, 9], [9, 14, 11, 13], [13, 9, 14, 11], [11, 13, 9, 14]]

/-! ## `AES_KEYSET` -/

/-- The members of `class AES_KEYSET`: `keyset[11][16]`, `iv[16]` and `IVmode`. -/
structure AES_KEYSET where
  keyset : List (List Nat)
  iv : List Nat
  IVmode : Bool
deriving DecidableEq, Repr

namespace AES_KEYSET

/-- `SubByteSingle`: `sBox[byte >> 4][byte & 0x0F]`. -/
def SubByteSingle (byte : Nat) : Nat :=
  (sBox.getD (byte >>> 4) []).getD (byte &&& 0x0F) 0

/-- `ExpandKey(keyNum)`: round key `keyNum` from round key `keyNum - 1`, written in place. -/
def ExpandKey (self : AES_KEYSET) (keyNum : Nat) : AES_KEYSET :=
  if keyNum < 1 ∨ keyNum > 10 then self
  else
    let prevKeyNum := keyNum - 1
    let prev := self.keyset.getD prevKeyNum []
    let cur := self.keyset.getD keyNum []
    let cur := cur.set 0
      (SubByteSingle (prev.getD 7 0) ^^^ prev.getD 0 0 ^^^ rcon_table.getD (keyNum - 1) 0)
    let cur := cur.set 4 (SubByteSingle (prev.getD 11 0) ^^^ prev.getD 4 0)
    let cur := cur.set 8 (SubByteSingle (prev.getD 15 0) ^^^ prev.getD 8 0)
    let cur := cur.set 12 (SubByteSingle (prev.getD 3 0) ^^^ prev.getD 12 0)
    let cur := forLoop (fun i cur =>
      let cur := cur.set i (cur.getD (i - 1) 0 ^^^ prev.getD i 0)
      let cur := cur.set (i + 4) (cur.getD (i + 3) 0 ^^^ prev.getD (i + 4) 0)
      let cur := cur.set (i + 8) (cur.getD (i + 7) 0 ^^^ prev.getD (i + 8) 0)
      cur.set (i + 12) (cur.getD (i + 11) 0 ^^^ prev.getD (i + 12) 0)) 3 1 cur
    { self with keyset := self.keyset.set keyNum cur }

/-- The first loop of `CalculateKeys`: `for (i = 0; i < 16 && key[i] != 0; i++)
keyArr[i] = key[i]`.  The key is the byte string the pointer addresses; reading at its end
gives the terminating zero byte.  The result is the final `i` and `keyArr`. -/
def copyKey (key : List Nat) : Nat → Nat → List Nat → Nat × List Nat
  | 0, i, keyArr => (i, keyArr)
  | fuel + 1, i, keyArr =>
    if i < 16 ∧ key.getD i 0 ≠ 0 then copyKey key fuel (i + 1) (keyArr.set i (key.getD i 0))
    else (i, keyArr)

/-- `CalculateKeys(key)`: all eleven round keys from the key string.  A null `key` is read at
`key[0]`, which is a fault (`none`). -/
def CalculateKeys (self : AES_KEYSET) (key : Option (List Nat)) : Option AES_KEYSET :=
  match key with
  | none => none
  | some key =>
    let keyArr := List.replicate 16 0
    let (i, keyArr) := copyKey key 16 0 keyArr
    let keyArr := forLoop (fun i keyArr => keyArr.set i 0) (16 - i) i keyArr
    let key0 := forLoop (fun i key0 =>
      forLoop (fun j key0 => key0.set (j * 4 + i) (keyArr.getD (i * 4 + j) 0)) 4 0 key0)
      4 0 (self.keyset.getD 0 [])
    let self := { self with keyset := self.keyset.set 0 key0 }
    some (forLoop (fun i self => ExpandKey self i) 10 1 self)

/-- The constructor `AES_KEYSET(key)`.  The member `iv` is not initialised by it: `ivMem` is
what the memory holds.  The array `keyset` is overwritten entirely. -/
def new (ivMem : List Nat) (key : Option (List Nat)) : Option AES_KEYSET :=
  CalculateKeys
    { keyset := List.replicate 11 (List.replicate 16 0), iv := ivMem, IVmode := true } key

/-- `ChangeSecretKey(key)`. -/
def ChangeSecretKey (self : AES_KEYSET) (key : Option (List Nat)) : Option AES_KEYSET :=
  CalculateKeys self key

/-- `EraseSecretkey()`: `CalculateKeys(nullptr)`. -/
def EraseSecretkey (self : AES_KEYSET) : Option AES_KEYSET :=
  CalculateKeys self none

/-- `ChangeIV(iv)`: copies 16 bytes unless `iv` is null. -/
def ChangeIV (self : AES_KEYSET) (iv : Option (List Nat)) : AES_KEYSET :=
  match iv with
  | some iv => { self with iv := writeAt self.iv 0 (readAt iv 0 16) }
  | none => self

/-- `GetIV(dst)` for a `dst` that is not null: the 16 bytes copied to `dst`. -/
def GetIV (self : AES_KEYSET) : List Nat :=
  readAt self.iv 0 16

/-- `ClearIV()`: sixteen bytes `rand() % 256`; `rand i` is what the `i`-th call returns. -/
def ClearIV (self : AES_KEYSET) (rand : Nat → Nat) : AES_KEYSET :=
  forLoop (fun i self => { self with iv := self.iv.set i (rand i % 256) }) 16 0 self

/-- `AddRoundKey(block, keyNum)` for a `block` that is not null. -/
def AddRoundKey (self : AES_KEYSET) (block : List Nat) (keyNum : Nat) : List Nat :=
  if keyNum > 10 then block
  else
    forLoop (fun i block =>
      forLoop (fun j block =>
        block.set (j * 4 + i)
          (block.getD (j * 4 + i) 0 ^^^ (self.keyset.getD keyNum []).getD (i * 4 + j) 0))
        4 0 block) 4 0 block

/-- `XORIV(block)` for a `block` that is not null. -/
def XORIV (self : AES_KEYSET) (block : List Nat) : List Nat :=
  forLoop (fun i block => block.set i (block.getD i 0 ^^^ self.iv.getD i 0)) 16 0 block

/-- `XORIV(block, iv)` for a `block` that is not null: with a null `iv` it is `XORIV(block)`,
and otherwise its loop reads `this->iv[i]`, the member, which hides the parameter `iv`. -/
def XORIV2 (self : AES_KEYSET) (block : List Nat) (iv : Option (List Nat)) : List Nat :=
  match iv with
  | none => self.XORIV block
  | some _ =>
    forLoop (fun i block => block.set i (block.getD i 0 ^^^ self.iv.getD i 0)) 16 0 block

/-- `SetIVMode(mode)`. -/
def SetIVMode (self : AES_KEYSET) (mode : Bool) : AES_KEYSET :=
  { self with IVmode := mode }

/-- `GetIVMode()`. -/
def GetIVMode (self : AES_KEYSET) : Bool :=
  self.IVmode

end AES_KEYSET


/-! ## `AES_BASE` and the four mode classes -/

/-- `AES_BASE_M` of `enum AES_MODE`. -/
abbrev AES_BASE_M : Nat := 0

/-- `AES_ECB_M` of `enum AES_MODE`. -/
abbrev AES_ECB_M : Nat := 1

/-- `AES_CBC_M` of `enum AES_MODE`. -/
abbrev AES_CBC_M : Nat := 2

/-- `AES_CFB_M` of `enum AES_MODE`. -/
abbrev AES_CFB_M : Nat := 3

/-- `AES_OFB_M` of `enum AES_MODE`. -/
abbrev AES_OFB_M : Nat := 4

/-- The four classes derived from `AES_BASE`.  The class of an object selects the overrides of
the pure virtual functions `EncryptStream` and `DecryptStream`. -/
inductive AES_CLASS where
  | AES_ECB
  | AES_CBC
  | AES_CFB
  | AES_OFB
deriving DecidableEq, Repr

/-- The private member `aesMode` that each derived class declares for itself.  It hides the
member of `AES_BASE` inside the derived class only; the functions of `AES_BASE` do not read
it. -/
def AES_CLASS.aesMode : AES_CLASS → Nat
  | .AES_ECB => AES_ECB_M
  | .AES_CBC => AES_CBC_M
  | .AES_CFB => AES_CFB_M
  | .AES_OFB => AES_OFB_M

/-- The members of `class AES_BASE` (`bufferLimit`, the object behind `keyset`, `procArray`,
`aesMode`) and the derived class of the object. -/
structure AES_BASE where
  bufferLimit : Nat
  keyset : AES_KEYSET
  procArray : List Nat
  aesMode : Nat
  cls : AES_CLASS
deriving DecidableEq, Repr

/-- `AES_DEFAULT_BUFFSIZE`. -/
def AES_DEFAULT_BUFFSIZE : Nat := 128000000

namespace AES_BASE

/-- `GetBufferLimit()`. -/
def GetBufferLimit (self : AES_BASE) : Nat :=
  self.bufferLimit

/-- `SetBufferLimit(limit)`: the object and the value returned. -/
def SetBufferLimit (self : AES_BASE) (limit : Nat) : AES_BASE × Bool :=
  if limit &&& 0x0F ≠ 0 then (self, false)
  else ({ self with bufferLimit := limit }, true)

/-- `SetIV(iv)`. -/
def SetIV (self : AES_BASE) (iv : Option (List Nat)) : AES_BASE :=
  { self with keyset := self.keyset.ChangeIV iv }

/-- `GetIV(dst)` for a `dst` that is not null. -/
def GetIV (self : AES_BASE) : List Nat :=
  self.keyset.GetIV

/-- `GetMode()`: a function of `AES_BASE`, so `this->aesMode` is the member of `AES_BASE`. -/
def GetMode (self : AES_BASE) : Nat :=
  self.aesMode

/-- `GetModeStr()`. -/
def GetModeStr (self : AES_BASE) : String :=
  match self.aesMode with
  | 0 => "AES BASE"
  | 1 => "AES ECB"
  | 2 => "AES CBC"
  | 3 => "AES CFB"
  | 4 => "AES OFB"
  | _ => "AES UNKNOWN"

/-- `GFMult(multiplier, multiplicant)`: the `switch` returns in every case. -/
def GFMult (multiplier multiplicant : Nat) : Nat :=
  match multiplier with
  | 1 => multiplicant
  | 2 => mul_2.getD multiplicant 0
  | 3 => mul_3.getD multiplicant 0
  | 9 => mul_9.getD multiplicant 0
  | 11 => mul_11.getD multiplicant 0
  | 13 => mul_13.getD multiplicant 0
  | 14 => mul_14.getD multiplicant 0
  | _ => 0

/-- The `switch` statement of `GFMult`: `some v` when a `case` label or `default` returns `v`,
`none` when control leaves the `switch` and reaches the statement after it. -/
def GFMult_switch (multiplier multiplicant : Nat) : Option Nat :=
  match multiplier with
  | 1 => some multiplicant
  | 2 => some (mul_2.getD multiplicant 0)
  | 3 => some (mul_3.getD multiplicant 0)
  | 9 => some (mul_9.getD multiplicant 0)
  | 11 => some (mul_11.getD multiplicant 0)
  | 13 => some (mul_13.getD multiplicant 0)
  | 14 => some (mul_14.getD multiplicant 0)
  | _ => some 0

/-- The whole body of `GFMult`: the `switch`, then the `return` that follows it, cast to
`uint8_t`.  `GF_MULT_OVERFLOW` is a constant of `aes_config.h`, which is not among the sources;
it is a parameter here. -/
def GFMult_body (GF_MULT_OVERFLOW multiplier multiplicant : Nat) : Nat :=
  match GFMult_switch multiplier multiplicant with
  | some v => v
  | none =>
    (if multiplicant ≥ GF_MULT_OVERFLOW then (multiplicant - GF_MULT_OVERFLOW) ^^^ 0x1B
      else multiplicant) % 256

/-- `BlockXOR(block_a, block_b, length)` for blocks that are not null. -/
def BlockXOR (block_a block_b : List Nat) (length : Nat) : List Nat :=
  if length = 0 then block_a
  else forLoop (fun i a => a.set i (a.getD i 0 ^^^ block_b.getD i 0)) length 0 block_a

/-- `SubBytes(block)`. -/
def SubBytes (block : List Nat) : List Nat :=
  forLoop (fun i block =>
    block.set i ((sBox.getD (block.getD i 0 >>> 4) []).getD (block.getD i 0 &&& 0x0F) 0))
    16 0 block

/-- `SubBytesInv(block)`. -/
def SubBytesInv (block : List Nat) : List Nat :=
  forLoop (fun i block =>
    block.set i ((sBoxInv.getD (block.getD i 0 >>> 4) []).getD (block.getD i 0 &&& 0x0F) 0))
    16 0 block

/-- `ShiftRowsLeft(block)`: the sixteen assignments fill `procArray`, which is then copied
over the block. -/
def ShiftRowsLeft (self : AES_BASE) (block : List Nat) : AES_BASE × List Nat :=
  let procArray :=
    [block.getD 0 0, block.getD 5 0, block.getD 10 0, block.getD 15 0,
     block.getD 4 0, block.getD 9 0, block.getD 14 0, block.getD 3 0,
     block.getD 8 0, block.getD 13 0, block.getD 2 0, block.getD 7 0,
     block.getD 12 0, block.getD 1 0, block.getD 6 0, block.getD 11 0]
  ({ self with procArray := procArray }, writeAt block 0 (readAt procArray 0 16))

/-- `ShiftRowsRight(block)`. -/
def ShiftRowsRight (self : AES_BASE) (block : List Nat) : AES_BASE × List Nat :=
  let procArray :=
    [block.getD 0 0, block.getD 13 0, block.getD 10 0, block.getD 7 0,
     block.getD 4 0, block.getD 1 0, block.getD 14 0, block.getD 11 0,
     block.getD 8 0, block.getD 5 0, block.getD 2 0, block.getD 15 0,
     block.getD 12 0, block.getD 9 0, block.getD 6 0, block.getD 3 0]
  ({ self with procArray := procArray }, writeAt block 0 (readAt procArray 0 16))

/-- The two nested loops of `MixColumns` and `MixColumnsInv` with the matrix `m`, writing
`procArray`. -/
def mixLoop (m : List (List Nat)) (block procArray : List Nat) : List Nat :=
  forLoop (fun i procArray =>
    forLoop (fun mult procArray =>
      procArray.set (i * 4 + mult)
        (GFMult ((m.getD mult []).getD 0 0) (block.getD (i * 4) 0) ^^^
          GFMult ((m.getD mult []).getD 1 0) (block.getD (i * 4 + 1) 0) ^^^
          GFMult ((m.getD mult []).getD 2 0) (block.getD (i * 4 + 2) 0) ^^^
          GFMult ((m.getD mult []).getD 3 0) (block.getD (i * 4 + 3) 0)))
      4 0 procArray) 4 0 procArray

/-- `MixColumns(block)`. -/
def MixColumns (self : AES_BASE) (block : List Nat) : AES_BASE × List Nat :=
  let procArray := mixLoop constMatrix block self.procArray
  ({ self with procArray := procArray }, writeAt block 0 (readAt procArray 0 16))

/-- `MixColumnsInv(block)`. -/
def MixColumnsInv (self : AES_BASE) (block : List Nat) : AES_BASE × List Nat :=
  let procArray := mixLoop constMatrixInv block self.procArray
  ({ self with procArray := procArray }, writeAt block 0 (readAt procArray 0 16))

/-- `EncryptBlock(block)` for a `block` that is not null. -/
def EncryptBlock (self : AES_BASE) (block : List Nat) : AES_BASE × List Nat :=
  let block := self.keyset.AddRoundKey block 0
  let st := forLoop (fun i (st : AES_BASE × List Nat) =>
    let block := SubBytes st.2
    let st := st.1.ShiftRowsLeft block
    let st := st.1.MixColumns st.2
    (st.1, st.1.keyset.AddRoundKey st.2 i)) 9 1 (self, block)
  let block := SubBytes st.2
  let st := st.1.ShiftRowsLeft block
  (st.1, st.1.keyset.AddRoundKey st.2 10)

/-- `DecryptBlock(block)` for a `block` that is not null. -/
def DecryptBlock (self : AES_BASE) (block : List Nat) : AES_BASE × List Nat :=
  let block := self.keyset.AddRoundKey block 10
  let st := forLoopDown (fun i (st : AES_BASE × List Nat) =>
    let st := st.1.ShiftRowsRight st.2
    let block := SubBytesInv st.2
    let block := st.1.keyset.AddRoundKey block i
    st.1.MixColumnsInv block) 9 9 (self, block)
  let st := st.1.ShiftRowsRight st.2
  let block := SubBytesInv st.2
  (st.1, st.1.keyset.AddRoundKey block 0)

end AES_BASE

/-! ## The stream transforms of the four modes -/

/-- `AES_ECB::EncryptStream(stream, length)` for a `stream` that is not null. -/
def AES_ECB.EncryptStream (self : AES_BASE) (stream : List Nat) (length : Nat) :
    AES_BASE × List Nat :=
  if length = 0 then (self, stream)
  else if length &&& 16 ≠ 0 then (self, stream)
  else
    let blcks := length / 16
    forLoop (fun i (st : AES_BASE × List Nat) =>
      let r := st.1.EncryptBlock (readAt st.2 (i * 16) 16)
      (r.1, writeAt st.2 (i * 16) r.2)) blcks 0 (self, stream)

/-- `AES_ECB::DecryptStream(stream, length)` for a `stream` that is not null. -/
def AES_ECB.DecryptStream (self : AES_BASE) (stream : List Nat) (length : Nat) :
    AES_BASE × List Nat :=
  if length = 0 then (self, stream)
  else if length &&& 16 ≠ 0 then (self, stream)
  else
    let blcks := length / 16
    forLoop (fun i (st : AES_BASE × List Nat) =>
      let r := st.1.DecryptBlock (readAt st.2 (i * 16) 16)
      (r.1, writeAt st.2 (i * 16) r.2)) blcks 0 (self, stream)

/-- `AES_CBC::EncryptStream(stream, length)` for a `stream` that is not null. -/
def AES_CBC.EncryptStream (self : AES_BASE) (stream : List Nat) (length : Nat) :
    AES_BASE × List Nat :=
  if length = 0 then (self, stream)
  else if length &&& 0x0F ≠ 0 then (self, stream)
  else
    let blcks := length / 16
    let block := self.keyset.XORIV (readAt stream 0 16)
    let r := self.EncryptBlock block
    let stream := writeAt stream 0 r.2
    forLoop (fun i (st : AES_BASE × List Nat) =>
      let block := st.1.keyset.XORIV2 (readAt st.2 (i * 16) 16)
        (some (readAt st.2 ((i - 1) * 16) 16))
      let r := st.1.EncryptBlock block
      (r.1, writeAt st.2 (i * 16) r.2)) (blcks - 1) 1 (r.1, stream)

/-- `AES_CBC::DecryptStream(stream, length)` for a `stream` that is not null.  The loop state
is the object with the local array `prevBlock`, and the stream. -/
def AES_CBC.DecryptStream (self : AES_BASE) (stream : List Nat) (length : Nat) :
    AES_BASE × List Nat :=
  if length = 0 then (self, stream)
  else if length &&& 0x0F ≠ 0 then (self, stream)
  else
    let blcks := length / 16
    let prevBlock := writeAt (List.replicate 16 0) 0 self.keyset.GetIV
    let st := forLoop (fun i (st : (AES_BASE × List Nat) × List Nat) =>
      let self := { st.1.1 with
        procArray := writeAt st.1.1.procArray 0 (readAt st.2 (i * 16) 16) }
      let r := self.DecryptBlock (readAt st.2 (i * 16) 16)
      let block := r.1.keyset.XORIV2 r.2 (some st.1.2)
      ((r.1, writeAt st.1.2 0 (readAt r.1.procArray 0 16)), writeAt st.2 (i * 16) block))
      blcks 0 ((self, prevBlock), stream)
    (st.1.1, st.2)

/-- `AES_CFB::EncryptStream(stream, length)` for a `stream` that is not null.  The loop state
is the object with the local array `lastBlock`, and the stream. -/
def AES_CFB.EncryptStream (self : AES_BASE) (stream : List Nat) (length : Nat) :
    AES_BASE × List Nat :=
  if length = 0 then (self, stream)
  else
    let blcks := length / 16
    let lastBlock := writeAt (List.replicate 16 0) 0 self.keyset.GetIV
    let st := forLoop (fun i (st : (AES_BASE × List Nat) × List Nat) =>
      let r := st.1.1.EncryptBlock st.1.2
      let lastBlock := AES_BASE.BlockXOR r.2 (readAt st.2 (i * 16) 16) 16
      ((r.1, lastBlock), writeAt st.2 (i * 16) (readAt lastBlock 0 16)))
      blcks 0 ((self, lastBlock), stream)
    if length &&& 0x0F ≠ 0 then
      let i := blcks
      let r := st.1.1.EncryptBlock st.1.2
      let lastBlock :=
        AES_BASE.BlockXOR r.2 (readAt st.2 (i * 16) (length &&& 0x0F)) (length &&& 0x0F)
      (r.1, writeAt st.2 (i * 16) (readAt lastBlock 0 (length &&& 0x0F)))
    else (st.1.1, st.2)

/-- `AES_CFB::DecryptStream(stream, length)` for a `stream` that is not null. -/
def AES_CFB.DecryptStream (self : AES_BASE) (stream : List Nat) (length : Nat) :
    AES_BASE × List Nat :=
  if length = 0 then (self, stream)
  else
    let blcks := length / 16
    let lastBlock := writeAt (List.replicate 16 0) 0 self.keyset.GetIV
    let st := forLoop (fun i (st : (AES_BASE × List Nat) × List Nat) =>
      let r := st.1.1.EncryptBlock st.1.2
      let self := { r.1 with procArray := writeAt r.1.procArray 0 (readAt st.2 (i * 16) 16) }
      let block := AES_BASE.BlockXOR (readAt st.2 (i * 16) 16) r.2 16
      ((self, writeAt r.2 0 (readAt self.procArray 0 16)), writeAt st.2 (i * 16) block))
      blcks 0 ((self, lastBlock), stream)
    if length &&& 0x0F ≠ 0 then
      let i := blcks
      let r := st.1.1.EncryptBlock st.1.2
      (r.1, writeAt st.2 (i * 16)
        (AES_BASE.BlockXOR (readAt st.2 (i * 16) (length &&& 0x0F)) r.2 (length &&& 0x0F)))
    else (st.1.1, st.2)

/-- `AES_OFB::EncryptStream(stream, length)` for a `stream` that is not null. -/
def AES_OFB.EncryptStream (self : AES_BASE) (stream : List Nat) (length : Nat) :
    AES_BASE × List Nat :=
  if length = 0 then (self, stream)
  else
    let blcks := length / 16
    let lastBlock := writeAt (List.replicate 16 0) 0 self.keyset.GetIV
    let st := forLoop (fun i (st : (AES_BASE × List Nat) × List Nat) =>
      let r := st.1.1.EncryptBlock st.1.2
      (r, writeAt st.2 (i * 16) (AES_BASE.BlockXOR (readAt st.2 (i * 16) 16) r.2 16)))
      blcks 0 ((self, lastBlock), stream)
    if length &&& 0x0F ≠ 0 then
      let i := blcks
      let r := st.1.1.EncryptBlock st.1.2
      (r.1, writeAt st.2 (i * 16)
        (AES_BASE.BlockXOR (readAt st.2 (i * 16) (length &&& 0x0F)) r.2 (length &&& 0x0F)))
    else (st.1.1, st.2)

/-- `AES_OFB::DecryptStream(stream, length)` for a `stream` that is not null. -/
def AES_OFB.DecryptStream (self : AES_BASE) (stream : List Nat) (length : Nat) :
    AES_BASE × List Nat :=
  if length = 0 then (self, stream)
  else
    let blcks := length / 16
    let lastBlock := writeAt (List.replicate 16 0) 0 self.keyset.GetIV
    let st := forLoop (fun i (st : (AES_BASE × List Nat) × List Nat) =>
      let r := st.1.1.EncryptBlock st.1.2
      (r, writeAt st.2 (i * 16) (AES_BASE.BlockXOR (readAt st.2 (i * 16) 16) r.2 16)))
      blcks 0 ((self, lastBlock), stream)
    if length &&& 0x0F ≠ 0 then
      let i := blcks
      let r := st.1.1.EncryptBlock st.1.2
      (r.1, writeAt st.2 (i * 16)
        (AES_BASE.BlockXOR (readAt st.2 (i * 16) (length &&& 0x0F)) r.2 (length &&& 0x0F)))
    else (st.1.1, st.2)

/-! ## The constructors of the mode classes -/

/-- The members a constructor of `AES_BASE` leaves, around a key schedule. -/
def AES_BASE.init (cls : AES_CLASS) (keyset : AES_KEYSET) : AES_BASE :=
  { bufferLimit := AES_DEFAULT_BUFFSIZE, keyset := keyset, procArray := List.replicate 16 0,
    aesMode := AES_BASE_M, cls := cls }

/-- The constructor `AES_ECB(key)`; `ivMem` is the memory behind the member `iv`, which the
constructor of the key schedule does not initialise. -/
def AES_ECB.new (ivMem : List Nat) (key : Option (List Nat)) : Option AES_BASE :=
  (AES_KEYSET.new ivMem key).map fun ks => AES_BASE.init .AES_ECB (ks.SetIVMode false)

/-- The constructor `AES_CBC(key, iv)`. -/
def AES_CBC.new (ivMem : List Nat) (key iv : Option (List Nat)) : Option AES_BASE :=
  (AES_KEYSET.new ivMem key).map fun ks => AES_BASE.init .AES_CBC (ks.ChangeIV iv)

/-- The constructor `AES_CFB(key, iv)`. -/
def AES_CFB.new (ivMem : List Nat) (key iv : Option (List Nat)) : Option AES_BASE :=
  (AES_KEYSET.new ivMem key).map fun ks => AES_BASE.init .AES_CFB (ks.ChangeIV iv)

/-- The constructor `AES_OFB(key, iv)`. -/
def AES_OFB.new (ivMem : List Nat) (key iv : Option (List Nat)) : Option AES_BASE :=
  (AES_KEYSET.new ivMem key).map fun ks => AES_BASE.init .AES_OFB (ks.ChangeIV iv)

/-- The constructor of the class `cls`, the way `main.cpp` calls it (key only, no IV). -/
def AES_BASE.new (cls : AES_CLASS) (ivMem : List Nat) (key : Option (List Nat)) :
    Option AES_BASE :=
  match cls with
  | .AES_ECB => AES_ECB.new ivMem key
  | .AES_CBC => AES_CBC.new ivMem key none
  | .AES_CFB => AES_CFB.new ivMem key none
  | .AES_OFB => AES_OFB.new ivMem key none

/-! ## The buffer pipeline -/

namespace AES_BASE

/-- The virtual call `EncryptStream(stream, length)`. -/
def EncryptStream (self : AES_BASE) (stream : List Nat) (length : Nat) :
    AES_BASE × List Nat :=
  match self.cls with
  | .AES_ECB => AES_ECB.EncryptStream self stream length
  | .AES_CBC => AES_CBC.EncryptStream self stream length
  | .AES_CFB => AES_CFB.EncryptStream self stream length
  | .AES_OFB => AES_OFB.EncryptStream self stream length

/-- The virtual call `DecryptStream(stream, length)`. -/
def DecryptStream (self : AES_BASE) (stream : List Nat) (length : Nat) :
    AES_BASE × List Nat :=
  match self.cls with
  | .AES_ECB => AES_ECB.DecryptStream self stream length
  | .AES_CBC => AES_CBC.DecryptStream self stream length
  | .AES_CFB => AES_CFB.DecryptStream self stream length
  | .AES_OFB => AES_OFB.DecryptStream self stream length

/-- The pad byte of `Encrypt`: `(length & 0x0F) == 0 ? 16 : 16 - (length & 0x0F)`. -/
def padValue (length : Nat) : Nat :=
  if length &&& 0x0F = 0 then 16 else 16 - (length &&& 0x0F)

/-- `Encrypt(src, length, streamLength, attachPadding)` for `src` and `streamLength` that
are not null.  The result is the object, the buffer returned (`none` for `nullptr`) and the
value of `*streamLength` afterwards; the argument `streamLength` is its value before.  Every
byte of the fresh buffer is written before the stream transform reads it. -/
def Encrypt (self : AES_BASE) (src : List Nat) (length streamLength : Nat)
    (attachPadding : Bool) : AES_BASE × Option (List Nat) × Nat :=
  if length = 0 then (self, none, streamLength)
  else
    let streamLength := (length + (if attachPadding then padValue length else 0)) % 2 ^ 64
    let allocLength := streamLength
    let dstStream := List.replicate allocLength 0
    let dstStream := writeAt dstStream 0 (readAt src 0 length)
    let dstStream :=
      if self.GetMode < AES_CFB_M ∧ attachPadding = true then
        forLoopDown (fun i dstStream => dstStream.set i (padValue length))
          (streamLength - length) (streamLength - 1) dstStream
      else dstStream
    let r := self.EncryptStream dstStream streamLength
    (r.1, some r.2, streamLength)

/-- `Decrypt(src, length, streamLength, removePadding)` for `src` and `streamLength` that
are not null, with the same shape of result as `Encrypt`. -/
def Decrypt (self : AES_BASE) (src : List Nat) (length streamLength : Nat)
    (removePadding : Bool) : AES_BASE × Option (List Nat) × Nat :=
  if length = 0 then (self, none, streamLength)
  else if length &&& 0x0F ≠ 0 then (self, none, streamLength)
  else
    let dstStream := List.replicate length 0
    let dstStream := writeAt dstStream 0 (readAt src 0 length)
    let r := self.DecryptStream dstStream length
    let streamLength :=
      if self.GetMode < AES_CFB_M ∧ removePadding = true then
        (length + 2 ^ 64 - r.2.getD (length - 1) 0) % 2 ^ 64
      else streamLength
    (r.1, some r.2, streamLength)

/-- `EncryptBuffer(src, length, streamLength)`; `rand` gives the values of `rand()` that
`ClearIV` draws. -/
def EncryptBuffer (self : AES_BASE) (rand : Nat → Nat) (src : List Nat)
    (length streamLength : Nat) : AES_BASE × Option (List Nat) × Nat :=
  let self := { self with keyset := self.keyset.ClearIV rand }
  let r := self.Encrypt src length streamLength true
  if r.1.keyset.GetIVMode = true then
    let temp := List.replicate ((r.2.2 + 16) % 2 ^ 64) 0
    let temp := writeAt temp 0 r.1.keyset.GetIV
    let temp := writeAt temp 16 (readAt (r.2.1.getD []) 0 r.2.2)
    (r.1, some temp, (r.2.2 + 16) % 2 ^ 64)
  else r

/-- `DecryptBuffer(src, length, streamLength)` for a `src` that is not null. -/
def DecryptBuffer (self : AES_BASE) (src : List Nat) (length streamLength : Nat) :
    AES_BASE × Option (List Nat) × Nat :=
  if self.keyset.GetIVMode = true then
    let self := { self with keyset := self.keyset.ChangeIV (some src) }
    self.Decrypt (src.drop 16) ((length + 2 ^ 64 - 16) % 2 ^ 64) streamLength true
  else self.Decrypt src length streamLength true

/-- The loop `while (streamLen > dataChunkSize)` of `EncryptFile`: `rest` is the part of the
input file not read yet, `out` what has been written to the output file.  The result is `none`
when the loop has not ended after `fuel` passes, and otherwise the state when the loop ends,
with `true`, or when `Encrypt` returns a null pointer and the function throws, with `false`. -/
def EncryptFile_loop (dataChunkSize : Nat) :
    Nat → AES_BASE → List Nat → Nat → List Nat →
      Option (Bool × AES_BASE × List Nat × Nat × List Nat)
  | 0, _, _, _, _ => none
  | fuel + 1, self, rest, streamLen, out =>
    if streamLen > dataChunkSize then
      let rawData := readAt rest 0 dataChunkSize
      let r := self.Encrypt rawData dataChunkSize 0 false
      match r.2.1 with
      | none => some (false, r.1, rest.drop dataChunkSize, streamLen, out)
      | some encryptedData =>
        EncryptFile_loop dataChunkSize fuel r.1 (rest.drop dataChunkSize)
          (streamLen - dataChunkSize) (out ++ readAt encryptedData 0 dataChunkSize)
    else some (true, self, rest, streamLen, out)

/-- `EncryptFile(inputFileName, outputFileName)` for file names that are not null, an input
file that can be read and an output file that can be created: `input` is the content of the
input file and `rand` gives the values of `rand()`.  The result is the object and the content
of the output file afterwards (`none` when the function leaves before it creates the file); the
outer `none` stands for a chunk loop that has not ended within its fuel. -/
def EncryptFile (self : AES_BASE) (rand : Nat → Nat) (input : List Nat) :
    Option (AES_BASE × Option (List Nat)) :=
  let self := { self with keyset := self.keyset.ClearIV rand }
  let streamLen := input.length
  if streamLen = 0 then some (self, none)
  else
    let out :=
      if self.keyset.GetIVMode = true then writeAt (List.replicate 16 0) 0 self.keyset.GetIV
      else []
    let dataChunkSize := if streamLen > self.bufferLimit then self.bufferLimit else streamLen
    match EncryptFile_loop dataChunkSize (streamLen + 1) self input streamLen out with
    | none => none
    | some (false, self, _, _, out) => some (self, some out)
    | some (true, self, rest, streamLen, out) =>
      let rawData := readAt rest 0 streamLen
      let r := self.Encrypt rawData streamLen 0 true
      match r.2.1 with
      | none => some (r.1, some out)
      | some encryptedData => some (r.1, some (out ++ readAt encryptedData 0 r.2.2))

/-- The loop `while (streamLen > dataChunkSize)` of `DecryptFile`, with the same state and
result as `EncryptFile_loop`. -/
def DecryptFile_loop (dataChunkSize : Nat) :
    Nat → AES_BASE → List Nat → Nat → List Nat →
      Option (Bool × AES_BASE × List Nat × Nat × List Nat)
  | 0, _, _, _, _ => none
  | fuel + 1, self, rest, streamLen, out =>
    if streamLen > dataChunkSize then
      let rawData := readAt rest 0 dataChunkSize
      let r := self.Decrypt rawData dataChunkSize 0 false
      match r.2.1 with
      | none => some (false, r.1, rest.drop dataChunkSize, streamLen, out)
      | some decryptedData =>
        DecryptFile_loop dataChunkSize fuel r.1 (rest.drop dataChunkSize)
          (streamLen - dataChunkSize) (out ++ readAt decryptedData 0 dataChunkSize)
    else some (true, self, rest, streamLen, out)

/-- The call `outputFile.write((char*)buffer, count)` with a `count` of type `size_t`:
`std::ostream::write` takes the count as a `std::streamsize`, a signed type of 64 bits, so a
`count` of `2^63` or more arrives as a negative number and no byte is written; otherwise the
first `count` bytes of the buffer are written. -/
def ostream_write (buffer : List Nat) (count : Nat) : List Nat :=
  if count % 2 ^ 64 ≥ 2 ^ 63 then [] else readAt buffer 0 count

/-- `DecryptFile(inputFileName, outputFileName)`, with the same conventions as `EncryptFile`.
The last `write` takes the count `decryptedChunkSize`, which `Decrypt` computed as the chunk
length less the last decrypted byte in the arithmetic of `size_t`: where that subtraction
wrapped, the count is negative as a `std::streamsize` and the `write` puts out nothing
(`ostream_write`).  Every other count given to `write` in the two file functions is the length
of a buffer held in memory. -/
def DecryptFile (self : AES_BASE) (input : List Nat) :
    Option (AES_BASE × Option (List Nat)) :=
  let streamLen := input.length
  if streamLen = 0 then some (self, none)
  else if streamLen &&& 0x0F ≠ 0 then some (self, none)
  else
    let iv := writeAt (List.replicate 16 0) 0 (readAt input 0 16)
    let ivMode := self.keyset.GetIVMode
    let self := if ivMode = true then { self with keyset := self.keyset.ChangeIV (some iv) }
      else self
    let rest := if ivMode = true then input.drop 16 else input
    let streamLen := if ivMode = true then streamLen - 16 else streamLen
    let dataChunkSize := if streamLen > self.bufferLimit then self.bufferLimit else streamLen
    match DecryptFile_loop dataChunkSize (streamLen + 1) self rest streamLen [] with
    | none => none
    | some (false, self, _, _, out) => some (self, some out)
    | some (true, self, rest, streamLen, out) =>
      let rawData := readAt rest 0 streamLen
      let r := self.Decrypt rawData streamLen 0 true
      match r.2.1 with
      | none => some (r.1, some out)
      | some decryptedData => some (r.1, some (out ++ ostream_write decryptedData r.2.2))

end AES_BASE


/-! ## Predicates and pure forms used by the proofs -/

/-- Every element is a byte. -/
def Bytes (l : List Nat) : Prop :=
  ∀ x ∈ l, x < 256

instance (l : List Nat) : Decidable (Bytes l) := by
  unfold Bytes; infer_instance

/-- A block: sixteen bytes. -/
def IsBlock (b : List Nat) : Prop :=
  b.length = 16 ∧ Bytes b

instance (b : List Nat) : Decidable (IsBlock b) := by
  unfold IsBlock; infer_instance

/-- The shape of `uint8_t keyset[11][16]`: eleven round keys, each a block. -/
def KeysWF (ks : AES_KEYSET) : Prop :=
  ks.keyset.length = 11 ∧ ∀ k ∈ ks.keyset, IsBlock k

instance (ks : AES_KEYSET) : Decidable (KeysWF ks) := by
  unfold KeysWF; infer_instance

/-- The lookup `sBoxInv[byte >> 4][byte & 0x0F]` of `SubBytesInv`. -/
def subInv (byte : Nat) : Nat :=
  (sBoxInv.getD (byte >>> 4) []).getD (byte &&& 0x0F) 0

/-- The XOR of the values `c i` over the set bits `i < 8` of `x`. -/
def bitsXor (c : Nat → Nat) (x : Nat) : Nat :=
  (List.range 8).foldl (fun acc i => acc ^^^ (if x.testBit i then c i else 0)) 0

/-- A map of bytes that respects XOR. -/
def LinB (f : Nat → Nat) : Prop :=
  (∀ x y, x < 256 → y < 256 → f (x ^^^ y) = f x ^^^ f y) ∧ ∀ x, x < 256 → f x < 256

/-- One entry of a mixed column: row `row` of the matrix `m` applied to the column
`a0 a1 a2 a3`, as `MixColumns` and `MixColumnsInv` compute it. -/
def mixCol (m : List (List Nat)) (row a0 a1 a2 a3 : Nat) : Nat :=
  AES_BASE.GFMult ((m.getD row []).getD 0 0) a0 ^^^
    AES_BASE.GFMult ((m.getD row []).getD 1 0) a1 ^^^
    AES_BASE.GFMult ((m.getD row []).getD 2 0) a2 ^^^
    AES_BASE.GFMult ((m.getD row []).getD 3 0) a3

/-- The products of row `r` of the matrix `m` with column `j` of the matrix `n`, applied to
one byte. -/
def rowCol (m n : List (List Nat)) (r j x : Nat) : Nat :=
  mixCol m r (AES_BASE.GFMult ((n.getD 0 []).getD j 0) x)
    (AES_BASE.GFMult ((n.getD 1 []).getD j 0) x)
    (AES_BASE.GFMult ((n.getD 2 []).getD j 0) x)
    (AES_BASE.GFMult ((n.getD 3 []).getD j 0) x)

/-- The permutation that `ShiftRowsLeft` leaves in `procArray` and in the block. -/
def shiftL (block : List Nat) : List Nat :=
  [block.getD 0 0, block.getD 5 0, block.getD 10 0, block.getD 15 0,
   block.getD 4 0, block.getD 9 0, block.getD 14 0, block.getD 3 0,
   block.getD 8 0, block.getD 13 0, block.getD 2 0, block.getD 7 0,
   block.getD 12 0, block.getD 1 0, block.getD 6 0, block.getD 11 0]

/-- The permutation that `ShiftRowsRight` leaves in `procArray` and in the block. -/
def shiftR (block : List Nat) : List Nat :=
  [block.getD 0 0, block.getD 13 0, block.getD 10 0, block.getD 7 0,
   block.getD 4 0, block.getD 1 0, block.getD 14 0, block.getD 11 0,
   block.getD 8 0, block.getD 5 0, block.getD 2 0, block.getD 15 0,
   block.getD 12 0, block.getD 9 0, block.getD 6 0, block.getD 3 0]

/-- The block that `MixColumns` leaves, for a block of sixteen bytes. -/
def mixF (block : List Nat) : List Nat :=
  AES_BASE.mixLoop constMatrix block (List.replicate 16 0)

/-- The block that `MixColumnsInv` leaves, for a block of sixteen bytes. -/
def mixI (block : List Nat) : List Nat :=
  AES_BASE.mixLoop constMatrixInv block (List.replicate 16 0)

/-- One pass of the loop of `EncryptBlock`, on the block alone. -/
def encRound (ks : AES_KEYSET) (i : Nat) (block : List Nat) : List Nat :=
  ks.AddRoundKey (mixF (shiftL (AES_BASE.SubBytes block))) i

/-- One pass of the loop of `DecryptBlock`, on the block alone. -/
def decRound (ks : AES_KEYSET) (i : Nat) (block : List Nat) : List Nat :=
  mixI (ks.AddRoundKey (AES_BASE.SubBytesInv (shiftR block)) i)

/-- The block that `EncryptBlock` leaves, as a function of the key schedule and the block. -/
def encBlock (ks : AES_KEYSET) (block : List Nat) : List Nat :=
  ks.AddRoundKey
    (shiftL (AES_BASE.SubBytes (forLoop (encRound ks) 9 1 (ks.AddRoundKey block 0)))) 10

/-- The block that `DecryptBlock` leaves, as a function of the key schedule and the block. -/
def decBlock (ks : AES_KEYSET) (block : List Nat) : List Nat :=
  ks.AddRoundKey
    (AES_BASE.SubBytesInv (shiftR (forLoopDown (decRound ks) 9 9 (ks.AddRoundKey block 10)))) 0

/-- The content of `procArray` after `EncryptBlock`: the last `ShiftRowsLeft` wrote it. -/
def encProc (ks : AES_KEYSET) (block : List Nat) : List Nat :=
  shiftL (AES_BASE.SubBytes (forLoop (encRound ks) 9 1 (ks.AddRoundKey block 0)))

/-- The content of `procArray` after `DecryptBlock`: the last `ShiftRowsRight` wrote it. -/
def decProc (ks : AES_KEYSET) (block : List Nat) : List Nat :=
  shiftR (forLoopDown (decRound ks) 9 9 (ks.AddRoundKey block 10))

/-- The object with `procArray` overwritten. -/
def withProc (self : AES_BASE) (p : List Nat) : AES_BASE :=
  { self with procArray := p }

/-- A loop over the first `n` blocks of a buffer: each block goes through `step` together with
the state, the rest of the buffer is kept. -/
def chunks {σ : Type} (step : σ → List Nat → σ × List Nat) : Nat → σ → List Nat → σ × List Nat
  | 0, s, l => (s, l)
  | n + 1, s, l =>
    ((chunks step n (step s (l.take 16)).1 (l.drop 16)).1,
      (step s (l.take 16)).2 ++ (chunks step n (step s (l.take 16)).1 (l.drop 16)).2)

/-- The bytewise XOR of two byte strings, as long as the shorter one. -/
def xorBytes (a b : List Nat) : List Nat :=
  List.zipWith (fun x y => x ^^^ y) a b

/-- One block of OFB on the keystream state: the next keystream block, XORed into the data. -/
def ofbStep (ks : AES_KEYSET) (last blk : List Nat) : List Nat × List Nat :=
  (encBlock ks last, xorBytes blk (encBlock ks last))

/-- The OFB keystream of `n` blocks that follows the state `last`. -/
def ofbKeys (ks : AES_KEYSET) : Nat → List Nat → List Nat
  | 0, _ => []
  | n + 1, last => encBlock ks last ++ ofbKeys ks n (encBlock ks last)

/-- The local array `lastBlock` (or `prevBlock`) after `GetIV` has filled it. -/
def ivBlock (ks : AES_KEYSET) : List Nat :=
  writeAt (List.replicate 16 0) 0 ks.GetIV

/-- The keystream of `AES_OFB`: `K 0` is the stored IV as `GetIV` copies it into `lastBlock`,
and `K (j + 1)` is `EncryptBlock` applied to `K j`. -/
def ofbKey (self : AES_BASE) : Nat → List Nat
  | 0 => writeAt (List.replicate 16 0) 0 self.keyset.GetIV
  | j + 1 => (self.EncryptBlock (ofbKey self j)).2

/-! ## Sample data for the witnesses -/

/-- A key without a zero byte: the cipher key of FIPS-197, appendix B. -/
def sampleKey : List Nat :=
  [0x2b, 0x7e, 0x15, 0x16, 0x28, 0xae, 0xd2, 0xa6, 0xab, 0xf7, 0x15, 0x88, 0x09, 0xcf, 0x4f, 0x3c]

/-- A stored IV. -/
def sampleIV : List Nat :=
  [0x10, 0x21, 0x32, 0x43, 0x54, 0x65, 0x76, 0x87, 0x98, 0xa9, 0xba, 0xcb, 0xdc, 0xed, 0xfe, 0x0f]

/-- An object of the class `cls`, constructed with `sampleKey` and given `sampleIV`. -/
def sampleAES (cls : AES_CLASS) : AES_BASE :=
  ((AES_BASE.new cls (List.replicate 16 0) (some sampleKey)).getD
    (AES_BASE.init cls ⟨[], [], true⟩)).SetIV (some sampleIV)

/-- A buffer of twenty bytes: one full block and a partial block of four bytes. -/
def sampleStream : List Nat :=
  [0x32, 0x43, 0xf6, 0xa8, 0x88, 0x5a, 0x30, 0x8d, 0x31, 0x31, 0x98, 0xa2, 0xe0, 0x37, 0x07, 0x34,
   0x01, 0x02, 0x03, 0x04]

/-- One block of CFB decryption on the state `last` (the previous ciphertext block). -/
def cfbDecStep (ks : AES_KEYSET) (last blk : List Nat) : List Nat × List Nat :=
  (blk, xorBytes blk (encBlock ks last))

/-- One block of CFB encryption on the state `last` (the previous ciphertext block). -/
def cfbEncStep (ks : AES_KEYSET) (last blk : List Nat) : List Nat × List Nat :=
  (xorBytes (encBlock ks last) blk, xorBytes (encBlock ks last) blk)

/-- The CFB keystream of `n` blocks for the ciphertext `c`: the block transform of `last`, then
of each ciphertext block in turn. -/
def cfbKeys (ks : AES_KEYSET) : Nat → List Nat → List Nat → List Nat
  | 0, _, _ => []
  | n + 1, last, c => encBlock ks last ++ cfbKeys ks n (c.take 16) (c.drop 16)

/-- The ciphertext block that precedes block `j`: the block `last` for the first block. -/
def cfbPrev (last c : List Nat) (j : Nat) : List Nat :=
  if j = 0 then last else readAt c ((j - 1) * 16) 16

/-- The body of the loop of `AES_CFB::DecryptStream` on the object with `lastBlock`, for the
block `b` of the stream. -/
def cfbDecSt (s : AES_BASE × List Nat) (b : List Nat) : (AES_BASE × List Nat) × List Nat :=
  let r := s.1.EncryptBlock s.2
  let self := { r.1 with procArray := writeAt r.1.procArray 0 b }
  ((self, writeAt r.2 0 (readAt self.procArray 0 16)), AES_BASE.BlockXOR b r.2 16)

/-- The body of the loop of `AES_CFB::EncryptStream` on the object with `lastBlock`, for the
block `b` of the stream. -/
def cfbEncSt (s : AES_BASE × List Nat) (b : List Nat) : (AES_BASE × List Nat) × List Nat :=
  let r := s.1.EncryptBlock s.2
  let lastBlock := AES_BASE.BlockXOR r.2 b 16
  ((r.1, lastBlock), readAt lastBlock 0 16)

/-- The buffer with `f` applied to each of its first `n` blocks. -/
def mapBlocks (f : List Nat → List Nat) : Nat → List Nat → List Nat
  | 0, l => l
  | n + 1, l => f (l.take 16) ++ mapBlocks f n (l.drop 16)

/-- The body of the loop of `AES_CBC::DecryptStream` on the object with `prevBlock`, for the
block `b` of the stream. -/
def cbcDecSt (s : AES_BASE × List Nat) (b : List Nat) : (AES_BASE × List Nat) × List Nat :=
  let self := { s.1 with procArray := writeAt s.1.procArray 0 b }
  let r := self.DecryptBlock b
  let block := r.1.keyset.XORIV2 r.2 (some s.2)
  ((r.1, writeAt s.2 0 (readAt r.1.procArray 0 16)), block)

/-- What the loop of `AES_CBC::EncryptStream` does to one block: `XORIV(block, iv)` adds the
stored IV, whatever block `iv` points to, then the block is encrypted. -/
def cbcEncBlock (ks : AES_KEYSET) (b : List Nat) : List Nat :=
  encBlock ks (xorBytes b ks.iv)

/-- What the loop of `AES_CBC::DecryptStream` does to one block. -/
def cbcDecBlock (ks : AES_KEYSET) (b : List Nat) : List Nat :=
  xorBytes (decBlock ks b) ks.iv

/-- The key of the known-answer vector of FIPS-197, appendix C.1; its first byte is zero. -/
def katKey : List Nat :=
  [0x00, 0x01, 0x02, 0x03, 0x04, 0x05, 0x06, 0x07, 0x08, 0x09, 0x0a, 0x0b, 0x0c, 0x0d, 0x0e, 0x0f]

/-- The plaintext of the known-answer vector of FIPS-197, appendix C.1. -/
def katPlain : List Nat :=
  [0x00, 0x11, 0x22, 0x33, 0x44, 0x55, 0x66, 0x77, 0x88, 0x99, 0xaa, 0xbb, 0xcc, 0xdd, 0xee, 0xff]

/-- The ciphertext of the known-answer vector of FIPS-197, appendix C.1. -/
def katCipher : List Nat :=
  [0x69, 0xc4, 0xe0, 0xd8, 0x6a, 0x7b, 0x04, 0x30, 0xd8, 0xcd, 0xb7, 0x80, 0x70, 0xb4, 0xc5, 0x5a]

/-- The plaintext of the example of FIPS-197, appendix B, whose key is `sampleKey`. -/
def fipsPlain : List Nat :=
  [0x32, 0x43, 0xf6, 0xa8, 0x88, 0x5a, 0x30, 0x8d, 0x31, 0x31, 0x98, 0xa2, 0xe0, 0x37, 0x07, 0x34]

/-- The ciphertext of the example of FIPS-197, appendix B. -/
def fipsCipher : List Nat :=
  [0x39, 0x25, 0x84, 0x1d, 0x02, 0xdc, 0x09, 0xfb, 0xdc, 0x11, 0x85, 0x97, 0x19, 0x6a, 0x0b, 0x32]

/-- A buffer of two full blocks. -/
def sampleTwoBlocks : List Nat :=
  fipsPlain ++ katPlain


/-- The object that the constructor of the class `cls` leaves for `sampleKey`, when the memory
of the member `iv` holds `ivMem`. -/
def sampleNew (cls : AES_CLASS) (ivMem : List Nat) : AES_BASE :=
  (AES_BASE.new cls ivMem (some sampleKey)).getD (AES_BASE.init cls ⟨[], [], true⟩)

/-- A sequence of values for `rand()`. -/
def sampleRand (i : Nat) : Nat :=
  1103515245 * i + 12345

/-- A buffer of 33 bytes: two full blocks and one more byte. -/
def sampleOddStream : List Nat :=
  sampleTwoBlocks ++ [0x01]

/-- The first `n` bytes of the array `keyArr` of `CalculateKeys`, as the spec words it for a key
string: the bytes of the key before its first zero byte (at most `n` of them), then zero
bytes. -/
def keyBytes : List Nat → Nat → List Nat
  | _, 0 => []
  | [], n + 1 => List.replicate (n + 1) 0
  | b :: rest, n + 1 => if b = 0 then List.replicate (n + 1) 0 else b :: keyBytes rest n

/-- The key as a string, zero-padded on the right to 16 bytes. -/
def padKey (key : List Nat) : List Nat :=
  keyBytes key 16

/-- The round key that the standard AES-128 key expansion derives from the round key `prev`
with the round constant `rc`, in the layout of `keyset[k]` (index `r * 4 + c` for row `r`,
column `c`): the first column is the S-box of the last column of `prev` rotated up by one,
XOR the first column of `prev`, XOR `rc` in the top byte; every other column is the column to
its left XOR the same column of `prev`. -/
def expandRow (prev : List Nat) (rc : Nat) : List Nat :=
  [AES_KEYSET.SubByteSingle (prev.getD 7 0) ^^^ prev.getD 0 0 ^^^ rc,
   AES_KEYSET.SubByteSingle (prev.getD 7 0) ^^^ prev.getD 0 0 ^^^ rc ^^^ prev.getD 1 0,
   AES_KEYSET.SubByteSingle (prev.getD 7 0) ^^^ prev.getD 0 0 ^^^ rc ^^^ prev.getD 1 0 ^^^
     prev.getD 2 0,
   AES_KEYSET.SubByteSingle (prev.getD 7 0) ^^^ prev.getD 0 0 ^^^ rc ^^^ prev.getD 1 0 ^^^
     prev.getD 2 0 ^^^ prev.getD 3 0,
   AES_KEYSET.SubByteSingle (prev.getD 11 0) ^^^ prev.getD 4 0,
   AES_KEYSET.SubByteSingle (prev.getD 11 0) ^^^ prev.getD 4 0 ^^^ prev.getD 5 0,
   AES_KEYSET.SubByteSingle (prev.getD 11 0) ^^^ prev.getD 4 0 ^^^ prev.getD 5 0 ^^^
     prev.getD 6 0,
   AES_KEYSET.SubByteSingle (prev.getD 11 0) ^^^ prev.getD 4 0 ^^^ prev.getD 5 0 ^^^
     prev.getD 6 0 ^^^ prev.getD 7 0,
   AES_KEYSET.SubByteSingle (prev.getD 15 0) ^^^ prev.getD 8 0,
   AES_KEYSET.SubByteSingle (prev.getD 15 0) ^^^ prev.getD 8 0 ^^^ prev.getD 9 0,
   AES_KEYSET.SubByteSingle (prev.getD 15 0) ^^^ prev.getD 8 0 ^^^ prev.getD 9 0 ^^^
     prev.getD 10 0,
   AES_KEYSET.SubByteSingle (prev.getD 15 0) ^^^ prev.getD 8 0 ^^^ prev.getD 9 0 ^^^
     prev.getD 10 0 ^^^ prev.getD 11 0,
   AES_KEYSET.SubByteSingle (prev.getD 3 0) ^^^ prev.getD 12 0,
   AES_KEYSET.SubByteSingle (prev.getD 3 0) ^^^ prev.getD 12 0 ^^^ prev.getD 13 0,
   AES_KEYSET.SubByteSingle (prev.getD 3 0) ^^^ prev.getD 12 0 ^^^ prev.getD 13 0 ^^^
     prev.getD 14 0,
   AES_KEYSET.SubByteSingle (prev.getD 3 0) ^^^ prev.getD 12 0 ^^^ prev.getD 13 0 ^^^
     prev.getD 14 0 ^^^ prev.getD 15 0]

/-- The key-expansion recurrence of the spec between a round key `cur` and the round key `prev`
before it, both viewed as 4x4 matrices stored row by row: the first column of `cur` is the
S-box of the last column of `prev` rotated up by one byte, XOR the first column of `prev`, XOR
the round constant `rc` in the top byte only; column `c` in 1..3 of `cur` is column `c - 1` of
`cur` XOR column `c` of `prev`. -/
def KeyRecurrence (prev cur : List Nat) (rc : Nat) : Prop :=
  (∀ r, r < 4 →
    cur.getD (r * 4) 0 =
      AES_KEYSET.SubByteSingle (prev.getD (((r + 1) % 4) * 4 + 3) 0) ^^^ prev.getD (r * 4) 0 ^^^
        (if r = 0 then rc else 0)) ∧
  ∀ r c, r < 4 → 1 ≤ c → c < 4 →
    cur.getD (r * 4 + c) 0 = cur.getD (r * 4 + (c - 1)) 0 ^^^ prev.getD (r * 4 + c) 0

/-- An object of `AES_ECB` for `sampleKey` with the buffer limit set to 32 bytes. -/
def sampleECB32 : AES_BASE :=
  ((sampleNew .AES_ECB sampleIV).SetBufferLimit 32).1

/-- An object of `AES_OFB` for `sampleKey` with the buffer limit set to 16 bytes. -/
def sampleOFB16 : AES_BASE :=
  ((sampleNew .AES_OFB sampleIV).SetBufferLimit 16).1

/-- An object of `AES_CBC` for `sampleKey` with the buffer limit set to 32 bytes. -/
def sampleCBC32 : AES_BASE :=
  ((sampleNew .AES_CBC sampleIV).SetBufferLimit 32).1

/-- The content of the file that `DecryptFile` writes when it is given the file that
`EncryptFile` wrote for the content `P`, both called on the object `a`; `none` when one of the
two files is not written. -/
def fileRoundTrip (a : AES_BASE) (rand : Nat → Nat) (P : List Nat) : Option (List Nat) :=
  match a.EncryptFile rand P with
  | some (_, some enc) =>
    match a.DecryptFile enc with
    | some (_, some dec) => some dec
    | _ => none
  | _ => none

/-! ## Loops -/

theorem forLoop_rel {σ τ : Type} (R : σ → τ → Prop) (f : Nat → σ → σ) (g : Nat → τ → τ)
    (h : ∀ i a b, R a b → R (f i a) (g i b)) :
    ∀ n i a b, R a b → R (forLoop f n i a) (forLoop g n i b) := by
  intro n
  induction n with
  | zero => intro i a b hab; simpa [forLoop] using hab
  | succ n ih => intro i a b hab; simp only [forLoop]; exact ih _ _ _ (h i a b hab)

theorem forLoopDown_rel {σ τ : Type} (R : σ → τ → Prop) (f : Nat → σ → σ) (g : Nat → τ → τ)
    (h : ∀ i a b, R a b → R (f i a) (g i b)) :
    ∀ n i a b, R a b → R (forLoopDown f n i a) (forLoopDown g n i b) := by
  intro n
  induction n with
  | zero => intro i a b hab; simpa [forLoopDown] using hab
  | succ n ih => intro i a b hab; simp only [forLoopDown]; exact ih _ _ _ (h i a b hab)

theorem forLoop_inv {σ : Type} (P : σ → Prop) (f : Nat → σ → σ)
    (h : ∀ i a, P a → P (f i a)) : ∀ n i a, P a → P (forLoop f n i a) := by
  intro n
  induction n with
  | zero => intro i a ha; simpa [forLoop] using ha
  | succ n ih => intro i a ha; simp only [forLoop]; exact ih _ _ (h i a ha)

theorem forLoopDown_inv {σ : Type} (P : σ → Prop) (f : Nat → σ → σ)
    (h : ∀ i a, P a → P (f i a)) : ∀ n i a, P a → P (forLoopDown f n i a) := by
  intro n
  induction n with
  | zero => intro i a ha; simpa [forLoopDown] using ha
  | succ n ih => intro i a ha; simp only [forLoopDown]; exact ih _ _ (h i a ha)

theorem forLoop_snoc {σ : Type} (f : Nat → σ → σ) :
    ∀ n i a, forLoop f (n + 1) i a = f (i + n) (forLoop f n i a) := by
  intro n
  induction n with
  | zero => intro i a; simp [forLoop]
  | succ n ih =>
    intro i a
    have h1 : forLoop f (n + 1 + 1) i a = forLoop f (n + 1) (i + 1) (f i a) := rfl
    rw [h1, ih]
    have h2 : forLoop f (n + 1) i a = forLoop f n (i + 1) (f i a) := rfl
    rw [h2]
    congr 1
    omega

/-- A list of sixteen elements, written out. -/
theorem length16 {l : List Nat} (h : l.length = 16) :
    ∃ a0 a1 a2 a3 a4 a5 a6 a7 a8 a9 a10 a11 a12 a13 a14 a15,
      l = [a0, a1, a2, a3, a4, a5, a6, a7, a8, a9, a10, a11, a12, a13, a14, a15] := by
  match l, h with
  | [a0, a1, a2, a3, a4, a5, a6, a7, a8, a9, a10, a11, a12, a13, a14, a15], _ =>
    exact ⟨a0, a1, a2, a3, a4, a5, a6, a7, a8, a9, a10, a11, a12, a13, a14, a15, rfl⟩

/-! ## The tables -/

theorem all_range {p : Nat → Bool} {n : Nat} (h : (List.range n).all p = true) :
    ∀ x, x < n → p x = true := by
  intro x hx
  exact List.all_eq_true.mp h x (List.mem_range.mpr hx)

theorem sBox_all : (List.range 256).all (fun x =>
    subInv (AES_KEYSET.SubByteSingle x) == x && decide (AES_KEYSET.SubByteSingle x < 256) &&
    AES_KEYSET.SubByteSingle (subInv x) == x && decide (subInv x < 256)) = true := by
  decide!

theorem subInv_sub {x : Nat} (h : x < 256) : subInv (AES_KEYSET.SubByteSingle x) = x := by
  have := all_range sBox_all x h
  simp only [Bool.and_eq_true, beq_iff_eq, decide_eq_true_eq] at this
  exact this.1.1.1

theorem sub_lt {x : Nat} (h : x < 256) : AES_KEYSET.SubByteSingle x < 256 := by
  have := all_range sBox_all x h
  simp only [Bool.and_eq_true, beq_iff_eq, decide_eq_true_eq] at this
  exact this.1.1.2

theorem sub_subInv {x : Nat} (h : x < 256) : AES_KEYSET.SubByteSingle (subInv x) = x := by
  have := all_range sBox_all x h
  simp only [Bool.and_eq_true, beq_iff_eq, decide_eq_true_eq] at this
  exact this.1.2

theorem subInv_lt {x : Nat} (h : x < 256) : subInv x < 256 := by
  have := all_range sBox_all x h
  simp only [Bool.and_eq_true, beq_iff_eq, decide_eq_true_eq] at this
  exact this.2

theorem xor_lt_256 {x y : Nat} (hx : x < 256) (hy : y < 256) : x ^^^ y < 256 :=
  Nat.xor_lt_two_pow (n := 8) hx hy

theorem foldl_xor_split (f g h : Nat → Nat) (hf : ∀ i, f i = g i ^^^ h i) :
    ∀ (l : List Nat) (a b : Nat),
      l.foldl (fun acc i => acc ^^^ f i) (a ^^^ b) =
        l.foldl (fun acc i => acc ^^^ g i) a ^^^ l.foldl (fun acc i => acc ^^^ h i) b := by
  intro l
  induction l with
  | nil => intro a b; rfl
  | cons i l ih =>
    intro a b
    simp only [List.foldl_cons]
    rw [← ih, hf i]
    congr 1
    ac_rfl

theorem bitsXor_xor (c : Nat → Nat) (x y : Nat) :
    bitsXor c (x ^^^ y) = bitsXor c x ^^^ bitsXor c y := by
  unfold bitsXor
  have h := foldl_xor_split (fun i => if (x ^^^ y).testBit i then c i else 0)
    (fun i => if x.testBit i then c i else 0) (fun i => if y.testBit i then c i else 0)
    (by
      intro i
      simp only [Nat.testBit_xor]
      cases x.testBit i <;> cases y.testBit i <;> simp) (List.range 8) 0 0
  simpa using h

theorem gfMult_all : (List.range 256).all (fun x =>
    (AES_BASE.GFMult 2 x ==
        bitsXor (fun i => [0x02, 0x04, 0x08, 0x10, 0x20, 0x40, 0x80, 0x1b].getD i 0) x &&
      decide (AES_BASE.GFMult 2 x < 256)) &&
    (AES_BASE.GFMult 3 x ==
        bitsXor (fun i => [0x03, 0x06, 0x0c, 0x18, 0x30, 0x60, 0xc0, 0x9b].getD i 0) x &&
      decide (AES_BASE.GFMult 3 x < 256)) &&
    (AES_BASE.GFMult 9 x ==
        bitsXor (fun i => [0x09, 0x12, 0x24, 0x48, 0x90, 0x3b, 0x76, 0xec].getD i 0) x &&
      decide (AES_BASE.GFMult 9 x < 256)) &&
    (AES_BASE.GFMult 11 x ==
        bitsXor (fun i => [0x0b, 0x16, 0x2c, 0x58, 0xb0, 0x7b, 0xf6, 0xf7].getD i 0) x &&
      decide (AES_BASE.GFMult 11 x < 256)) &&
    (AES_BASE.GFMult 13 x ==
        bitsXor (fun i => [0x0d, 0x1a, 0x34, 0x68, 0xd0, 0xbb, 0x6d, 0xda].getD i 0) x &&
      decide (AES_BASE.GFMult 13 x < 256)) &&
    (AES_BASE.GFMult 14 x ==
        bitsXor (fun i => [0x0e, 0x1c, 0x38, 0x70, 0xe0, 0xdb, 0xad, 0x41].getD i 0) x &&
      decide (AES_BASE.GFMult 14 x < 256))) = true := by
  decide!

theorem LinB_of_bits (f c : Nat → Nat)
    (h : ∀ x, x < 256 → f x = bitsXor c x ∧ f x < 256) : LinB f := by
  refine ⟨fun x y hx hy => ?_, fun x hx => (h x hx).2⟩
  rw [(h _ (xor_lt_256 hx hy)).1, (h x hx).1, (h y hy).1, bitsXor_xor]

theorem LinB_GFMult (c : Nat) : LinB (AES_BASE.GFMult c) := by
  have hall := fun x hx => by
    have := all_range gfMult_all x hx
    simp only [Bool.and_eq_true, beq_iff_eq, decide_eq_true_eq] at this
    exact this
  by_cases h2 : c = 2
  · subst h2; exact LinB_of_bits _ _ fun x hx => (hall x hx).1.1.1.1.1
  by_cases h3 : c = 3
  · subst h3; exact LinB_of_bits _ _ fun x hx => (hall x hx).1.1.1.1.2
  by_cases h9 : c = 9
  · subst h9; exact LinB_of_bits _ _ fun x hx => (hall x hx).1.1.1.2
  by_cases h11 : c = 11
  · subst h11; exact LinB_of_bits _ _ fun x hx => (hall x hx).1.1.2
  by_cases h13 : c = 13
  · subst h13; exact LinB_of_bits _ _ fun x hx => (hall x hx).1.2
  by_cases h14 : c = 14
  · subst h14; exact LinB_of_bits _ _ fun x hx => (hall x hx).2
  by_cases h1 : c = 1
  · subst h1
    exact ⟨fun x y _ _ => rfl, fun x hx => hx⟩
  · have h0 : ∀ x, AES_BASE.GFMult c x = 0 := by
      intro x
      unfold AES_BASE.GFMult
      split <;> first | rfl | omega
    exact ⟨fun x y _ _ => by simp [h0], fun x _ => by simp [h0]⟩

theorem LinB_zero {f : Nat → Nat} (hf : LinB f) : f 0 = 0 := by
  have h := hf.1 0 0 (by decide) (by decide)
  simp only [Nat.xor_self] at h
  have h2 : f 0 ^^^ f 0 = 0 := Nat.xor_self _
  omega

theorem LinB_comp {f g : Nat → Nat} (hf : LinB f) (hg : LinB g) : LinB (fun x => f (g x)) := by
  refine ⟨fun x y hx hy => ?_, fun x hx => hf.2 _ (hg.2 x hx)⟩
  show f (g (x ^^^ y)) = f (g x) ^^^ f (g y)
  rw [hg.1 x y hx hy, hf.1 _ _ (hg.2 x hx) (hg.2 y hy)]

theorem LinB_xor {f g : Nat → Nat} (hf : LinB f) (hg : LinB g) :
    LinB (fun x => f x ^^^ g x) := by
  refine ⟨fun x y hx hy => ?_, fun x hx => xor_lt_256 (hf.2 x hx) (hg.2 x hx)⟩
  show f (x ^^^ y) ^^^ g (x ^^^ y) = (f x ^^^ g x) ^^^ (f y ^^^ g y)
  rw [hf.1 x y hx hy, hg.1 x y hx hy]
  ac_rfl

theorem LinB_rowCol (m n : List (List Nat)) (r j : Nat) : LinB (rowCol m n r j) := by
  unfold rowCol mixCol
  exact LinB_xor (LinB_xor (LinB_xor (LinB_comp (LinB_GFMult _) (LinB_GFMult _))
    (LinB_comp (LinB_GFMult _) (LinB_GFMult _))) (LinB_comp (LinB_GFMult _) (LinB_GFMult _)))
    (LinB_comp (LinB_GFMult _) (LinB_GFMult _))

theorem LinB_foldl {f : Nat → Nat} (hf : LinB f) (c : Nat → Nat) (x : Nat) :
    ∀ (l : List Nat) (a : Nat), (∀ i ∈ l, c i < 256) → a < 256 →
      f (l.foldl (fun acc i => acc ^^^ (if x.testBit i then c i else 0)) a) =
        l.foldl (fun acc i => acc ^^^ (if x.testBit i then f (c i) else 0)) (f a) := by
  intro l
  induction l with
  | nil => intro a _ _; rfl
  | cons i l ih =>
    intro a hc ha
    simp only [List.foldl_cons]
    have hci : c i < 256 := hc i (List.mem_cons_self _ _)
    have hite : (if x.testBit i then c i else 0) < 256 := by split <;> omega
    rw [ih _ (fun k hk => hc k (List.mem_cons_of_mem _ hk)) (xor_lt_256 ha hite),
      hf.1 _ _ ha hite]
    congr 2
    split
    · rfl
    · exact LinB_zero hf

theorem bits_all : (List.range 256).all (fun x => bitsXor (fun i => 2 ^ i) x == x) = true := by
  decide!

theorem LinB_bits {f : Nat → Nat} (hf : LinB f) {x : Nat} (hx : x < 256) :
    f x = bitsXor (fun i => f (2 ^ i)) x := by
  have hb : bitsXor (fun i => 2 ^ i) x = x := by
    simpa using all_range bits_all x hx
  conv_lhs => rw [← hb]
  unfold bitsXor
  rw [LinB_foldl hf (fun i => 2 ^ i) x (List.range 8) 0 _ (by decide), LinB_zero hf]
  intro i hi
  have : i < 8 := List.mem_range.mp hi
  show 2 ^ i < 2 ^ 8
  exact Nat.pow_lt_pow_right (by decide) this

theorem rowCol_basis : (List.range 4).all (fun r => (List.range 4).all fun j =>
    (List.range 8).all fun i =>
      rowCol constMatrixInv constMatrix r j (2 ^ i) == (if r = j then 2 ^ i else 0) &&
      rowCol constMatrix constMatrixInv r j (2 ^ i) == (if r = j then 2 ^ i else 0)) = true := by
  decide!


theorem bitsXor_congr {c d : Nat → Nat} (h : ∀ i, i < 8 → c i = d i) (x : Nat) :
    bitsXor c x = bitsXor d x := by
  have e : ∀ c : Nat → Nat, bitsXor c x =
      0 ^^^ (if x.testBit 0 then c 0 else 0) ^^^ (if x.testBit 1 then c 1 else 0) ^^^
        (if x.testBit 2 then c 2 else 0) ^^^ (if x.testBit 3 then c 3 else 0) ^^^
        (if x.testBit 4 then c 4 else 0) ^^^ (if x.testBit 5 then c 5 else 0) ^^^
        (if x.testBit 6 then c 6 else 0) ^^^ (if x.testBit 7 then c 7 else 0) := fun _ => rfl
  rw [e c, e d, h 0 (by decide), h 1 (by decide), h 2 (by decide), h 3 (by decide),
    h 4 (by decide), h 5 (by decide), h 6 (by decide), h 7 (by decide)]

theorem bitsXor_zero (x : Nat) : bitsXor (fun _ => 0) x = 0 := by
  have e : bitsXor (fun _ => 0) x =
      0 ^^^ (if x.testBit 0 then 0 else 0) ^^^ (if x.testBit 1 then 0 else 0) ^^^
        (if x.testBit 2 then 0 else 0) ^^^ (if x.testBit 3 then 0 else 0) ^^^
        (if x.testBit 4 then 0 else 0) ^^^ (if x.testBit 5 then 0 else 0) ^^^
        (if x.testBit 6 then 0 else 0) ^^^ (if x.testBit 7 then 0 else 0) := rfl
  rw [e]
  simp

theorem rowCol_eq {r j x : Nat} (hr : r < 4) (hj : j < 4) (hx : x < 256) :
    rowCol constMatrixInv constMatrix r j x = (if r = j then x else 0) ∧
    rowCol constMatrix constMatrixInv r j x = (if r = j then x else 0) := by
  have hb : bitsXor (fun i => 2 ^ i) x = x := by
    simpa using all_range bits_all x hx
  have hbas : ∀ i, i < 8 →
      rowCol constMatrixInv constMatrix r j (2 ^ i) = (if r = j then 2 ^ i else 0) ∧
      rowCol constMatrix constMatrixInv r j (2 ^ i) = (if r = j then 2 ^ i else 0) := by
    intro i hi
    have h1 := all_range rowCol_basis r hr
    have h2 := all_range (List.all_eq_true.mpr (List.all_eq_true.mp h1)) j hj
    have h3 := all_range (List.all_eq_true.mpr (List.all_eq_true.mp h2)) i hi
    simpa only [Bool.and_eq_true, beq_iff_eq] using h3
  constructor
  · rw [LinB_bits (LinB_rowCol _ _ r j) hx, bitsXor_congr (fun i hi => (hbas i hi).1)]
    by_cases hrj : r = j
    · simp only [hrj, if_true]; exact hb
    · simp only [hrj, if_false]; exact bitsXor_zero x
  · rw [LinB_bits (LinB_rowCol _ _ r j) hx, bitsXor_congr (fun i hi => (hbas i hi).2)]
    by_cases hrj : r = j
    · simp only [hrj, if_true]; exact hb
    · simp only [hrj, if_false]; exact bitsXor_zero x

theorem LinB_four {f : Nat → Nat} (hf : LinB f) {a b c d : Nat} (ha : a < 256) (hb : b < 256)
    (hc : c < 256) (hd : d < 256) : f (a ^^^ b ^^^ c ^^^ d) = f a ^^^ f b ^^^ f c ^^^ f d := by
  rw [hf.1 _ _ (xor_lt_256 (xor_lt_256 ha hb) hc) hd, hf.1 _ _ (xor_lt_256 ha hb) hc,
    hf.1 _ _ ha hb]

theorem gfMult_lt (c : Nat) {x : Nat} (hx : x < 256) : AES_BASE.GFMult c x < 256 :=
  (LinB_GFMult c).2 x hx

theorem mixCol_lt (m : List (List Nat)) (row : Nat) {a0 a1 a2 a3 : Nat} (h0 : a0 < 256)
    (h1 : a1 < 256) (h2 : a2 < 256) (h3 : a3 < 256) : mixCol m row a0 a1 a2 a3 < 256 := by
  unfold mixCol
  exact xor_lt_256 (xor_lt_256 (xor_lt_256 (gfMult_lt _ h0) (gfMult_lt _ h1)) (gfMult_lt _ h2))
    (gfMult_lt _ h3)

theorem mixCol_mixCol (m n : List (List Nat)) (r : Nat) {a0 a1 a2 a3 : Nat} (h0 : a0 < 256)
    (h1 : a1 < 256) (h2 : a2 < 256) (h3 : a3 < 256) :
    mixCol m r (mixCol n 0 a0 a1 a2 a3) (mixCol n 1 a0 a1 a2 a3) (mixCol n 2 a0 a1 a2 a3)
        (mixCol n 3 a0 a1 a2 a3) =
      rowCol m n r 0 a0 ^^^ rowCol m n r 1 a1 ^^^ rowCol m n r 2 a2 ^^^ rowCol m n r 3 a3 := by
  unfold rowCol
  unfold mixCol
  rw [LinB_four (LinB_GFMult _) (gfMult_lt _ h0) (gfMult_lt _ h1) (gfMult_lt _ h2)
      (gfMult_lt _ h3),
    LinB_four (LinB_GFMult _) (gfMult_lt _ h0) (gfMult_lt _ h1) (gfMult_lt _ h2)
      (gfMult_lt _ h3),
    LinB_four (LinB_GFMult _) (gfMult_lt _ h0) (gfMult_lt _ h1) (gfMult_lt _ h2)
      (gfMult_lt _ h3),
    LinB_four (LinB_GFMult _) (gfMult_lt _ h0) (gfMult_lt _ h1) (gfMult_lt _ h2)
      (gfMult_lt _ h3)]
  ac_rfl

/-- A mixed column, mixed back with the other matrix, is the column itself. -/
theorem mixCol_inv {a0 a1 a2 a3 : Nat} (h0 : a0 < 256) (h1 : a1 < 256) (h2 : a2 < 256)
    (h3 : a3 < 256) (m n : List (List Nat))
    (hmn : (m = constMatrixInv ∧ n = constMatrix) ∨ (m = constMatrix ∧ n = constMatrixInv)) :
    mixCol m 0 (mixCol n 0 a0 a1 a2 a3) (mixCol n 1 a0 a1 a2 a3)
        (mixCol n 2 a0 a1 a2 a3) (mixCol n 3 a0 a1 a2 a3) = a0 ∧
    mixCol m 1 (mixCol n 0 a0 a1 a2 a3) (mixCol n 1 a0 a1 a2 a3)
        (mixCol n 2 a0 a1 a2 a3) (mixCol n 3 a0 a1 a2 a3) = a1 ∧
    mixCol m 2 (mixCol n 0 a0 a1 a2 a3) (mixCol n 1 a0 a1 a2 a3)
        (mixCol n 2 a0 a1 a2 a3) (mixCol n 3 a0 a1 a2 a3) = a2 ∧
    mixCol m 3 (mixCol n 0 a0 a1 a2 a3) (mixCol n 1 a0 a1 a2 a3)
        (mixCol n 2 a0 a1 a2 a3) (mixCol n 3 a0 a1 a2 a3) = a3 := by
  have e : ∀ r j x, r < 4 → j < 4 → x < 256 → rowCol m n r j x = (if r = j then x else 0) := by
    intro r j x hr hj hx
    rcases hmn with ⟨rfl, rfl⟩ | ⟨rfl, rfl⟩
    · exact (rowCol_eq hr hj hx).1
    · exact (rowCol_eq hr hj hx).2
  refine ⟨?_, ?_, ?_, ?_⟩
  · rw [mixCol_mixCol _ _ _ h0 h1 h2 h3, e 0 0 a0 (by decide) (by decide) h0,
      e 0 1 a1 (by decide) (by decide) h1, e 0 2 a2 (by decide) (by decide) h2,
      e 0 3 a3 (by decide) (by decide) h3]
    simp
  · rw [mixCol_mixCol _ _ _ h0 h1 h2 h3, e 1 0 a0 (by decide) (by decide) h0,
      e 1 1 a1 (by decide) (by decide) h1, e 1 2 a2 (by decide) (by decide) h2,
      e 1 3 a3 (by decide) (by decide) h3]
    simp
  · rw [mixCol_mixCol _ _ _ h0 h1 h2 h3, e 2 0 a0 (by decide) (by decide) h0,
      e 2 1 a1 (by decide) (by decide) h1, e 2 2 a2 (by decide) (by decide) h2,
      e 2 3 a3 (by decide) (by decide) h3]
    simp
  · rw [mixCol_mixCol _ _ _ h0 h1 h2 h3, e 3 0 a0 (by decide) (by decide) h0,
      e 3 1 a1 (by decide) (by decide) h1, e 3 2 a2 (by decide) (by decide) h2,
      e 3 3 a3 (by decide) (by decide) h3]
    simp

/-! ## The block operations on sixteen bytes -/
theorem SubBytes_cons (a0 a1 a2 a3 a4 a5 a6 a7 a8 a9 a10 a11 a12 a13 a14 a15 : Nat) :
    AES_BASE.SubBytes [a0, a1, a2, a3, a4, a5, a6, a7, a8, a9, a10, a11, a12, a13, a14, a15] =
      [a0, a1, a2, a3, a4, a5, a6, a7, a8, a9, a10, a11, a12, a13, a14, a15].map
        AES_KEYSET.SubByteSingle := by
  simp only [AES_BASE.SubBytes, forLoop, AES_KEYSET.SubByteSingle, List.set_cons_succ,
    List.set_cons_zero, List.getD_cons_zero, List.getD_cons_succ, Nat.reduceAdd, List.map]

theorem mixLoop_cons (m : List (List Nat))
    (a0 a1 a2 a3 a4 a5 a6 a7 a8 a9 a10 a11 a12 a13 a14 a15 : Nat)
    (p0 p1 p2 p3 p4 p5 p6 p7 p8 p9 p10 p11 p12 p13 p14 p15 : Nat) :
    AES_BASE.mixLoop m [a0, a1, a2, a3, a4, a5, a6, a7, a8, a9, a10, a11, a12, a13, a14, a15]
        [p0, p1, p2, p3, p4, p5, p6, p7, p8, p9, p10, p11, p12, p13, p14, p15] =
      [mixCol m 0 a0 a1 a2 a3, mixCol m 1 a0 a1 a2 a3, mixCol m 2 a0 a1 a2 a3,
       mixCol m 3 a0 a1 a2 a3, mixCol m 0 a4 a5 a6 a7, mixCol m 1 a4 a5 a6 a7,
       mixCol m 2 a4 a5 a6 a7, mixCol m 3 a4 a5 a6 a7, mixCol m 0 a8 a9 a10 a11,
       mixCol m 1 a8 a9 a10 a11, mixCol m 2 a8 a9 a10 a11, mixCol m 3 a8 a9 a10 a11,
       mixCol m 0 a12 a13 a14 a15, mixCol m 1 a12 a13 a14 a15, mixCol m 2 a12 a13 a14 a15,
       mixCol m 3 a12 a13 a14 a15] := by
  simp only [AES_BASE.mixLoop, mixCol, forLoop, List.set_cons_succ,
    List.set_cons_zero, List.getD_cons_zero, List.getD_cons_succ, Nat.reduceAdd, Nat.reduceMul]

theorem AddRoundKey_cons (ks : AES_KEYSET) (k : Nat) (hk : k ≤ 10)
    (a0 a1 a2 a3 a4 a5 a6 a7 a8 a9 a10 a11 a12 a13 a14 a15 : Nat) :
    ks.AddRoundKey [a0, a1, a2, a3, a4, a5, a6, a7, a8, a9, a10, a11, a12, a13, a14, a15] k =
      [a0 ^^^ (ks.keyset.getD k []).getD 0 0, a1 ^^^ (ks.keyset.getD k []).getD 4 0,
       a2 ^^^ (ks.keyset.getD k []).getD 8 0, a3 ^^^ (ks.keyset.getD k []).getD 12 0,
       a4 ^^^ (ks.keyset.getD k []).getD 1 0, a5 ^^^ (ks.keyset.getD k []).getD 5 0,
       a6 ^^^ (ks.keyset.getD k []).getD 9 0, a7 ^^^ (ks.keyset.getD k []).getD 13 0,
       a8 ^^^ (ks.keyset.getD k []).getD 2 0, a9 ^^^ (ks.keyset.getD k []).getD 6 0,
       a10 ^^^ (ks.keyset.getD k []).getD 10 0, a11 ^^^ (ks.keyset.getD k []).getD 14 0,
       a12 ^^^ (ks.keyset.getD k []).getD 3 0, a13 ^^^ (ks.keyset.getD k []).getD 7 0,
       a14 ^^^ (ks.keyset.getD k []).getD 11 0, a15 ^^^ (ks.keyset.getD k []).getD 15 0] := by
  unfold AES_KEYSET.AddRoundKey
  rw [if_neg (by omega)]
  simp only [forLoop, List.set_cons_succ,
    List.set_cons_zero, List.getD_cons_zero, List.getD_cons_succ, Nat.reduceAdd, Nat.reduceMul]

theorem SubBytesInv_cons (a0 a1 a2 a3 a4 a5 a6 a7 a8 a9 a10 a11 a12 a13 a14 a15 : Nat) :
    AES_BASE.SubBytesInv [a0, a1, a2, a3, a4, a5, a6, a7, a8, a9, a10, a11, a12, a13, a14, a15] =
      [a0, a1, a2, a3, a4, a5, a6, a7, a8, a9, a10, a11, a12, a13, a14, a15].map subInv := by
  simp only [AES_BASE.SubBytesInv, forLoop, subInv, List.set_cons_succ,
    List.set_cons_zero, List.getD_cons_zero, List.getD_cons_succ, Nat.reduceAdd, List.map]

theorem Bytes_getD {l : List Nat} (h : Bytes l) (j : Nat) : l.getD j 0 < 256 := by
  rw [List.getD_eq_getElem?_getD]
  cases hj : l[j]? with
  | none => simp
  | some v => simpa using h v (List.getElem?_mem hj)

theorem Bytes_cons16 {a0 a1 a2 a3 a4 a5 a6 a7 a8 a9 a10 a11 a12 a13 a14 a15 : Nat} :
    Bytes [a0, a1, a2, a3, a4, a5, a6, a7, a8, a9, a10, a11, a12, a13, a14, a15] ↔
      a0 < 256 ∧ a1 < 256 ∧ a2 < 256 ∧ a3 < 256 ∧ a4 < 256 ∧ a5 < 256 ∧ a6 < 256 ∧ a7 < 256 ∧
      a8 < 256 ∧ a9 < 256 ∧ a10 < 256 ∧ a11 < 256 ∧ a12 < 256 ∧ a13 < 256 ∧ a14 < 256 ∧
      a15 < 256 := by
  simp [Bytes]

theorem IsBlock_cons16 {a0 a1 a2 a3 a4 a5 a6 a7 a8 a9 a10 a11 a12 a13 a14 a15 : Nat} :
    IsBlock [a0, a1, a2, a3, a4, a5, a6, a7, a8, a9, a10, a11, a12, a13, a14, a15] ↔
      a0 < 256 ∧ a1 < 256 ∧ a2 < 256 ∧ a3 < 256 ∧ a4 < 256 ∧ a5 < 256 ∧ a6 < 256 ∧ a7 < 256 ∧
      a8 < 256 ∧ a9 < 256 ∧ a10 < 256 ∧ a11 < 256 ∧ a12 < 256 ∧ a13 < 256 ∧ a14 < 256 ∧
      a15 < 256 := by
  simp [IsBlock, Bytes]

theorem SubBytes_inv {b : List Nat} (hb : IsBlock b) :
    AES_BASE.SubBytesInv (AES_BASE.SubBytes b) = b ∧ IsBlock (AES_BASE.SubBytes b) := by
  obtain ⟨a0, a1, a2, a3, a4, a5, a6, a7, a8, a9, a10, a11, a12, a13, a14, a15, rfl⟩ :=
    length16 hb.1
  obtain ⟨h0, h1, h2, h3, h4, h5, h6, h7, h8, h9, h10, h11, h12, h13, h14, h15⟩ :=
    IsBlock_cons16.mp hb
  rw [SubBytes_cons]
  simp only [List.map]
  rw [SubBytesInv_cons, IsBlock_cons16]
  simp only [List.map, subInv_sub, sub_lt, h0, h1, h2, h3, h4, h5, h6, h7, h8, h9, h10, h11,
    h12, h13, h14, h15, and_self]

theorem SubBytesInv_inv {b : List Nat} (hb : IsBlock b) :
    AES_BASE.SubBytes (AES_BASE.SubBytesInv b) = b ∧ IsBlock (AES_BASE.SubBytesInv b) := by
  obtain ⟨a0, a1, a2, a3, a4, a5, a6, a7, a8, a9, a10, a11, a12, a13, a14, a15, rfl⟩ :=
    length16 hb.1
  obtain ⟨h0, h1, h2, h3, h4, h5, h6, h7, h8, h9, h10, h11, h12, h13, h14, h15⟩ :=
    IsBlock_cons16.mp hb
  rw [SubBytesInv_cons]
  simp only [List.map]
  rw [SubBytes_cons, IsBlock_cons16]
  simp only [List.map, sub_subInv, subInv_lt, h0, h1, h2, h3, h4, h5, h6, h7, h8, h9, h10, h11,
    h12, h13, h14, h15, and_self]

theorem shiftL_inv {b : List Nat} (hb : IsBlock b) :
    shiftR (shiftL b) = b ∧ IsBlock (shiftL b) := by
  obtain ⟨a0, a1, a2, a3, a4, a5, a6, a7, a8, a9, a10, a11, a12, a13, a14, a15, rfl⟩ :=
    length16 hb.1
  obtain ⟨h0, h1, h2, h3, h4, h5, h6, h7, h8, h9, h10, h11, h12, h13, h14, h15⟩ :=
    IsBlock_cons16.mp hb
  refine ⟨rfl, ?_⟩
  exact IsBlock_cons16.mpr ⟨h0, h5, h10, h15, h4, h9, h14, h3, h8, h13, h2, h7, h12, h1, h6, h11⟩

theorem shiftR_inv {b : List Nat} (hb : IsBlock b) :
    shiftL (shiftR b) = b ∧ IsBlock (shiftR b) := by
  obtain ⟨a0, a1, a2, a3, a4, a5, a6, a7, a8, a9, a10, a11, a12, a13, a14, a15, rfl⟩ :=
    length16 hb.1
  obtain ⟨h0, h1, h2, h3, h4, h5, h6, h7, h8, h9, h10, h11, h12, h13, h14, h15⟩ :=
    IsBlock_cons16.mp hb
  refine ⟨rfl, ?_⟩
  exact IsBlock_cons16.mpr ⟨h0, h13, h10, h7, h4, h1, h14, h11, h8, h5, h2, h15, h12, h9, h6, h3⟩

theorem mix_inv {b : List Nat} (hb : IsBlock b) :
    mixI (mixF b) = b ∧ IsBlock (mixF b) ∧ mixF (mixI b) = b ∧ IsBlock (mixI b) := by
  obtain ⟨a0, a1, a2, a3, a4, a5, a6, a7, a8, a9, a10, a11, a12, a13, a14, a15, rfl⟩ :=
    length16 hb.1
  obtain ⟨h0, h1, h2, h3, h4, h5, h6, h7, h8, h9, h10, h11, h12, h13, h14, h15⟩ :=
    IsBlock_cons16.mp hb
  have z : List.replicate 16 0 = [0, 0, 0, 0, 0, 0, 0, 0, 0, 0, 0, 0, 0, 0, 0, 0] := rfl
  have c0 := mixCol_inv h0 h1 h2 h3 _ _ (Or.inl ⟨rfl, rfl⟩)
  have c1 := mixCol_inv h4 h5 h6 h7 _ _ (Or.inl ⟨rfl, rfl⟩)
  have c2 := mixCol_inv h8 h9 h10 h11 _ _ (Or.inl ⟨rfl, rfl⟩)
  have c3 := mixCol_inv h12 h13 h14 h15 _ _ (Or.inl ⟨rfl, rfl⟩)
  have d0 := mixCol_inv h0 h1 h2 h3 _ _ (Or.inr ⟨rfl, rfl⟩)
  have d1 := mixCol_inv h4 h5 h6 h7 _ _ (Or.inr ⟨rfl, rfl⟩)
  have d2 := mixCol_inv h8 h9 h10 h11 _ _ (Or.inr ⟨rfl, rfl⟩)
  have d3 := mixCol_inv h12 h13 h14 h15 _ _ (Or.inr ⟨rfl, rfl⟩)
  unfold mixI mixF
  rw [z]
  simp only [mixLoop_cons]
  refine ⟨?_, ?_, ?_, ?_⟩
  · rw [c0.1, c0.2.1, c0.2.2.1, c0.2.2.2, c1.1, c1.2.1, c1.2.2.1, c1.2.2.2, c2.1, c2.2.1,
      c2.2.2.1, c2.2.2.2, c3.1, c3.2.1, c3.2.2.1, c3.2.2.2]
  · exact IsBlock_cons16.mpr ⟨mixCol_lt _ _ h0 h1 h2 h3, mixCol_lt _ _ h0 h1 h2 h3,
      mixCol_lt _ _ h0 h1 h2 h3, mixCol_lt _ _ h0 h1 h2 h3, mixCol_lt _ _ h4 h5 h6 h7,
      mixCol_lt _ _ h4 h5 h6 h7, mixCol_lt _ _ h4 h5 h6 h7, mixCol_lt _ _ h4 h5 h6 h7,
      mixCol_lt _ _ h8 h9 h10 h11, mixCol_lt _ _ h8 h9 h10 h11, mixCol_lt _ _ h8 h9 h10 h11,
      mixCol_lt _ _ h8 h9 h10 h11, mixCol_lt _ _ h12 h13 h14 h15,
      mixCol_lt _ _ h12 h13 h14 h15, mixCol_lt _ _ h12 h13 h14 h15,
      mixCol_lt _ _ h12 h13 h14 h15⟩
  · rw [d0.1, d0.2.1, d0.2.2.1, d0.2.2.2, d1.1, d1.2.1, d1.2.2.1, d1.2.2.2, d2.1, d2.2.1,
      d2.2.2.1, d2.2.2.2, d3.1, d3.2.1, d3.2.2.1, d3.2.2.2]
  · exact IsBlock_cons16.mpr ⟨mixCol_lt _ _ h0 h1 h2 h3, mixCol_lt _ _ h0 h1 h2 h3,
      mixCol_lt _ _ h0 h1 h2 h3, mixCol_lt _ _ h0 h1 h2 h3, mixCol_lt _ _ h4 h5 h6 h7,
      mixCol_lt _ _ h4 h5 h6 h7, mixCol_lt _ _ h4 h5 h6 h7, mixCol_lt _ _ h4 h5 h6 h7,
      mixCol_lt _ _ h8 h9 h10 h11, mixCol_lt _ _ h8 h9 h10 h11, mixCol_lt _ _ h8 h9 h10 h11,
      mixCol_lt _ _ h8 h9 h10 h11, mixCol_lt _ _ h12 h13 h14 h15,
      mixCol_lt _ _ h12 h13 h14 h15, mixCol_lt _ _ h12 h13 h14 h15,
      mixCol_lt _ _ h12 h13 h14 h15⟩

theorem KeysWF_getD {ks : AES_KEYSET} (h : KeysWF ks) (k j : Nat) :
    (ks.keyset.getD k []).getD j 0 < 256 := by
  apply Bytes_getD
  rw [List.getD_eq_getElem?_getD]
  cases hk : ks.keyset[k]? with
  | none => intro x hx; simp at hx
  | some v => exact (h.2 v (List.getElem?_mem hk)).2

theorem AddRoundKey_length (ks : AES_KEYSET) (b : List Nat) (k : Nat) :
    (ks.AddRoundKey b k).length = b.length := by
  unfold AES_KEYSET.AddRoundKey
  split
  · rfl
  · simp [forLoop]

theorem AddRoundKey_inv (ks : AES_KEYSET) {b : List Nat} (hb : b.length = 16) (k : Nat) :
    ks.AddRoundKey (ks.AddRoundKey b k) k = b := by
  by_cases hk : k ≤ 10
  · obtain ⟨a0, a1, a2, a3, a4, a5, a6, a7, a8, a9, a10, a11, a12, a13, a14, a15, rfl⟩ :=
      length16 hb
    simp only [AddRoundKey_cons ks k hk, Nat.xor_assoc, Nat.xor_self, Nat.xor_zero]
  · unfold AES_KEYSET.AddRoundKey
    simp [show k > 10 by omega]

theorem AddRoundKey_block {ks : AES_KEYSET} (hks : KeysWF ks) {b : List Nat} (hb : IsBlock b)
    (k : Nat) : IsBlock (ks.AddRoundKey b k) := by
  by_cases hk : k ≤ 10
  · obtain ⟨a0, a1, a2, a3, a4, a5, a6, a7, a8, a9, a10, a11, a12, a13, a14, a15, rfl⟩ :=
      length16 hb.1
    obtain ⟨h0, h1, h2, h3, h4, h5, h6, h7, h8, h9, h10, h11, h12, h13, h14, h15⟩ :=
      IsBlock_cons16.mp hb
    rw [AddRoundKey_cons ks k hk]
    have hk := KeysWF_getD hks k
    exact IsBlock_cons16.mpr ⟨xor_lt_256 h0 (hk _), xor_lt_256 h1 (hk _), xor_lt_256 h2 (hk _),
      xor_lt_256 h3 (hk _), xor_lt_256 h4 (hk _), xor_lt_256 h5 (hk _), xor_lt_256 h6 (hk _),
      xor_lt_256 h7 (hk _), xor_lt_256 h8 (hk _), xor_lt_256 h9 (hk _), xor_lt_256 h10 (hk _),
      xor_lt_256 h11 (hk _), xor_lt_256 h12 (hk _), xor_lt_256 h13 (hk _),
      xor_lt_256 h14 (hk _), xor_lt_256 h15 (hk _)⟩
  · unfold AES_KEYSET.AddRoundKey
    simpa [show k > 10 by omega] using hb

/-! ## The block transform as a function of the key schedule -/

theorem SubBytes_length (b : List Nat) : (AES_BASE.SubBytes b).length = b.length := by
  simp [AES_BASE.SubBytes, forLoop]

theorem SubBytesInv_length (b : List Nat) : (AES_BASE.SubBytesInv b).length = b.length := by
  simp [AES_BASE.SubBytesInv, forLoop]

theorem mixLoop_length (m : List (List Nat)) (b p : List Nat) :
    (AES_BASE.mixLoop m b p).length = p.length := by
  simp [AES_BASE.mixLoop, forLoop]

theorem shiftL_length (b : List Nat) : (shiftL b).length = 16 := rfl

theorem shiftR_length (b : List Nat) : (shiftR b).length = 16 := rfl

theorem mixF_length (b : List Nat) : (mixF b).length = 16 := by
  simp [mixF, mixLoop_length]

theorem mixI_length (b : List Nat) : (mixI b).length = 16 := by
  simp [mixI, mixLoop_length]

theorem writeAt_block {b p : List Nat} (hb : b.length = 16) (hp : p.length = 16) :
    writeAt b 0 (readAt p 0 16) = p := by
  have h1 : readAt p 0 16 = p := by
    unfold readAt
    rw [List.drop_zero, List.take_of_length_le (by omega)]
  rw [h1]
  unfold writeAt
  rw [List.take_zero, List.drop_of_length_le (by omega)]
  simp

theorem mixLoop_indep (m : List (List Nat)) {b p : List Nat} (hb : b.length = 16)
    (hp : p.length = 16) :
    AES_BASE.mixLoop m b p = AES_BASE.mixLoop m b (List.replicate 16 0) := by
  obtain ⟨a0, a1, a2, a3, a4, a5, a6, a7, a8, a9, a10, a11, a12, a13, a14, a15, rfl⟩ :=
    length16 hb
  obtain ⟨p0, p1, p2, p3, p4, p5, p6, p7, p8, p9, p10, p11, p12, p13, p14, p15, rfl⟩ :=
    length16 hp
  have z : List.replicate 16 0 = [0, 0, 0, 0, 0, 0, 0, 0, 0, 0, 0, 0, 0, 0, 0, 0] := rfl
  rw [z, mixLoop_cons, mixLoop_cons]

theorem withProc_keyset (s : AES_BASE) (p : List Nat) : (withProc s p).keyset = s.keyset := rfl

theorem withProc_procArray (s : AES_BASE) (p : List Nat) : (withProc s p).procArray = p := rfl

theorem withProc_cls (s : AES_BASE) (p : List Nat) : (withProc s p).cls = s.cls := rfl

theorem withProc_aesMode (s : AES_BASE) (p : List Nat) : (withProc s p).aesMode = s.aesMode := rfl

theorem withProc_bufferLimit (s : AES_BASE) (p : List Nat) :
    (withProc s p).bufferLimit = s.bufferLimit := rfl

theorem withProc_withProc (s : AES_BASE) (p q : List Nat) :
    withProc (withProc s p) q = withProc s q := rfl

theorem withProc_self (s : AES_BASE) : withProc s s.procArray = s := rfl

theorem ShiftRowsLeft_eq (self : AES_BASE) {b : List Nat} (hb : b.length = 16) :
    self.ShiftRowsLeft b = (withProc self (shiftL b), shiftL b) := by
  show (withProc self (shiftL b), writeAt b 0 (readAt (shiftL b) 0 16)) = _
  rw [writeAt_block hb (shiftL_length b)]

theorem ShiftRowsRight_eq (self : AES_BASE) {b : List Nat} (hb : b.length = 16) :
    self.ShiftRowsRight b = (withProc self (shiftR b), shiftR b) := by
  show (withProc self (shiftR b), writeAt b 0 (readAt (shiftR b) 0 16)) = _
  rw [writeAt_block hb (shiftR_length b)]

theorem MixColumns_eq (self : AES_BASE) {b : List Nat} (hb : b.length = 16)
    (hp : self.procArray.length = 16) :
    self.MixColumns b = (withProc self (mixF b), mixF b) := by
  show (withProc self (AES_BASE.mixLoop constMatrix b self.procArray),
    writeAt b 0 (readAt (AES_BASE.mixLoop constMatrix b self.procArray) 0 16)) = _
  rw [writeAt_block hb (by rw [mixLoop_length]; exact hp), mixLoop_indep _ hb hp]
  rfl

theorem MixColumnsInv_eq (self : AES_BASE) {b : List Nat} (hb : b.length = 16)
    (hp : self.procArray.length = 16) :
    self.MixColumnsInv b = (withProc self (mixI b), mixI b) := by
  show (withProc self (AES_BASE.mixLoop constMatrixInv b self.procArray),
    writeAt b 0 (readAt (AES_BASE.mixLoop constMatrixInv b self.procArray) 0 16)) = _
  rw [writeAt_block hb (by rw [mixLoop_length]; exact hp), mixLoop_indep _ hb hp]
  rfl

theorem encRound_length (ks : AES_KEYSET) (i : Nat) (b : List Nat) :
    (encRound ks i b).length = 16 := by
  unfold encRound
  rw [AddRoundKey_length, mixF_length]

theorem decRound_length (ks : AES_KEYSET) (i : Nat) (b : List Nat) :
    (decRound ks i b).length = 16 := by
  unfold decRound
  rw [mixI_length]

/-- The body of the loop of `EncryptBlock`. -/
theorem encBody_eq (s : AES_BASE) {x : List Nat} (hx : x.length = 16) (i : Nat) :
    (((s.ShiftRowsLeft (AES_BASE.SubBytes x)).1.MixColumns
        (s.ShiftRowsLeft (AES_BASE.SubBytes x)).2).1,
      ((s.ShiftRowsLeft (AES_BASE.SubBytes x)).1.MixColumns
        (s.ShiftRowsLeft (AES_BASE.SubBytes x)).2).1.keyset.AddRoundKey
      ((s.ShiftRowsLeft (AES_BASE.SubBytes x)).1.MixColumns
        (s.ShiftRowsLeft (AES_BASE.SubBytes x)).2).2 i) =
      (withProc s (mixF (shiftL (AES_BASE.SubBytes x))), encRound s.keyset i x) := by
  rw [ShiftRowsLeft_eq s (by rw [SubBytes_length]; exact hx)]
  simp only []
  rw [MixColumns_eq _ (shiftL_length _) (by rw [withProc_procArray]; rfl)]
  simp only [withProc_withProc, withProc_keyset, encRound]

/-- The body of the loop of `DecryptBlock`. -/
theorem decBody_eq (s : AES_BASE) {x : List Nat} (hx : x.length = 16) (i : Nat) :
    (s.ShiftRowsRight x).1.MixColumnsInv
        ((s.ShiftRowsRight x).1.keyset.AddRoundKey
          (AES_BASE.SubBytesInv (s.ShiftRowsRight x).2) i) =
      (withProc s (decRound s.keyset i x), decRound s.keyset i x) := by
  rw [ShiftRowsRight_eq s hx]
  simp only []
  rw [MixColumnsInv_eq _ (by rw [AddRoundKey_length, SubBytesInv_length, shiftR_length])
    (by rw [withProc_procArray]; rfl)]
  simp only [withProc_withProc, withProc_keyset, decRound]

theorem encLoop_eq (n : Nat) : ∀ (i : Nat) (s : AES_BASE) (x : List Nat), x.length = 16 →
    ∃ p, forLoop (fun i (st : AES_BASE × List Nat) =>
        let block := AES_BASE.SubBytes st.2
        let st := st.1.ShiftRowsLeft block
        let st := st.1.MixColumns st.2
        (st.1, st.1.keyset.AddRoundKey st.2 i)) n i (s, x) =
      (withProc s p, forLoop (encRound s.keyset) n i x) := by
  induction n with
  | zero => intro i s x _; exact ⟨s.procArray, rfl⟩
  | succ n ih =>
    intro i s x hx
    obtain ⟨p, hp⟩ := ih (i + 1) (withProc s (mixF (shiftL (AES_BASE.SubBytes x))))
      (encRound s.keyset i x) (encRound_length _ _ _)
    refine ⟨p, ?_⟩
    simp only [forLoop]
    rw [encBody_eq s hx i, hp]
    rfl

theorem decLoop_eq (n : Nat) : ∀ (i : Nat) (s : AES_BASE) (x : List Nat), x.length = 16 →
    ∃ p, forLoopDown (fun i (st : AES_BASE × List Nat) =>
        let st := st.1.ShiftRowsRight st.2
        let block := AES_BASE.SubBytesInv st.2
        let block := st.1.keyset.AddRoundKey block i
        st.1.MixColumnsInv block) n i (s, x) =
      (withProc s p, forLoopDown (decRound s.keyset) n i x) := by
  induction n with
  | zero => intro i s x _; exact ⟨s.procArray, rfl⟩
  | succ n ih =>
    intro i s x hx
    obtain ⟨p, hp⟩ := ih (i - 1) (withProc s (decRound s.keyset i x))
      (decRound s.keyset i x) (decRound_length _ _ _)
    refine ⟨p, ?_⟩
    simp only [forLoopDown]
    rw [decBody_eq s hx i, hp]
    rfl

theorem forLoop_length16 (f : Nat → List Nat → List Nat) (hf : ∀ i b, (f i b).length = 16) :
    ∀ n i b, b.length = 16 → (forLoop f n i b).length = 16 := by
  intro n i b hb
  exact forLoop_inv (fun b => b.length = 16) f (fun i a _ => hf i a) n i b hb

theorem forLoopDown_length16 (f : Nat → List Nat → List Nat)
    (hf : ∀ i b, (f i b).length = 16) :
    ∀ n i b, b.length = 16 → (forLoopDown f n i b).length = 16 := by
  intro n i b hb
  exact forLoopDown_inv (fun b => b.length = 16) f (fun i a _ => hf i a) n i b hb

/-- `EncryptBlock` on sixteen bytes: the object keeps everything but `procArray`, and the
block is a function of the key schedule. -/
theorem EncryptBlock_eq (self : AES_BASE) {b : List Nat} (hb : b.length = 16) :
    self.EncryptBlock b = (withProc self (encProc self.keyset b), encBlock self.keyset b) := by
  obtain ⟨p, hp⟩ := encLoop_eq 9 1 self (self.keyset.AddRoundKey b 0)
    (by rw [AddRoundKey_length]; exact hb)
  unfold AES_BASE.EncryptBlock
  simp only []
  rw [hp]
  simp only []
  rw [ShiftRowsLeft_eq _ (by
    rw [SubBytes_length]
    exact forLoop_length16 _ (encRound_length _) _ _ _ (by rw [AddRoundKey_length]; exact hb))]
  simp only [withProc_withProc, withProc_keyset, encProc, encBlock]

/-- `DecryptBlock` on sixteen bytes. -/
theorem DecryptBlock_eq (self : AES_BASE) {b : List Nat} (hb : b.length = 16) :
    self.DecryptBlock b = (withProc self (decProc self.keyset b), decBlock self.keyset b) := by
  obtain ⟨p, hp⟩ := decLoop_eq 9 9 self (self.keyset.AddRoundKey b 10)
    (by rw [AddRoundKey_length]; exact hb)
  unfold AES_BASE.DecryptBlock
  simp only []
  rw [hp]
  simp only []
  rw [ShiftRowsRight_eq _ (forLoopDown_length16 _ (decRound_length _) _ _ _
    (by rw [AddRoundKey_length]; exact hb))]
  simp only [withProc_withProc, withProc_keyset, decProc, decBlock]

theorem encBlock_length (ks : AES_KEYSET) (b : List Nat) : (encBlock ks b).length = 16 := by
  unfold encBlock
  rw [AddRoundKey_length, shiftL_length]

theorem decBlock_length (ks : AES_KEYSET) (b : List Nat) : (decBlock ks b).length = 16 := by
  unfold decBlock
  rw [AddRoundKey_length, SubBytesInv_length, shiftR_length]

/-! ## The decrypt transform undoes the encrypt transform -/

theorem encRound_block {ks : AES_KEYSET} (hks : KeysWF ks) (i : Nat) {x : List Nat}
    (hx : IsBlock x) : IsBlock (encRound ks i x) := by
  unfold encRound
  exact AddRoundKey_block hks (mix_inv (shiftL_inv (SubBytes_inv hx).2).2).2.1 i

theorem decRound_block {ks : AES_KEYSET} (hks : KeysWF ks) (i : Nat) {x : List Nat}
    (hx : IsBlock x) : IsBlock (decRound ks i x) := by
  unfold decRound
  exact (mix_inv (AddRoundKey_block hks (SubBytesInv_inv (shiftR_inv hx).2).2 i)).2.2.2

theorem decRound_encRound {ks : AES_KEYSET} (hks : KeysWF ks) (i : Nat) {x : List Nat}
    (hx : IsBlock x) :
    decRound ks i (shiftL (AES_BASE.SubBytes (encRound ks i x))) =
      shiftL (AES_BASE.SubBytes x) := by
  have h1 := encRound_block hks i hx
  have h2 := SubBytes_inv h1
  have h3 := shiftL_inv h2.2
  have h4 := shiftL_inv (SubBytes_inv hx).2
  unfold decRound
  rw [h3.1, h2.1]
  unfold encRound
  rw [AddRoundKey_inv ks (mixF_length _), (mix_inv h4.2).1]

theorem encRound_decRound {ks : AES_KEYSET} (hks : KeysWF ks) (i : Nat) {x : List Nat}
    (hx : IsBlock x) :
    encRound ks i (AES_BASE.SubBytesInv (shiftR (decRound ks i x))) =
      AES_BASE.SubBytesInv (shiftR x) := by
  have h1 := decRound_block hks i hx
  have h2 := shiftR_inv h1
  have h3 := SubBytesInv_inv h2.2
  have h4 := SubBytesInv_inv (shiftR_inv hx).2
  unfold encRound
  rw [h3.1, h2.1]
  unfold decRound
  rw [(mix_inv (AddRoundKey_block hks h4.2 i)).2.2.1,
    AddRoundKey_inv ks (by rw [SubBytesInv_length, shiftR_length])]

theorem decLoop_encLoop {ks : AES_KEYSET} (hks : KeysWF ks) (n : Nat) :
    ∀ (i : Nat) (x : List Nat), IsBlock x →
      forLoopDown (decRound ks) n (i + n - 1)
          (shiftL (AES_BASE.SubBytes (forLoop (encRound ks) n i x))) =
        shiftL (AES_BASE.SubBytes x) := by
  induction n with
  | zero => intro i x _; rfl
  | succ n ih =>
    intro i x hx
    rw [forLoop_snoc]
    have hb : IsBlock (forLoop (encRound ks) n i x) :=
      forLoop_inv IsBlock (encRound ks) (fun j a ha => encRound_block hks j ha) n i x hx
    have e : i + (n + 1) - 1 = i + n := by omega
    rw [e]
    show forLoopDown (decRound ks) n (i + n - 1) (decRound ks (i + n) _) = _
    rw [decRound_encRound hks _ hb]
    exact ih i x hx

theorem forLoopDown_snoc {σ : Type} (f : Nat → σ → σ) :
    ∀ n i a, forLoopDown f (n + 1) i a = f (i - n) (forLoopDown f n i a) := by
  intro n
  induction n with
  | zero => intro i a; simp [forLoopDown]
  | succ n ih =>
    intro i a
    have h1 : forLoopDown f (n + 1 + 1) i a = forLoopDown f (n + 1) (i - 1) (f i a) := rfl
    rw [h1, ih]
    have h2 : forLoopDown f (n + 1) i a = forLoopDown f n (i - 1) (f i a) := rfl
    rw [h2]
    congr 1
    omega

theorem encLoop_decLoop {ks : AES_KEYSET} (hks : KeysWF ks) (n : Nat) :
    ∀ (i : Nat) (x : List Nat), IsBlock x →
      forLoop (encRound ks) n (i + 1)
          (AES_BASE.SubBytesInv (shiftR (forLoopDown (decRound ks) n (i + n) x))) =
        AES_BASE.SubBytesInv (shiftR x) := by
  induction n with
  | zero => intro i x _; rfl
  | succ n ih =>
    intro i x hx
    rw [forLoopDown_snoc]
    have hb : IsBlock (forLoopDown (decRound ks) n (i + (n + 1)) x) :=
      forLoopDown_inv IsBlock (decRound ks) (fun j a ha => decRound_block hks j ha) n _ x hx
    have e : i + (n + 1) - n = i + 1 := by omega
    rw [e]
    show forLoop (encRound ks) n (i + 1 + 1) (encRound ks (i + 1) _) = _
    rw [encRound_decRound hks _ hb]
    have e2 : i + (n + 1) = i + 1 + n := by omega
    rw [e2]
    exact ih (i + 1) x hx

theorem decBlock_encBlock {ks : AES_KEYSET} (hks : KeysWF ks) {b : List Nat} (hb : IsBlock b) :
    decBlock ks (encBlock ks b) = b := by
  have h0 := AddRoundKey_block hks hb 0
  unfold decBlock encBlock
  rw [AddRoundKey_inv ks (shiftL_length _)]
  have := decLoop_encLoop hks 9 1 _ h0
  rw [this, (shiftL_inv (SubBytes_inv h0).2).1, (SubBytes_inv h0).1,
    AddRoundKey_inv ks hb.1]

theorem encBlock_decBlock {ks : AES_KEYSET} (hks : KeysWF ks) {b : List Nat} (hb : IsBlock b) :
    encBlock ks (decBlock ks b) = b := by
  have h0 := AddRoundKey_block hks hb 10
  unfold decBlock encBlock
  rw [AddRoundKey_inv ks (by rw [SubBytesInv_length, shiftR_length])]
  have := encLoop_decLoop hks 9 0 _ h0
  rw [this, (SubBytesInv_inv (shiftR_inv h0).2).1, (shiftR_inv h0).1,
    AddRoundKey_inv ks hb.1]

theorem encBlock_block {ks : AES_KEYSET} (hks : KeysWF ks) {b : List Nat} (hb : IsBlock b) :
    IsBlock (encBlock ks b) := by
  unfold encBlock
  have h1 : IsBlock (forLoop (encRound ks) 9 1 (ks.AddRoundKey b 0)) :=
    forLoop_inv IsBlock (encRound ks) (fun j a ha => encRound_block hks j ha) 9 1 _
      (AddRoundKey_block hks hb 0)
  exact AddRoundKey_block hks (shiftL_inv (SubBytes_inv h1).2).2 10

theorem decBlock_block {ks : AES_KEYSET} (hks : KeysWF ks) {b : List Nat} (hb : IsBlock b) :
    IsBlock (decBlock ks b) := by
  unfold decBlock
  have h1 : IsBlock (forLoopDown (decRound ks) 9 9 (ks.AddRoundKey b 10)) :=
    forLoopDown_inv IsBlock (decRound ks) (fun j a ha => decRound_block hks j ha) 9 9 _
      (AddRoundKey_block hks hb 10)
  exact AddRoundKey_block hks (SubBytesInv_inv (shiftR_inv h1).2).2 0

/-! ## Loops over the blocks of a buffer -/

theorem writeAt_length {mem data : List Nat} {off : Nat} (h : off + data.length ≤ mem.length) :
    (writeAt mem off data).length = mem.length := by
  unfold writeAt
  simp only [List.length_append, List.length_take, List.length_drop]
  omega

theorem writeAt_take {mem data : List Nat} {off : Nat} (h : off ≤ mem.length) :
    (writeAt mem off data).take (off + data.length) = mem.take off ++ data := by
  unfold writeAt
  rw [List.take_append_of_le_length (by simp; omega), List.take_of_length_le (by simp)]

theorem writeAt_drop {mem data : List Nat} {off : Nat} (h : off ≤ mem.length) :
    (writeAt mem off data).drop (off + data.length) = mem.drop (off + data.length) := by
  unfold writeAt
  have hl : (List.take off mem ++ data).length = off + data.length := by simp; omega
  rw [← hl, List.drop_left]

theorem forLoop_chunks {σ : Type} (Inv : σ → Prop) (step : σ → List Nat → σ × List Nat)
    (body : Nat → σ × List Nat → σ × List Nat)
    (hbody : ∀ i st, body i st = ((step st.1 (readAt st.2 (i * 16) 16)).1,
      writeAt st.2 (i * 16) (step st.1 (readAt st.2 (i * 16) 16)).2))
    (hinv : ∀ s b, Inv s → b.length = 16 → Inv (step s b).1 ∧ (step s b).2.length = 16) :
    ∀ n i s stream, Inv s → (i + n) * 16 ≤ stream.length →
      forLoop body n i (s, stream) =
        ((chunks step n s (stream.drop (i * 16))).1,
          stream.take (i * 16) ++ (chunks step n s (stream.drop (i * 16))).2) := by
  intro n
  induction n with
  | zero =>
    intro i s stream _ _
    simp [forLoop, chunks]
  | succ n ih =>
    intro i s stream hs hlen
    have hblk : (readAt stream (i * 16) 16).length = 16 := by
      unfold readAt
      simp only [List.length_take, List.length_drop]
      omega
    obtain ⟨hs', hl'⟩ := hinv s _ hs hblk
    have hw : (writeAt stream (i * 16) (step s (readAt stream (i * 16) 16)).2).length =
        stream.length := writeAt_length (by rw [hl']; omega)
    have e1 : (i + 1) * 16 = i * 16 + (step s (readAt stream (i * 16) 16)).2.length := by
      rw [hl']; omega
    simp only [forLoop]
    rw [hbody, ih (i + 1) _ _ hs' (by rw [hw]; omega)]
    simp only []
    rw [e1, writeAt_take (by omega), writeAt_drop (by omega), hl']
    simp only [chunks, readAt, List.drop_drop, List.append_assoc]

/-! ## `BlockXOR` and `XORIV` as bytewise XOR -/

theorem getD_append_length (pre a : List Nat) (x : Nat) :
    (pre ++ x :: a).getD pre.length 0 = x := by
  induction pre with
  | nil => rfl
  | cons p pre ih => simpa using ih

theorem xorLoop_eq (n : Nat) : ∀ (pre a bpre b : List Nat), pre.length = bpre.length →
    n ≤ a.length → n ≤ b.length →
    forLoop (fun i x => x.set i (x.getD i 0 ^^^ (bpre ++ b).getD i 0)) n pre.length (pre ++ a) =
      pre ++ xorBytes (a.take n) b ++ a.drop n := by
  induction n with
  | zero => intro pre a bpre b _ _ _; simp [forLoop, xorBytes]
  | succ n ih =>
    intro pre a bpre b hp ha hb
    match a, b, ha, hb with
    | x :: a', y :: b', ha, hb =>
      simp only [List.length_cons, Nat.add_le_add_iff_right] at ha hb
      simp only [forLoop]
      have e1 : (pre ++ x :: a').getD pre.length 0 = x := getD_append_length _ _ _
      have e2 : (bpre ++ y :: b').getD pre.length 0 = y := by
        rw [hp]; exact getD_append_length _ _ _
      have e3 : (pre ++ x :: a').set pre.length (x ^^^ y) = (pre ++ [x ^^^ y]) ++ a' := by
        simp [List.set_append]
      have e4 : bpre ++ y :: b' = (bpre ++ [y]) ++ b' := by simp
      rw [e1, e2, e3, e4]
      have := ih (pre ++ [x ^^^ y]) a' (bpre ++ [y]) b' (by simp [hp]) ha hb
      simp only [List.length_append, List.length_singleton] at this
      rw [this]
      simp [xorBytes]

theorem BlockXOR_eq {a b : List Nat} {n : Nat} (ha : n ≤ a.length) (hb : n ≤ b.length) :
    AES_BASE.BlockXOR a b n = xorBytes (a.take n) b ++ a.drop n := by
  unfold AES_BASE.BlockXOR
  split
  · next h => subst h; simp [xorBytes]
  · have := xorLoop_eq n [] a [] b rfl ha hb
    simpa using this

theorem XORIV_eq (ks : AES_KEYSET) {b : List Nat} (hb : b.length = 16)
    (hiv : ks.iv.length = 16) : ks.XORIV b = xorBytes b ks.iv := by
  unfold AES_KEYSET.XORIV
  have := xorLoop_eq 16 [] b [] ks.iv rfl (by omega) (by omega)
  simp only [List.nil_append, List.length_nil] at this
  rw [this, List.take_of_length_le (by omega), List.drop_of_length_le (by omega)]
  simp

theorem XORIV2_eq (ks : AES_KEYSET) {b : List Nat} (hb : b.length = 16)
    (hiv : ks.iv.length = 16) (iv : Option (List Nat)) : ks.XORIV2 b iv = xorBytes b ks.iv := by
  cases iv with
  | none => exact XORIV_eq ks hb hiv
  | some v => exact XORIV_eq ks hb hiv

theorem xorBytes_length (a b : List Nat) : (xorBytes a b).length = min a.length b.length := by
  simp [xorBytes]

theorem xorBytes_cancel : ∀ (a b : List Nat), a.length ≤ b.length →
    xorBytes (xorBytes a b) b = a := by
  intro a
  induction a with
  | nil => intro b _; simp [xorBytes]
  | cons x a ih =>
    intro b hb
    match b, hb with
    | y :: b', hb =>
      simp only [List.length_cons, Nat.add_le_add_iff_right] at hb
      have := ih b' hb
      simp only [xorBytes, List.zipWith_cons_cons] at this ⊢
      rw [this, Nat.xor_assoc, Nat.xor_self, Nat.xor_zero]

theorem xorBytes_comm (a b : List Nat) : xorBytes a b = xorBytes b a := by
  unfold xorBytes
  rw [List.zipWith_comm]
  congr 1
  funext x y
  exact Nat.xor_comm y x

/-! ## OFB -/

theorem and15 (x : Nat) : x &&& 0x0F = x % 16 :=
  Nat.and_pow_two_sub_one_eq_mod x 4

theorem ivBlock_eq {ks : AES_KEYSET} (h : ks.iv.length = 16) : ivBlock ks = ks.iv := by
  unfold ivBlock AES_KEYSET.GetIV
  exact writeAt_block rfl h

theorem ivBlock_length (ks : AES_KEYSET) : (ivBlock ks).length = 16 := by
  unfold ivBlock AES_KEYSET.GetIV writeAt readAt
  simp only [List.length_append, List.length_take, List.length_drop, List.length_replicate,
    List.take_zero, List.length_nil]
  omega

theorem chunks_rel {σ τ : Type} (R : σ → τ → Prop) (f : σ → List Nat → σ × List Nat)
    (g : τ → List Nat → τ × List Nat)
    (h : ∀ s t b, R s t → b.length = 16 → R (f s b).1 (g t b).1 ∧ (f s b).2 = (g t b).2) :
    ∀ n s t l, R s t → n * 16 ≤ l.length →
      R (chunks f n s l).1 (chunks g n t l).1 ∧ (chunks f n s l).2 = (chunks g n t l).2 := by
  intro n
  induction n with
  | zero => intro s t l hst _; exact ⟨hst, rfl⟩
  | succ n ih =>
    intro s t l hst hl
    have hb : (l.take 16).length = 16 := by simp only [List.length_take]; omega
    obtain ⟨h1, h2⟩ := h s t _ hst hb
    obtain ⟨h3, h4⟩ := ih _ _ (l.drop 16) h1 (by simp only [List.length_drop]; omega)
    simp only [chunks]
    exact ⟨h3, by rw [h2, h4]⟩

theorem xorBytes_append {a b c d : List Nat} (h : a.length = c.length) :
    xorBytes (a ++ b) (c ++ d) = xorBytes a c ++ xorBytes b d := by
  unfold xorBytes
  exact List.zipWith_append _ _ _ _ _ h

theorem ofbKeys_length (ks : AES_KEYSET) (n : Nat) :
    ∀ last, (ofbKeys ks n last).length = n * 16 := by
  induction n with
  | zero => intro _; rfl
  | succ n ih =>
    intro last
    simp only [ofbKeys, List.length_append, encBlock_length, ih]
    omega

theorem chunks_ofb (ks : AES_KEYSET) (n : Nat) : ∀ (last l : List Nat), n * 16 ≤ l.length →
    (chunks (ofbStep ks) n last l).2 =
      xorBytes (l.take (n * 16)) (ofbKeys ks n last) ++ l.drop (n * 16) ∧
    (chunks (ofbStep ks) n last l).1 = (encBlock ks)^[n] last := by
  induction n with
  | zero => intro last l _; simp [chunks, xorBytes, ofbKeys]
  | succ n ih =>
    intro last l hl
    obtain ⟨h1, h2⟩ := ih (encBlock ks last) (l.drop 16)
      (by simp only [List.length_drop]; omega)
    simp only [chunks, ofbStep, ofbKeys, Function.iterate_succ, Function.comp_apply]
    refine ⟨?_, h2⟩
    rw [h1]
    have e : (n + 1) * 16 = 16 + n * 16 := by omega
    rw [e, List.take_add, xorBytes_append (by simp [encBlock_length]; omega), List.drop_drop,
      List.append_assoc]

theorem ofb_step_inv (s : AES_BASE × List Nat) (b : List Nat) (hs : s.2.length = 16)
    (hb : b.length = 16) :
    (s.1.EncryptBlock s.2).2.length = 16 ∧
      (AES_BASE.BlockXOR b (s.1.EncryptBlock s.2).2 16).length = 16 := by
  rw [EncryptBlock_eq _ hs]
  simp only []
  rw [BlockXOR_eq (by omega) (by rw [encBlock_length])]
  simp [xorBytes_length, encBlock_length, hb]

theorem ofb_loop (self : AES_BASE) (stream : List Nat) (n : Nat) (hn : n * 16 ≤ stream.length) :
    ∃ p, forLoop (fun i (st : (AES_BASE × List Nat) × List Nat) =>
        let r := st.1.1.EncryptBlock st.1.2
        (r, writeAt st.2 (i * 16) (AES_BASE.BlockXOR (readAt st.2 (i * 16) 16) r.2 16)))
        n 0 ((self, ivBlock self.keyset), stream) =
      ((withProc self p, (encBlock self.keyset)^[n] (ivBlock self.keyset)),
        xorBytes (stream.take (n * 16)) (ofbKeys self.keyset n (ivBlock self.keyset)) ++
          stream.drop (n * 16)) := by
  have h1 := forLoop_chunks (fun (s : AES_BASE × List Nat) => s.2.length = 16)
    (fun (s : AES_BASE × List Nat) blk =>
      (s.1.EncryptBlock s.2, AES_BASE.BlockXOR blk (s.1.EncryptBlock s.2).2 16))
    (fun i (st : (AES_BASE × List Nat) × List Nat) =>
        let r := st.1.1.EncryptBlock st.1.2
        (r, writeAt st.2 (i * 16) (AES_BASE.BlockXOR (readAt st.2 (i * 16) 16) r.2 16)))
    (fun i st => by dsimp only)
    (fun s b hs hb => ofb_step_inv s b hs hb)
    n 0 (self, ivBlock self.keyset) stream (ivBlock_length _) (by omega)
  have h2 := chunks_rel
    (fun (s : AES_BASE × List Nat) (t : List Nat) =>
      s.2 = t ∧ t.length = 16 ∧ ∃ p, s.1 = withProc self p)
    (fun (s : AES_BASE × List Nat) blk =>
      (s.1.EncryptBlock s.2, AES_BASE.BlockXOR blk (s.1.EncryptBlock s.2).2 16))
    (ofbStep self.keyset)
    (by
      rintro ⟨s, last⟩ t b ⟨h, ht, p, hp⟩ hb
      simp only at h hp
      subst h hp
      simp only [ofbStep]
      rw [EncryptBlock_eq _ ht]
      simp only [withProc_keyset, withProc_withProc]
      rw [BlockXOR_eq (by omega) (by rw [encBlock_length]),
        List.take_of_length_le (by omega), List.drop_of_length_le (by omega)]
      exact ⟨⟨trivial, encBlock_length _ _, _, rfl⟩, by simp⟩)
    n (self, ivBlock self.keyset) (ivBlock self.keyset) stream
    ⟨rfl, ivBlock_length _, self.procArray, rfl⟩ (by omega)
  obtain ⟨⟨h3, _, p, h4⟩, h5⟩ := h2
  obtain ⟨h6, h7⟩ := chunks_ofb self.keyset n (ivBlock self.keyset) stream hn
  refine ⟨p, ?_⟩
  rw [h1]
  simp only [Nat.zero_mul, List.drop_zero, List.take_zero, List.nil_append]
  rw [h5, h6, ← h7, ← h3, ← h4]

theorem ofbKeys_snoc (ks : AES_KEYSET) (n : Nat) : ∀ last,
    ofbKeys ks (n + 1) last = ofbKeys ks n last ++ encBlock ks ((encBlock ks)^[n] last) := by
  induction n with
  | zero => intro last; simp [ofbKeys]
  | succ n ih =>
    intro last
    have e : ofbKeys ks (n + 1 + 1) last =
        encBlock ks last ++ ofbKeys ks (n + 1) (encBlock ks last) := rfl
    rw [e, ih (encBlock ks last)]
    simp [ofbKeys]

theorem iterate_encBlock_length (ks : AES_KEYSET) (n : Nat) {last : List Nat}
    (h : last.length = 16) : ((encBlock ks)^[n] last).length = 16 := by
  cases n with
  | zero => exact h
  | succ n => rw [Function.iterate_succ_apply']; exact encBlock_length _ _

theorem readAt_length {mem : List Nat} {off len : Nat} (h : off + len ≤ mem.length) :
    (readAt mem off len).length = len := by
  unfold readAt
  simp only [List.length_take, List.length_drop]
  omega

theorem drop_append_len {A B : List Nat} {k : Nat} (h : A.length = k) :
    (A ++ B).drop k = B := by
  subst h; exact List.drop_left _ _

theorem take_append_len {A B : List Nat} {k : Nat} (h : A.length = k) :
    (A ++ B).take k = A := by
  subst h; exact List.take_left _ _

theorem drop_append_len_add {A B : List Nat} {k : Nat} (h : A.length = k) (m : Nat) :
    (A ++ B).drop (k + m) = B.drop m := by
  subst h
  rw [← List.drop_drop, List.drop_left]

theorem div16_le (length : Nat) : length / 16 * 16 ≤ length := Nat.div_mul_le_self length 16

theorem div16_add (length : Nat) : length / 16 * 16 + length % 16 = length := by
  have := Nat.div_add_mod length 16
  omega

/-- The stream transform of OFB, in both directions: the buffer is XORed with the keystream. -/
theorem OFB_stream_eq (self : AES_BASE) (stream : List Nat) (length : Nat) (h0 : length ≠ 0)
    (hl : length ≤ stream.length) :
    ∃ p, AES_OFB.EncryptStream self stream length =
      (withProc self p,
        xorBytes (stream.take length)
          (ofbKeys self.keyset (length / 16 + 1) (ivBlock self.keyset)) ++
        stream.drop length) := by
  have hd := div16_le length
  have hm := div16_add length
  obtain ⟨p, hp⟩ := ofb_loop self stream (length / 16) (by omega)
  have hiv : writeAt (List.replicate 16 0) 0 self.keyset.GetIV = ivBlock self.keyset := rfl
  have hK := iterate_encBlock_length self.keyset (length / 16) (ivBlock_length self.keyset)
  have hA : (xorBytes (List.take (length / 16 * 16) stream)
      (ofbKeys self.keyset (length / 16) (ivBlock self.keyset))).length = length / 16 * 16 := by
    rw [xorBytes_length, ofbKeys_length, List.length_take]
    omega
  have htarget : xorBytes (stream.take length)
      (ofbKeys self.keyset (length / 16 + 1) (ivBlock self.keyset)) ++ stream.drop length =
      xorBytes (List.take (length / 16 * 16) stream)
        (ofbKeys self.keyset (length / 16) (ivBlock self.keyset)) ++
      xorBytes ((stream.drop (length / 16 * 16)).take (length % 16))
        (encBlock self.keyset ((encBlock self.keyset)^[length / 16] (ivBlock self.keyset))) ++
      stream.drop (length / 16 * 16 + length % 16) := by
    rw [ofbKeys_snoc]
    generalize length / 16 = n at hm ⊢
    generalize length % 16 = r at hm ⊢
    subst hm
    rw [List.take_add, xorBytes_append (by rw [ofbKeys_length, List.length_take]; omega)]
  rw [htarget]
  unfold AES_OFB.EncryptStream
  rw [if_neg h0]
  simp only []
  rw [hiv, hp, and15]
  simp only []
  by_cases hr : length % 16 = 0
  · rw [if_neg (by simpa using hr)]
    refine ⟨p, ?_⟩
    rw [hr]
    simp [xorBytes]
  · rw [if_pos hr, EncryptBlock_eq _ hK]
    simp only [withProc_withProc, withProc_keyset]
    refine ⟨encProc self.keyset ((encBlock self.keyset)^[length / 16] (ivBlock self.keyset)), ?_⟩
    congr 1
    have hw : readAt (xorBytes (List.take (length / 16 * 16) stream)
          (ofbKeys self.keyset (length / 16) (ivBlock self.keyset)) ++
        List.drop (length / 16 * 16) stream) (length / 16 * 16) (length % 16) =
        (stream.drop (length / 16 * 16)).take (length % 16) := by
      unfold readAt
      rw [drop_append_len hA]
    have hwl : ((stream.drop (length / 16 * 16)).take (length % 16)).length = length % 16 := by
      simp only [List.length_take, List.length_drop]
      omega
    have hlt : length % 16 < 16 := Nat.mod_lt _ (by decide)
    have hbx := @BlockXOR_eq ((stream.drop (length / 16 * 16)).take (length % 16))
      (encBlock self.keyset ((encBlock self.keyset)^[length / 16] (ivBlock self.keyset)))
      (length % 16) (by omega) (by rw [encBlock_length]; omega)
    rw [List.take_of_length_le (Nat.le_of_eq hwl), List.drop_of_length_le (Nat.le_of_eq hwl),
      List.append_nil] at hbx
    rw [hw, hbx]
    unfold writeAt
    rw [xorBytes_length, hwl, encBlock_length, Nat.min_eq_left (by omega), take_append_len hA,
      drop_append_len_add hA, List.drop_drop]

theorem xorBytes_getD (a b : List Nat) : ∀ (p : Nat), p < a.length → p < b.length →
    (xorBytes a b).getD p 0 = a.getD p 0 ^^^ b.getD p 0 := by
  intro p ha hb
  unfold xorBytes
  simp only [List.getD_eq_getElem?_getD, List.getElem?_zipWith, List.getElem?_eq_getElem ha,
    List.getElem?_eq_getElem hb]
  rfl

theorem getD_append_lt (a b : List Nat) {p : Nat} (h : p < a.length) :
    (a ++ b).getD p 0 = a.getD p 0 := by
  simp only [List.getD_eq_getElem?_getD, List.getElem?_append_left h]

theorem getD_append_ge (a b : List Nat) {p : Nat} (h : a.length ≤ p) :
    (a ++ b).getD p 0 = b.getD (p - a.length) 0 := by
  simp only [List.getD_eq_getElem?_getD, List.getElem?_append_right h]

theorem getD_take_lt (a : List Nat) {p n : Nat} (h : p < n) :
    (a.take n).getD p 0 = a.getD p 0 := by
  simp only [List.getD_eq_getElem?_getD, List.getElem?_take_of_lt h]

theorem getD_drop (a : List Nat) (p n : Nat) : (a.drop n).getD p 0 = a.getD (n + p) 0 := by
  simp only [List.getD_eq_getElem?_getD, List.getElem?_drop]

theorem ofbKeys_getD (ks : AES_KEYSET) (n : Nat) : ∀ (last : List Nat) (p : Nat), p < n * 16 →
    (ofbKeys ks n last).getD p 0 = ((encBlock ks)^[p / 16 + 1] last).getD (p % 16) 0 := by
  induction n with
  | zero => intro last p hp; omega
  | succ n ih =>
    intro last p hp
    simp only [ofbKeys]
    by_cases h : p < 16
    · rw [getD_append_lt _ _ (by rw [encBlock_length]; exact h)]
      have e1 : p / 16 = 0 := Nat.div_eq_of_lt h
      have e2 : p % 16 = p := Nat.mod_eq_of_lt h
      rw [e1, e2]
      rfl
    · rw [getD_append_ge _ _ (by rw [encBlock_length]; omega), encBlock_length,
        ih _ _ (by omega)]
      have e1 : (p - 16) / 16 + 1 = p / 16 := by omega
      have e2 : (p - 16) % 16 = p % 16 := by omega
      rw [e2, ← Function.iterate_succ_apply, e1]

theorem ofbKey_eq (self : AES_BASE) (j : Nat) :
    ofbKey self j = (encBlock self.keyset)^[j] (ivBlock self.keyset) ∧
      (ofbKey self j).length = 16 := by
  induction j with
  | zero =>
    have e : ofbKey self 0 = ivBlock self.keyset := by rw [ofbKey, ivBlock]
    rw [e]
    exact ⟨rfl, ivBlock_length _⟩
  | succ j ih =>
    have e : ofbKey self (j + 1) = (self.EncryptBlock (ofbKey self j)).2 := by rw [ofbKey]
    rw [e, EncryptBlock_eq _ ih.2, Function.iterate_succ_apply', ← ih.1]
    simp only [encBlock_length, and_self]

/-- The bytes that the stream transform of OFB leaves: below `length` the byte XORed with the
keystream byte, from `length` on the byte itself. -/
theorem OFB_getD (self : AES_BASE) (stream : List Nat) (length : Nat) (h0 : length ≠ 0)
    (hl : length ≤ stream.length) (q : Nat) :
    (AES_OFB.EncryptStream self stream length).2.getD q 0 =
      if q < length then stream.getD q 0 ^^^ (ofbKey self (q / 16 + 1)).getD (q % 16) 0
      else stream.getD q 0 := by
  obtain ⟨p, hp⟩ := OFB_stream_eq self stream length h0 hl
  have hm := div16_add length
  have hlt : length % 16 < 16 := Nat.mod_lt _ (by decide)
  rw [hp]
  simp only []
  have hlen : (xorBytes (stream.take length)
      (ofbKeys self.keyset (length / 16 + 1) (ivBlock self.keyset))).length = length := by
    rw [xorBytes_length, ofbKeys_length, List.length_take]
    omega
  by_cases hq : q < length
  · rw [if_pos hq, getD_append_lt _ _ (by rw [hlen]; exact hq),
      xorBytes_getD _ _ _ (by rw [List.length_take]; omega) (by rw [ofbKeys_length]; omega),
      getD_take_lt _ hq, ofbKeys_getD _ _ _ _ (by omega), (ofbKey_eq self _).1]
  · rw [if_neg hq, getD_append_ge _ _ (by rw [hlen]; omega), hlen, getD_drop]
    congr 1
    omega

/-! ## CFB -/

theorem cfbKeys_length (ks : AES_KEYSET) (n : Nat) :
    ∀ last c, (cfbKeys ks n last c).length = n * 16 := by
  induction n with
  | zero => intro _ _; rfl
  | succ n ih =>
    intro last c
    simp only [cfbKeys, List.length_append, encBlock_length, ih]
    omega

theorem cfbPrev_succ (last c : List Nat) (j : Nat) :
    cfbPrev last c (j + 1) = cfbPrev (c.take 16) (c.drop 16) j := by
  unfold cfbPrev readAt
  by_cases hj : j = 0
  · subst hj; simp
  · simp only [hj, if_false, Nat.add_sub_cancel, Nat.add_one_ne_zero, List.drop_drop]
    obtain ⟨k, rfl⟩ := Nat.exists_eq_succ_of_ne_zero hj
    congr 2
    simp only [Nat.succ_eq_add_one, Nat.add_sub_cancel]
    omega

theorem cfbKeys_snoc (ks : AES_KEYSET) (n : Nat) : ∀ last c,
    cfbKeys ks (n + 1) last c = cfbKeys ks n last c ++ encBlock ks (cfbPrev last c n) := by
  induction n with
  | zero => intro last c; simp [cfbKeys, cfbPrev]
  | succ n ih =>
    intro last c
    have e : cfbKeys ks (n + 1 + 1) last c =
        encBlock ks last ++ cfbKeys ks (n + 1) (c.take 16) (c.drop 16) := rfl
    rw [e, ih, cfbPrev_succ]
    simp [cfbKeys]

theorem cfbKeys_getD (ks : AES_KEYSET) (n : Nat) : ∀ (last c : List Nat) (p : Nat),
    p < n * 16 →
    (cfbKeys ks n last c).getD p 0 = (encBlock ks (cfbPrev last c (p / 16))).getD (p % 16) 0 := by
  induction n with
  | zero => intro last c p hp; omega
  | succ n ih =>
    intro last c p hp
    simp only [cfbKeys]
    by_cases h : p < 16
    · rw [getD_append_lt _ _ (by rw [encBlock_length]; exact h)]
      have e1 : p / 16 = 0 := Nat.div_eq_of_lt h
      have e2 : p % 16 = p := Nat.mod_eq_of_lt h
      rw [e1, e2]
      rfl
    · rw [getD_append_ge _ _ (by rw [encBlock_length]; omega), encBlock_length,
        ih _ _ _ (by omega)]
      have e1 : p / 16 = (p - 16) / 16 + 1 := by omega
      have e2 : (p - 16) % 16 = p % 16 := by omega
      rw [e2, e1, cfbPrev_succ]

theorem chunks_cfbDec (ks : AES_KEYSET) (n : Nat) : ∀ (last l : List Nat), n * 16 ≤ l.length →
    (chunks (cfbDecStep ks) n last l).2 =
      xorBytes (l.take (n * 16)) (cfbKeys ks n last l) ++ l.drop (n * 16) ∧
    (chunks (cfbDecStep ks) n last l).1 = cfbPrev last l n := by
  induction n with
  | zero => intro last l _; simp [chunks, xorBytes, cfbKeys, cfbPrev]
  | succ n ih =>
    intro last l hl
    obtain ⟨h1, h2⟩ := ih (l.take 16) (l.drop 16) (by simp only [List.length_drop]; omega)
    simp only [chunks, cfbDecStep, cfbKeys]
    refine ⟨?_, by rw [h2, cfbPrev_succ]⟩
    rw [h1]
    have e : (n + 1) * 16 = 16 + n * 16 := by omega
    rw [e, List.take_add, xorBytes_append (by simp [encBlock_length]; omega), List.drop_drop,
      List.append_assoc]

theorem cfbPrev_length {last c : List Nat} (n : Nat) (hlast : last.length = 16)
    (hc : n * 16 ≤ c.length) : (cfbPrev last c n).length = 16 := by
  unfold cfbPrev
  split
  · exact hlast
  · exact readAt_length (by omega)

theorem writeAt_full {a b : List Nat} (h : a.length = b.length) : writeAt a 0 b = b := by
  unfold writeAt
  rw [List.take_zero, List.drop_of_length_le (by omega)]
  simp

theorem readAt_full {a : List Nat} {n : Nat} (h : a.length = n) : readAt a 0 n = a := by
  unfold readAt
  rw [List.drop_zero, List.take_of_length_le (by omega)]

theorem cfbDecSt_eq (self : AES_BASE) (s : AES_BASE × List Nat) (b : List Nat)
    (hs : s.2.length = 16) (hb : b.length = 16) (p : List Nat) (hp : s.1 = withProc self p) :
    cfbDecSt s b = ((withProc self b, b), xorBytes b (encBlock self.keyset s.2)) := by
  unfold cfbDecSt
  simp only []
  rw [EncryptBlock_eq _ hs, hp]
  simp only [withProc_keyset, withProc_withProc, withProc_procArray]
  have e1 : writeAt (encProc self.keyset s.2) 0 b = b := writeAt_full (by rw [hb]; rfl)
  rw [e1, readAt_full hb, writeAt_full (by rw [encBlock_length, hb]),
    BlockXOR_eq (by omega) (by rw [encBlock_length]),
    List.take_of_length_le (by omega), List.drop_of_length_le (by omega), List.append_nil]
  rfl

theorem cfbDec_loop (self : AES_BASE) (stream : List Nat) (n : Nat)
    (hn : n * 16 ≤ stream.length) :
    ∃ p, forLoop (fun i (st : (AES_BASE × List Nat) × List Nat) =>
        let r := st.1.1.EncryptBlock st.1.2
        let self := { r.1 with
          procArray := writeAt r.1.procArray 0 (readAt st.2 (i * 16) 16) }
        let block := AES_BASE.BlockXOR (readAt st.2 (i * 16) 16) r.2 16
        ((self, writeAt r.2 0 (readAt self.procArray 0 16)), writeAt st.2 (i * 16) block))
        n 0 ((self, ivBlock self.keyset), stream) =
      ((withProc self p, cfbPrev (ivBlock self.keyset) stream n),
        xorBytes (stream.take (n * 16)) (cfbKeys self.keyset n (ivBlock self.keyset) stream) ++
          stream.drop (n * 16)) := by
  have hrel := chunks_rel
    (fun (s : AES_BASE × List Nat) (t : List Nat) =>
      s.2 = t ∧ t.length = 16 ∧ ∃ p, s.1 = withProc self p)
    cfbDecSt (cfbDecStep self.keyset)
    (by
      rintro ⟨s, last⟩ t b ⟨h, ht, p, hp⟩ hb
      simp only at h hp
      subst h
      rw [cfbDecSt_eq self (s, last) b ht hb p hp]
      exact ⟨⟨rfl, hb, b, rfl⟩, rfl⟩)
  have h1 := forLoop_chunks (fun (s : AES_BASE × List Nat) =>
      s.2.length = 16 ∧ ∃ p, s.1 = withProc self p)
    cfbDecSt
    (fun i (st : (AES_BASE × List Nat) × List Nat) =>
        let r := st.1.1.EncryptBlock st.1.2
        let self := { r.1 with
          procArray := writeAt r.1.procArray 0 (readAt st.2 (i * 16) 16) }
        let block := AES_BASE.BlockXOR (readAt st.2 (i * 16) 16) r.2 16
        ((self, writeAt r.2 0 (readAt self.procArray 0 16)), writeAt st.2 (i * 16) block))
    (fun i st => by dsimp only [cfbDecSt])
    (by
      rintro s b ⟨hs, p, hp⟩ hb
      rw [cfbDecSt_eq self s b hs hb p hp]
      refine ⟨⟨hb, b, rfl⟩, ?_⟩
      simp only []
      rw [xorBytes_length, encBlock_length, hb]
      rfl)
    n 0 (self, ivBlock self.keyset) stream ⟨ivBlock_length _, self.procArray, rfl⟩ (by omega)
  obtain ⟨⟨h3, _, p, h4⟩, h5⟩ := hrel n (self, ivBlock self.keyset) (ivBlock self.keyset) stream
    ⟨rfl, ivBlock_length _, self.procArray, rfl⟩ (by omega)
  obtain ⟨h6, h7⟩ := chunks_cfbDec self.keyset n (ivBlock self.keyset) stream hn
  refine ⟨p, ?_⟩
  rw [h1]
  simp only [Nat.zero_mul, List.drop_zero, List.take_zero, List.nil_append]
  rw [h5, h6, ← h7, ← h3, ← h4]

/-- The partial final block of `DecryptStream` in CFB and of both directions in OFB. -/
theorem xor_tail (self : AES_BASE) (p K A stream : List Nat) (length : Nat)
    (hl : length ≤ stream.length) (hA : A.length = length / 16 * 16) (hK : K.length = 16) :
    ∃ p', (if length % 16 ≠ 0 then
        (((withProc self p).EncryptBlock K).1,
          writeAt (A ++ stream.drop (length / 16 * 16)) (length / 16 * 16)
            (AES_BASE.BlockXOR
              (readAt (A ++ stream.drop (length / 16 * 16)) (length / 16 * 16) (length % 16))
              ((withProc self p).EncryptBlock K).2 (length % 16)))
      else (withProc self p, A ++ stream.drop (length / 16 * 16))) =
      (withProc self p',
        A ++ xorBytes ((stream.drop (length / 16 * 16)).take (length % 16))
          (encBlock self.keyset K) ++ stream.drop length) := by
  have hd := div16_le length
  have hm := div16_add length
  have hlt : length % 16 < 16 := Nat.mod_lt _ (by decide)
  by_cases hr : length % 16 = 0
  · rw [if_neg (by simpa using hr)]
    refine ⟨p, ?_⟩
    have e : length / 16 * 16 = length := by omega
    rw [hr, e]
    simp [xorBytes]
  · rw [if_pos hr, EncryptBlock_eq _ hK]
    simp only [withProc_withProc, withProc_keyset]
    refine ⟨encProc self.keyset K, ?_⟩
    congr 1
    have hw : readAt (A ++ List.drop (length / 16 * 16) stream) (length / 16 * 16)
        (length % 16) = (stream.drop (length / 16 * 16)).take (length % 16) := by
      unfold readAt
      rw [drop_append_len hA]
    have hwl : ((stream.drop (length / 16 * 16)).take (length % 16)).length = length % 16 := by
      simp only [List.length_take, List.length_drop]
      omega
    have hbx := @BlockXOR_eq ((stream.drop (length / 16 * 16)).take (length % 16))
      (encBlock self.keyset K) (length % 16) (by omega) (by rw [encBlock_length]; omega)
    rw [List.take_of_length_le (Nat.le_of_eq hwl), List.drop_of_length_le (Nat.le_of_eq hwl),
      List.append_nil] at hbx
    rw [hw, hbx]
    unfold writeAt
    rw [xorBytes_length, hwl, encBlock_length, Nat.min_eq_left (by omega), take_append_len hA,
      drop_append_len_add hA, List.drop_drop, hm]

/-- The stream transform of CFB decryption: the buffer is XORed with the keystream that the
ciphertext blocks give. -/
theorem CFB_decrypt_eq (self : AES_BASE) (stream : List Nat) (length : Nat) (h0 : length ≠ 0)
    (hl : length ≤ stream.length) :
    ∃ p, AES_CFB.DecryptStream self stream length =
      (withProc self p,
        xorBytes (stream.take length)
          (cfbKeys self.keyset (length / 16 + 1) (ivBlock self.keyset) stream) ++
        stream.drop length) := by
  have hd := div16_le length
  have hm := div16_add length
  obtain ⟨p, hp⟩ := cfbDec_loop self stream (length / 16) (by omega)
  have hiv : writeAt (List.replicate 16 0) 0 self.keyset.GetIV = ivBlock self.keyset := rfl
  have hK := @cfbPrev_length (ivBlock self.keyset) stream (length / 16)
    (ivBlock_length self.keyset) (by omega)
  have hA : (xorBytes (List.take (length / 16 * 16) stream)
      (cfbKeys self.keyset (length / 16) (ivBlock self.keyset) stream)).length =
      length / 16 * 16 := by
    rw [xorBytes_length, cfbKeys_length, List.length_take]
    omega
  obtain ⟨p', hp'⟩ := xor_tail self p _ _ stream length hl hA hK
  have htarget : xorBytes (stream.take length)
      (cfbKeys self.keyset (length / 16 + 1) (ivBlock self.keyset) stream) ++
        stream.drop length =
      xorBytes (List.take (length / 16 * 16) stream)
        (cfbKeys self.keyset (length / 16) (ivBlock self.keyset) stream) ++
      xorBytes ((stream.drop (length / 16 * 16)).take (length % 16))
        (encBlock self.keyset (cfbPrev (ivBlock self.keyset) stream (length / 16))) ++
      stream.drop length := by
    rw [cfbKeys_snoc]
    conv_lhs => rw [show List.take length stream =
      List.take (length / 16 * 16 + length % 16) stream by rw [hm]]
    rw [List.take_add, xorBytes_append (by rw [cfbKeys_length, List.length_take]; omega)]
  refine ⟨p', ?_⟩
  rw [htarget, ← hp']
  unfold AES_CFB.DecryptStream
  rw [if_neg h0]
  simp only []
  rw [hiv, hp, and15]

theorem cfbEncSt_eq (self : AES_BASE) (s : AES_BASE × List Nat) (b : List Nat)
    (hs : s.2.length = 16) (hb : b.length = 16) (p : List Nat) (hp : s.1 = withProc self p) :
    cfbEncSt s b =
      ((withProc self (encProc self.keyset s.2), xorBytes (encBlock self.keyset s.2) b),
        xorBytes (encBlock self.keyset s.2) b) := by
  unfold cfbEncSt
  simp only []
  rw [EncryptBlock_eq _ hs, hp]
  simp only [withProc_keyset, withProc_withProc]
  have hx : (xorBytes (encBlock self.keyset s.2) b).length = 16 := by
    rw [xorBytes_length, encBlock_length, hb]; rfl
  rw [BlockXOR_eq (by rw [encBlock_length]) (by omega),
    List.take_of_length_le (by rw [encBlock_length]),
    List.drop_of_length_le (by rw [encBlock_length]), List.append_nil, readAt_full hx]

theorem chunks_cfbEnc (ks : AES_KEYSET) (n : Nat) : ∀ (last l : List Nat), n * 16 ≤ l.length →
    (chunks (cfbEncStep ks) n last l).2 =
      xorBytes (cfbKeys ks n last (chunks (cfbEncStep ks) n last l).2) (l.take (n * 16)) ++
        l.drop (n * 16) ∧
    (chunks (cfbEncStep ks) n last l).1 = cfbPrev last (chunks (cfbEncStep ks) n last l).2 n := by
  induction n with
  | zero => intro last l _; simp [chunks, xorBytes, cfbKeys, cfbPrev]
  | succ n ih =>
    intro last l hl
    have hc : (xorBytes (encBlock ks last) (l.take 16)).length = 16 := by
      rw [xorBytes_length, encBlock_length, List.length_take]
      omega
    obtain ⟨h1, h2⟩ := ih (xorBytes (encBlock ks last) (l.take 16)) (l.drop 16)
      (by simp only [List.length_drop]; omega)
    simp only [chunks, cfbEncStep, cfbKeys]
    rw [take_append_len hc, drop_append_len hc, cfbPrev_succ, take_append_len hc,
      drop_append_len hc]
    refine ⟨?_, h2⟩
    conv_lhs => rw [h1]
    have e : (n + 1) * 16 = 16 + n * 16 := by omega
    rw [e, List.take_add, xorBytes_append (by simp [encBlock_length]; omega), List.drop_drop,
      List.append_assoc]

theorem cfbKeys_prefix (ks : AES_KEYSET) (n : Nat) : ∀ (last l : List Nat),
    cfbKeys ks n last l = cfbKeys ks n last (l.take (n * 16)) := by
  induction n with
  | zero => intro _ _; rfl
  | succ n ih =>
    intro last l
    simp only [cfbKeys]
    have e1 : (l.take ((n + 1) * 16)).take 16 = l.take 16 := by
      rw [List.take_take, Nat.min_eq_left (by omega)]
    have e2 : (l.take ((n + 1) * 16)).drop 16 = (l.drop 16).take (n * 16) := by
      rw [List.drop_take]
      congr 1
      omega
    rw [e1, e2, ← ih]

theorem cfbPrev_prefix (last l : List Nat) (n : Nat) :
    cfbPrev last l n = cfbPrev last (l.take (n * 16)) n := by
  unfold cfbPrev readAt
  split
  · rfl
  · rw [List.drop_take, List.take_take]
    congr 1
    omega

theorem cfbKeys_append (ks : AES_KEYSET) {n : Nat} (last : List Nat) {A : List Nat}
    (X Y : List Nat) (hA : A.length = n * 16) :
    cfbKeys ks (n + 1) last (A ++ X) = cfbKeys ks (n + 1) last (A ++ Y) := by
  rw [cfbKeys_snoc, cfbKeys_snoc, cfbKeys_prefix ks n last (A ++ X),
    cfbKeys_prefix ks n last (A ++ Y), cfbPrev_prefix last (A ++ X), cfbPrev_prefix last (A ++ Y),
    take_append_len hA, take_append_len hA]

theorem cfbEnc_loop (self : AES_BASE) (stream : List Nat) (n : Nat)
    (hn : n * 16 ≤ stream.length) :
    ∃ p, forLoop (fun i (st : (AES_BASE × List Nat) × List Nat) =>
        let r := st.1.1.EncryptBlock st.1.2
        let lastBlock := AES_BASE.BlockXOR r.2 (readAt st.2 (i * 16) 16) 16
        ((r.1, lastBlock), writeAt st.2 (i * 16) (readAt lastBlock 0 16)))
        n 0 ((self, ivBlock self.keyset), stream) =
      ((withProc self p, (chunks (cfbEncStep self.keyset) n (ivBlock self.keyset) stream).1),
        (chunks (cfbEncStep self.keyset) n (ivBlock self.keyset) stream).2) := by
  have hrel := chunks_rel
    (fun (s : AES_BASE × List Nat) (t : List Nat) =>
      s.2 = t ∧ t.length = 16 ∧ ∃ p, s.1 = withProc self p)
    cfbEncSt (cfbEncStep self.keyset)
    (by
      rintro ⟨s, last⟩ t b ⟨h, ht, p, hp⟩ hb
      simp only at h hp
      subst h
      rw [cfbEncSt_eq self (s, last) b ht hb p hp]
      refine ⟨⟨rfl, ?_, _, rfl⟩, rfl⟩
      simp only [cfbEncStep]
      rw [xorBytes_length, encBlock_length, hb]
      rfl)
  have h1 := forLoop_chunks (fun (s : AES_BASE × List Nat) =>
      s.2.length = 16 ∧ ∃ p, s.1 = withProc self p)
    cfbEncSt
    (fun i (st : (AES_BASE × List Nat) × List Nat) =>
        let r := st.1.1.EncryptBlock st.1.2
        let lastBlock := AES_BASE.BlockXOR r.2 (readAt st.2 (i * 16) 16) 16
        ((r.1, lastBlock), writeAt st.2 (i * 16) (readAt lastBlock 0 16)))
    (fun i st => by dsimp only [cfbEncSt])
    (by
      rintro s b ⟨hs, p, hp⟩ hb
      rw [cfbEncSt_eq self s b hs hb p hp]
      have hx : (xorBytes (encBlock self.keyset s.2) b).length = 16 := by
        rw [xorBytes_length, encBlock_length, hb]; rfl
      simp only []
      exact ⟨⟨hx, encProc self.keyset s.2, rfl⟩, hx⟩)
    n 0 (self, ivBlock self.keyset) stream ⟨ivBlock_length _, self.procArray, rfl⟩ (by omega)
  obtain ⟨⟨h3, _, p, h4⟩, h5⟩ := hrel n (self, ivBlock self.keyset) (ivBlock self.keyset) stream
    ⟨rfl, ivBlock_length _, self.procArray, rfl⟩ (by omega)
  refine ⟨p, ?_⟩
  rw [h1]
  simp only [Nat.zero_mul, List.drop_zero, List.take_zero, List.nil_append]
  rw [h5, ← h3, ← h4]

theorem xorBytes_take_left : ∀ (w E : List Nat) (r : Nat), w.length ≤ r →
    xorBytes (E.take r) w = xorBytes E w := by
  intro w
  induction w with
  | nil => intro E r _; simp [xorBytes]
  | cons y w ih =>
    intro E r hr
    cases E with
    | nil => simp [xorBytes]
    | cons x E =>
      obtain ⟨r', rfl⟩ : ∃ r', r = r' + 1 := ⟨r - 1, by simp at hr; omega⟩
      have := ih E r' (by simpa using hr)
      simp only [xorBytes, List.take_succ_cons, List.zipWith_cons_cons] at this ⊢
      rw [this]

/-- The stream transform of CFB encryption: the output is the plaintext XORed with the
keystream that the output blocks themselves give. -/
theorem CFB_encrypt_eq (self : AES_BASE) (stream : List Nat) (length : Nat) (h0 : length ≠ 0)
    (hl : length ≤ stream.length) :
    ∃ p out, AES_CFB.EncryptStream self stream length = (withProc self p, out) ∧
      out = xorBytes (cfbKeys self.keyset (length / 16 + 1) (ivBlock self.keyset) out)
          (stream.take length) ++ stream.drop length := by
  have hd := div16_le length
  have hm := div16_add length
  have hlt : length % 16 < 16 := Nat.mod_lt _ (by decide)
  obtain ⟨p, hp⟩ := cfbEnc_loop self stream (length / 16) (by omega)
  obtain ⟨h1, h2⟩ := chunks_cfbEnc self.keyset (length / 16) (ivBlock self.keyset) stream
    (by omega)
  have hiv : writeAt (List.replicate 16 0) 0 self.keyset.GetIV = ivBlock self.keyset := rfl
  generalize (chunks (cfbEncStep self.keyset) (length / 16) (ivBlock self.keyset) stream).2 = C
    at hp h1 h2
  generalize (chunks (cfbEncStep self.keyset) (length / 16) (ivBlock self.keyset) stream).1 = L
    at hp h2
  subst h2
  have hAl : (xorBytes (cfbKeys self.keyset (length / 16) (ivBlock self.keyset) C)
      (List.take (length / 16 * 16) stream)).length = length / 16 * 16 := by
    rw [xorBytes_length, cfbKeys_length, List.length_take]
    omega
  have hCt : C.take (length / 16 * 16) =
      xorBytes (cfbKeys self.keyset (length / 16) (ivBlock self.keyset) C)
        (List.take (length / 16 * 16) stream) := by
    conv_lhs => rw [h1]
    exact take_append_len hAl
  have hCd : ∀ m, C.drop (length / 16 * 16 + m) = stream.drop (length / 16 * 16 + m) := by
    intro m
    conv_lhs => rw [h1]
    rw [drop_append_len_add hAl, List.drop_drop]
  have hCd0 : C.drop (length / 16 * 16) = stream.drop (length / 16 * 16) := by
    simpa using hCd 0
  have hCl : C.length = stream.length := by
    have := congrArg List.length h1
    rw [List.length_append, hAl, List.length_drop] at this
    omega
  have hCsplit : C = C.take (length / 16 * 16) ++ C.drop (length / 16 * 16) :=
    (List.take_append_drop _ _).symm
  have hK := @cfbPrev_length (ivBlock self.keyset) C (length / 16)
    (ivBlock_length self.keyset) (by omega)
  have hCtl : (C.take (length / 16 * 16)).length = length / 16 * 16 := by
    rw [List.length_take]; omega
  have hwl : ((stream.drop (length / 16 * 16)).take (length % 16)).length = length % 16 := by
    simp only [List.length_take, List.length_drop]
    omega
  -- the output, in both cases
  have hout : ∀ out, out = C.take (length / 16 * 16) ++
        xorBytes (encBlock self.keyset (cfbPrev (ivBlock self.keyset) C (length / 16)))
          ((stream.drop (length / 16 * 16)).take (length % 16)) ++ stream.drop length →
      out = xorBytes (cfbKeys self.keyset (length / 16 + 1) (ivBlock self.keyset) out)
          (stream.take length) ++ stream.drop length := by
    intro out ho
    have e1 : cfbKeys self.keyset (length / 16 + 1) (ivBlock self.keyset) out =
        cfbKeys self.keyset (length / 16 + 1) (ivBlock self.keyset) C := by
      have e0 := cfbKeys_append self.keyset (ivBlock self.keyset)
        (xorBytes (encBlock self.keyset (cfbPrev (ivBlock self.keyset) C (length / 16)))
          ((stream.drop (length / 16 * 16)).take (length % 16)) ++ stream.drop length)
        (C.drop (length / 16 * 16)) hCtl
      rw [List.take_append_drop, ← List.append_assoc, ← ho] at e0
      exact e0
    rw [e1, cfbKeys_snoc]
    conv_rhs => rw [show List.take length stream =
      List.take (length / 16 * 16 + length % 16) stream by rw [hm]]
    rw [List.take_add, xorBytes_append (by rw [cfbKeys_length, List.length_take]; omega),
      ← hCt]
    exact ho
  unfold AES_CFB.EncryptStream
  rw [if_neg h0]
  simp only []
  rw [hiv, hp, and15]
  simp only []
  by_cases hr : length % 16 = 0
  · rw [if_neg (by simpa using hr)]
    refine ⟨p, C, rfl, hout C ?_⟩
    have e : stream.drop length = stream.drop (length / 16 * 16) := by
      congr 1; omega
    rw [hr, e, ← hCd0]
    simp only [List.take_zero, xorBytes, List.zipWith_nil_right, List.append_nil]
    exact hCsplit
  · rw [if_pos hr, EncryptBlock_eq _ hK]
    simp only [withProc_withProc, withProc_keyset]
    refine ⟨_, _, rfl, hout _ ?_⟩
    have hw : readAt C (length / 16 * 16) (length % 16) =
        (stream.drop (length / 16 * 16)).take (length % 16) := by
      unfold readAt
      rw [hCd0]
    have hbx := @BlockXOR_eq
      (encBlock self.keyset (cfbPrev (ivBlock self.keyset) C (length / 16)))
      ((stream.drop (length / 16 * 16)).take (length % 16)) (length % 16)
      (by rw [encBlock_length]; omega) (by omega)
    have hT : (xorBytes (List.take (length % 16)
        (encBlock self.keyset (cfbPrev (ivBlock self.keyset) C (length / 16))))
        ((stream.drop (length / 16 * 16)).take (length % 16))).length = length % 16 := by
      rw [xorBytes_length, hwl, List.length_take, encBlock_length]
      omega
    rw [hw, hbx]
    unfold readAt writeAt
    rw [List.drop_zero, take_append_len hT, hT, hCd, hm,
      xorBytes_take_left _ _ _ (Nat.le_of_eq hwl)]

theorem readAt_xorBytes (a b : List Nat) (off len : Nat) :
    readAt (xorBytes a b) off len = xorBytes (readAt a off len) (readAt b off len) := by
  unfold readAt xorBytes
  rw [List.drop_zipWith, List.take_zipWith]

theorem readAt_append_left {A B : List Nat} {off len : Nat} (h : off + len ≤ A.length) :
    readAt (A ++ B) off len = readAt A off len := by
  unfold readAt
  rw [List.drop_append_of_le_length (by omega), List.take_append_of_le_length
    (by rw [List.length_drop]; omega)]

theorem readAt_take {l : List Nat} {off len n : Nat} (h : off + len ≤ n) :
    readAt (l.take n) off len = readAt l off len := by
  unfold readAt
  rw [List.drop_take, List.take_take, Nat.min_eq_left (by omega)]

theorem cfbKeys_readAt (ks : AES_KEYSET) (n : Nat) : ∀ (last c : List Nat) (i : Nat), i < n →
    readAt (cfbKeys ks n last c) (i * 16) 16 = encBlock ks (cfbPrev last c i) := by
  induction n with
  | zero => intro last c i hi; omega
  | succ n ih =>
    intro last c i hi
    simp only [cfbKeys]
    cases i with
    | zero =>
      rw [Nat.zero_mul, readAt_append_left (by rw [encBlock_length]),
        readAt_full (encBlock_length _ _)]
      rfl
    | succ k =>
      have e : (k + 1) * 16 = 16 + k * 16 := by omega
      unfold readAt at ih ⊢
      rw [e, drop_append_len_add (encBlock_length _ _), ih _ _ k (by omega), cfbPrev_succ]

theorem cfbKeys_readAt_last (ks : AES_KEYSET) (n : Nat) (last c : List Nat) (r : Nat) :
    readAt (cfbKeys ks (n + 1) last c) (n * 16) r = (encBlock ks (cfbPrev last c n)).take r := by
  rw [cfbKeys_snoc]
  unfold readAt
  rw [drop_append_len (cfbKeys_length ks n last c)]

/-- The bytes that `AES_CFB::DecryptStream` leaves. -/
theorem CFB_decrypt_getD (self : AES_BASE) (stream : List Nat) (length : Nat) (h0 : length ≠ 0)
    (hl : length ≤ stream.length) (q : Nat) :
    (AES_CFB.DecryptStream self stream length).2.getD q 0 =
      if q < length then
        stream.getD q 0 ^^^
          (encBlock self.keyset (cfbPrev (ivBlock self.keyset) stream (q / 16))).getD (q % 16) 0
      else stream.getD q 0 := by
  obtain ⟨p, hp⟩ := CFB_decrypt_eq self stream length h0 hl
  have hm := div16_add length
  have hlt : length % 16 < 16 := Nat.mod_lt _ (by decide)
  rw [hp]
  simp only []
  have hlen : (xorBytes (stream.take length)
      (cfbKeys self.keyset (length / 16 + 1) (ivBlock self.keyset) stream)).length = length := by
    rw [xorBytes_length, cfbKeys_length, List.length_take]
    omega
  by_cases hq : q < length
  · rw [if_pos hq, getD_append_lt _ _ (by rw [hlen]; exact hq),
      xorBytes_getD _ _ _ (by rw [List.length_take]; omega) (by rw [cfbKeys_length]; omega),
      getD_take_lt _ hq, cfbKeys_getD _ _ _ _ _ (by omega)]
  · rw [if_neg hq, getD_append_ge _ _ (by rw [hlen]; omega), hlen, getD_drop]
    congr 1
    omega

theorem encBlock_injective {ks : AES_KEYSET} (hks : KeysWF ks) {a b : List Nat}
    (ha : IsBlock a) (hb : IsBlock b) (h : encBlock ks a = encBlock ks b) : a = b := by
  have := congrArg (decBlock ks) h
  rwa [decBlock_encBlock hks ha, decBlock_encBlock hks hb] at this

theorem list_eq_of_getD {a b : List Nat} (hl : a.length = b.length)
    (h : ∀ t, t < a.length → a.getD t 0 = b.getD t 0) : a = b := by
  apply List.ext_getElem hl
  intro t h1 h2
  have := h t h1
  simpa [List.getD_eq_getElem?_getD, List.getElem?_eq_getElem h1,
    List.getElem?_eq_getElem h2] using this

theorem getD_set (l : List Nat) (p v q : Nat) (hp : p < l.length) :
    (l.set p v).getD q 0 = if q = p then v else l.getD q 0 := by
  simp only [List.getD_eq_getElem?_getD, List.getElem?_set]
  by_cases hq : q = p
  · subst hq
    simp [hp]
  · simp [hq, Ne.symm hq]

theorem readAt_getD (l : List Nat) (off len t : Nat) (ht : t < len) :
    (readAt l off len).getD t 0 = l.getD (off + t) 0 := by
  unfold readAt
  rw [getD_take_lt _ ht, getD_drop]

theorem Bytes_readAt {l : List Nat} (h : Bytes l) (off len : Nat) : Bytes (readAt l off len) := by
  intro x hx
  unfold readAt at hx
  exact h x (List.mem_of_mem_drop (List.mem_of_mem_take hx))

theorem Bytes_set {l : List Nat} (h : Bytes l) (p : Nat) {v : Nat} (hv : v < 256) :
    Bytes (l.set p v) := by
  intro x hx
  rcases List.mem_or_eq_of_mem_set hx with h1 | h1
  · exact h x h1
  · rw [h1]; exact hv

/-! ## ECB and CBC -/

theorem chunks_map {σ : Type} (step : σ → List Nat → σ × List Nat) (f : List Nat → List Nat)
    (Inv : σ → Prop)
    (h : ∀ s b, Inv s → b.length = 16 → Inv (step s b).1 ∧ (step s b).2 = f b) :
    ∀ n s l, Inv s → n * 16 ≤ l.length →
      Inv (chunks step n s l).1 ∧ (chunks step n s l).2 = mapBlocks f n l := by
  intro n
  induction n with
  | zero => intro s l hs _; exact ⟨hs, rfl⟩
  | succ n ih =>
    intro s l hs hl
    have hb : (l.take 16).length = 16 := by simp only [List.length_take]; omega
    obtain ⟨h1, h2⟩ := h s _ hs hb
    obtain ⟨h3, h4⟩ := ih _ (l.drop 16) h1 (by simp only [List.length_drop]; omega)
    simp only [chunks, mapBlocks]
    exact ⟨h3, by rw [h2, h4]⟩

theorem mapBlocks_length (f : List Nat → List Nat) (hf : ∀ b, (f b).length = 16) (n : Nat) :
    ∀ l, n * 16 ≤ l.length → (mapBlocks f n l).length = l.length := by
  induction n with
  | zero => intro l _; rfl
  | succ n ih =>
    intro l hl
    simp only [mapBlocks, List.length_append, hf]
    rw [ih _ (by simp only [List.length_drop]; omega), List.length_drop]
    omega

theorem Bytes_take {l : List Nat} (h : Bytes l) (n : Nat) : Bytes (l.take n) :=
  fun x hx => h x (List.mem_of_mem_take hx)

theorem Bytes_drop {l : List Nat} (h : Bytes l) (n : Nat) : Bytes (l.drop n) :=
  fun x hx => h x (List.mem_of_mem_drop hx)

theorem Bytes_append {a b : List Nat} (ha : Bytes a) (hb : Bytes b) : Bytes (a ++ b) := by
  intro x hx
  rcases List.mem_append.mp hx with h | h
  · exact ha x h
  · exact hb x h

theorem mapBlocks_inverse (f g : List Nat → List Nat)
    (h : ∀ b, IsBlock b → g (f b) = b ∧ (f b).length = 16) (n : Nat) :
    ∀ l, n * 16 ≤ l.length → Bytes (l.take (n * 16)) →
      mapBlocks g n (mapBlocks f n l) = l := by
  induction n with
  | zero => intro l _ _; rfl
  | succ n ih =>
    intro l hl hB
    have hb : IsBlock (l.take 16) := by
      refine ⟨by simp only [List.length_take]; omega, ?_⟩
      have := Bytes_take hB 16
      rwa [List.take_take, Nat.min_eq_left (by omega)] at this
    obtain ⟨h1, h2⟩ := h _ hb
    have hB' : Bytes ((l.drop 16).take (n * 16)) := by
      have := Bytes_drop hB 16
      rwa [List.drop_take, show (n + 1) * 16 - 16 = n * 16 by omega] at this
    simp only [mapBlocks]
    rw [take_append_len h2, drop_append_len h2, h1,
      ih _ (by simp only [List.length_drop]; omega) hB', List.take_append_drop]

/-- The loop of `AES_ECB::EncryptStream`. -/
theorem ecbEnc_loop (self : AES_BASE) (stream : List Nat) (n : Nat)
    (hn : n * 16 ≤ stream.length) :
    ∃ p, forLoop (fun i (st : AES_BASE × List Nat) =>
        let r := st.1.EncryptBlock (readAt st.2 (i * 16) 16)
        (r.1, writeAt st.2 (i * 16) r.2)) n 0 (self, stream) =
      (withProc self p, mapBlocks (encBlock self.keyset) n stream) := by
  have h1 := forLoop_chunks (fun (s : AES_BASE) => ∃ p, s = withProc self p)
    AES_BASE.EncryptBlock
    (fun i (st : AES_BASE × List Nat) =>
        let r := st.1.EncryptBlock (readAt st.2 (i * 16) 16)
        (r.1, writeAt st.2 (i * 16) r.2))
    (fun i st => by dsimp only)
    (by
      rintro s b ⟨p, hp⟩ hb
      dsimp only
      rw [EncryptBlock_eq s hb, hp]
      simp only [withProc_withProc, withProc_keyset]
      exact ⟨⟨encProc self.keyset b, rfl⟩, encBlock_length _ _⟩)
    n 0 self stream ⟨self.procArray, rfl⟩ (by omega)
  obtain ⟨⟨p, h2⟩, h3⟩ := chunks_map AES_BASE.EncryptBlock
    (encBlock self.keyset) (fun (s : AES_BASE) => ∃ p, s = withProc self p)
    (by
      rintro s b ⟨p, hp⟩ hb
      dsimp only
      rw [EncryptBlock_eq s hb, hp]
      simp only [withProc_withProc, withProc_keyset]
      exact ⟨⟨encProc self.keyset b, rfl⟩, trivial⟩)
    n self stream ⟨self.procArray, rfl⟩ hn
  refine ⟨p, ?_⟩
  rw [h1]
  simp only [Nat.zero_mul, List.drop_zero, List.take_zero, List.nil_append]
  rw [h2, h3]

/-- The loop of `AES_ECB::DecryptStream`. -/
theorem ecbDec_loop (self : AES_BASE) (stream : List Nat) (n : Nat)
    (hn : n * 16 ≤ stream.length) :
    ∃ p, forLoop (fun i (st : AES_BASE × List Nat) =>
        let r := st.1.DecryptBlock (readAt st.2 (i * 16) 16)
        (r.1, writeAt st.2 (i * 16) r.2)) n 0 (self, stream) =
      (withProc self p, mapBlocks (decBlock self.keyset) n stream) := by
  have h1 := forLoop_chunks (fun (s : AES_BASE) => ∃ p, s = withProc self p)
    AES_BASE.DecryptBlock
    (fun i (st : AES_BASE × List Nat) =>
        let r := st.1.DecryptBlock (readAt st.2 (i * 16) 16)
        (r.1, writeAt st.2 (i * 16) r.2))
    (fun i st => by dsimp only)
    (by
      rintro s b ⟨p, hp⟩ hb
      dsimp only
      rw [DecryptBlock_eq s hb, hp]
      simp only [withProc_withProc, withProc_keyset]
      exact ⟨⟨decProc self.keyset b, rfl⟩, decBlock_length _ _⟩)
    n 0 self stream ⟨self.procArray, rfl⟩ (by omega)
  obtain ⟨⟨p, h2⟩, h3⟩ := chunks_map AES_BASE.DecryptBlock
    (decBlock self.keyset) (fun (s : AES_BASE) => ∃ p, s = withProc self p)
    (by
      rintro s b ⟨p, hp⟩ hb
      dsimp only
      rw [DecryptBlock_eq s hb, hp]
      simp only [withProc_withProc, withProc_keyset]
      exact ⟨⟨decProc self.keyset b, rfl⟩, trivial⟩)
    n self stream ⟨self.procArray, rfl⟩ hn
  refine ⟨p, ?_⟩
  rw [h1]
  simp only [Nat.zero_mul, List.drop_zero, List.take_zero, List.nil_append]
  rw [h2, h3]

theorem decProc_length (ks : AES_KEYSET) (b : List Nat) : (decProc ks b).length = 16 := rfl

theorem encProc_length (ks : AES_KEYSET) (b : List Nat) : (encProc ks b).length = 16 := rfl

theorem cbcEncBlock_length (ks : AES_KEYSET) (b : List Nat) :
    (cbcEncBlock ks b).length = 16 := encBlock_length _ _

theorem cbcDecBlock_length (ks : AES_KEYSET) (b : List Nat) (hiv : ks.iv.length = 16) :
    (cbcDecBlock ks b).length = 16 := by
  unfold cbcDecBlock
  rw [xorBytes_length, decBlock_length, hiv]
  rfl

theorem cbcDecSt_eq (self : AES_BASE) (s : AES_BASE × List Nat) (b : List Nat)
    (hiv : self.keyset.iv.length = 16) (hs : s.2.length = 16) (hb : b.length = 16)
    (p : List Nat) (hp : s.1 = withProc self p) :
    cbcDecSt s b =
      ((withProc self (decProc self.keyset b), decProc self.keyset b),
        cbcDecBlock self.keyset b) := by
  unfold cbcDecSt
  have e : ({ s.1 with procArray := writeAt s.1.procArray 0 b } : AES_BASE) =
      withProc s.1 (writeAt s.1.procArray 0 b) := rfl
  simp only []
  rw [e, DecryptBlock_eq _ hb, hp]
  simp only [withProc_keyset, withProc_withProc, withProc_procArray]
  rw [XORIV2_eq _ (decBlock_length _ _) hiv, writeAt_block hs (decProc_length _ _)]
  rfl

theorem cbcDec_loop (self : AES_BASE) (stream : List Nat) (n : Nat)
    (hiv : self.keyset.iv.length = 16) (hn : n * 16 ≤ stream.length) :
    ∃ p q, forLoop (fun i (st : (AES_BASE × List Nat) × List Nat) =>
        let self := { st.1.1 with
          procArray := writeAt st.1.1.procArray 0 (readAt st.2 (i * 16) 16) }
        let r := self.DecryptBlock (readAt st.2 (i * 16) 16)
        let block := r.1.keyset.XORIV2 r.2 (some st.1.2)
        ((r.1, writeAt st.1.2 0 (readAt r.1.procArray 0 16)), writeAt st.2 (i * 16) block))
        n 0 ((self, ivBlock self.keyset), stream) =
      ((withProc self p, q), mapBlocks (cbcDecBlock self.keyset) n stream) := by
  have h1 := forLoop_chunks (fun (s : AES_BASE × List Nat) =>
      s.2.length = 16 ∧ ∃ p, s.1 = withProc self p)
    cbcDecSt
    (fun i (st : (AES_BASE × List Nat) × List Nat) =>
        let self := { st.1.1 with
          procArray := writeAt st.1.1.procArray 0 (readAt st.2 (i * 16) 16) }
        let r := self.DecryptBlock (readAt st.2 (i * 16) 16)
        let block := r.1.keyset.XORIV2 r.2 (some st.1.2)
        ((r.1, writeAt st.1.2 0 (readAt r.1.procArray 0 16)), writeAt st.2 (i * 16) block))
    (fun i st => by dsimp only [cbcDecSt])
    (by
      rintro s b ⟨hs, p, hp⟩ hb
      rw [cbcDecSt_eq self s b hiv hs hb p hp]
      simp only []
      exact ⟨⟨decProc_length _ _, decProc self.keyset b, rfl⟩, cbcDecBlock_length _ _ hiv⟩)
    n 0 (self, ivBlock self.keyset) stream ⟨ivBlock_length _, self.procArray, rfl⟩ (by omega)
  obtain ⟨⟨_, p, h2⟩, h3⟩ := chunks_map cbcDecSt (cbcDecBlock self.keyset)
    (fun (s : AES_BASE × List Nat) => s.2.length = 16 ∧ ∃ p, s.1 = withProc self p)
    (by
      rintro s b ⟨hs, p, hp⟩ hb
      rw [cbcDecSt_eq self s b hiv hs hb p hp]
      simp only []
      exact ⟨⟨decProc_length _ _, decProc self.keyset b, rfl⟩, trivial⟩)
    n (self, ivBlock self.keyset) stream ⟨ivBlock_length _, self.procArray, rfl⟩ hn
  refine ⟨p, (chunks cbcDecSt n (self, ivBlock self.keyset) stream).1.2, ?_⟩
  rw [h1]
  simp only [Nat.zero_mul, List.drop_zero, List.take_zero, List.nil_append]
  rw [h3, ← h2]

/-- `AES_CBC::DecryptStream` on a block-aligned length: every block is decrypted and XORed
with the stored IV. -/
theorem CBC_decrypt_eq (self : AES_BASE) (stream : List Nat) (length : Nat) (h0 : length ≠ 0)
    (h16 : length % 16 = 0) (hl : length ≤ stream.length) (hiv : self.keyset.iv.length = 16) :
    ∃ p, AES_CBC.DecryptStream self stream length =
      (withProc self p, mapBlocks (cbcDecBlock self.keyset) (length / 16) stream) := by
  have hd := div16_le length
  obtain ⟨p, q, hp⟩ := cbcDec_loop self stream (length / 16) hiv (by omega)
  have hivb : writeAt (List.replicate 16 0) 0 self.keyset.GetIV = ivBlock self.keyset := rfl
  refine ⟨p, ?_⟩
  unfold AES_CBC.DecryptStream
  rw [if_neg h0, and15, if_neg (by simpa using h16)]
  simp only []
  rw [hivb, hp]

theorem cbcEnc_loop (self : AES_BASE) (stream : List Nat) (n : Nat)
    (hiv : self.keyset.iv.length = 16) (hn : (1 + n) * 16 ≤ stream.length) :
    ∃ p, forLoop (fun i (st : AES_BASE × List Nat) =>
        let block := st.1.keyset.XORIV2 (readAt st.2 (i * 16) 16)
          (some (readAt st.2 ((i - 1) * 16) 16))
        let r := st.1.EncryptBlock block
        (r.1, writeAt st.2 (i * 16) r.2)) n 1 (self, stream) =
      (withProc self p, stream.take 16 ++ mapBlocks (cbcEncBlock self.keyset) n
        (stream.drop 16)) := by
  have hstep : ∀ (s : AES_BASE) (b : List Nat), (∃ p, s = withProc self p) → b.length = 16 →
      s.EncryptBlock (s.keyset.XORIV2 b (some [])) =
        (withProc self (encProc self.keyset (xorBytes b self.keyset.iv)),
          cbcEncBlock self.keyset b) := by
    rintro s b ⟨p, hp⟩ hb
    rw [hp, withProc_keyset, XORIV2_eq _ hb hiv,
      EncryptBlock_eq _ (by rw [xorBytes_length, hb, hiv]; rfl)]
    rfl
  have h1 := forLoop_chunks (fun (s : AES_BASE) => ∃ p, s = withProc self p)
    (fun (s : AES_BASE) b => s.EncryptBlock (s.keyset.XORIV2 b (some [])))
    (fun i (st : AES_BASE × List Nat) =>
        let block := st.1.keyset.XORIV2 (readAt st.2 (i * 16) 16)
          (some (readAt st.2 ((i - 1) * 16) 16))
        let r := st.1.EncryptBlock block
        (r.1, writeAt st.2 (i * 16) r.2))
    (fun i st => by dsimp only [AES_KEYSET.XORIV2])
    (by
      intro s b hs hb
      dsimp only
      rw [hstep s b hs hb]
      simp only []
      exact ⟨⟨encProc self.keyset (xorBytes b self.keyset.iv), rfl⟩, cbcEncBlock_length _ _⟩)
    n 1 self stream ⟨self.procArray, rfl⟩ (by omega)
  obtain ⟨⟨p, h2⟩, h3⟩ := chunks_map
    (fun (s : AES_BASE) b => s.EncryptBlock (s.keyset.XORIV2 b (some [])))
    (cbcEncBlock self.keyset) (fun (s : AES_BASE) => ∃ p, s = withProc self p)
    (by
      intro s b hs hb
      dsimp only
      rw [hstep s b hs hb]
      simp only []
      exact ⟨⟨encProc self.keyset (xorBytes b self.keyset.iv), rfl⟩, trivial⟩)
    n self (stream.drop 16) ⟨self.procArray, rfl⟩ (by rw [List.length_drop]; omega)
  refine ⟨p, ?_⟩
  rw [h1]
  simp only [Nat.one_mul]
  rw [h2, h3]

/-- `AES_CBC::EncryptStream` on a block-aligned length: every block, the first one and the
following ones alike, is XORed with the stored IV and encrypted. -/
theorem CBC_encrypt_eq (self : AES_BASE) (stream : List Nat) (length : Nat) (h0 : length ≠ 0)
    (h16 : length % 16 = 0) (hl : length ≤ stream.length) (hiv : self.keyset.iv.length = 16) :
    ∃ p, AES_CBC.EncryptStream self stream length =
      (withProc self p, mapBlocks (cbcEncBlock self.keyset) (length / 16) stream) := by
  have hd := div16_add length
  have hb : (readAt stream 0 16).length = 16 := readAt_length (by omega)
  have hx : (xorBytes (readAt stream 0 16) self.keyset.iv).length = 16 := by
    rw [xorBytes_length, hb, hiv]; rfl
  have hw : writeAt stream 0 (cbcEncBlock self.keyset (stream.take 16)) =
      cbcEncBlock self.keyset (stream.take 16) ++ stream.drop 16 := by
    unfold writeAt
    rw [cbcEncBlock_length]
    simp
  have hwl : (writeAt stream 0 (cbcEncBlock self.keyset (stream.take 16))).length =
      stream.length := writeAt_length (by rw [cbcEncBlock_length]; omega)
  obtain ⟨p, hp⟩ := cbcEnc_loop (withProc self (encProc self.keyset
    (xorBytes (readAt stream 0 16) self.keyset.iv)))
    (writeAt stream 0 (cbcEncBlock self.keyset (stream.take 16))) (length / 16 - 1)
    hiv (by rw [hwl]; omega)
  refine ⟨p, ?_⟩
  unfold AES_CBC.EncryptStream
  rw [if_neg h0, and15, if_neg (by simpa using h16)]
  simp only []
  rw [XORIV_eq _ hb hiv, EncryptBlock_eq _ hx]
  simp only []
  have e1 : readAt stream 0 16 = stream.take 16 := by unfold readAt; rw [List.drop_zero]
  rw [e1] at hp ⊢
  have e2 : encBlock self.keyset (xorBytes (List.take 16 stream) self.keyset.iv) =
      cbcEncBlock self.keyset (stream.take 16) := rfl
  rw [e2, hp, withProc_withProc, withProc_keyset, hw,
    take_append_len (cbcEncBlock_length _ _), drop_append_len (cbcEncBlock_length _ _)]
  have e3 : length / 16 = (length / 16 - 1) + 1 := by omega
  conv_rhs => rw [e3]
  rfl

/-! ## The stream transforms on whole blocks: decryption undoes encryption -/

theorem encBlock_congr {ks kt : AES_KEYSET} (h : ks.keyset = kt.keyset) :
    encBlock ks = encBlock kt := by
  cases ks
  cases kt
  simp only at h
  subst h
  rfl

theorem decBlock_congr {ks kt : AES_KEYSET} (h : ks.keyset = kt.keyset) :
    decBlock ks = decBlock kt := by
  cases ks
  cases kt
  simp only at h
  subst h
  rfl

theorem ECB_encrypt_eq (self : AES_BASE) (stream : List Nat) (length : Nat)
    (hl : length ≤ stream.length) :
    ∃ p, AES_ECB.EncryptStream self stream length =
      (withProc self p,
        if length &&& 16 ≠ 0 then stream
        else mapBlocks (encBlock self.keyset) (length / 16) stream) := by
  have hm := div16_add length
  unfold AES_ECB.EncryptStream
  by_cases h0 : length = 0
  · subst h0
    exact ⟨self.procArray, by simp [withProc_self, mapBlocks]⟩
  · rw [if_neg h0]
    by_cases h16 : length &&& 16 ≠ 0
    · rw [if_pos h16, if_pos h16]
      exact ⟨self.procArray, rfl⟩
    · rw [if_neg h16, if_neg h16]
      exact ecbEnc_loop self stream (length / 16) (by omega)

theorem ECB_decrypt_eq (self : AES_BASE) (stream : List Nat) (length : Nat)
    (hl : length ≤ stream.length) :
    ∃ p, AES_ECB.DecryptStream self stream length =
      (withProc self p,
        if length &&& 16 ≠ 0 then stream
        else mapBlocks (decBlock self.keyset) (length / 16) stream) := by
  have hm := div16_add length
  unfold AES_ECB.DecryptStream
  by_cases h0 : length = 0
  · subst h0
    exact ⟨self.procArray, by simp [withProc_self, mapBlocks]⟩
  · rw [if_neg h0]
    by_cases h16 : length &&& 16 ≠ 0
    · rw [if_pos h16, if_pos h16]
      exact ⟨self.procArray, rfl⟩
    · rw [if_neg h16, if_neg h16]
      exact ecbDec_loop self stream (length / 16) (by omega)

theorem Bytes_xorBytes : ∀ {a b : List Nat}, Bytes a → Bytes b → Bytes (xorBytes a b) := by
  intro a
  induction a with
  | nil => intro b _ _ x hx; simp [xorBytes] at hx
  | cons x a ih =>
    intro b ha hb
    cases b with
    | nil => intro y hy; simp [xorBytes] at hy
    | cons y b =>
      intro z hz
      have hz2 : z = x ^^^ y ∨ z ∈ xorBytes a b := by
        simpa [xorBytes] using hz
      rcases hz2 with h | h
      · subst h
        exact xor_lt_256 (ha x (List.mem_cons_self _ _)) (hb y (List.mem_cons_self _ _))
      · exact ih (fun w hw => ha w (List.mem_cons_of_mem _ hw))
          (fun w hw => hb w (List.mem_cons_of_mem _ hw)) z h

theorem cbc_block_inverse {ks : AES_KEYSET} (hks : KeysWF ks) (hiv : IsBlock ks.iv)
    (b : List Nat) (hb : IsBlock b) :
    cbcDecBlock ks (cbcEncBlock ks b) = b ∧ (cbcEncBlock ks b).length = 16 := by
  have hx : IsBlock (xorBytes b ks.iv) :=
    ⟨by rw [xorBytes_length, hb.1, hiv.1]; rfl, Bytes_xorBytes hb.2 hiv.2⟩
  refine ⟨?_, (encBlock_block hks hx).1⟩
  unfold cbcDecBlock cbcEncBlock
  rw [decBlock_encBlock hks hx]
  exact xorBytes_cancel b ks.iv (by rw [hb.1, hiv.1])

theorem ecb_block_inverse {ks : AES_KEYSET} (hks : KeysWF ks)
    (b : List Nat) (hb : IsBlock b) :
    decBlock ks (encBlock ks b) = b ∧ (encBlock ks b).length = 16 :=
  ⟨decBlock_encBlock hks hb, (encBlock_block hks hb).1⟩

theorem ECB_stream_round_trip (s d : AES_BASE) (stream : List Nat) (L : Nat)
    (hl : stream.length = L) (hks : KeysWF s.keyset) (hb : Bytes stream)
    (hd : d.keyset.keyset = s.keyset.keyset) :
    ∃ p q C, AES_ECB.EncryptStream s stream L = (withProc s p, C) ∧
      C.length = stream.length ∧ AES_ECB.DecryptStream d C L = (withProc d q, stream) := by
  have hm := div16_add L
  obtain ⟨p, hp⟩ := ECB_encrypt_eq s stream L (Nat.le_of_eq hl.symm)
  by_cases h16 : L &&& 16 ≠ 0
  · rw [if_pos h16] at hp
    obtain ⟨q, hq⟩ := ECB_decrypt_eq d stream L (Nat.le_of_eq hl.symm)
    rw [if_pos h16] at hq
    exact ⟨p, q, stream, hp, rfl, hq⟩
  · rw [if_neg h16] at hp
    have hlen : (mapBlocks (encBlock s.keyset) (L / 16) stream).length = stream.length :=
      mapBlocks_length _ (fun b => encBlock_length s.keyset b) _ _ (by omega)
    obtain ⟨q, hq⟩ := ECB_decrypt_eq d (mapBlocks (encBlock s.keyset) (L / 16) stream) L
      (by omega)
    rw [if_neg h16, decBlock_congr hd,
      mapBlocks_inverse _ _ (ecb_block_inverse hks) _ _ (by omega) (Bytes_take hb _)] at hq
    exact ⟨p, q, _, hp, hlen, hq⟩

theorem CBC_stream_round_trip (s d : AES_BASE) (stream : List Nat) (L : Nat)
    (h0 : L ≠ 0) (h16 : L % 16 = 0) (hl : stream.length = L) (hks : KeysWF s.keyset)
    (hiv : IsBlock s.keyset.iv) (hb : Bytes stream) (hd : d.keyset = s.keyset) :
    ∃ p q C, AES_CBC.EncryptStream s stream L = (withProc s p, C) ∧
      C.length = stream.length ∧ AES_CBC.DecryptStream d C L = (withProc d q, stream) := by
  have hm := div16_add L
  obtain ⟨p, hp⟩ := CBC_encrypt_eq s stream L h0 h16 (Nat.le_of_eq hl.symm) hiv.1
  have hlen : (mapBlocks (cbcEncBlock s.keyset) (L / 16) stream).length = stream.length :=
    mapBlocks_length _ (fun b => cbcEncBlock_length s.keyset b) _ _ (by omega)
  obtain ⟨q, hq⟩ := CBC_decrypt_eq d (mapBlocks (cbcEncBlock s.keyset) (L / 16) stream) L
    h0 h16 (by omega) (by rw [hd]; exact hiv.1)
  rw [hd, mapBlocks_inverse _ _ (cbc_block_inverse hks hiv) _ _ (by omega)
    (Bytes_take hb _)] at hq
  exact ⟨p, q, _, hp, hlen, hq⟩

theorem CFB_stream_round_trip (s d : AES_BASE) (stream : List Nat) (L : Nat)
    (h0 : L ≠ 0) (hl : stream.length = L) (hd : d.keyset = s.keyset) :
    ∃ p q C, AES_CFB.EncryptStream s stream L = (withProc s p, C) ∧
      C.length = stream.length ∧ AES_CFB.DecryptStream d C L = (withProc d q, stream) := by
  have hdl := div16_le L
  have hm := div16_add L
  have hlt : L % 16 < 16 := Nat.mod_lt _ (by decide)
  obtain ⟨p, out, hp, hout⟩ := CFB_encrypt_eq s stream L h0 (Nat.le_of_eq hl.symm)
  have hX : (xorBytes (cfbKeys s.keyset (L / 16 + 1) (ivBlock s.keyset) out)
      (stream.take L)).length = L := by
    rw [xorBytes_length, cfbKeys_length, List.length_take]
    omega
  have holen : out.length = stream.length := by
    have := congrArg List.length hout
    rw [List.length_append, hX, List.length_drop] at this
    omega
  obtain ⟨q, hq⟩ := CFB_decrypt_eq d out L h0 (by omega)
  refine ⟨p, q, out, hp, holen, ?_⟩
  rw [hq, hd]
  have h1 : out.take L =
      xorBytes (cfbKeys s.keyset (L / 16 + 1) (ivBlock s.keyset) out) (stream.take L) := by
    conv_lhs => rw [hout]
    exact take_append_len hX
  have h2 : out.drop L = stream.drop L := by
    conv_lhs => rw [hout]
    exact drop_append_len hX
  rw [h2, h1, xorBytes_comm (cfbKeys _ _ _ _), xorBytes_cancel _ _
    (by rw [cfbKeys_length, List.length_take]; omega), List.take_append_drop]

theorem OFB_stream_round_trip (s d : AES_BASE) (stream : List Nat) (L : Nat)
    (h0 : L ≠ 0) (hl : stream.length = L) (hd : d.keyset = s.keyset) :
    ∃ p q C, AES_OFB.EncryptStream s stream L = (withProc s p, C) ∧
      C.length = stream.length ∧ AES_OFB.DecryptStream d C L = (withProc d q, stream) := by
  have hdl := div16_le L
  have hm := div16_add L
  have hlt : L % 16 < 16 := Nat.mod_lt _ (by decide)
  obtain ⟨p, hp⟩ := OFB_stream_eq s stream L h0 (Nat.le_of_eq hl.symm)
  have hY : (xorBytes (stream.take L)
      (ofbKeys s.keyset (L / 16 + 1) (ivBlock s.keyset))).length = L := by
    rw [xorBytes_length, ofbKeys_length, List.length_take]
    omega
  have e : AES_OFB.DecryptStream d = AES_OFB.EncryptStream d := rfl
  obtain ⟨q, hq⟩ := OFB_stream_eq d (xorBytes (stream.take L)
      (ofbKeys s.keyset (L / 16 + 1) (ivBlock s.keyset)) ++ stream.drop L) L
    h0 (by rw [List.length_append, hY, List.length_drop]; omega)
  refine ⟨p, q, _, hp, ?_, ?_⟩
  · rw [List.length_append, hY, List.length_drop]
    omega
  · rw [e, hq, hd, take_append_len hY, drop_append_len hY, xorBytes_cancel _ _
      (by rw [ofbKeys_length, List.length_take]; omega), List.take_append_drop]

/-- The virtual calls: on whole blocks `DecryptStream` undoes `EncryptStream`, for an object
`d` of the same class with the same round keys and, unless the class is ECB, the same IV. -/
theorem stream_round_trip (s d : AES_BASE) (stream : List Nat) (L : Nat)
    (h0 : L ≠ 0) (h16 : L % 16 = 0) (hl : stream.length = L) (hks : KeysWF s.keyset)
    (hiv : IsBlock s.keyset.iv) (hb : Bytes stream) (hk : d.keyset.keyset = s.keyset.keyset)
    (hd : s.cls ≠ .AES_ECB → d.keyset = s.keyset) (hc : d.cls = s.cls) :
    ∃ p q C, s.EncryptStream stream L = (withProc s p, C) ∧
      C.length = stream.length ∧ d.DecryptStream C L = (withProc d q, stream) := by
  unfold AES_BASE.EncryptStream AES_BASE.DecryptStream
  rw [hc]
  cases hcls : s.cls with
  | AES_ECB => exact ECB_stream_round_trip s d stream L hl hks hb hk
  | AES_CBC =>
    exact CBC_stream_round_trip s d stream L h0 h16 hl hks hiv hb
      (hd (by rw [hcls]; exact fun h => AES_CLASS.noConfusion h))
  | AES_CFB =>
    exact CFB_stream_round_trip s d stream L h0 hl
      (hd (by rw [hcls]; exact fun h => AES_CLASS.noConfusion h))
  | AES_OFB =>
    exact OFB_stream_round_trip s d stream L h0 hl
      (hd (by rw [hcls]; exact fun h => AES_CLASS.noConfusion h))

/-! ## The key schedule and the constructors -/

theorem IsBlock_set {l : List Nat} (h : IsBlock l) (p : Nat) {v : Nat} (hv : v < 256) :
    IsBlock (l.set p v) :=
  ⟨by rw [List.length_set]; exact h.1, Bytes_set h.2 p hv⟩

theorem IsBlock_getD {l : List Nat} (h : IsBlock l) (j : Nat) : l.getD j 0 < 256 :=
  Bytes_getD h.2 j

theorem rcon_lt (j : Nat) : rcon_table.getD j 0 < 256 :=
  Bytes_getD (by decide) j

theorem KeysWF_block {ks : AES_KEYSET} (h : KeysWF ks) (k : Nat) (hk : k ≤ 10) :
    IsBlock (ks.keyset.getD k []) := by
  have hlt : k < ks.keyset.length := by rw [h.1]; omega
  rw [List.getD_eq_getElem _ _ hlt]
  exact h.2 _ (List.getElem_mem _)

theorem KeysWF_set {ks : AES_KEYSET} (h : KeysWF ks) (k : Nat) {cur : List Nat}
    (hc : IsBlock cur) : KeysWF { ks with keyset := ks.keyset.set k cur } := by
  refine ⟨by simp only [List.length_set]; exact h.1, ?_⟩
  intro x hx
  rcases List.mem_or_eq_of_mem_set hx with hx | hx
  · exact h.2 x hx
  · rw [hx]
    exact hc

theorem ExpandKey_wf {self : AES_KEYSET} (h : KeysWF self) (keyNum : Nat) :
    KeysWF (self.ExpandKey keyNum) := by
  unfold AES_KEYSET.ExpandKey
  split
  · exact h
  · rename_i hk
    have hp : IsBlock (self.keyset.getD (keyNum - 1) []) := KeysWF_block h _ (by omega)
    have hc : IsBlock (self.keyset.getD keyNum []) := KeysWF_block h _ (by omega)
    apply KeysWF_set h
    apply forLoop_inv IsBlock
    · intro i cur hcur
      have h1 := IsBlock_set hcur i
        (xor_lt_256 (IsBlock_getD hcur (i - 1)) (IsBlock_getD hp i))
      have h2 := IsBlock_set h1 (i + 4)
        (xor_lt_256 (IsBlock_getD h1 (i + 3)) (IsBlock_getD hp (i + 4)))
      have h3 := IsBlock_set h2 (i + 8)
        (xor_lt_256 (IsBlock_getD h2 (i + 7)) (IsBlock_getD hp (i + 8)))
      exact IsBlock_set h3 (i + 12)
        (xor_lt_256 (IsBlock_getD h3 (i + 11)) (IsBlock_getD hp (i + 12)))
    · have h0 := IsBlock_set hc 0
        (xor_lt_256 (xor_lt_256 (sub_lt (IsBlock_getD hp 7)) (IsBlock_getD hp 0))
          (rcon_lt (keyNum - 1)))
      have h4 := IsBlock_set h0 4 (xor_lt_256 (sub_lt (IsBlock_getD hp 11)) (IsBlock_getD hp 4))
      have h8 := IsBlock_set h4 8 (xor_lt_256 (sub_lt (IsBlock_getD hp 15)) (IsBlock_getD hp 8))
      exact IsBlock_set h8 12
        (xor_lt_256 (sub_lt (IsBlock_getD hp 3)) (IsBlock_getD hp 12))

theorem ExpandKey_fields (self : AES_KEYSET) (keyNum : Nat) :
    (self.ExpandKey keyNum).iv = self.iv ∧ (self.ExpandKey keyNum).IVmode = self.IVmode := by
  unfold AES_KEYSET.ExpandKey
  split
  · exact ⟨rfl, rfl⟩
  · exact ⟨rfl, rfl⟩

theorem ExpandKey_keyset {s t : AES_KEYSET} (h : s.keyset = t.keyset) (keyNum : Nat) :
    (s.ExpandKey keyNum).keyset = (t.ExpandKey keyNum).keyset := by
  unfold AES_KEYSET.ExpandKey
  split
  · exact h
  · simp only [h]

theorem copyKey_bytes {key : List Nat} (hkey : Bytes key) :
    ∀ (fuel i : Nat) (keyArr : List Nat), Bytes keyArr →
      Bytes (AES_KEYSET.copyKey key fuel i keyArr).2 := by
  intro fuel
  induction fuel with
  | zero => intro i keyArr h; exact h
  | succ n ih =>
    intro i keyArr h
    unfold AES_KEYSET.copyKey
    split
    · exact ih _ _ (Bytes_set h i (Bytes_getD hkey i))
    · exact h

theorem CalculateKeys_spec (self : AES_KEYSET) (key : List Nat) :
    ∃ ks, self.CalculateKeys (some key) = some ks ∧ ks.iv = self.iv ∧
      ks.IVmode = self.IVmode ∧
      (Bytes key → KeysWF self → KeysWF ks) ∧
      ∀ t : AES_KEYSET, t.keyset = self.keyset →
        ∃ kt, t.CalculateKeys (some key) = some kt ∧ kt.keyset = ks.keyset := by
  refine ⟨_, rfl, ?_, ?_, ?_, ?_⟩
  · exact (forLoop_inv (fun s : AES_KEYSET => s.iv = self.iv)
      (fun i self => AES_KEYSET.ExpandKey self i)
      (fun i a ha => ((ExpandKey_fields a i).1).trans ha) 10 1 _ rfl)
  · exact (forLoop_inv (fun s : AES_KEYSET => s.IVmode = self.IVmode)
      (fun i self => AES_KEYSET.ExpandKey self i)
      (fun i a ha => ((ExpandKey_fields a i).2).trans ha) 10 1 _ rfl)
  · intro hkey hwf
    apply forLoop_inv KeysWF (fun i self => AES_KEYSET.ExpandKey self i)
      (fun i a ha => ExpandKey_wf ha i)
    apply KeysWF_set hwf
    have hArr : Bytes (forLoop (fun i keyArr => keyArr.set i 0)
        (16 - (AES_KEYSET.copyKey key 16 0 (List.replicate 16 0)).1)
        (AES_KEYSET.copyKey key 16 0 (List.replicate 16 0)).1
        (AES_KEYSET.copyKey key 16 0 (List.replicate 16 0)).2) :=
      forLoop_inv Bytes _ (fun i a ha => Bytes_set ha i (by decide)) _ _ _
        (copyKey_bytes hkey _ _ _ (by decide))
    apply forLoop_inv IsBlock
    · intro i key0 h0
      apply forLoop_inv IsBlock
      · intro j key1 h1
        exact IsBlock_set h1 _ (Bytes_getD hArr _)
      · exact h0
    · exact KeysWF_block hwf 0 (by omega)
  · intro t ht
    refine ⟨_, rfl, ?_⟩
    apply forLoop_rel (fun (a b : AES_KEYSET) => a.keyset = b.keyset)
      (fun i self => AES_KEYSET.ExpandKey self i) (fun i self => AES_KEYSET.ExpandKey self i)
      (fun i a b hab => ExpandKey_keyset hab i)
    simp only [ht]

/-- What a constructor of a mode class leaves: the class, the base mode identifier, the round
keys of the key (the same for every object built from this key), the bytes the memory of `iv`
held, and `IVmode` cleared for ECB only. -/
theorem new_spec (cls : AES_CLASS) (ivMem key : List Nat) :
    ∃ a, AES_BASE.new cls ivMem (some key) = some a ∧ a.cls = cls ∧ a.aesMode = 0 ∧
      a.keyset.iv = ivMem ∧ a.keyset.IVmode = (if cls = .AES_ECB then false else true) ∧
      (Bytes key → KeysWF a.keyset) ∧
      ∀ ivMem2 : List Nat, ∃ d, AES_BASE.new cls ivMem2 (some key) = some d ∧
        d.keyset.keyset = a.keyset.keyset := by
  obtain ⟨ks, h1, h2, h3, h4, h5⟩ := CalculateKeys_spec
    { keyset := List.replicate 11 (List.replicate 16 0), iv := ivMem, IVmode := true } key
  have hwf0 : KeysWF
      { keyset := List.replicate 11 (List.replicate 16 0), iv := ivMem, IVmode := true } := by
    refine ⟨rfl, ?_⟩
    intro k hk
    rw [List.eq_of_mem_replicate hk]
    exact ⟨rfl, by decide⟩
  have hk2 : ∀ ivMem2 : List Nat, ∃ kt, AES_KEYSET.new ivMem2 (some key) = some kt ∧
      kt.keyset = ks.keyset := fun ivMem2 => h5
    { keyset := List.replicate 11 (List.replicate 16 0), iv := ivMem2, IVmode := true } rfl
  cases cls with
  | AES_ECB =>
    refine ⟨AES_BASE.init .AES_ECB (ks.SetIVMode false), ?_, rfl, rfl, h2, rfl,
      fun hkey => h4 hkey hwf0, ?_⟩
    · simp only [AES_BASE.new, AES_ECB.new, AES_KEYSET.new, h1, Option.map_some']
    · intro ivMem2
      obtain ⟨kt, e1, e2⟩ := hk2 ivMem2
      exact ⟨AES_BASE.init .AES_ECB (kt.SetIVMode false),
        by simp only [AES_BASE.new, AES_ECB.new, e1, Option.map_some'], e2⟩
  | AES_CBC =>
    refine ⟨AES_BASE.init .AES_CBC (ks.ChangeIV none), ?_, rfl, rfl, h2, h3,
      fun hkey => h4 hkey hwf0, ?_⟩
    · simp only [AES_BASE.new, AES_CBC.new, AES_KEYSET.new, h1, Option.map_some']
    · intro ivMem2
      obtain ⟨kt, e1, e2⟩ := hk2 ivMem2
      exact ⟨AES_BASE.init .AES_CBC (kt.ChangeIV none),
        by simp only [AES_BASE.new, AES_CBC.new, e1, Option.map_some'], e2⟩
  | AES_CFB =>
    refine ⟨AES_BASE.init .AES_CFB (ks.ChangeIV none), ?_, rfl, rfl, h2, h3,
      fun hkey => h4 hkey hwf0, ?_⟩
    · simp only [AES_BASE.new, AES_CFB.new, AES_KEYSET.new, h1, Option.map_some']
    · intro ivMem2
      obtain ⟨kt, e1, e2⟩ := hk2 ivMem2
      exact ⟨AES_BASE.init .AES_CFB (kt.ChangeIV none),
        by simp only [AES_BASE.new, AES_CFB.new, e1, Option.map_some'], e2⟩
  | AES_OFB =>
    refine ⟨AES_BASE.init .AES_OFB (ks.ChangeIV none), ?_, rfl, rfl, h2, h3,
      fun hkey => h4 hkey hwf0, ?_⟩
    · simp only [AES_BASE.new, AES_OFB.new, AES_KEYSET.new, h1, Option.map_some']
    · intro ivMem2
      obtain ⟨kt, e1, e2⟩ := hk2 ivMem2
      exact ⟨AES_BASE.init .AES_OFB (kt.ChangeIV none),
        by simp only [AES_BASE.new, AES_OFB.new, e1, Option.map_some'], e2⟩

/-! ## The buffer pipeline -/

theorem ClearIV_spec (ks : AES_KEYSET) (rand : Nat → Nat) (h : ks.iv.length = 16) :
    ∃ iv, ks.ClearIV rand = { ks with iv := iv } ∧ IsBlock iv := by
  obtain ⟨k, iv, m⟩ := ks
  obtain ⟨a0, a1, a2, a3, a4, a5, a6, a7, a8, a9, a10, a11, a12, a13, a14, a15, e⟩ :=
    length16 h
  simp only at e
  subst e
  refine ⟨(List.range 16).map (fun i => rand i % 256), ?_, rfl, ?_⟩
  · simp only [AES_KEYSET.ClearIV, forLoop, List.set_cons_succ, List.set_cons_zero,
      Nat.reduceAdd]
    rfl
  · intro x hx
    obtain ⟨i, _, hi⟩ := List.mem_map.1 hx
    rw [← hi]
    exact Nat.mod_lt _ (by decide)

theorem padLoop_eq (v : Nat) : ∀ (k : Nat) (xs ys zs : List Nat), ys.length = k →
    forLoopDown (fun i (d : List Nat) => d.set i v) k (xs.length + k - 1) (xs ++ ys ++ zs) =
      xs ++ List.replicate k v ++ zs := by
  intro k
  induction k with
  | zero =>
    intro xs ys zs h
    rw [List.length_eq_zero.1 h]
    rfl
  | succ k ih =>
    intro xs ys zs h
    obtain ⟨ys2, y, hy, hl⟩ : ∃ ys2 y, ys = ys2 ++ [y] ∧ ys2.length = k := by
      have hne : ys ≠ [] := by
        intro e
        rw [e] at h
        simp at h
      refine ⟨ys.dropLast, ys.getLast hne, (List.dropLast_append_getLast hne).symm, ?_⟩
      rw [List.length_dropLast, h]
      rfl
    subst hy
    have hset : (xs ++ (ys2 ++ [y]) ++ zs).set (xs.length + (k + 1) - 1) v =
        xs ++ ys2 ++ (v :: zs) := by
      rw [List.append_assoc, List.append_assoc, List.append_assoc,
        List.set_append_right _ _ (by omega),
        List.set_append_right _ _ (by rw [hl]; omega)]
      have e : xs.length + (k + 1) - 1 - xs.length - ys2.length = 0 := by
        rw [hl]
        omega
      rw [e]
      rfl
    show forLoopDown (fun i (d : List Nat) => d.set i v) k (xs.length + (k + 1) - 1 - 1)
      ((xs ++ (ys2 ++ [y]) ++ zs).set (xs.length + (k + 1) - 1) v) = _
    rw [hset]
    have e2 : xs.length + (k + 1) - 1 - 1 = xs.length + k - 1 := by omega
    rw [e2, ih xs ys2 (v :: zs) hl, List.replicate_succ', List.append_assoc,
      List.append_assoc, List.append_assoc]
    rfl

theorem padValue_bounds (n : Nat) :
    1 ≤ AES_BASE.padValue n ∧ AES_BASE.padValue n ≤ 16 ∧ (n + AES_BASE.padValue n) % 16 = 0 := by
  unfold AES_BASE.padValue
  rw [and15]
  split <;> omega

/-- The buffer that `Encrypt` hands to `EncryptStream`: the source followed by the pad bytes,
whatever the class of the object. -/
theorem Encrypt_spec (s : AES_BASE) (P : List Nat) (sl : Nat) (hmode : s.aesMode = 0)
    (h0 : 0 < P.length) (hbig : P.length + 32 < 2 ^ 64) :
    s.Encrypt P P.length sl true =
      ((s.EncryptStream (P ++ List.replicate (AES_BASE.padValue P.length)
          (AES_BASE.padValue P.length)) (P.length + AES_BASE.padValue P.length)).1,
        some (s.EncryptStream (P ++ List.replicate (AES_BASE.padValue P.length)
          (AES_BASE.padValue P.length)) (P.length + AES_BASE.padValue P.length)).2,
        P.length + AES_BASE.padValue P.length) := by
  obtain ⟨hp1, hp2, _⟩ := padValue_bounds P.length
  have hL : (P.length + AES_BASE.padValue P.length) % 2 ^ 64 =
      P.length + AES_BASE.padValue P.length := Nat.mod_eq_of_lt (by omega)
  have hg : s.GetMode < AES_CFB_M := by
    show s.aesMode < 3
    rw [hmode]
    decide
  have hw : writeAt (List.replicate (P.length + AES_BASE.padValue P.length) 0) 0
      (readAt P 0 P.length) = P ++ List.replicate (AES_BASE.padValue P.length) 0 ++ [] := by
    rw [readAt_full rfl]
    unfold writeAt
    rw [List.take_zero, List.nil_append, Nat.zero_add, List.drop_replicate,
      Nat.add_sub_cancel_left, List.append_nil]
  have hk : P.length + AES_BASE.padValue P.length - P.length = AES_BASE.padValue P.length := by
    omega
  unfold AES_BASE.Encrypt
  rw [if_neg (by omega)]
  simp only [if_true, hL, hg, and_self, hw, hk]
  rw [padLoop_eq _ _ P _ [] (List.length_replicate _ _), List.append_nil]

/-- The length that `Decrypt` reports, whatever the class of the object: the length of the
stream less its last byte. -/
theorem Decrypt_spec (d : AES_BASE) (C : List Nat) (L sl : Nat) (hmode : d.aesMode = 0)
    (h0 : L ≠ 0) (h16 : L % 16 = 0) (hl : C.length = L) :
    d.Decrypt C L sl true =
      ((d.DecryptStream C L).1, some (d.DecryptStream C L).2,
        (L + 2 ^ 64 - (d.DecryptStream C L).2.getD (L - 1) 0) % 2 ^ 64) := by
  have hg : d.GetMode < AES_CFB_M := by
    show d.aesMode < 3
    rw [hmode]
    decide
  have hw : writeAt (List.replicate L 0) 0 (readAt C 0 L) = C := by
    rw [readAt_full hl]
    exact writeAt_full (by rw [List.length_replicate, hl])
  unfold AES_BASE.Decrypt
  rw [if_neg h0, if_neg (by rw [and15, h16]; exact fun h => h rfl)]
  simp only [hg, and_self, if_true, hw]

theorem ivPrefix_eq (iv C : List Nat) (L : Nat) (hiv : iv.length = 16) (hC : C.length = L)
    (hbig : L + 16 < 2 ^ 64) :
    writeAt (writeAt (List.replicate ((L + 16) % 2 ^ 64) 0) 0 (readAt iv 0 16)) 16
      (readAt C 0 L) = iv ++ C := by
  rw [Nat.mod_eq_of_lt hbig, readAt_full hiv, readAt_full hC]
  unfold writeAt
  rw [List.take_zero, List.nil_append, Nat.zero_add, hiv, List.drop_replicate,
    List.append_assoc, take_append_len hiv, drop_append_len_add hiv, hC, List.drop_replicate]
  have e : L + 16 - 16 - L = 0 := by omega
  rw [e, List.replicate_zero, List.append_nil]

theorem ChangeIV_prefix (ks : AES_KEYSET) (iv C : List Nat) (hiv : iv.length = 16)
    (hks : ks.iv.length = 16) :
    ks.ChangeIV (some (iv ++ C)) = { ks with iv := iv } := by
  unfold AES_KEYSET.ChangeIV
  have e : readAt (iv ++ C) 0 16 = iv := by
    unfold readAt
    rw [List.drop_zero]
    exact take_append_len hiv
  simp only [e]
  rw [writeAt_full (hks.trans hiv.symm)]

theorem padded_last (P : List Nat) (pad : Nat) (hp : 1 ≤ pad) :
    (P ++ List.replicate pad pad).getD (P.length + pad - 1) 0 = pad := by
  rw [getD_append_ge _ _ (by omega)]
  rw [List.getD_eq_getElem _ _ (by rw [List.length_replicate]; omega)]
  exact List.getElem_replicate _ _

theorem EncryptBuffer_eq (a s : AES_BASE) (rand : Nat → Nat) (P : List Nat) (sl0 : Nat)
    (hs : s = { a with keyset := a.keyset.ClearIV rand }) (p C : List Nat) (L : Nat)
    (hE : s.Encrypt P P.length sl0 true = (withProc s p, some C, L)) :
    a.EncryptBuffer rand P P.length sl0 =
      if s.keyset.IVmode = true then
        (withProc s p,
          some (writeAt (writeAt (List.replicate ((L + 16) % 2 ^ 64) 0) 0
            (readAt s.keyset.iv 0 16)) 16 (readAt C 0 L)),
          (L + 16) % 2 ^ 64)
      else (withProc s p, some C, L) := by
  subst hs
  unfold AES_BASE.EncryptBuffer
  simp only [hE]
  rfl

theorem DecryptBuffer_eq (d : AES_BASE) (src : List Nat) (length sl1 : Nat) :
    d.DecryptBuffer src length sl1 =
      if d.keyset.IVmode = true then
        AES_BASE.Decrypt { d with keyset := d.keyset.ChangeIV (some src) } (src.drop 16)
          ((length + 2 ^ 64 - 16) % 2 ^ 64) sl1 true
      else d.Decrypt src length sl1 true :=
  rfl

/-- The buffer pipeline: what `EncryptBuffer` returns for a source of at least one byte is
decrypted by `DecryptBuffer`, on every object `d` of the same class with the same round keys
and `IVmode`, to a buffer that starts with the source, with the length of the source reported.
The object that `EncryptBuffer` leaves is such an object. -/
theorem buffer_pipeline (a : AES_BASE) (rand : Nat → Nat) (P : List Nat) (sl0 : Nat)
    (hma : a.aesMode = 0) (hiva : a.keyset.iv.length = 16)
    (hecb : a.keyset.IVmode = false → a.cls = .AES_ECB)
    (hwf : KeysWF a.keyset) (hP : Bytes P) (h0 : 0 < P.length)
    (hbig : P.length + 32 < 2 ^ 64) :
    ∃ a2 enc encLen, a.EncryptBuffer rand P P.length sl0 = (a2, some enc, encLen) ∧
      (a2.aesMode = 0 ∧ a2.cls = a.cls ∧ a2.keyset.keyset = a.keyset.keyset ∧
        a2.keyset.IVmode = a.keyset.IVmode ∧ a2.keyset.iv.length = 16) ∧
      ∀ (d : AES_BASE) (sl1 : Nat), d.aesMode = 0 → d.cls = a.cls →
        d.keyset.keyset = a.keyset.keyset → d.keyset.IVmode = a.keyset.IVmode →
        d.keyset.iv.length = 16 →
        ∃ d2 buf, d.DecryptBuffer enc encLen sl1 = (d2, some buf, P.length) ∧
          buf.take P.length = P := by
  obtain ⟨hp1, hp2, hp16⟩ := padValue_bounds P.length
  obtain ⟨iv, hclr, hivb⟩ := ClearIV_spec a.keyset rand hiva
  obtain ⟨s, hs⟩ : ∃ s : AES_BASE, s = { a with keyset := a.keyset.ClearIV rand } := ⟨_, rfl⟩
  have hsm : s.aesMode = 0 := by rw [hs]; exact hma
  have hsc : s.cls = a.cls := by rw [hs]
  have hsks : s.keyset = { a.keyset with iv := iv } := by rw [hs, ← hclr]
  have hsk : s.keyset.keyset = a.keyset.keyset := by rw [hsks]
  have hsi : s.keyset.iv = iv := by rw [hsks]
  have hsI : s.keyset.IVmode = a.keyset.IVmode := by rw [hsks]
  have hswf : KeysWF s.keyset := by
    unfold KeysWF
    rw [hsk]
    exact hwf
  have hpl : (P ++ List.replicate (AES_BASE.padValue P.length)
      (AES_BASE.padValue P.length)).length = P.length + AES_BASE.padValue P.length := by
    rw [List.length_append, List.length_replicate]
  have hpb : Bytes (P ++ List.replicate (AES_BASE.padValue P.length)
      (AES_BASE.padValue P.length)) := by
    apply Bytes_append hP
    intro x hx
    rw [List.eq_of_mem_replicate hx]
    omega
  have hL0 : P.length + AES_BASE.padValue P.length ≠ 0 := by omega
  have hrep : (P.length + AES_BASE.padValue P.length + 2 ^ 64 - AES_BASE.padValue P.length) %
      2 ^ 64 = P.length := by omega
  obtain ⟨p, _, C, hE, hCl, _⟩ := stream_round_trip s s _ _ hL0 hp16 hpl hswf
    (by rw [hsi]; exact hivb) hpb rfl (fun _ => rfl) rfl
  rw [hpl] at hCl
  have hEnc : s.Encrypt P P.length sl0 true =
      (withProc s p, some C, P.length + AES_BASE.padValue P.length) := by
    rw [Encrypt_spec s P sl0 hsm h0 hbig, hE]
  have hdec : ∀ (d : AES_BASE), d.aesMode = 0 → d.cls = a.cls →
      d.keyset.keyset = a.keyset.keyset → (a.cls ≠ .AES_ECB → d.keyset = s.keyset) →
      ∀ sl1 : Nat,
      ∃ d2 buf, d.Decrypt C (P.length + AES_BASE.padValue P.length) sl1 true =
        (d2, some buf, P.length) ∧ buf.take P.length = P := by
    intro d hmd hc hk hd sl1
    obtain ⟨p2, q, C2, hE2, _, hD⟩ := stream_round_trip s d _ _ hL0 hp16 hpl hswf
      (by rw [hsi]; exact hivb) hpb (hk.trans hsk.symm) (fun h => hd (by rw [← hsc]; exact h))
      (hc.trans hsc.symm)
    have hCC : C2 = C := (Prod.mk.inj (hE2.symm.trans hE)).2
    rw [hCC] at hD
    refine ⟨withProc d q, P ++ List.replicate (AES_BASE.padValue P.length)
      (AES_BASE.padValue P.length), ?_, take_append_len rfl⟩
    rw [Decrypt_spec d C _ sl1 hmd hL0 hp16 hCl, hD]
    simp only []
    rw [padded_last P _ hp1, hrep]
  have hEB := EncryptBuffer_eq a s rand P sl0 hs p C _ hEnc
  by_cases hI : a.keyset.IVmode = true
  · rw [if_pos (hsI.trans hI), hsi, ivPrefix_eq iv C _ hivb.1 hCl (by omega),
      Nat.mod_eq_of_lt (by omega)] at hEB
    refine ⟨withProc s p, iv ++ C, P.length + AES_BASE.padValue P.length + 16, hEB,
      ⟨hsm, hsc, hsk, hsI, by rw [withProc_keyset, hsi]; exact hivb.1⟩, ?_⟩
    intro d sl1 hmd hc hk hm hivd
    have e : (P.length + AES_BASE.padValue P.length + 16 + 2 ^ 64 - 16) % 2 ^ 64 =
        P.length + AES_BASE.padValue P.length := by omega
    rw [DecryptBuffer_eq, if_pos (hm.trans hI), ChangeIV_prefix d.keyset iv C hivb.1 hivd,
      drop_append_len hivb.1, e]
    refine hdec { d with keyset := { d.keyset with iv := iv } } hmd hc hk (fun _ => ?_) sl1
    rw [hsks]
    simp only [hk, hm]
  · have hF : a.keyset.IVmode = false := by
      cases h : a.keyset.IVmode
      · rfl
      · exact absurd h hI
    rw [if_neg (by rw [hsI]; exact hI)] at hEB
    refine ⟨withProc s p, C, P.length + AES_BASE.padValue P.length, hEB,
      ⟨hsm, hsc, hsk, hsI, by rw [withProc_keyset, hsi]; exact hivb.1⟩, ?_⟩
    intro d sl1 hmd hc hk hm hivd
    rw [DecryptBuffer_eq, if_neg (by rw [hm]; exact hI)]
    exact hdec d hmd hc hk (fun hne => absurd (hecb hF) hne) sl1

/-! ## Length tests -/

theorem and16 (x : Nat) : x &&& 16 = if x / 16 % 2 = 1 then 16 else 0 := by
  have h := Nat.and_two_pow x 4
  rw [Nat.testBit_to_div_mod] at h
  simp only [Nat.reducePow] at h
  rw [h]
  split <;> simp_all

/-! ## The shape of what the buffer functions return -/

/-- The stream transforms keep the length of the buffer and leave the object as it was, the
scratch array `procArray` apart. -/
theorem EncryptStream_shape (s : AES_BASE) (stream : List Nat) (L : Nat) (h0 : L ≠ 0)
    (h16 : L % 16 = 0) (hl : stream.length = L) (hiv : s.keyset.iv.length = 16) :
    ∃ p C, s.EncryptStream stream L = (withProc s p, C) ∧ C.length = stream.length := by
  have hm := div16_add L
  have hdl := div16_le L
  unfold AES_BASE.EncryptStream
  cases s.cls with
  | AES_ECB =>
    obtain ⟨p, hp⟩ := ECB_encrypt_eq s stream L (Nat.le_of_eq hl.symm)
    refine ⟨p, _, hp, ?_⟩
    split
    · rfl
    · exact mapBlocks_length _ (fun b => encBlock_length s.keyset b) _ _ (by omega)
  | AES_CBC =>
    obtain ⟨p, hp⟩ := CBC_encrypt_eq s stream L h0 h16 (Nat.le_of_eq hl.symm) hiv
    exact ⟨p, _, hp,
      mapBlocks_length _ (fun b => cbcEncBlock_length s.keyset b) _ _ (by omega)⟩
  | AES_CFB =>
    obtain ⟨p, out, hp, hout⟩ := CFB_encrypt_eq s stream L h0 (Nat.le_of_eq hl.symm)
    refine ⟨p, out, hp, ?_⟩
    have := congrArg List.length hout
    rw [List.length_append, xorBytes_length, cfbKeys_length, List.length_take,
      List.length_drop] at this
    omega
  | AES_OFB =>
    obtain ⟨p, hp⟩ := OFB_stream_eq s stream L h0 (Nat.le_of_eq hl.symm)
    refine ⟨p, _, hp, ?_⟩
    rw [List.length_append, xorBytes_length, ofbKeys_length, List.length_take,
      List.length_drop]
    omega

theorem padValue_eq (n : Nat) : AES_BASE.padValue n = 16 - n % 16 := by
  unfold AES_BASE.padValue
  rw [and15]
  split <;> omega

/-- The buffer that `Encrypt` hands to `EncryptStream` whenever its test on `GetMode()` passes:
the source followed by the pad bytes. -/
theorem Encrypt_padded (s : AES_BASE) (P : List Nat) (sl : Nat) (hg : s.GetMode < AES_CFB_M)
    (h0 : 0 < P.length) (hbig : P.length + 32 < 2 ^ 64) :
    s.Encrypt P P.length sl true =
      ((s.EncryptStream (P ++ List.replicate (AES_BASE.padValue P.length)
          (AES_BASE.padValue P.length)) (P.length + AES_BASE.padValue P.length)).1,
        some (s.EncryptStream (P ++ List.replicate (AES_BASE.padValue P.length)
          (AES_BASE.padValue P.length)) (P.length + AES_BASE.padValue P.length)).2,
        P.length + AES_BASE.padValue P.length) := by
  obtain ⟨hp1, hp2, _⟩ := padValue_bounds P.length
  have hL : (P.length + AES_BASE.padValue P.length) % 2 ^ 64 =
      P.length + AES_BASE.padValue P.length := Nat.mod_eq_of_lt (by omega)
  have hw : writeAt (List.replicate (P.length + AES_BASE.padValue P.length) 0) 0
      (readAt P 0 P.length) = P ++ List.replicate (AES_BASE.padValue P.length) 0 ++ [] := by
    rw [readAt_full rfl]
    unfold writeAt
    rw [List.take_zero, List.nil_append, Nat.zero_add, List.drop_replicate,
      Nat.add_sub_cancel_left, List.append_nil]
  have hk : P.length + AES_BASE.padValue P.length - P.length = AES_BASE.padValue P.length := by
    omega
  unfold AES_BASE.Encrypt
  rw [if_neg (by omega)]
  simp only [if_true, hL, hg, and_self, hw, hk]
  rw [padLoop_eq _ _ P _ [] (List.length_replicate _ _), List.append_nil]

/-- What `Decrypt` returns whenever its test on `GetMode()` passes: the whole decrypted stream,
and the length of the stream less its last byte, in the arithmetic of `size_t`. -/
theorem Decrypt_last_byte (d : AES_BASE) (C : List Nat) (L sl : Nat)
    (hg : d.GetMode < AES_CFB_M) (h0 : L ≠ 0) (h16 : L % 16 = 0) (hl : C.length = L) :
    d.Decrypt C L sl true =
      ((d.DecryptStream C L).1, some (d.DecryptStream C L).2,
        (L + 2 ^ 64 - (d.DecryptStream C L).2.getD (L - 1) 0) % 2 ^ 64) := by
  have hw : writeAt (List.replicate L 0) 0 (readAt C 0 L) = C := by
    rw [readAt_full hl]
    exact writeAt_full (by rw [List.length_replicate, hl])
  unfold AES_BASE.Decrypt
  rw [if_neg h0, if_neg (by rw [and15, h16]; exact fun h => h rfl)]
  simp only [hg, and_self, if_true, hw]

/-- What `EncryptBuffer` returns for a source of at least one byte: with `s` the object after
`ClearIV`, the object and the stream `C` that `Encrypt` leaves on `s`, behind the IV of `s`
when `IVmode` is set. -/
theorem EncryptBuffer_shape (a s : AES_BASE) (rand : Nat → Nat) (P : List Nat) (sl0 : Nat)
    (hs : s = { a with keyset := a.keyset.ClearIV rand })
    (hg : a.GetMode < AES_CFB_M) (hiva : a.keyset.iv.length = 16) (h0 : 0 < P.length)
    (hbig : P.length + 32 < 2 ^ 64) :
    ∃ p C, s.keyset.iv.length = 16 ∧ s.keyset.IVmode = a.keyset.IVmode ∧
      s.EncryptStream (P ++ List.replicate (AES_BASE.padValue P.length)
        (AES_BASE.padValue P.length)) (P.length + AES_BASE.padValue P.length) =
        (withProc s p, C) ∧
      s.Encrypt P P.length sl0 true =
        (withProc s p, some C, P.length + AES_BASE.padValue P.length) ∧
      C.length = P.length + AES_BASE.padValue P.length ∧
      a.EncryptBuffer rand P P.length sl0 =
        if a.keyset.IVmode = true then
          (withProc s p, some (s.keyset.iv ++ C), P.length + AES_BASE.padValue P.length + 16)
        else (withProc s p, some C, P.length + AES_BASE.padValue P.length) := by
  obtain ⟨hp1, hp2, hp16⟩ := padValue_bounds P.length
  obtain ⟨iv, hclr, hivb⟩ := ClearIV_spec a.keyset rand hiva
  have hsks : s.keyset = { a.keyset with iv := iv } := by rw [hs, ← hclr]
  have hsi : s.keyset.iv = iv := by rw [hsks]
  have hsI : s.keyset.IVmode = a.keyset.IVmode := by rw [hsks]
  have hsg : s.GetMode < AES_CFB_M := by rw [hs]; exact hg
  have hpl : (P ++ List.replicate (AES_BASE.padValue P.length)
      (AES_BASE.padValue P.length)).length = P.length + AES_BASE.padValue P.length := by
    rw [List.length_append, List.length_replicate]
  obtain ⟨p, C, hE, hCl⟩ := EncryptStream_shape s _ _ (by omega) hp16 hpl
    (by rw [hsi]; exact hivb.1)
  rw [hpl] at hCl
  have hEnc : s.Encrypt P P.length sl0 true =
      (withProc s p, some C, P.length + AES_BASE.padValue P.length) := by
    rw [Encrypt_padded s P sl0 hsg h0 hbig, hE]
  refine ⟨p, C, by rw [hsi]; exact hivb.1, hsI, hE, hEnc, hCl, ?_⟩
  rw [EncryptBuffer_eq a s rand P sl0 hs p C _ hEnc, hsI]
  by_cases hI : a.keyset.IVmode = true
  · rw [if_pos hI, if_pos hI, hsi, ivPrefix_eq iv C _ hivb.1 hCl (by omega),
      Nat.mod_eq_of_lt (by omega)]
  · rw [if_neg hI, if_neg hI]

/-! ## Round key 0 -/

theorem keyBytes_cons_succ (b : Nat) (rest : List Nat) (n : Nat) :
    keyBytes (b :: rest) (n + 1) =
      if b = 0 then List.replicate (n + 1) 0 else b :: keyBytes rest n := by
  rw [keyBytes]

theorem keyBytes_length : ∀ (n : Nat) (key : List Nat), (keyBytes key n).length = n := by
  intro n
  induction n with
  | zero => intro key; cases key <;> rfl
  | succ n ih =>
    intro key
    cases key with
    | nil => exact List.length_replicate _ _
    | cons b rest =>
      rw [keyBytes_cons_succ]
      split
      · exact List.length_replicate _ _
      · rw [List.length_cons, ih]

theorem keyBytes_stop (n : Nat) (tail : List Nat) (h : tail.getD 0 0 = 0) :
    keyBytes tail n = List.replicate n 0 := by
  cases n with
  | zero => cases tail <;> rfl
  | succ n =>
    cases tail with
    | nil => rfl
    | cons b rest =>
      have hb : b = 0 := h
      rw [keyBytes_cons_succ, if_pos hb]

theorem keyBytes_append : ∀ (pre tail : List Nat) (n : Nat), (∀ b ∈ pre, b ≠ 0) →
    pre.length ≤ n → keyBytes (pre ++ tail) n = pre ++ keyBytes tail (n - pre.length) := by
  intro pre
  induction pre with
  | nil => intro tail n _ _; rfl
  | cons b pre ih =>
    intro tail n hb hn
    cases n with
    | zero => simp at hn
    | succ n =>
      have h1 : (b :: pre ++ tail) = b :: (pre ++ tail) := rfl
      rw [h1, keyBytes_cons_succ, if_neg (hb b (List.mem_cons_self _ _)),
        ih tail n (fun c hc => hb c (List.mem_cons_of_mem _ hc))
          (by simpa using hn)]
      simp

theorem zeroFill_id : ∀ (n i : Nat) (pre : List Nat) (m : Nat), pre.length ≤ i →
    forLoop (fun i (a : List Nat) => a.set i 0) n i (pre ++ List.replicate m 0) =
      pre ++ List.replicate m 0 := by
  intro n
  induction n with
  | zero => intro i pre m _; rfl
  | succ n ih =>
    intro i pre m h
    simp only [forLoop]
    rw [List.set_append_right _ _ h, List.set_replicate_self]
    exact ih (i + 1) pre m (by omega)

theorem copyKey_pad (key : List Nat) : ∀ (fuel : Nat) (pre rest : List Nat),
    key.drop pre.length = rest → pre.length + fuel = 16 →
    forLoop (fun i (a : List Nat) => a.set i 0)
        (16 - (AES_KEYSET.copyKey key fuel pre.length (pre ++ List.replicate fuel 0)).1)
        (AES_KEYSET.copyKey key fuel pre.length (pre ++ List.replicate fuel 0)).1
        (AES_KEYSET.copyKey key fuel pre.length (pre ++ List.replicate fuel 0)).2 =
      pre ++ keyBytes rest fuel := by
  intro fuel
  induction fuel with
  | zero =>
    intro pre rest _ h16
    have e : keyBytes rest 0 = [] := by cases rest <;> rfl
    rw [e]
    simp only [AES_KEYSET.copyKey]
    rw [show pre.length = 16 from h16]
    rfl
  | succ fuel ih =>
    intro pre rest hrest h16
    have hget : key.getD pre.length 0 = rest.getD 0 0 := by
      rw [← hrest, getD_drop]
      rfl
    unfold AES_KEYSET.copyKey
    by_cases hz : rest.getD 0 0 = 0
    · rw [if_neg (by rw [hget]; exact fun h => h.2 hz)]
      simp only []
      rw [zeroFill_id _ _ _ _ (Nat.le_refl _), keyBytes_stop _ _ hz]
    · rw [if_pos ⟨by omega, by rw [hget]; exact hz⟩, hget]
      cases rest with
      | nil => exact absurd rfl hz
      | cons b rest2 =>
        have hb : b ≠ 0 := hz
        have hset : (pre ++ List.replicate (fuel + 1) 0).set pre.length (List.getD (b :: rest2) 0 0) =
            (pre ++ [b]) ++ List.replicate fuel 0 := by
          rw [List.set_append_right _ _ (Nat.le_refl _), Nat.sub_self, List.replicate_succ]
          simp
        have hlen : pre.length + 1 = (pre ++ [b]).length := by simp
        have hdrop : key.drop (pre ++ [b]).length = rest2 := by
          rw [← hlen, ← List.drop_drop, hrest]
          rfl
        rw [hset, hlen, ih (pre ++ [b]) rest2 hdrop (by rw [← hlen]; omega),
          keyBytes_cons_succ, if_neg hb]
        simp

theorem key0_eq (keyArr old : List Nat) (hold : old.length = 16) :
    forLoop (fun i key0 =>
      forLoop (fun j (key0 : List Nat) => key0.set (j * 4 + i) (keyArr.getD (i * 4 + j) 0))
        4 0 key0) 4 0 old =
      [keyArr.getD 0 0, keyArr.getD 4 0, keyArr.getD 8 0, keyArr.getD 12 0,
       keyArr.getD 1 0, keyArr.getD 5 0, keyArr.getD 9 0, keyArr.getD 13 0,
       keyArr.getD 2 0, keyArr.getD 6 0, keyArr.getD 10 0, keyArr.getD 14 0,
       keyArr.getD 3 0, keyArr.getD 7 0, keyArr.getD 11 0, keyArr.getD 15 0] := by
  obtain ⟨a0, a1, a2, a3, a4, a5, a6, a7, a8, a9, a10, a11, a12, a13, a14, a15, e⟩ :=
    length16 hold
  subst e
  simp only [forLoop, List.set_cons_succ, List.set_cons_zero, Nat.reduceAdd, Nat.reduceMul]

theorem ExpandKey_key0 (s : AES_KEYSET) (keyNum : Nat) :
    (s.ExpandKey keyNum).keyset.getD 0 [] = s.keyset.getD 0 [] := by
  unfold AES_KEYSET.ExpandKey
  split
  · rfl
  · rename_i h
    simp only [List.getD_eq_getElem?_getD]
    rw [List.getElem?_set_ne (by omega)]

/-- Round key 0 after `CalculateKeys`: the padded key string, written column by column. -/
theorem CalculateKeys_key0 (self : AES_KEYSET) (key : List Nat)
    (h11 : self.keyset.length = 11) (h16 : (self.keyset.getD 0 []).length = 16) :
    ∃ ks, self.CalculateKeys (some key) = some ks ∧
      ks.keyset.getD 0 [] =
        [(padKey key).getD 0 0, (padKey key).getD 4 0, (padKey key).getD 8 0,
         (padKey key).getD 12 0, (padKey key).getD 1 0, (padKey key).getD 5 0,
         (padKey key).getD 9 0, (padKey key).getD 13 0, (padKey key).getD 2 0,
         (padKey key).getD 6 0, (padKey key).getD 10 0, (padKey key).getD 14 0,
         (padKey key).getD 3 0, (padKey key).getD 7 0, (padKey key).getD 11 0,
         (padKey key).getD 15 0] := by
  have hArr : forLoop (fun i (keyArr : List Nat) => keyArr.set i 0)
      (16 - (AES_KEYSET.copyKey key 16 0 (List.replicate 16 0)).1)
      (AES_KEYSET.copyKey key 16 0 (List.replicate 16 0)).1
      (AES_KEYSET.copyKey key 16 0 (List.replicate 16 0)).2 = padKey key :=
    copyKey_pad key 16 [] key rfl rfl
  have hC : self.CalculateKeys (some key) =
      some (forLoop (fun i s => AES_KEYSET.ExpandKey s i) 10 1
        { self with
          keyset := (self.keyset.set 0
            (forLoop (fun i key0 =>
              forLoop (fun j (key0 : List Nat) =>
                key0.set (j * 4 + i) ((padKey key).getD (i * 4 + j) 0)) 4 0 key0)
              4 0 (self.keyset.getD 0 []))) }) := by
    rw [← hArr]
    rfl
  rw [key0_eq _ _ h16] at hC
  refine ⟨_, hC, ?_⟩
  apply forLoop_inv (fun s : AES_KEYSET => s.keyset.getD 0 [] = _)
    (fun i self => AES_KEYSET.ExpandKey self i) (fun i a ha => (ExpandKey_key0 a i).trans ha)
  simp only [List.getD_eq_getElem?_getD]
  rw [List.getElem?_set_self (by omega)]
  rfl

/-! ## Row shifts, IV access -/

theorem shiftR_shiftL {b : List Nat} (hb : b.length = 16) : shiftR (shiftL b) = b := by
  obtain ⟨a0, a1, a2, a3, a4, a5, a6, a7, a8, a9, a10, a11, a12, a13, a14, a15, e⟩ :=
    length16 hb
  subst e
  rfl

theorem shiftL_shiftR {b : List Nat} (hb : b.length = 16) : shiftL (shiftR b) = b := by
  obtain ⟨a0, a1, a2, a3, a4, a5, a6, a7, a8, a9, a10, a11, a12, a13, a14, a15, e⟩ :=
    length16 hb
  subst e
  rfl

theorem shiftL_index (b : List Nat) (r c : Nat) (hr : r < 4) (hc : c < 4) :
    (shiftL b).getD (c * 4 + r) 0 = b.getD (((c + r) % 4) * 4 + r) 0 := by
  interval_cases r <;> interval_cases c <;> rfl

theorem shiftR_index (b : List Nat) (r c : Nat) (hr : r < 4) (hc : c < 4) :
    (shiftR b).getD (c * 4 + r) 0 = b.getD (((c + 4 - r) % 4) * 4 + r) 0 := by
  interval_cases r <;> interval_cases c <;> rfl

theorem GetIV_ChangeIV (ks : AES_KEYSET) (v : List Nat) (hks : ks.iv.length = 16)
    (hv : v.length = 16) : (ks.ChangeIV (some v)).GetIV = v := by
  have h := ChangeIV_prefix ks v [] hv hks
  rw [List.append_nil] at h
  rw [h]
  exact readAt_full hv

/-! ## The key expansion -/

theorem expandRow_recurrence (prev : List Nat) (rc : Nat) :
    KeyRecurrence prev (expandRow prev rc) rc := by
  constructor
  · intro r hr
    interval_cases r
    · rfl
    · exact (Nat.xor_zero _).symm
    · exact (Nat.xor_zero _).symm
    · exact (Nat.xor_zero _).symm
  · intro r c hr h1 hc
    interval_cases r <;> interval_cases c <;> rfl

theorem ExpandKey_row (s : AES_KEYSET) (k : Nat) (h1 : 1 ≤ k) (h10 : k ≤ 10)
    (h16 : (s.keyset.getD k []).length = 16) :
    (s.ExpandKey k).keyset =
      s.keyset.set k (expandRow (s.keyset.getD (k - 1) []) (rcon_table.getD (k - 1) 0)) := by
  obtain ⟨a0, a1, a2, a3, a4, a5, a6, a7, a8, a9, a10, a11, a12, a13, a14, a15, e⟩ :=
    length16 h16
  unfold AES_KEYSET.ExpandKey
  rw [if_neg (by omega), e]
  simp only [forLoop, List.set_cons_succ, List.set_cons_zero, List.getD_cons_zero,
    List.getD_cons_succ, Nat.reduceAdd, Nat.reduceSub, expandRow]

theorem forLoop_range_inv {σ : Type} (Inv : Nat → σ → Prop) (f : Nat → σ → σ)
    (h : ∀ i a, Inv i a → Inv (i + 1) (f i a)) :
    ∀ n i a, Inv i a → Inv (i + n) (forLoop f n i a) := by
  intro n
  induction n with
  | zero => intro i a ha; exact ha
  | succ n ih =>
    intro i a ha
    have e : i + (n + 1) = i + 1 + n := by omega
    rw [e]
    exact ih (i + 1) (f i a) (h i a ha)

theorem getD_set_self {l : List (List Nat)} {k : Nat} (v : List Nat) (hk : k < l.length) :
    (l.set k v).getD k [] = v := by
  rw [List.getD_eq_getElem?_getD, List.getElem?_set_self hk]
  rfl

theorem getD_set_other {l : List (List Nat)} {k j : Nat} (v : List Nat) (hkj : k ≠ j) :
    (l.set k v).getD j [] = l.getD j [] := by
  simp only [List.getD_eq_getElem?_getD]
  rw [List.getElem?_set_ne hkj]

/-- The key schedule as a property of the list of round keys: eleven round keys, round key 0
the block `k0`, and every later one derived from the one before it. -/
theorem expandLoop_spec (s : AES_KEYSET) (k0 : List Nat) (h11 : s.keyset.length = 11)
    (h16 : ∀ j, j ≤ 10 → (s.keyset.getD j []).length = 16) (h0 : s.keyset.getD 0 [] = k0) :
    (forLoop (fun i s => AES_KEYSET.ExpandKey s i) 10 1 s).keyset.length = 11 ∧
    (forLoop (fun i s => AES_KEYSET.ExpandKey s i) 10 1 s).keyset.getD 0 [] = k0 ∧
    ∀ i, 1 ≤ i → i ≤ 10 →
      (forLoop (fun i s => AES_KEYSET.ExpandKey s i) 10 1 s).keyset.getD i [] =
        expandRow ((forLoop (fun i s => AES_KEYSET.ExpandKey s i) 10 1 s).keyset.getD (i - 1) [])
          (rcon_table.getD (i - 1) 0) := by
  have key := forLoop_range_inv
    (fun m (t : AES_KEYSET) => t.keyset.length = 11 ∧
      (∀ j, j ≤ 10 → (t.keyset.getD j []).length = 16) ∧ t.keyset.getD 0 [] = k0 ∧
      ∀ i, 1 ≤ i → i < m → i ≤ 10 →
        t.keyset.getD i [] = expandRow (t.keyset.getD (i - 1) []) (rcon_table.getD (i - 1) 0))
    (fun i s => AES_KEYSET.ExpandKey s i)
    (by
      intro m t ⟨t11, t16, t0, trec⟩
      by_cases hm : 1 ≤ m ∧ m ≤ 10
      · have hrow := ExpandKey_row t m hm.1 hm.2 (t16 m hm.2)
        simp only [hrow]
        refine ⟨by rw [List.length_set]; exact t11, ?_, ?_, ?_⟩
        · intro j hj
          by_cases hjm : m = j
          · rw [← hjm, getD_set_self _ (by omega)]
            rfl
          · rw [getD_set_other _ hjm]
            exact t16 j hj
        · rw [getD_set_other _ (by omega)]
          exact t0
        · intro i hi1 him hi10
          by_cases hjm : m = i
          · rw [← hjm, getD_set_self _ (by omega), getD_set_other _ (by omega)]
          · rw [getD_set_other _ hjm, getD_set_other _ (by omega)]
            exact trec i hi1 (by omega) hi10
      · have hid : AES_KEYSET.ExpandKey t m = t := by
          unfold AES_KEYSET.ExpandKey
          rw [if_pos (by omega)]
        simp only [hid]
        exact ⟨t11, t16, t0, fun i hi1 him hi10 => trec i hi1 (by omega) hi10⟩)
    10 1 s ⟨h11, h16, h0, fun i hi1 him _ => absurd him (by omega)⟩
  exact ⟨key.1, key.2.2.1, fun i hi1 hi10 => key.2.2.2 i hi1 (by omega) hi10⟩

theorem lists_eq_of_getD {l1 l2 : List (List Nat)} (h1 : l1.length = 11) (h2 : l2.length = 11)
    (h : ∀ j, j ≤ 10 → l1.getD j [] = l2.getD j []) : l1 = l2 := by
  apply List.ext_getElem (h1.trans h2.symm)
  intro n hn1 hn2
  have := h n (by omega)
  rwa [List.getD_eq_getElem _ _ hn1, List.getD_eq_getElem _ _ hn2] at this

/-- `CalculateKeys` as the expansion loop on the object with round key 0 written. -/
theorem CalculateKeys_loop (self : AES_KEYSET) (key : List Nat)
    (h16 : (self.keyset.getD 0 []).length = 16) :
    self.CalculateKeys (some key) =
      some (forLoop (fun i s => AES_KEYSET.ExpandKey s i) 10 1
        { self with
          keyset := (self.keyset.set 0
            [(padKey key).getD 0 0, (padKey key).getD 4 0, (padKey key).getD 8 0,
             (padKey key).getD 12 0, (padKey key).getD 1 0, (padKey key).getD 5 0,
             (padKey key).getD 9 0, (padKey key).getD 13 0, (padKey key).getD 2 0,
             (padKey key).getD 6 0, (padKey key).getD 10 0, (padKey key).getD 14 0,
             (padKey key).getD 3 0, (padKey key).getD 7 0, (padKey key).getD 11 0,
             (padKey key).getD 15 0]) }) := by
  have hArr : forLoop (fun i (keyArr : List Nat) => keyArr.set i 0)
      (16 - (AES_KEYSET.copyKey key 16 0 (List.replicate 16 0)).1)
      (AES_KEYSET.copyKey key 16 0 (List.replicate 16 0)).1
      (AES_KEYSET.copyKey key 16 0 (List.replicate 16 0)).2 = padKey key :=
    copyKey_pad key 16 [] key rfl rfl
  have hC : self.CalculateKeys (some key) =
      some (forLoop (fun i s => AES_KEYSET.ExpandKey s i) 10 1
        { self with
          keyset := (self.keyset.set 0
            (forLoop (fun i key0 =>
              forLoop (fun j (key0 : List Nat) =>
                key0.set (j * 4 + i) ((padKey key).getD (i * 4 + j) 0)) 4 0 key0)
              4 0 (self.keyset.getD 0 []))) }) := by
    rw [← hArr]
    rfl
  rw [key0_eq _ _ h16] at hC
  exact hC

/-- The round keys that `CalculateKeys` leaves: eleven, round key 0 from the key string, each
later one the expansion of the one before it; so they depend on the key alone. -/
theorem CalculateKeys_rows (self : AES_KEYSET) (key : List Nat)
    (h11 : self.keyset.length = 11) (h16 : ∀ j, j ≤ 10 → (self.keyset.getD j []).length = 16) :
    ∃ ks, self.CalculateKeys (some key) = some ks ∧ ks.keyset.length = 11 ∧
      (∀ i, 1 ≤ i → i ≤ 10 →
        ks.keyset.getD i [] =
          expandRow (ks.keyset.getD (i - 1) []) (rcon_table.getD (i - 1) 0)) ∧
      ∀ t : AES_KEYSET, t.keyset.length = 11 →
        (∀ j, j ≤ 10 → (t.keyset.getD j []).length = 16) →
        ∃ kt, t.CalculateKeys (some key) = some kt ∧ kt.keyset = ks.keyset := by
  have run : ∀ s : AES_KEYSET, s.keyset.length = 11 →
      (∀ j, j ≤ 10 → (s.keyset.getD j []).length = 16) →
      ∃ ks k0, s.CalculateKeys (some key) = some ks ∧ ks.keyset.length = 11 ∧
        ks.keyset.getD 0 [] = k0 ∧
        k0 = [(padKey key).getD 0 0, (padKey key).getD 4 0, (padKey key).getD 8 0,
             (padKey key).getD 12 0, (padKey key).getD 1 0, (padKey key).getD 5 0,
             (padKey key).getD 9 0, (padKey key).getD 13 0, (padKey key).getD 2 0,
             (padKey key).getD 6 0, (padKey key).getD 10 0, (padKey key).getD 14 0,
             (padKey key).getD 3 0, (padKey key).getD 7 0, (padKey key).getD 11 0,
             (padKey key).getD 15 0] ∧
        ∀ i, 1 ≤ i → i ≤ 10 →
          ks.keyset.getD i [] =
            expandRow (ks.keyset.getD (i - 1) []) (rcon_table.getD (i - 1) 0) := by
    intro s s11 s16
    have hl := CalculateKeys_loop s key (s16 0 (by omega))
    obtain ⟨k0, hk0⟩ : ∃ k0 : List Nat, k0 =
        [(padKey key).getD 0 0, (padKey key).getD 4 0, (padKey key).getD 8 0,
         (padKey key).getD 12 0, (padKey key).getD 1 0, (padKey key).getD 5 0,
         (padKey key).getD 9 0, (padKey key).getD 13 0, (padKey key).getD 2 0,
         (padKey key).getD 6 0, (padKey key).getD 10 0, (padKey key).getD 14 0,
         (padKey key).getD 3 0, (padKey key).getD 7 0, (padKey key).getD 11 0,
         (padKey key).getD 15 0] := ⟨_, rfl⟩
    rw [← hk0] at hl
    have hlen : k0.length = 16 := by rw [hk0]; rfl
    obtain ⟨e1, e2, e3⟩ := expandLoop_spec { s with keyset := s.keyset.set 0 k0 } k0
      (by simp only [List.length_set]; exact s11)
      (by
        intro j hj
        by_cases h0 : 0 = j
        · simp only [← h0]
          rw [getD_set_self _ (by omega)]
          exact hlen
        · simp only []
          rw [getD_set_other _ h0]
          exact s16 j hj)
      (getD_set_self _ (by omega))
    exact ⟨_, k0, hl, e1, e2, hk0, e3⟩
  obtain ⟨ks, k0, hks, hk11, hk0, hk0eq, hkrec⟩ := run self h11 h16
  refine ⟨ks, hks, hk11, hkrec, ?_⟩
  intro t t11 t16
  obtain ⟨kt, k0t, hkt, ht11, ht0, ht0eq, htrec⟩ := run t t11 t16
  refine ⟨kt, hkt, lists_eq_of_getD ht11 hk11 ?_⟩
  intro j
  induction j with
  | zero => intro _; rw [ht0, hk0, ht0eq, hk0eq]
  | succ j ih =>
    intro hj
    rw [htrec (j + 1) (by omega) hj, hkrec (j + 1) (by omega) hj, Nat.add_sub_cancel,
      ih (by omega)]

/-! ## Successive stream calls -/

theorem EncryptBlock_withProc (self : AES_BASE) (p : List Nat) {b : List Nat}
    (hb : b.length = 16) : (withProc self p).EncryptBlock b = self.EncryptBlock b := by
  rw [EncryptBlock_eq _ hb, EncryptBlock_eq _ hb, withProc_withProc, withProc_keyset]

theorem CFB_encrypt_withProc (self : AES_BASE) (p stream : List Nat) (L : Nat) :
    (AES_CFB.EncryptStream (withProc self p) stream L).2 =
      (AES_CFB.EncryptStream self stream L).2 := by
  unfold AES_CFB.EncryptStream
  by_cases h0 : L = 0
  · rw [if_pos h0, if_pos h0]
  · rw [if_neg h0, if_neg h0]
    simp only [withProc_keyset]
    have hiv : (writeAt (List.replicate 16 0) 0 self.keyset.GetIV).length = 16 :=
      ivBlock_length self.keyset
    cases hb : L / 16 with
    | zero =>
      simp only [forLoop]
      rw [EncryptBlock_withProc self p hiv]
      split <;> rfl
    | succ n =>
      simp only [forLoop]
      rw [EncryptBlock_withProc self p hiv]

theorem OFB_encrypt_withProc (self : AES_BASE) (p stream : List Nat) (L : Nat) :
    (AES_OFB.EncryptStream (withProc self p) stream L).2 =
      (AES_OFB.EncryptStream self stream L).2 := by
  unfold AES_OFB.EncryptStream
  by_cases h0 : L = 0
  · rw [if_pos h0, if_pos h0]
  · rw [if_neg h0, if_neg h0]
    simp only [withProc_keyset]
    have hiv : (writeAt (List.replicate 16 0) 0 self.keyset.GetIV).length = 16 :=
      ivBlock_length self.keyset
    cases hb : L / 16 with
    | zero =>
      simp only [forLoop]
      rw [EncryptBlock_withProc self p hiv]
      split <;> rfl
    | succ n =>
      simp only [forLoop]
      rw [EncryptBlock_withProc self p hiv]

theorem CBC_encrypt_withProc (self : AES_BASE) (p stream : List Nat) (L : Nat)
    (hl : L ≤ stream.length) (hiv : self.keyset.iv.length = 16) :
    (AES_CBC.EncryptStream (withProc self p) stream L).2 =
      (AES_CBC.EncryptStream self stream L).2 := by
  by_cases h0 : L = 0
  · unfold AES_CBC.EncryptStream
    rw [if_pos h0, if_pos h0]
  · by_cases h16 : L % 16 = 0
    · obtain ⟨q1, e1⟩ := CBC_encrypt_eq (withProc self p) stream L h0 h16 hl hiv
      obtain ⟨q2, e2⟩ := CBC_encrypt_eq self stream L h0 h16 hl hiv
      rw [e1, e2, withProc_keyset]
    · have h1 : L &&& 0x0F ≠ 0 := by
        rw [and15]
        exact h16
      unfold AES_CBC.EncryptStream
      rw [if_neg h0, if_pos h1, if_neg h0, if_pos h1]

/-! ## The file pipeline -/

/-- What `Encrypt` without padding returns for a chunk of whole blocks: a stream of the length
of the chunk. -/
theorem Encrypt_nopad (s : AES_BASE) (src : List Nat) (c sl : Nat) (h0 : c ≠ 0)
    (h16 : c % 16 = 0) (hbig : c < 2 ^ 64) (hl : src.length = c)
    (hiv : s.keyset.iv.length = 16) :
    ∃ p C, s.Encrypt src c sl false = (withProc s p, some C, c) ∧ C.length = c := by
  obtain ⟨p, C, hE, hC⟩ := EncryptStream_shape s src c h0 h16 hl hiv
  refine ⟨p, C, ?_, hC.trans hl⟩
  have hw : writeAt (List.replicate c 0) 0 (readAt src 0 c) = src := by
    rw [readAt_full hl]
    exact writeAt_full (by rw [List.length_replicate, hl])
  unfold AES_BASE.Encrypt
  rw [if_neg h0]
  simp only [Bool.false_eq_true, if_false, and_false, Nat.add_zero, Nat.mod_eq_of_lt hbig, hw,
    hE]

theorem EncryptFile_loop_spec (c : Nat) (hc0 : 0 < c) (hc16 : c % 16 = 0) :
    ∀ (fuel : Nat) (s : AES_BASE) (rest : List Nat) (streamLen : Nat) (out : List Nat),
      s.keyset.iv.length = 16 → rest.length = streamLen → streamLen < fuel →
      streamLen < 2 ^ 64 → 0 < streamLen →
      ∃ p rest2 sl2 body,
        AES_BASE.EncryptFile_loop c fuel s rest streamLen out =
          some (true, withProc s p, rest2, sl2, out ++ body) ∧
        rest2.length = sl2 ∧ 0 < sl2 ∧ sl2 ≤ c ∧ sl2 % 16 = streamLen % 16 ∧
        body.length + sl2 = streamLen := by
  intro fuel
  induction fuel with
  | zero => intro s rest streamLen out _ _ hf; exact absurd hf (by omega)
  | succ fuel ih =>
    intro s rest streamLen out hiv hrest hf hbig hpos
    unfold AES_BASE.EncryptFile_loop
    by_cases hgt : streamLen > c
    · rw [if_pos hgt]
      have hraw : (readAt rest 0 c).length = c := by
        unfold readAt
        rw [List.drop_zero, List.length_take, hrest]
        omega
      obtain ⟨p, C, hEnc, hC⟩ := Encrypt_nopad s (readAt rest 0 c) c 0 (by omega) hc16
        (by omega) hraw hiv
      simp only [hEnc]
      obtain ⟨p2, rest2, sl2, body, h1, h2, h3, h4, h5, h6⟩ := ih (withProc s p)
        (rest.drop c) (streamLen - c) (out ++ readAt C 0 c) hiv
        (by rw [List.length_drop, hrest]) (by omega) (by omega) (by omega)
      refine ⟨p2, rest2, sl2, C ++ body, ?_, h2, h3, h4, ?_, ?_⟩
      · rw [h1, withProc_withProc, readAt_full hC, List.append_assoc]
      · rw [h5]
        omega
      · rw [List.length_append, hC]
        omega
    · rw [if_neg hgt]
      exact ⟨s.procArray, rest, streamLen, [], by rw [withProc_self, List.append_nil], hrest,
        hpos, by omega, rfl, by simp⟩

/-- The last round of `EncryptFile`: `Encrypt` with padding on what is left of the input. -/
theorem Encrypt_last_chunk (s : AES_BASE) (rest : List Nat) (sl : Nat)
    (hg : s.GetMode < AES_CFB_M) (hiv : s.keyset.iv.length = 16) (h0 : 0 < rest.length)
    (hbig : rest.length + 32 < 2 ^ 64) :
    ∃ p C, s.Encrypt (readAt rest 0 rest.length) rest.length sl true =
        (withProc s p, some C, rest.length + (16 - rest.length % 16)) ∧
      C.length = rest.length + (16 - rest.length % 16) := by
  obtain ⟨_, _, hp16⟩ := padValue_bounds rest.length
  have hpl : (rest ++ List.replicate (AES_BASE.padValue rest.length)
      (AES_BASE.padValue rest.length)).length = rest.length + AES_BASE.padValue rest.length := by
    rw [List.length_append, List.length_replicate]
  obtain ⟨p, C, hE, hC⟩ := EncryptStream_shape s _ _ (by omega) hp16 hpl hiv
  refine ⟨p, C, ?_, ?_⟩
  · rw [readAt_full rfl, Encrypt_padded s rest sl hg h0 hbig, hE, padValue_eq]
  · rw [hC, hpl, padValue_eq]

/-- What `EncryptFile` writes for a non-empty input and a chunk limit that is a positive
multiple of 16: the IV of the object after `ClearIV` when `IVmode` is set, then a body of
`n + (16 - n % 16)` bytes. -/
theorem EncryptFile_shape (a s : AES_BASE) (rand : Nat → Nat) (input : List Nat)
    (hs : s = { a with keyset := a.keyset.ClearIV rand })
    (hg : a.GetMode < AES_CFB_M) (hiva : a.keyset.iv.length = 16)
    (hB0 : 0 < a.bufferLimit) (hB16 : a.bufferLimit % 16 = 0) (hn : 0 < input.length)
    (hbig : input.length + 32 < 2 ^ 64) :
    ∃ p body, a.EncryptFile rand input =
        some (withProc s p,
          some ((if a.keyset.IVmode = true then s.keyset.iv else []) ++ body)) ∧
      body.length = input.length + (16 - input.length % 16) ∧ s.keyset.iv.length = 16 := by
  obtain ⟨iv, hclr, hivb⟩ := ClearIV_spec a.keyset rand hiva
  have hsks : s.keyset = { a.keyset with iv := iv } := by rw [hs, ← hclr]
  have hsi : s.keyset.iv = iv := by rw [hsks]
  have hsl : s.keyset.iv.length = 16 := by rw [hsi]; exact hivb.1
  have hsI : s.keyset.GetIVMode = a.keyset.IVmode := by
    show s.keyset.IVmode = _
    rw [hsks]
  have hsg : s.GetMode < AES_CFB_M := by rw [hs]; exact hg
  have hsB : s.bufferLimit = a.bufferLimit := by rw [hs]
  have hhdr : (if s.keyset.GetIVMode = true then
        writeAt (List.replicate 16 0) 0 s.keyset.GetIV else []) =
      (if a.keyset.IVmode = true then s.keyset.iv else []) := by
    rw [hsI]
    have e : writeAt (List.replicate 16 0) 0 s.keyset.GetIV = s.keyset.iv := by
      show writeAt (List.replicate 16 0) 0 (readAt s.keyset.iv 0 16) = _
      rw [readAt_full hsl]
      exact writeAt_full (by rw [List.length_replicate, hsl])
    rw [e]
  obtain ⟨p, rest2, sl2, body, hloop, hr2, hs2, hs16, hbody⟩ :
      ∃ p rest2 sl2 body,
        AES_BASE.EncryptFile_loop
            (if input.length > s.bufferLimit then s.bufferLimit else input.length)
            (input.length + 1) s input input.length
            (if s.keyset.GetIVMode = true then
              writeAt (List.replicate 16 0) 0 s.keyset.GetIV else []) =
          some (true, withProc s p, rest2, sl2,
            (if a.keyset.IVmode = true then s.keyset.iv else []) ++ body) ∧
        rest2.length = sl2 ∧ 0 < sl2 ∧ sl2 % 16 = input.length % 16 ∧
        body.length + sl2 = input.length := by
    rw [hhdr, hsB]
    by_cases hgt : input.length > a.bufferLimit
    · rw [if_pos hgt]
      obtain ⟨p, rest2, sl2, body, h1, h2, h3, _, h5, h6⟩ :=
        EncryptFile_loop_spec a.bufferLimit hB0 hB16 (input.length + 1) s input input.length
          (if a.keyset.IVmode = true then s.keyset.iv else []) hsl rfl (by omega) (by omega) hn
      exact ⟨p, rest2, sl2, body, h1, h2, h3, h5, h6⟩
    · rw [if_neg hgt]
      refine ⟨s.procArray, input, input.length, [], ?_, rfl, hn, rfl, by simp⟩
      unfold AES_BASE.EncryptFile_loop
      rw [if_neg (by omega), withProc_self, List.append_nil]
  subst hr2
  obtain ⟨p2, C, hEnc, hC⟩ := Encrypt_last_chunk (withProc s p) rest2 0 hsg hsl hs2 (by omega)
  rw [withProc_withProc] at hEnc
  refine ⟨p2, body ++ C, ?_, ?_, hsl⟩
  · subst hs
    unfold AES_BASE.EncryptFile
    simp only [if_neg (Nat.pos_iff_ne_zero.1 hn), hloop, hEnc]
    rw [readAt_full hC, List.append_assoc]
  · rw [List.length_append, hC, hs16]
    omega

/-! ## Lemmas on `GFMult`, the ECB blocks and the chunk loops of the file functions -/

theorem GFMult_switch_eq (c b : Nat) :
    AES_BASE.GFMult_switch c b = some (AES_BASE.GFMult c b) := by
  unfold AES_BASE.GFMult_switch AES_BASE.GFMult
  split <;> rfl

theorem GFMult_other (c b : Nat) (hc : c ∉ [1, 2, 3, 9, 11, 13, 14]) :
    AES_BASE.GFMult c b = 0 := by
  unfold AES_BASE.GFMult
  split <;> first | rfl | (exfalso; simp at hc)

theorem GFMult_lookup (c b : Nat) :
    AES_BASE.GFMult c b ∈
      [b, 0, mul_2.getD b 0, mul_3.getD b 0, mul_9.getD b 0, mul_11.getD b 0,
        mul_13.getD b 0, mul_14.getD b 0] := by
  unfold AES_BASE.GFMult
  split <;> simp

theorem mapBlocks_congr (f g : List Nat → List Nat) (h : ∀ b, b.length = 16 → f b = g b)
    (n : Nat) : ∀ l, n * 16 ≤ l.length → mapBlocks f n l = mapBlocks g n l := by
  induction n with
  | zero => intro l _; rfl
  | succ n ih =>
    intro l hl
    simp only [mapBlocks]
    rw [h _ (by simp only [List.length_take]; omega),
      ih _ (by simp only [List.length_drop]; omega)]

theorem Encrypt_zero (s : AES_BASE) (src : List Nat) (sl : Nat) (pad : Bool) :
    s.Encrypt src 0 sl pad = (s, none, sl) := by
  unfold AES_BASE.Encrypt
  rw [if_pos rfl]

theorem Decrypt_zero (s : AES_BASE) (src : List Nat) (sl : Nat) (pad : Bool) :
    s.Decrypt src 0 sl pad = (s, none, sl) := by
  unfold AES_BASE.Decrypt
  rw [if_pos rfl]

theorem EncryptFile_loop_succ (c fuel : Nat) (s : AES_BASE) (rest : List Nat) (n : Nat)
    (out : List Nat) :
    AES_BASE.EncryptFile_loop c (fuel + 1) s rest n out =
      if n > c then
        match (s.Encrypt (readAt rest 0 c) c 0 false).2.1 with
        | none => some (false, (s.Encrypt (readAt rest 0 c) c 0 false).1, rest.drop c, n, out)
        | some encryptedData =>
          AES_BASE.EncryptFile_loop c fuel (s.Encrypt (readAt rest 0 c) c 0 false).1
            (rest.drop c) (n - c) (out ++ readAt encryptedData 0 c)
      else some (true, s, rest, n, out) :=
  rfl

theorem DecryptFile_loop_succ (c fuel : Nat) (s : AES_BASE) (rest : List Nat) (n : Nat)
    (out : List Nat) :
    AES_BASE.DecryptFile_loop c (fuel + 1) s rest n out =
      if n > c then
        match (s.Decrypt (readAt rest 0 c) c 0 false).2.1 with
        | none => some (false, (s.Decrypt (readAt rest 0 c) c 0 false).1, rest.drop c, n, out)
        | some decryptedData =>
          AES_BASE.DecryptFile_loop c fuel (s.Decrypt (readAt rest 0 c) c 0 false).1
            (rest.drop c) (n - c) (out ++ readAt decryptedData 0 c)
      else some (true, s, rest, n, out) :=
  rfl

/-- One pass of the loop of `EncryptFile` with more than a chunk left: it ends the loop with an
error, or it goes on with a remaining length that is smaller. -/
theorem EncryptFile_loop_step (c fuel : Nat) (s : AES_BASE) (rest : List Nat) (n : Nat)
    (out : List Nat) (hn : c < n) :
    (∃ s2, AES_BASE.EncryptFile_loop c (fuel + 1) s rest n out =
        some (false, s2, rest.drop c, n, out)) ∨
    (∃ s2 out2, AES_BASE.EncryptFile_loop c (fuel + 1) s rest n out =
        AES_BASE.EncryptFile_loop c fuel s2 (rest.drop c) (n - c) out2 ∧ n - c < n) := by
  rw [EncryptFile_loop_succ, if_pos hn]
  cases hE : (s.Encrypt (readAt rest 0 c) c 0 false).2.1 with
  | none => exact Or.inl ⟨_, rfl⟩
  | some enc =>
    have hc : c ≠ 0 := by
      intro h
      subst h
      rw [Encrypt_zero] at hE
      exact Option.noConfusion hE
    exact Or.inr ⟨_, _, rfl, by omega⟩

/-- One pass of the loop of `DecryptFile`, as `EncryptFile_loop_step`. -/
theorem DecryptFile_loop_step (c fuel : Nat) (s : AES_BASE) (rest : List Nat) (n : Nat)
    (out : List Nat) (hn : c < n) :
    (∃ s2, AES_BASE.DecryptFile_loop c (fuel + 1) s rest n out =
        some (false, s2, rest.drop c, n, out)) ∨
    (∃ s2 out2, AES_BASE.DecryptFile_loop c (fuel + 1) s rest n out =
        AES_BASE.DecryptFile_loop c fuel s2 (rest.drop c) (n - c) out2 ∧ n - c < n) := by
  rw [DecryptFile_loop_succ, if_pos hn]
  cases hE : (s.Decrypt (readAt rest 0 c) c 0 false).2.1 with
  | none => exact Or.inl ⟨_, rfl⟩
  | some enc =>
    have hc : c ≠ 0 := by
      intro h
      subst h
      rw [Decrypt_zero] at hE
      exact Option.noConfusion hE
    exact Or.inr ⟨_, _, rfl, by omega⟩

/-- The loop of `EncryptFile` ends within `n + 1` passes, `n` the remaining length. -/
theorem EncryptFile_loop_total (c : Nat) : ∀ (fuel : Nat) (s : AES_BASE) (rest : List Nat)
    (n : Nat) (out : List Nat), n < fuel →
    ∃ r, AES_BASE.EncryptFile_loop c fuel s rest n out = some r := by
  intro fuel
  induction fuel with
  | zero => intro s rest n out h; exact absurd h (by omega)
  | succ fuel ih =>
    intro s rest n out h
    by_cases hn : c < n
    · rcases EncryptFile_loop_step c fuel s rest n out hn with ⟨s2, e⟩ | ⟨s2, out2, e, hlt⟩
      · exact ⟨_, e⟩
      · rw [e]
        exact ih _ _ _ _ (by omega)
    · rw [EncryptFile_loop_succ, if_neg hn]
      exact ⟨_, rfl⟩

/-- The loop of `DecryptFile` ends within `n + 1` passes, `n` the remaining length. -/
theorem DecryptFile_loop_total (c : Nat) : ∀ (fuel : Nat) (s : AES_BASE) (rest : List Nat)
    (n : Nat) (out : List Nat), n < fuel →
    ∃ r, AES_BASE.DecryptFile_loop c fuel s rest n out = some r := by
  intro fuel
  induction fuel with
  | zero => intro s rest n out h; exact absurd h (by omega)
  | succ fuel ih =>
    intro s rest n out h
    by_cases hn : c < n
    · rcases DecryptFile_loop_step c fuel s rest n out hn with ⟨s2, e⟩ | ⟨s2, out2, e, hlt⟩
      · exact ⟨_, e⟩
      · rw [e]
        exact ih _ _ _ _ (by omega)
    · rw [DecryptFile_loop_succ, if_neg hn]
      exact ⟨_, rfl⟩

theorem EncryptFile_total (a : AES_BASE) (rand : Nat → Nat) (input : List Nat) :
    ∃ r, a.EncryptFile rand input = some r := by
  unfold AES_BASE.EncryptFile
  simp only []
  split
  · exact ⟨_, rfl⟩
  · split
    · rename_i h
      obtain ⟨r, hr⟩ := EncryptFile_loop_total _ (input.length + 1) _ input input.length _
        (Nat.lt_succ_self _)
      rw [hr] at h
      exact Option.noConfusion h
    · exact ⟨_, rfl⟩
    · split <;> exact ⟨_, rfl⟩

theorem DecryptFile_total (a : AES_BASE) (input : List Nat) :
    ∃ r, a.DecryptFile input = some r := by
  unfold AES_BASE.DecryptFile
  simp only []
  split
  · exact ⟨_, rfl⟩
  · split
    · exact ⟨_, rfl⟩
    · split
      · rename_i h
        obtain ⟨r, hr⟩ := DecryptFile_loop_total _ _ _ _ _ _ (Nat.lt_succ_self _)
        rw [hr] at h
        exact Option.noConfusion h
      · exact ⟨_, rfl⟩
      · split <;> exact ⟨_, rfl⟩

/-! ## The claims -/

set_option maxRecDepth 100000

/-- C1: buffer round trip.  For each of the four mode classes, every key (a byte string, of
which the constructor reads at most sixteen bytes) and every plaintext `P` of at least one byte
(and of a length that `size_t` holds with the padding and the IV), `EncryptBuffer` returns a
buffer, and `DecryptBuffer` applied to that buffer and its reported length returns a buffer
whose first `P.length` bytes are exactly `P` and reports the length `P.length`.  This holds when
`DecryptBuffer` runs on a second object `d` constructed for the same class with the same key,
and when it runs on the object `a2` that `EncryptBuffer` left; `rand` is any sequence of values
of `rand()`, `ivMem` and `ivMem2` are what the memory of the member `iv` held at construction,
`sl0` and `sl1` what `*streamLength` held before the calls. -/
theorem EncryptBuffer_DecryptBuffer_round_trip (cls : AES_CLASS)
    (key ivMem ivMem2 P : List Nat) (rand : Nat → Nat) (sl0 sl1 : Nat) (a d : AES_BASE)
    (hkey : Bytes key) (hP : Bytes P) (h0 : 0 < P.length) (hbig : P.length + 32 < 2 ^ 64)
    (hiv : ivMem.length = 16) (hiv2 : ivMem2.length = 16)
    (ha : AES_BASE.new cls ivMem (some key) = some a)
    (hd : AES_BASE.new cls ivMem2 (some key) = some d) :
    ∃ a2 enc encLen d2 buf a3 buf2,
      a.EncryptBuffer rand P P.length sl0 = (a2, some enc, encLen) ∧
      d.DecryptBuffer enc encLen sl1 = (d2, some buf, P.length) ∧ buf.take P.length = P ∧
      a2.DecryptBuffer enc encLen sl1 = (a3, some buf2, P.length) ∧
      buf2.take P.length = P := by
  obtain ⟨a1, ha1, hcls, hmode, hivm, hI, hwf, hall⟩ := new_spec cls ivMem key
  obtain ⟨d1, hd1, hdcls, hdmode, hdivm, hdI, _, _⟩ := new_spec cls ivMem2 key
  obtain ⟨d0, hd0, hkk⟩ := hall ivMem2
  have ea : a1 = a := Option.some.inj (ha1.symm.trans ha)
  have ed : d1 = d := Option.some.inj (hd1.symm.trans hd)
  have ed0 : d0 = d := Option.some.inj (hd0.symm.trans hd)
  subst ea
  subst ed
  rw [ed0] at hkk
  have hecb : a1.keyset.IVmode = false → a1.cls = .AES_ECB := by
    intro h
    rw [hcls]
    rw [hI] at h
    by_cases hc : cls = .AES_ECB
    · exact hc
    · rw [if_neg hc] at h
      exact absurd h (by decide)
  obtain ⟨a2, enc, encLen, hE, ⟨h1, h2, h3, h4, h5⟩, hD⟩ := buffer_pipeline a1 rand P sl0 hmode
    (by rw [hivm]; exact hiv) hecb (hwf hkey) hP h0 hbig
  obtain ⟨d2, buf, hb1, hb2⟩ := hD d1 sl1 hdmode (hdcls.trans hcls.symm) hkk
    (hdI.trans hI.symm) (by rw [hdivm]; exact hiv2)
  obtain ⟨a3, buf2, hc1, hc2⟩ := hD a2 sl1 h1 h2 h3 h4 h5
  exact ⟨a2, enc, encLen, d2, buf, a3, buf2, hE, hb1, hb2, hc1, hc2⟩

theorem EncryptBuffer_DecryptBuffer_round_trip_witness :
    ∃ a2 enc encLen d2 buf a3 buf2,
      (sampleNew .AES_CBC (List.replicate 16 0)).EncryptBuffer sampleRand sampleStream
        sampleStream.length 0 = (a2, some enc, encLen) ∧
      (sampleNew .AES_CBC sampleIV).DecryptBuffer enc encLen 0 =
        (d2, some buf, sampleStream.length) ∧
      buf.take sampleStream.length = sampleStream ∧
      a2.DecryptBuffer enc encLen 0 = (a3, some buf2, sampleStream.length) ∧
      buf2.take sampleStream.length = sampleStream :=
  EncryptBuffer_DecryptBuffer_round_trip .AES_CBC sampleKey (List.replicate 16 0) sampleIV
    sampleStream sampleRand 0 0 (sampleNew .AES_CBC (List.replicate 16 0))
    (sampleNew .AES_CBC sampleIV) (by decide) (by decide) (by decide) (by decide) rfl rfl
    rfl rfl

/-- C2, as stated, fails: the key schedule copies the key up to its first zero byte, and the key
`000102...0f` starts with a zero byte, so the object of `AES_ECB` built from it holds the round
keys of the all-zero key; `EncryptBlock` maps the plaintext `00112233...ff` to `c8a331ff...`,
not to `69c4e0d8...`, and `AES_ECB::EncryptStream` leaves another block than `69c4e0d8...` as
well. -/
theorem known_answer_00_key_fails :
    (AES_ECB.new (List.replicate 16 0) (some katKey)).map
        (fun a => (a.EncryptBlock katPlain).2) =
      some [0xc8, 0xa3, 0x31, 0xff, 0x8e, 0xdd, 0x3d, 0xb1, 0x75, 0xe1, 0x54, 0x5d, 0xbe, 0xfb,
        0x76, 0x0b] ∧
    (AES_ECB.new (List.replicate 16 0) (some katKey)).map
        (fun a => (a.EncryptBlock katPlain).2) ≠ some katCipher ∧
    (AES_ECB.new (List.replicate 16 0) (some katKey)).map
        (fun a => (AES_ECB.EncryptStream a katPlain 16).2) ≠ some katCipher := by
  decide

/-- C2, amended: the key schedule reads the key as a string that ends at its first zero byte.
For the key `000102...0f` it therefore is the key schedule of the empty key (all round keys
derived from sixteen zero bytes), under which `EncryptBlock` maps `00112233...ff` to
`c8a331ff8edd3db175e1545dbefb760b`; for a key of 16 bytes without a zero byte the published
AES-128 answer comes out: with the key `2b7e1516...3c` of FIPS-197, appendix B, `EncryptBlock`
maps `3243f6a8...34` to `3925841d02dc09fbdc118597196a0b32`. -/
theorem known_answer_vectors :
    AES_ECB.new (List.replicate 16 0) (some katKey) =
      AES_ECB.new (List.replicate 16 0) (some []) ∧
    (AES_ECB.new (List.replicate 16 0) (some katKey)).map
        (fun a => (a.EncryptBlock katPlain).2) =
      some [0xc8, 0xa3, 0x31, 0xff, 0x8e, 0xdd, 0x3d, 0xb1, 0x75, 0xe1, 0x54, 0x5d, 0xbe, 0xfb,
        0x76, 0x0b] ∧
    (AES_ECB.new (List.replicate 16 0) (some sampleKey)).map
        (fun a => (a.EncryptBlock fipsPlain).2) = some fipsCipher := by
  decide

/-- C3: for every key schedule of eleven round keys of sixteen bytes and every block `b` of
sixteen bytes, `DecryptBlock(EncryptBlock(b)) = b` and `EncryptBlock(DecryptBlock(b)) = b`. -/
theorem DecryptBlock_EncryptBlock (self : AES_BASE) (b : List Nat)
    (hks : KeysWF self.keyset) (hb : IsBlock b) :
    ((self.EncryptBlock b).1.DecryptBlock (self.EncryptBlock b).2).2 = b ∧
    ((self.DecryptBlock b).1.EncryptBlock (self.DecryptBlock b).2).2 = b := by
  rw [EncryptBlock_eq self hb.1, DecryptBlock_eq self hb.1]
  simp only []
  rw [DecryptBlock_eq _ (encBlock_length _ _), EncryptBlock_eq _ (decBlock_length _ _)]
  simp only [withProc_keyset]
  exact ⟨decBlock_encBlock hks hb, encBlock_decBlock hks hb⟩

theorem DecryptBlock_EncryptBlock_witness :
    (((sampleAES .AES_ECB).EncryptBlock fipsPlain).1.DecryptBlock
      ((sampleAES .AES_ECB).EncryptBlock fipsPlain).2).2 = fipsPlain ∧
    (((sampleAES .AES_ECB).DecryptBlock fipsPlain).1.EncryptBlock
      ((sampleAES .AES_ECB).DecryptBlock fipsPlain).2).2 = fipsPlain :=
  DecryptBlock_EncryptBlock (sampleAES .AES_ECB) fipsPlain (by decide) (by decide)

/-- C4 on the code: for the plaintext `sampleTwoBlocks` of two blocks, the second block that
`AES_CBC::EncryptStream` leaves is `EncryptBlock` of the second plaintext block XORed with the
stored IV, and it is not `EncryptBlock` of that block XORed with the first ciphertext block:
`XORIV(block, iv)` reads the member `iv`, not its parameter. -/
theorem CBC_EncryptStream_second_block :
    readAt (AES_CBC.EncryptStream (sampleAES .AES_CBC) sampleTwoBlocks 32).2 16 16 =
      ((sampleAES .AES_CBC).EncryptBlock
        (xorBytes (readAt sampleTwoBlocks 16 16) (sampleAES .AES_CBC).keyset.iv)).2 ∧
    readAt (AES_CBC.EncryptStream (sampleAES .AES_CBC) sampleTwoBlocks 32).2 16 16 ≠
      ((sampleAES .AES_CBC).EncryptBlock
        (xorBytes (readAt sampleTwoBlocks 16 16)
          (readAt (AES_CBC.EncryptStream (sampleAES .AES_CBC) sampleTwoBlocks 32).2 0 16))).2 := by
  decide

/-- C5 on the code: for the ciphertext `sampleTwoBlocks` of two blocks, replacing byte 3 of
block 0 by another value changes block 0 of what `AES_CBC::DecryptStream` leaves and leaves
every byte of block 1 as it was. -/
theorem CBC_DecryptStream_next_block_unchanged :
    0xff ≠ sampleTwoBlocks.getD 3 0 ∧
    readAt (AES_CBC.DecryptStream (sampleAES .AES_CBC) (sampleTwoBlocks.set 3 0xff) 32).2 0 16 ≠
      readAt (AES_CBC.DecryptStream (sampleAES .AES_CBC) sampleTwoBlocks 32).2 0 16 ∧
    readAt (AES_CBC.DecryptStream (sampleAES .AES_CBC) (sampleTwoBlocks.set 3 0xff) 32).2 16 16 =
      readAt (AES_CBC.DecryptStream (sampleAES .AES_CBC) sampleTwoBlocks 32).2 16 16 := by
  decide

/-- C6: for every object of `AES_CFB` (stored IV of 16 bytes), every buffer and every length
`n >= 1` inside the buffer, `AES_CFB::EncryptStream` leaves, for each full block `i`,
`C_i = EncryptBlock(C_(i-1)) XOR P_i` with the stored IV for `C_(-1)`; for a final partial block
of `r = n mod 16` bytes it leaves the first `r` bytes of `EncryptBlock(C_last)` XORed with the
`r` remaining plaintext bytes; the bytes from index `n` on are the ones of the input, and the
buffer keeps its length. -/
theorem CFB_EncryptStream_blocks (self : AES_BASE) (stream : List Nat) (length : Nat)
    (h0 : length ≠ 0) (hl : length ≤ stream.length) (hiv : self.keyset.iv.length = 16) :
    (∀ i, i < length / 16 →
      readAt (AES_CFB.EncryptStream self stream length).2 (i * 16) 16 =
        xorBytes
          (self.EncryptBlock (if i = 0 then self.keyset.iv
            else readAt (AES_CFB.EncryptStream self stream length).2 ((i - 1) * 16) 16)).2
          (readAt stream (i * 16) 16)) ∧
    (length % 16 ≠ 0 →
      readAt (AES_CFB.EncryptStream self stream length).2 (length / 16 * 16) (length % 16) =
        xorBytes
          ((self.EncryptBlock (if length / 16 = 0 then self.keyset.iv
            else readAt (AES_CFB.EncryptStream self stream length).2
              ((length / 16 - 1) * 16) 16)).2.take (length % 16))
          (readAt stream (length / 16 * 16) (length % 16))) ∧
    (AES_CFB.EncryptStream self stream length).2.drop length = stream.drop length ∧
    (AES_CFB.EncryptStream self stream length).2.length = stream.length := by
  obtain ⟨p, out, hp, hout⟩ := CFB_encrypt_eq self stream length h0 hl
  have hd := div16_le length
  have hm := div16_add length
  have hlt : length % 16 < 16 := Nat.mod_lt _ (by decide)
  rw [hp]
  simp only []
  have hX : (xorBytes (cfbKeys self.keyset (length / 16 + 1) (ivBlock self.keyset) out)
      (stream.take length)).length = length := by
    rw [xorBytes_length, cfbKeys_length, List.length_take]
    omega
  have holen : out.length = stream.length := by
    have := congrArg List.length hout
    rw [List.length_append, hX, List.length_drop] at this
    omega
  have hprev : ∀ i, i ≤ length / 16 →
      (self.EncryptBlock (if i = 0 then self.keyset.iv else readAt out ((i - 1) * 16) 16)).2 =
        encBlock self.keyset (cfbPrev (ivBlock self.keyset) out i) := by
    intro i hi
    have hlen := @cfbPrev_length (ivBlock self.keyset) out i
      (ivBlock_length self.keyset) (by omega)
    have e : (if i = 0 then self.keyset.iv else readAt out ((i - 1) * 16) 16) =
        cfbPrev (ivBlock self.keyset) out i := by
      unfold cfbPrev
      rw [ivBlock_eq hiv]
    rw [e, EncryptBlock_eq _ hlen]
  refine ⟨?_, ?_, ?_, holen⟩
  · intro i hi
    rw [hprev i (by omega)]
    conv_lhs => rw [hout]
    rw [readAt_append_left (by rw [hX]; omega), readAt_xorBytes,
      cfbKeys_readAt _ _ _ _ _ (by omega), readAt_take (by omega)]
  · intro _
    rw [hprev _ (Nat.le_refl _)]
    conv_lhs => rw [hout]
    rw [readAt_append_left (by rw [hX]; omega), readAt_xorBytes, cfbKeys_readAt_last,
      readAt_take (by omega)]
  · conv_lhs => rw [hout]
    exact drop_append_len hX

theorem CFB_EncryptStream_blocks_witness :
    (∀ i, i < 20 / 16 →
      readAt (AES_CFB.EncryptStream (sampleAES .AES_CFB) sampleStream 20).2 (i * 16) 16 =
        xorBytes
          ((sampleAES .AES_CFB).EncryptBlock (if i = 0 then (sampleAES .AES_CFB).keyset.iv
            else readAt (AES_CFB.EncryptStream (sampleAES .AES_CFB) sampleStream 20).2
              ((i - 1) * 16) 16)).2
          (readAt sampleStream (i * 16) 16)) ∧
    (20 % 16 ≠ 0 →
      readAt (AES_CFB.EncryptStream (sampleAES .AES_CFB) sampleStream 20).2 (20 / 16 * 16)
          (20 % 16) =
        xorBytes
          (((sampleAES .AES_CFB).EncryptBlock (if 20 / 16 = 0 then (sampleAES .AES_CFB).keyset.iv
            else readAt (AES_CFB.EncryptStream (sampleAES .AES_CFB) sampleStream 20).2
              ((20 / 16 - 1) * 16) 16)).2.take (20 % 16))
          (readAt sampleStream (20 / 16 * 16) (20 % 16))) ∧
    (AES_CFB.EncryptStream (sampleAES .AES_CFB) sampleStream 20).2.drop 20 =
      sampleStream.drop 20 ∧
    (AES_CFB.EncryptStream (sampleAES .AES_CFB) sampleStream 20).2.length =
      sampleStream.length :=
  CFB_EncryptStream_blocks (sampleAES .AES_CFB) sampleStream 20 (by decide) (by decide)
    (by decide)

/-- C7: `AES_OFB::DecryptStream` leaves exactly the buffer `AES_OFB::EncryptStream` leaves on the
same input, for every object, buffer and length; and for a length of at least 1 inside the
buffer, byte `q` below the length is XORed with byte `q mod 16` of the keystream block
`K (q / 16 + 1)`, where `K 0` is the stored IV and `K (j + 1) = EncryptBlock (K j)`, so that a
final partial block uses only the first `length mod 16` bytes of the last keystream block. -/
theorem OFB_DecryptStream_eq_EncryptStream (self : AES_BASE) (stream : List Nat)
    (length : Nat) :
    AES_OFB.DecryptStream self stream length = AES_OFB.EncryptStream self stream length ∧
    (length ≠ 0 → length ≤ stream.length → ∀ q, q < length →
      (AES_OFB.DecryptStream self stream length).2.getD q 0 =
        stream.getD q 0 ^^^ (ofbKey self (q / 16 + 1)).getD (q % 16) 0) := by
  refine ⟨rfl, fun h0 hl q hq => ?_⟩
  have e : AES_OFB.DecryptStream self stream length = AES_OFB.EncryptStream self stream length :=
    rfl
  rw [e, OFB_getD self stream length h0 hl q, if_pos hq]

theorem OFB_DecryptStream_eq_EncryptStream_witness :
    AES_OFB.DecryptStream (sampleAES .AES_OFB) sampleStream 20 =
      AES_OFB.EncryptStream (sampleAES .AES_OFB) sampleStream 20 ∧
    ∀ q, q < 20 →
      (AES_OFB.DecryptStream (sampleAES .AES_OFB) sampleStream 20).2.getD q 0 =
        sampleStream.getD q 0 ^^^ (ofbKey (sampleAES .AES_OFB) (q / 16 + 1)).getD (q % 16) 0 :=
  ⟨(OFB_DecryptStream_eq_EncryptStream (sampleAES .AES_OFB) sampleStream 20).1,
    (OFB_DecryptStream_eq_EncryptStream (sampleAES .AES_OFB) sampleStream 20).2
      (by decide) (by decide)⟩

/-- C8: for CFB and for OFB, every key schedule with its stored IV, every buffer and every
length `n >= 1` inside the buffer (a final partial block of 1 to 15 bytes included),
`DecryptStream` applied to what `EncryptStream` leaves restores the buffer, whether it runs on
the object that encrypted or on any object with the same key schedule and IV; `EncryptStream`
leaves the key schedule and the IV as they were. -/
theorem CFB_OFB_stream_round_trip (self d : AES_BASE) (stream : List Nat) (length : Nat)
    (h0 : length ≠ 0) (hl : length ≤ stream.length) (hd : d.keyset = self.keyset) :
    (AES_CFB.DecryptStream d (AES_CFB.EncryptStream self stream length).2 length).2 = stream ∧
    (AES_OFB.DecryptStream d (AES_OFB.EncryptStream self stream length).2 length).2 = stream ∧
    (AES_CFB.EncryptStream self stream length).1.keyset = self.keyset ∧
    (AES_OFB.EncryptStream self stream length).1.keyset = self.keyset := by
  have hdl := div16_le length
  have hm := div16_add length
  have hlt : length % 16 < 16 := Nat.mod_lt _ (by decide)
  obtain ⟨p, out, hp, hout⟩ := CFB_encrypt_eq self stream length h0 hl
  obtain ⟨p2, hp2⟩ := OFB_stream_eq self stream length h0 hl
  have hX : (xorBytes (cfbKeys self.keyset (length / 16 + 1) (ivBlock self.keyset) out)
      (stream.take length)).length = length := by
    rw [xorBytes_length, cfbKeys_length, List.length_take]
    omega
  have hY : (xorBytes (stream.take length)
      (ofbKeys self.keyset (length / 16 + 1) (ivBlock self.keyset))).length = length := by
    rw [xorBytes_length, ofbKeys_length, List.length_take]
    omega
  have holen : out.length = stream.length := by
    have := congrArg List.length hout
    rw [List.length_append, hX, List.length_drop] at this
    omega
  obtain ⟨q, hq⟩ := CFB_decrypt_eq d out length h0 (by omega)
  have e : AES_OFB.DecryptStream d = AES_OFB.EncryptStream d := rfl
  rw [hp, hp2, e]
  obtain ⟨q2, hq2⟩ := OFB_stream_eq d (xorBytes (stream.take length)
      (ofbKeys self.keyset (length / 16 + 1) (ivBlock self.keyset)) ++ stream.drop length) length
    h0 (by rw [List.length_append, hY, List.length_drop]; omega)
  simp only [withProc_keyset, and_true]
  rw [hq, hq2, hd]
  simp only []
  constructor
  · have h1 : out.take length =
        xorBytes (cfbKeys self.keyset (length / 16 + 1) (ivBlock self.keyset) out)
          (stream.take length) := by
      conv_lhs => rw [hout]
      exact take_append_len hX
    have h2 : out.drop length = stream.drop length := by
      conv_lhs => rw [hout]
      exact drop_append_len hX
    rw [h2, h1, xorBytes_comm (cfbKeys _ _ _ _), xorBytes_cancel _ _
      (by rw [cfbKeys_length, List.length_take]; omega), List.take_append_drop]
  · rw [take_append_len hY, drop_append_len hY, xorBytes_cancel _ _
      (by rw [ofbKeys_length, List.length_take]; omega), List.take_append_drop]

theorem CFB_OFB_stream_round_trip_witness :
    (AES_CFB.DecryptStream (sampleAES .AES_CFB)
      (AES_CFB.EncryptStream (sampleAES .AES_CFB) sampleStream 20).2 20).2 = sampleStream ∧
    (AES_OFB.DecryptStream (sampleAES .AES_CFB)
      (AES_OFB.EncryptStream (sampleAES .AES_CFB) sampleStream 20).2 20).2 = sampleStream ∧
    (AES_CFB.EncryptStream (sampleAES .AES_CFB) sampleStream 20).1.keyset =
      (sampleAES .AES_CFB).keyset ∧
    (AES_OFB.EncryptStream (sampleAES .AES_CFB) sampleStream 20).1.keyset =
      (sampleAES .AES_CFB).keyset :=
  CFB_OFB_stream_round_trip (sampleAES .AES_CFB) (sampleAES .AES_CFB) sampleStream 20
    (by decide) (by decide) rfl

/-- C9: for every object of `AES_OFB`, every buffer and every length of at least 1 inside the
buffer, replacing the ciphertext byte at a position `p` below the length by a different value
changes the byte that `AES_OFB::DecryptStream` leaves at position `p`, and changes the byte at
no other position. -/
theorem OFB_error_propagation (self : AES_BASE) (stream : List Nat) (length p v : Nat)
    (h0 : length ≠ 0) (hl : length ≤ stream.length) (hp : p < length)
    (hv : v ≠ stream.getD p 0) :
    (AES_OFB.DecryptStream self (stream.set p v) length).2.getD p 0 ≠
        (AES_OFB.DecryptStream self stream length).2.getD p 0 ∧
    ∀ q, q ≠ p →
      (AES_OFB.DecryptStream self (stream.set p v) length).2.getD q 0 =
        (AES_OFB.DecryptStream self stream length).2.getD q 0 := by
  have e : ∀ s, AES_OFB.DecryptStream self s length = AES_OFB.EncryptStream self s length :=
    fun _ => rfl
  have hl' : length ≤ (stream.set p v).length := by rw [List.length_set]; exact hl
  have hset : ∀ q, (stream.set p v).getD q 0 = if q = p then v else stream.getD q 0 := by
    intro q
    simp only [List.getD_eq_getElem?_getD, List.getElem?_set]
    by_cases hq : q = p
    · subst hq
      simp [show q < stream.length by omega]
    · simp [hq, Ne.symm hq]
  rw [e, e]
  constructor
  · rw [OFB_getD self _ length h0 hl' p, OFB_getD self _ length h0 hl p, if_pos hp, if_pos hp,
      hset p, if_pos rfl]
    intro h
    exact hv (Nat.xor_left_inj.mp h)
  · intro q hq
    rw [OFB_getD self _ length h0 hl' q, OFB_getD self _ length h0 hl q, hset q, if_neg hq]

theorem OFB_error_propagation_witness :
    (AES_OFB.DecryptStream (sampleAES .AES_OFB) (sampleStream.set 17 255) 20).2.getD 17 0 ≠
        (AES_OFB.DecryptStream (sampleAES .AES_OFB) sampleStream 20).2.getD 17 0 ∧
    ∀ q, q ≠ 17 →
      (AES_OFB.DecryptStream (sampleAES .AES_OFB) (sampleStream.set 17 255) 20).2.getD q 0 =
        (AES_OFB.DecryptStream (sampleAES .AES_OFB) sampleStream 20).2.getD q 0 :=
  OFB_error_propagation (sampleAES .AES_OFB) sampleStream 20 17 255 (by decide) (by decide)
    (by decide) (by decide)

/-- C10, as stated, fails: a ciphertext of 17 bytes (one full block and a final partial block
of one byte) and the same ciphertext with byte 0 of block 0 replaced by another value decrypt
under CFB to the same byte of block 1, so the next block does not change. -/
theorem CFB_partial_next_block_unchanged :
    0x7a ≠ (sampleStream.take 17).getD 0 0 ∧ 16 < (sampleStream.take 17).length ∧
    readAt (AES_CFB.DecryptStream (sampleAES .AES_CFB) ((sampleStream.take 17).set 0 0x7a) 17).2
        16 1 =
      readAt (AES_CFB.DecryptStream (sampleAES .AES_CFB) (sampleStream.take 17) 17).2 16 1 := by
  decide

/-- C10, amended: for every well-formed key schedule, every buffer of bytes and every length
`n >= 1` inside the buffer, replacing the ciphertext byte at offset `p` of a full block `i` by a
different byte changes the plaintext that `AES_CFB::DecryptStream` leaves in block `i` at
offset `p` and at no other offset of block `i`; when block `i + 1` is a full block, some byte of
it changes; and every byte of every block other than `i` and `i + 1` stays as it was. -/
theorem CFB_error_propagation (self : AES_BASE) (stream : List Nat) (length i p v : Nat)
    (hks : KeysWF self.keyset) (hst : Bytes stream) (hv : v < 256)
    (h0 : length ≠ 0) (hl : length ≤ stream.length) (hi : i < length / 16) (hp : p < 16)
    (hne : v ≠ stream.getD (i * 16 + p) 0) :
    (AES_CFB.DecryptStream self (stream.set (i * 16 + p) v) length).2.getD (i * 16 + p) 0 ≠
        (AES_CFB.DecryptStream self stream length).2.getD (i * 16 + p) 0 ∧
    (∀ q, q / 16 = i → q ≠ i * 16 + p →
      (AES_CFB.DecryptStream self (stream.set (i * 16 + p) v) length).2.getD q 0 =
        (AES_CFB.DecryptStream self stream length).2.getD q 0) ∧
    ((i + 2) * 16 ≤ length → ∃ t, t < 16 ∧
      (AES_CFB.DecryptStream self (stream.set (i * 16 + p) v) length).2.getD
          ((i + 1) * 16 + t) 0 ≠
        (AES_CFB.DecryptStream self stream length).2.getD ((i + 1) * 16 + t) 0) ∧
    (∀ q, q / 16 ≠ i → q / 16 ≠ i + 1 →
      (AES_CFB.DecryptStream self (stream.set (i * 16 + p) v) length).2.getD q 0 =
        (AES_CFB.DecryptStream self stream length).2.getD q 0) := by
  have hdl := div16_le length
  have hP : i * 16 + p < stream.length := by omega
  have hl' : length ≤ (stream.set (i * 16 + p) v).length := by rw [List.length_set]; exact hl
  have hset := fun q => getD_set stream (i * 16 + p) v q hP
  -- the previous ciphertext block of a block other than `i + 1` is not touched
  have hprev : ∀ j, j ≠ i + 1 → j * 16 ≤ length →
      cfbPrev (ivBlock self.keyset) (stream.set (i * 16 + p) v) j =
        cfbPrev (ivBlock self.keyset) stream j := by
    intro j hj hjl
    unfold cfbPrev
    split
    · rfl
    · apply list_eq_of_getD
      · rw [readAt_length (by rw [List.length_set]; omega), readAt_length (by omega)]
      · intro t ht
        rw [readAt_length (by rw [List.length_set]; omega)] at ht
        rw [readAt_getD _ _ _ _ ht, readAt_getD _ _ _ _ ht, hset, if_neg (by omega)]
  have hD := fun q => CFB_decrypt_getD self stream length h0 hl q
  have hD' := fun q => CFB_decrypt_getD self (stream.set (i * 16 + p) v) length h0 hl' q
  refine ⟨?_, ?_, ?_, ?_⟩
  · have e1 : (i * 16 + p) / 16 = i := by omega
    rw [hD, hD', if_pos (by omega), if_pos (by omega), e1, hprev i (by omega) (by omega), hset,
      if_pos rfl]
    intro h
    exact hne (Nat.xor_left_inj.mp h)
  · intro q hq hqp
    rw [hD, hD', hq, hprev i (by omega) (by omega), hset, if_neg hqp]
  · intro hfull
    by_contra hcon
    push_neg at hcon
    have hb : IsBlock (readAt stream (i * 16) 16) :=
      ⟨readAt_length (by omega), Bytes_readAt hst _ _⟩
    have hb' : IsBlock (readAt (stream.set (i * 16 + p) v) (i * 16) 16) :=
      ⟨readAt_length (by rw [List.length_set]; omega), Bytes_readAt (Bytes_set hst _ hv) _ _⟩
    have hE : encBlock self.keyset (readAt (stream.set (i * 16 + p) v) (i * 16) 16) =
        encBlock self.keyset (readAt stream (i * 16) 16) := by
      apply list_eq_of_getD (by rw [encBlock_length, encBlock_length])
      intro t ht
      rw [encBlock_length] at ht
      have := hcon t ht
      have e1 : ((i + 1) * 16 + t) / 16 = i + 1 := by omega
      have e2 : ((i + 1) * 16 + t) % 16 = t := by omega
      rw [hD, hD', if_pos (by omega), if_pos (by omega), e1, e2, hset, if_neg (by omega)] at this
      have := Nat.xor_right_inj.mp this
      simpa [cfbPrev] using this
    have hblk := encBlock_injective hks hb' hb hE
    have := congrArg (fun l => l.getD p 0) hblk
    simp only [readAt_getD _ _ _ _ hp, hset, if_true] at this
    exact hne this
  · intro q hq1 hq2
    by_cases hq : q < length
    · rw [hD, hD', if_pos hq, if_pos hq, hprev _ hq2 (by omega), hset, if_neg (by omega)]
    · rw [hD, hD', if_neg hq, if_neg hq, hset, if_neg (by omega)]

theorem CFB_error_propagation_witness :
    (AES_CFB.DecryptStream (sampleAES .AES_CFB) ((sampleStream ++ sampleStream).set (0 * 16 + 3) 255)
        40).2.getD (0 * 16 + 3) 0 ≠
      (AES_CFB.DecryptStream (sampleAES .AES_CFB) (sampleStream ++ sampleStream) 40).2.getD
        (0 * 16 + 3) 0 ∧
    (∀ q, q / 16 = 0 → q ≠ 0 * 16 + 3 →
      (AES_CFB.DecryptStream (sampleAES .AES_CFB)
          ((sampleStream ++ sampleStream).set (0 * 16 + 3) 255) 40).2.getD q 0 =
        (AES_CFB.DecryptStream (sampleAES .AES_CFB) (sampleStream ++ sampleStream) 40).2.getD
          q 0) ∧
    ((0 + 2) * 16 ≤ 40 → ∃ t, t < 16 ∧
      (AES_CFB.DecryptStream (sampleAES .AES_CFB)
          ((sampleStream ++ sampleStream).set (0 * 16 + 3) 255) 40).2.getD ((0 + 1) * 16 + t) 0 ≠
        (AES_CFB.DecryptStream (sampleAES .AES_CFB) (sampleStream ++ sampleStream) 40).2.getD
          ((0 + 1) * 16 + t) 0) ∧
    (∀ q, q / 16 ≠ 0 → q / 16 ≠ 0 + 1 →
      (AES_CFB.DecryptStream (sampleAES .AES_CFB)
          ((sampleStream ++ sampleStream).set (0 * 16 + 3) 255) 40).2.getD q 0 =
        (AES_CFB.DecryptStream (sampleAES .AES_CFB) (sampleStream ++ sampleStream) 40).2.getD
          q 0) :=
  CFB_error_propagation (sampleAES .AES_CFB) (sampleStream ++ sampleStream) 40 0 3 255
    (by decide) (by decide) (by decide) (by decide) (by decide) (by decide) (by decide)
    (by decide)

/-- C11 on the code: `AES_ECB::EncryptStream` and `AES_ECB::DecryptStream` return at once, the
object and every byte of the buffer as they were, for every length that is an odd number of
blocks (16, 48, 80, ...): the test `length & 16` rejects those.  For the one block `fipsPlain`
the buffer is therefore not replaced by `EncryptBlock` of it (nor `fipsCipher` by
`DecryptBlock` of it). -/
theorem ECB_odd_block_count_untouched (self : AES_BASE) (stream : List Nat) (n : Nat) :
    AES_ECB.EncryptStream self stream (32 * n + 16) = (self, stream) ∧
    AES_ECB.DecryptStream self stream (32 * n + 16) = (self, stream) ∧
    (AES_ECB.EncryptStream (sampleAES .AES_ECB) fipsPlain 16).2 ≠
      ((sampleAES .AES_ECB).EncryptBlock fipsPlain).2 ∧
    (AES_ECB.DecryptStream (sampleAES .AES_ECB) fipsCipher 16).2 ≠
      ((sampleAES .AES_ECB).DecryptBlock fipsCipher).2 := by
  have h16 : (32 * n + 16) &&& 16 ≠ 0 := by
    rw [and16, if_pos (by omega)]
    decide
  have h0 : 32 * n + 16 ≠ 0 := by omega
  refine ⟨?_, ?_, by decide, by decide⟩
  · unfold AES_ECB.EncryptStream
    rw [if_neg h0, if_pos h16]
  · unfold AES_ECB.DecryptStream
    rw [if_neg h0, if_pos h16]

/-- C12 on the code: for the buffer `sampleOddStream` of 33 bytes, a length that is not a
multiple of 16, `AES_ECB::EncryptStream` does not return at once: it encrypts the two full
blocks (the first one becomes `fipsCipher`), so the buffer is changed; `AES_ECB::DecryptStream`
changes the buffer as well. -/
theorem ECB_partial_length_transformed :
    33 % 16 ≠ 0 ∧
    readAt (AES_ECB.EncryptStream (sampleAES .AES_ECB) sampleOddStream 33).2 0 16 = fipsCipher ∧
    (AES_ECB.EncryptStream (sampleAES .AES_ECB) sampleOddStream 33).2 ≠ sampleOddStream ∧
    (AES_ECB.DecryptStream (sampleAES .AES_ECB) sampleOddStream 33).2 ≠ sampleOddStream := by
  decide

/-- C13: for every object, every buffer and every length that is zero or not a multiple of 16,
`AES_CBC::EncryptStream` and `AES_CBC::DecryptStream` return at once: the buffer and the object,
the stored IV with it, are as they were. -/
theorem CBC_rejects_partial_blocks (self : AES_BASE) (stream : List Nat) (length : Nat)
    (h : length = 0 ∨ length % 16 ≠ 0) :
    AES_CBC.EncryptStream self stream length = (self, stream) ∧
    AES_CBC.DecryptStream self stream length = (self, stream) := by
  unfold AES_CBC.EncryptStream AES_CBC.DecryptStream
  rcases h with h | h
  · rw [if_pos h, if_pos h]
    exact ⟨rfl, rfl⟩
  · have h0 : length ≠ 0 := by
      intro e
      rw [e] at h
      exact h rfl
    have h1 : length &&& 0x0F ≠ 0 := by
      rw [and15]
      exact h
    rw [if_neg h0, if_pos h1, if_neg h0, if_pos h1]
    exact ⟨rfl, rfl⟩

theorem CBC_rejects_partial_blocks_witness :
    (20 = 0 ∨ 20 % 16 ≠ 0) ∧
    AES_CBC.EncryptStream (sampleAES .AES_CBC) sampleStream 20 =
      (sampleAES .AES_CBC, sampleStream) ∧
    AES_CBC.DecryptStream (sampleAES .AES_CBC) sampleStream 20 =
      (sampleAES .AES_CBC, sampleStream) :=
  ⟨by decide, CBC_rejects_partial_blocks (sampleAES .AES_CBC) sampleStream 20 (by decide)⟩

/-- C14: PKCS#7 padding.  Whenever the test of `Encrypt` on `GetMode()` passes (`GetMode()` is
`AES_BASE_M` on every object, those of `AES_ECB` and `AES_CBC` included), for every plaintext
`P` of `n >= 1` bytes, `Encrypt` with padding hands `EncryptStream` a buffer `padded` of
`n + p` bytes with `p = 16 - n % 16` (so `p = 16` when `n % 16 = 0`): `n + p` is a multiple of
16 above `n`, the first `n` bytes are `P`, and the `p` bytes after them all have the value `p`;
the result of `Encrypt` is what `EncryptStream` makes of that buffer, with the length
`n + p`. -/
theorem Encrypt_PKCS7_padding (s : AES_BASE) (P : List Nat) (sl : Nat)
    (hg : s.GetMode < AES_CFB_M) (h0 : 0 < P.length) (hbig : P.length + 32 < 2 ^ 64) :
    ∃ p padded, p = 16 - P.length % 16 ∧ (P.length % 16 = 0 → p = 16) ∧
      padded.length = P.length + p ∧ (P.length + p) % 16 = 0 ∧ P.length < P.length + p ∧
      padded.take P.length = P ∧ padded.drop P.length = List.replicate p p ∧
      s.Encrypt P P.length sl true =
        ((s.EncryptStream padded (P.length + p)).1,
          some (s.EncryptStream padded (P.length + p)).2, P.length + p) := by
  obtain ⟨hp1, hp2, hp16⟩ := padValue_bounds P.length
  refine ⟨AES_BASE.padValue P.length,
    P ++ List.replicate (AES_BASE.padValue P.length) (AES_BASE.padValue P.length),
    padValue_eq _, ?_, ?_, hp16, by omega, take_append_len rfl, drop_append_len rfl,
    Encrypt_padded s P sl hg h0 hbig⟩
  · intro h
    rw [padValue_eq, h]
  · rw [List.length_append, List.length_replicate]

theorem Encrypt_PKCS7_padding_witness :
    ∃ p padded, p = 16 - sampleStream.length % 16 ∧ (sampleStream.length % 16 = 0 → p = 16) ∧
      padded.length = sampleStream.length + p ∧ (sampleStream.length + p) % 16 = 0 ∧
      sampleStream.length < sampleStream.length + p ∧
      padded.take sampleStream.length = sampleStream ∧
      padded.drop sampleStream.length = List.replicate p p ∧
      (sampleAES .AES_CBC).Encrypt sampleStream sampleStream.length 0 true =
        (((sampleAES .AES_CBC).EncryptStream padded (sampleStream.length + p)).1,
          some ((sampleAES .AES_CBC).EncryptStream padded (sampleStream.length + p)).2,
          sampleStream.length + p) :=
  Encrypt_PKCS7_padding (sampleAES .AES_CBC) sampleStream 0 (by decide) (by decide)
    (by decide)

/-- C15 on the code: for an object `a` that the constructor of `AES_CFB` or of `AES_OFB` leaves
and every plaintext `P` of `n >= 1` bytes, with `s` the object after `ClearIV` and
`p = 16 - n % 16`: `Encrypt` hands `EncryptStream` the plaintext followed by `p` pad bytes of
value `p`, and `EncryptBuffer` returns `16 + (n + p)` bytes and reports that length, so the
part after the IV has `n + p` bytes, more than `n`. -/
theorem CFB_OFB_EncryptBuffer_pads (cls : AES_CLASS) (key ivMem P : List Nat)
    (rand : Nat → Nat) (sl0 : Nat) (a s : AES_BASE)
    (hcls : cls = .AES_CFB ∨ cls = .AES_OFB) (hiv : ivMem.length = 16) (h0 : 0 < P.length)
    (hbig : P.length + 32 < 2 ^ 64) (ha : AES_BASE.new cls ivMem (some key) = some a)
    (hs : s = { a with keyset := a.keyset.ClearIV rand }) :
    ∃ enc,
      s.Encrypt P P.length sl0 true =
        ((s.EncryptStream (P ++ List.replicate (16 - P.length % 16) (16 - P.length % 16))
            (P.length + (16 - P.length % 16))).1,
          some (s.EncryptStream (P ++ List.replicate (16 - P.length % 16) (16 - P.length % 16))
            (P.length + (16 - P.length % 16))).2,
          P.length + (16 - P.length % 16)) ∧
      (a.EncryptBuffer rand P P.length sl0).2 = (some enc, 16 + (P.length + (16 - P.length % 16))) ∧
      enc.length = 16 + (P.length + (16 - P.length % 16)) ∧
      P.length < P.length + (16 - P.length % 16) := by
  obtain ⟨a1, ha1, _, hmode, hivm, hI, _, _⟩ := new_spec cls ivMem key
  have ea : a1 = a := Option.some.inj (ha1.symm.trans ha)
  subst ea
  have hg : a1.GetMode < AES_CFB_M := by
    show a1.aesMode < 3
    rw [hmode]
    decide
  have hIt : a1.keyset.IVmode = true := by
    rw [hI]
    rcases hcls with h | h <;> rw [h] <;> rfl
  obtain ⟨p, C, hsl, _, hE, hEnc, hCl, hEB⟩ := EncryptBuffer_shape a1 s rand P sl0 hs hg
    (by rw [hivm]; exact hiv) h0 hbig
  rw [if_pos hIt] at hEB
  rw [padValue_eq] at hE hEnc hCl hEB
  refine ⟨s.keyset.iv ++ C, ?_, ?_, ?_, by omega⟩
  · rw [hEnc, hE]
  · rw [hEB]
    simp only [Prod.mk.injEq, true_and]
    omega
  · rw [List.length_append, hsl, hCl]

theorem CFB_OFB_EncryptBuffer_pads_witness :
    ∃ enc,
      AES_BASE.Encrypt { sampleNew .AES_CFB sampleIV with
          keyset := (sampleNew .AES_CFB sampleIV).keyset.ClearIV sampleRand }
        sampleStream sampleStream.length 0 true =
        ((AES_BASE.EncryptStream { sampleNew .AES_CFB sampleIV with
              keyset := (sampleNew .AES_CFB sampleIV).keyset.ClearIV sampleRand }
            (sampleStream ++ List.replicate (16 - sampleStream.length % 16)
              (16 - sampleStream.length % 16))
            (sampleStream.length + (16 - sampleStream.length % 16))).1,
          some (AES_BASE.EncryptStream { sampleNew .AES_CFB sampleIV with
              keyset := (sampleNew .AES_CFB sampleIV).keyset.ClearIV sampleRand }
            (sampleStream ++ List.replicate (16 - sampleStream.length % 16)
              (16 - sampleStream.length % 16))
            (sampleStream.length + (16 - sampleStream.length % 16))).2,
          sampleStream.length + (16 - sampleStream.length % 16)) ∧
      ((sampleNew .AES_CFB sampleIV).EncryptBuffer sampleRand sampleStream
        sampleStream.length 0).2 =
        (some enc, 16 + (sampleStream.length + (16 - sampleStream.length % 16))) ∧
      enc.length = 16 + (sampleStream.length + (16 - sampleStream.length % 16)) ∧
      sampleStream.length < sampleStream.length + (16 - sampleStream.length % 16) :=
  CFB_OFB_EncryptBuffer_pads .AES_CFB sampleKey sampleIV sampleStream sampleRand 0
    (sampleNew .AES_CFB sampleIV) _ (Or.inl rfl) (by decide) (by decide) (by decide) rfl rfl

/-- C16: IV header layout.  For an object `a` that a constructor of a mode class leaves and
every plaintext `P` of at least one byte, with `s` the object after `ClearIV` and `(C, L)` the
ciphertext and length that `Encrypt` returns on `s`: `EncryptBuffer` leaves the object that
`Encrypt` leaves, whose stored IV is the 16-byte IV of `s` that the encryption used; for CBC,
CFB and OFB it returns that IV followed by `C` and reports `16 + L`, for ECB it returns `C`
alone and reports `L`. -/
theorem EncryptBuffer_IV_header (cls : AES_CLASS) (key ivMem P : List Nat)
    (rand : Nat → Nat) (sl0 : Nat) (a s : AES_BASE)
    (hiv : ivMem.length = 16) (h0 : 0 < P.length) (hbig : P.length + 32 < 2 ^ 64)
    (ha : AES_BASE.new cls ivMem (some key) = some a)
    (hs : s = { a with keyset := a.keyset.ClearIV rand }) :
    ∃ C L, (s.Encrypt P P.length sl0 true).2 = (some C, L) ∧ C.length = L ∧
      (a.EncryptBuffer rand P P.length sl0).1 = (s.Encrypt P P.length sl0 true).1 ∧
      (a.EncryptBuffer rand P P.length sl0).1.keyset.iv = s.keyset.iv ∧
      s.keyset.iv.length = 16 ∧
      (a.EncryptBuffer rand P P.length sl0).2 =
        if cls = .AES_ECB then (some C, L) else (some (s.keyset.iv ++ C), 16 + L) := by
  obtain ⟨a1, ha1, _, hmode, hivm, hI, _, _⟩ := new_spec cls ivMem key
  have ea : a1 = a := Option.some.inj (ha1.symm.trans ha)
  subst ea
  have hg : a1.GetMode < AES_CFB_M := by
    show a1.aesMode < 3
    rw [hmode]
    decide
  obtain ⟨p, C, hsl, _, _, hEnc, hCl, hEB⟩ := EncryptBuffer_shape a1 s rand P sl0 hs hg
    (by rw [hivm]; exact hiv) h0 hbig
  refine ⟨C, P.length + AES_BASE.padValue P.length, by rw [hEnc], hCl, ?_, ?_, hsl, ?_⟩
  · rw [hEB, hEnc]
    split <;> rfl
  · rw [hEB]
    split <;> rfl
  · rw [hEB, hI]
    by_cases hc : cls = .AES_ECB
    · rw [if_pos hc, if_pos hc, if_neg (by decide)]
    · rw [if_neg hc, if_neg hc, if_pos rfl, Nat.add_comm]

theorem EncryptBuffer_IV_header_witness :
    ∃ C L,
      (AES_BASE.Encrypt { sampleNew .AES_CFB sampleIV with
          keyset := (sampleNew .AES_CFB sampleIV).keyset.ClearIV sampleRand }
        sampleStream sampleStream.length 0 true).2 = (some C, L) ∧ C.length = L ∧
      ((sampleNew .AES_CFB sampleIV).EncryptBuffer sampleRand sampleStream
          sampleStream.length 0).1 =
        (AES_BASE.Encrypt { sampleNew .AES_CFB sampleIV with
            keyset := (sampleNew .AES_CFB sampleIV).keyset.ClearIV sampleRand }
          sampleStream sampleStream.length 0 true).1 ∧
      ((sampleNew .AES_CFB sampleIV).EncryptBuffer sampleRand sampleStream
          sampleStream.length 0).1.keyset.iv =
        ((sampleNew .AES_CFB sampleIV).keyset.ClearIV sampleRand).iv ∧
      ((sampleNew .AES_CFB sampleIV).keyset.ClearIV sampleRand).iv.length = 16 ∧
      ((sampleNew .AES_CFB sampleIV).EncryptBuffer sampleRand sampleStream
          sampleStream.length 0).2 =
        if AES_CLASS.AES_CFB = .AES_ECB then (some C, L)
        else (some (((sampleNew .AES_CFB sampleIV).keyset.ClearIV sampleRand).iv ++ C), 16 + L) :=
  EncryptBuffer_IV_header .AES_CFB sampleKey sampleIV sampleStream sampleRand 0
    (sampleNew .AES_CFB sampleIV) _ (by decide) (by decide) (by decide) rfl rfl

/-- C17: padding removal trusts the last byte.  Whenever the test of `Decrypt` on `GetMode()`
passes (`GetMode()` is `AES_BASE_M` on every object, those of `AES_ECB` and `AES_CBC`
included), for every ciphertext of `L` bytes, `L` a positive multiple of 16, `Decrypt` with
padding removal returns the whole stream that `DecryptStream` leaves and reports `L - v` in
the arithmetic of `size_t`, with `v` the last byte of that stream, whatever the other bytes
are; that is `L - v` whenever `v <= L`. -/
theorem Decrypt_trusts_last_byte (d : AES_BASE) (C : List Nat) (L sl : Nat)
    (hg : d.GetMode < AES_CFB_M) (h0 : 0 < L) (h16 : L % 16 = 0) (hl : C.length = L)
    (hbig : L < 2 ^ 64) :
    d.Decrypt C L sl true =
      ((d.DecryptStream C L).1, some (d.DecryptStream C L).2,
        (L + 2 ^ 64 - (d.DecryptStream C L).2.getD (L - 1) 0) % 2 ^ 64) ∧
    ((d.DecryptStream C L).2.getD (L - 1) 0 ≤ L →
      (L + 2 ^ 64 - (d.DecryptStream C L).2.getD (L - 1) 0) % 2 ^ 64 =
        L - (d.DecryptStream C L).2.getD (L - 1) 0) := by
  refine ⟨Decrypt_last_byte d C L sl hg (by omega) h16 hl, ?_⟩
  intro hv
  omega

theorem Decrypt_trusts_last_byte_witness :
    (sampleAES .AES_CBC).Decrypt sampleTwoBlocks 32 0 true =
      (((sampleAES .AES_CBC).DecryptStream sampleTwoBlocks 32).1,
        some ((sampleAES .AES_CBC).DecryptStream sampleTwoBlocks 32).2,
        (32 + 2 ^ 64 - ((sampleAES .AES_CBC).DecryptStream sampleTwoBlocks 32).2.getD
          (32 - 1) 0) % 2 ^ 64) ∧
    (((sampleAES .AES_CBC).DecryptStream sampleTwoBlocks 32).2.getD (32 - 1) 0 ≤ 32 →
      (32 + 2 ^ 64 - ((sampleAES .AES_CBC).DecryptStream sampleTwoBlocks 32).2.getD
          (32 - 1) 0) % 2 ^ 64 =
        32 - ((sampleAES .AES_CBC).DecryptStream sampleTwoBlocks 32).2.getD (32 - 1) 0) :=
  Decrypt_trusts_last_byte (sampleAES .AES_CBC) sampleTwoBlocks 32 0 (by decide) (by decide)
    (by decide) (by decide) (by decide)

/-- C18: `SetBufferLimit(x)` returns `true` exactly when `x` is divisible by 16; then
`GetBufferLimit()` afterwards is `x`, and otherwise it is what it was before.  The object a
constructor of a mode class leaves has the limit 128000000, a multiple of 16. -/
theorem SetBufferLimit_GetBufferLimit (self : AES_BASE) (x : Nat) (cls : AES_CLASS)
    (ivMem key : List Nat) :
    (self.SetBufferLimit x).2 = decide (x % 16 = 0) ∧
    (self.SetBufferLimit x).1.GetBufferLimit = (if x % 16 = 0 then x else self.GetBufferLimit) ∧
    (AES_BASE.new cls ivMem (some key)).map AES_BASE.GetBufferLimit = some 128000000 ∧
    128000000 % 16 = 0 := by
  refine ⟨?_, ?_, ?_, by decide⟩
  · unfold AES_BASE.SetBufferLimit
    rw [and15]
    by_cases h : x % 16 = 0
    · rw [if_neg (fun h2 => h2 h)]
      simp [h]
    · rw [if_pos h]
      simp [h]
  · unfold AES_BASE.SetBufferLimit
    rw [and15]
    by_cases h : x % 16 = 0
    · rw [if_neg (fun h2 => h2 h), if_pos h]
      rfl
    · rw [if_pos h, if_neg h]
  · obtain ⟨ks, h1, _⟩ := CalculateKeys_spec
      { keyset := List.replicate 11 (List.replicate 16 0), iv := ivMem, IVmode := true } key
    cases cls <;>
      simp only [AES_BASE.new, AES_ECB.new, AES_CBC.new, AES_CFB.new, AES_OFB.new,
        AES_KEYSET.new, h1, Option.map_some'] <;> rfl

/-- C19, as stated, fails: for the 16 raw bytes `000102...0f` as key, whose first byte is zero,
round key 0 is all zero, not the key written as a matrix (`key[1]` is not zero), and
`AddRoundKey(block, 0)` leaves the block `00112233...ff` as it was instead of XORing the key
into it. -/
theorem round_key_0_not_raw_key :
    (AES_KEYSET.new (List.replicate 16 0) (some katKey)).map
        (fun ks => ks.keyset.getD 0 []) = some (List.replicate 16 0) ∧
    katKey.getD (1 * 4 + 0) 0 ≠ 0 ∧
    (AES_KEYSET.new (List.replicate 16 0) (some katKey)).map
        (fun ks => ks.AddRoundKey katPlain 0) = some katPlain ∧
    xorBytes katPlain katKey ≠ katPlain := by
  decide

/-- C19, amended: for every key schedule object (eleven round keys, round key 0 of sixteen
bytes) and every key, `CalculateKeys` sets round key 0 to `padKey key` viewed as a 4x4 matrix
filled column-major (`matrix[row][col] = padKey[col * 4 + row]`), and `AddRoundKey(block, 0)`
XORs byte `k` of `padKey key` into byte `k` of the block, for every `k` in 0..15.  Here
`padKey key` is the key read as a string and zero-padded on the right to 16 bytes: when
`key = pre ++ tail` with no zero byte in `pre`, at most 16 bytes in `pre`, and `tail` empty or
starting with a zero byte (unless `pre` has 16 bytes), it is `pre` followed by zero bytes. -/
theorem round_key_0_is_key_string (self : AES_KEYSET) (key : List Nat)
    (h11 : self.keyset.length = 11) (h16 : (self.keyset.getD 0 []).length = 16) :
    ∃ ks, self.CalculateKeys (some key) = some ks ∧
      (∀ row col, row < 4 → col < 4 →
        (ks.keyset.getD 0 []).getD (row * 4 + col) 0 = (padKey key).getD (col * 4 + row) 0) ∧
      (∀ block : List Nat, block.length = 16 →
        ks.AddRoundKey block 0 = xorBytes block (padKey key)) ∧
      (padKey key).length = 16 ∧
      (∀ pre tail : List Nat, key = pre ++ tail → (∀ b ∈ pre, b ≠ 0) → pre.length ≤ 16 →
        (pre.length < 16 → tail.getD 0 0 = 0) →
        padKey key = pre ++ List.replicate (16 - pre.length) 0) := by
  obtain ⟨ks, hks, hk0⟩ := CalculateKeys_key0 self key h11 h16
  refine ⟨ks, hks, ?_, ?_, keyBytes_length 16 key, ?_⟩
  · intro row col hr hc
    rw [hk0]
    interval_cases row <;> interval_cases col <;> rfl
  · intro block hb
    obtain ⟨a0, a1, a2, a3, a4, a5, a6, a7, a8, a9, a10, a11, a12, a13, a14, a15, e⟩ :=
      length16 hb
    obtain ⟨p0, p1, p2, p3, p4, p5, p6, p7, p8, p9, p10, p11, p12, p13, p14, p15, ep⟩ :=
      length16 (keyBytes_length 16 key)
    have ep2 : padKey key =
        [p0, p1, p2, p3, p4, p5, p6, p7, p8, p9, p10, p11, p12, p13, p14, p15] := ep
    rw [e, AddRoundKey_cons ks 0 (by omega), hk0, ep2]
    rfl
  · intro pre tail hkey hpre hlen htail
    unfold padKey
    rw [hkey, keyBytes_append pre tail 16 hpre hlen]
    by_cases h : pre.length < 16
    · rw [keyBytes_stop _ _ (htail h)]
    · have e : 16 - pre.length = 0 := by omega
      rw [e]
      cases tail <;> rfl

theorem round_key_0_is_key_string_witness :
    ∃ ks, AES_KEYSET.CalculateKeys ⟨List.replicate 11 (List.replicate 16 0), sampleIV, true⟩
        (some sampleKey) = some ks ∧
      (∀ row col, row < 4 → col < 4 →
        (ks.keyset.getD 0 []).getD (row * 4 + col) 0 =
          (padKey sampleKey).getD (col * 4 + row) 0) ∧
      (∀ block : List Nat, block.length = 16 →
        ks.AddRoundKey block 0 = xorBytes block (padKey sampleKey)) ∧
      (padKey sampleKey).length = 16 ∧
      (∀ pre tail : List Nat, sampleKey = pre ++ tail → (∀ b ∈ pre, b ≠ 0) →
        pre.length ≤ 16 → (pre.length < 16 → tail.getD 0 0 = 0) →
        padKey sampleKey = pre ++ List.replicate (16 - pre.length) 0) :=
  round_key_0_is_key_string ⟨List.replicate 11 (List.replicate 16 0), sampleIV, true⟩
    sampleKey rfl rfl

/-- C20 on the code: `EraseSecretkey()` calls `CalculateKeys(nullptr)`, whose first loop reads
`key[0]` through the null pointer: on every key schedule the call faults, no round key is
derived. -/
theorem EraseSecretkey_faults (self : AES_KEYSET) :
    self.EraseSecretkey = none ∧ self.CalculateKeys none = none :=
  ⟨rfl, rfl⟩

/-- C21: for every key schedule (and every object of a mode class) whose member `iv` has its
sixteen bytes, and every value `v` of sixteen bytes, `GetIV` after `ChangeIV(v)` (after
`SetIV(v)`) copies out exactly `v`; `ChangeIV` and `SetIV` with a null pointer change
nothing. -/
theorem ChangeIV_then_GetIV (ks : AES_KEYSET) (self : AES_BASE) (v : List Nat)
    (hks : ks.iv.length = 16) (hself : self.keyset.iv.length = 16) (hv : v.length = 16) :
    (ks.ChangeIV (some v)).GetIV = v ∧ (self.SetIV (some v)).GetIV = v ∧
    ks.ChangeIV none = ks ∧ self.SetIV none = self :=
  ⟨GetIV_ChangeIV ks v hks hv, GetIV_ChangeIV self.keyset v hself hv, rfl, rfl⟩

theorem ChangeIV_then_GetIV_witness :
    ((sampleAES .AES_CBC).keyset.ChangeIV (some fipsPlain)).GetIV = fipsPlain ∧
    ((sampleAES .AES_CBC).SetIV (some fipsPlain)).GetIV = fipsPlain ∧
    (sampleAES .AES_CBC).keyset.ChangeIV none = (sampleAES .AES_CBC).keyset ∧
    (sampleAES .AES_CBC).SetIV none = sampleAES .AES_CBC :=
  ChangeIV_then_GetIV (sampleAES .AES_CBC).keyset (sampleAES .AES_CBC) fipsPlain
    (by decide) (by decide) (by decide)

/-- C22: for every key schedule and every block of sixteen bytes, `AddRoundKey(block, k)` with
`k` in 0..10 replaces the byte of the block at row `r`, column `c` (index `c * 4 + r`) by its
XOR with the entry of round key `k` at row `r`, column `c` (index `r * 4 + c` of
`keyset[k]`, which holds the matrix row by row), for all `r`, `c` in 0..3; with `k > 10` the
call returns at once and the block is as it was. -/
theorem AddRoundKey_matrix (ks : AES_KEYSET) (block : List Nat) (k : Nat)
    (hb : block.length = 16) :
    (k ≤ 10 → ∀ r c, r < 4 → c < 4 →
      (ks.AddRoundKey block k).getD (c * 4 + r) 0 =
        block.getD (c * 4 + r) 0 ^^^ (ks.keyset.getD k []).getD (r * 4 + c) 0) ∧
    (ks.AddRoundKey block k).length = 16 ∧
    (10 < k → ks.AddRoundKey block k = block) := by
  refine ⟨?_, (AddRoundKey_length ks block k).trans hb, ?_⟩
  · intro hk r c hr hc
    obtain ⟨a0, a1, a2, a3, a4, a5, a6, a7, a8, a9, a10, a11, a12, a13, a14, a15, e⟩ :=
      length16 hb
    subst e
    rw [AddRoundKey_cons ks k hk]
    interval_cases r <;> interval_cases c <;> rfl
  · intro hk
    unfold AES_KEYSET.AddRoundKey
    rw [if_pos hk]

theorem AddRoundKey_matrix_witness :
    (5 ≤ 10 → ∀ r c, r < 4 → c < 4 →
      ((sampleAES .AES_ECB).keyset.AddRoundKey fipsPlain 5).getD (c * 4 + r) 0 =
        fipsPlain.getD (c * 4 + r) 0 ^^^
          ((sampleAES .AES_ECB).keyset.keyset.getD 5 []).getD (r * 4 + c) 0) ∧
    ((sampleAES .AES_ECB).keyset.AddRoundKey fipsPlain 5).length = 16 ∧
    (10 < 5 → (sampleAES .AES_ECB).keyset.AddRoundKey fipsPlain 5 = fipsPlain) :=
  AddRoundKey_matrix (sampleAES .AES_ECB).keyset fipsPlain 5 (by decide)

/-- C23 on the code: `XORIV(block, iv)` with a block `iv` supplied does what `XORIV(block)`
does, on every key schedule, block and `iv`; with the stored IV `sampleIV`, the block
`fipsPlain` and the supplied block `katPlain` it leaves `fipsPlain` XOR `sampleIV`, which is not
`fipsPlain` XOR `katPlain`. -/
theorem XORIV_ignores_supplied_block (ks : AES_KEYSET) (b v : List Nat) :
    ks.XORIV2 b (some v) = ks.XORIV b ∧ ks.XORIV2 b none = ks.XORIV b ∧
    (sampleAES .AES_CBC).keyset.XORIV2 fipsPlain (some katPlain) =
      xorBytes fipsPlain sampleIV ∧
    (sampleAES .AES_CBC).keyset.XORIV2 fipsPlain (some katPlain) ≠
      xorBytes fipsPlain katPlain :=
  ⟨rfl, rfl, by decide, by decide⟩

/-- C24 on the code: with the chunk limit 32 and a content of 32 bytes, the limit exactly, an
object of `AES_ECB` writes the content followed by sixteen bytes `0x10` (the stream of 48 bytes
is not transformed), and `DecryptFile` on that file does not write the content back.  The
same split of the last chunk happens with the chunk limit 16 and a content of 16 bytes on an
object of `AES_OFB`, but there the last piece decrypts to a stream that ends in a byte above
16, the length reported wraps, the last `write` puts out nothing and the content does come
back. -/
theorem file_round_trip_fails_at_chunk_limit :
    (sampleECB32.EncryptFile sampleRand sampleTwoBlocks).map (fun r => r.2) =
      some (some (sampleTwoBlocks ++ List.replicate 16 16)) ∧
    fileRoundTrip sampleECB32 sampleRand sampleTwoBlocks ≠ some sampleTwoBlocks ∧
    fileRoundTrip sampleOFB16 sampleRand fipsPlain = some fipsPlain := by
  decide

/-- C25: encrypted file length.  For every object on which the test of `Encrypt` on
`GetMode()` passes (every object, those of `AES_ECB` and `AES_CBC` included) with a chunk limit
that is a positive multiple of 16, and every input file of `n >= 1` bytes, `EncryptFile` writes
the 16-byte IV of the object after `ClearIV` when IV embedding is enabled (nothing otherwise)
and then exactly `n + (16 - n % 16)` bytes, whatever the chunk limit is; the object it leaves
holds that IV. -/
theorem EncryptFile_length (a s : AES_BASE) (rand : Nat → Nat) (input : List Nat)
    (hs : s = { a with keyset := a.keyset.ClearIV rand })
    (hg : a.GetMode < AES_CFB_M) (hiva : a.keyset.iv.length = 16)
    (hB0 : 0 < a.GetBufferLimit) (hB16 : a.GetBufferLimit % 16 = 0) (hn : 0 < input.length)
    (hbig : input.length + 32 < 2 ^ 64) :
    ∃ a2 body, a.EncryptFile rand input =
        some (a2, some ((if a.keyset.GetIVMode = true then s.keyset.iv else []) ++ body)) ∧
      s.keyset.iv.length = 16 ∧ a2.keyset = s.keyset ∧
      body.length = input.length + (16 - input.length % 16) := by
  obtain ⟨p, body, h1, h2, h3⟩ := EncryptFile_shape a s rand input hs hg hiva hB0 hB16 hn hbig
  exact ⟨withProc s p, body, h1, h3, rfl, h2⟩

theorem EncryptFile_length_witness :
    ∃ a2 body, sampleCBC32.EncryptFile sampleRand sampleOddStream =
        some (a2, some ((if sampleCBC32.keyset.GetIVMode = true then
          (sampleCBC32.keyset.ClearIV sampleRand).iv else []) ++ body)) ∧
      (sampleCBC32.keyset.ClearIV sampleRand).iv.length = 16 ∧
      a2.keyset = sampleCBC32.keyset.ClearIV sampleRand ∧
      body.length = sampleOddStream.length + (16 - sampleOddStream.length % 16) :=
  EncryptFile_length sampleCBC32 _ sampleRand sampleOddStream rfl (by decide) (by decide)
    (by decide) (by decide) (by decide) (by decide)

/-- C26 on the code: with source length 0 and `*streamLength` holding 0, `EncryptBuffer` on an
object of `AES_CBC`, `AES_CFB` or `AES_OFB` returns a buffer of 16 bytes, the IV that `ClearIV`
drew, and reports the length 16; only on an object of `AES_ECB` it returns the null pointer
that `Encrypt` returned. -/
theorem EncryptBuffer_empty_source :
    ((sampleNew .AES_CBC sampleIV).EncryptBuffer sampleRand [] 0 0).2 =
      (some ((List.range 16).map (fun i => sampleRand i % 256)), 16) ∧
    ((sampleNew .AES_CFB sampleIV).EncryptBuffer sampleRand [] 0 0).2 =
      (some ((List.range 16).map (fun i => sampleRand i % 256)), 16) ∧
    ((sampleNew .AES_OFB sampleIV).EncryptBuffer sampleRand [] 0 0).2 =
      (some ((List.range 16).map (fun i => sampleRand i % 256)), 16) ∧
    ((sampleNew .AES_ECB sampleIV).EncryptBuffer sampleRand [] 0 0).2 = (none, 0) := by
  decide

/-- C27 on the code: on an object of `AES_CBC` (IV embedding enabled), `DecryptBuffer` with
input length 0 hands `Decrypt` the length `0 - 16 = 2 ^ 64 - 16`, which is neither zero nor
off a multiple of 16, so `Decrypt` does not return the null pointer: it goes on to allocate and
decrypt a stream of that length.  With the input lengths 1..15 and 16 `DecryptBuffer` does
return the null pointer. -/
theorem DecryptBuffer_empty_input_not_rejected :
    (0 + 2 ^ 64 - 16) % 2 ^ 64 ≠ 0 ∧ ((0 + 2 ^ 64 - 16) % 2 ^ 64) % 16 = 0 ∧
    ((sampleAES .AES_CBC).DecryptBuffer [] 0 0).2.1.isSome = true ∧
    ((sampleAES .AES_CBC).DecryptBuffer fipsPlain 16 0).2.1 = none ∧
    ((sampleAES .AES_CBC).DecryptBuffer (fipsPlain.take 7) 7 0).2.1 = none := by
  decide

/-- C28: key expansion recurrence.  For every key schedule object (eleven round keys of sixteen
bytes) and every key, `CalculateKeys` leaves eleven round keys such that for every `i` in
1..10, round keys viewed as 4x4 matrices stored row by row, the first column of round key `i`
is the S-box of the last column of round key `i - 1` rotated up by one byte, XOR the first
column of round key `i - 1`, XOR `rcon_table[i - 1]` in the top byte only, and each column
`c` in 1..3 of round key `i` is column `c - 1` of round key `i` XOR column `c` of round key
`i - 1`; deriving again from the same key, on any key schedule object, gives the same round
keys. -/
theorem key_expansion_recurrence (self : AES_KEYSET) (key : List Nat)
    (h11 : self.keyset.length = 11) (h16 : ∀ j, j ≤ 10 → (self.keyset.getD j []).length = 16) :
    ∃ ks, self.CalculateKeys (some key) = some ks ∧ ks.keyset.length = 11 ∧
      (∀ i, 1 ≤ i → i ≤ 10 →
        KeyRecurrence (ks.keyset.getD (i - 1) []) (ks.keyset.getD i [])
          (rcon_table.getD (i - 1) 0)) ∧
      ∀ t : AES_KEYSET, t.keyset.length = 11 →
        (∀ j, j ≤ 10 → (t.keyset.getD j []).length = 16) →
        ∃ kt, t.CalculateKeys (some key) = some kt ∧ kt.keyset = ks.keyset := by
  obtain ⟨ks, hks, hk11, hrec, hdet⟩ := CalculateKeys_rows self key h11 h16
  refine ⟨ks, hks, hk11, ?_, hdet⟩
  intro i hi1 hi10
  rw [hrec i hi1 hi10]
  exact expandRow_recurrence _ _

theorem key_expansion_recurrence_witness :
    ∃ ks, AES_KEYSET.CalculateKeys ⟨List.replicate 11 (List.replicate 16 0), sampleIV, true⟩
        (some sampleKey) = some ks ∧ ks.keyset.length = 11 ∧
      (∀ i, 1 ≤ i → i ≤ 10 →
        KeyRecurrence (ks.keyset.getD (i - 1) []) (ks.keyset.getD i [])
          (rcon_table.getD (i - 1) 0)) ∧
      ∀ t : AES_KEYSET, t.keyset.length = 11 →
        (∀ j, j ≤ 10 → (t.keyset.getD j []).length = 16) →
        ∃ kt, t.CalculateKeys (some sampleKey) = some kt ∧ kt.keyset = ks.keyset :=
  key_expansion_recurrence ⟨List.replicate 11 (List.replicate 16 0), sampleIV, true⟩
    sampleKey rfl (by decide)

/-- C29, as stated, fails: on an object of `AES_OFB`, `EncryptStream` on the block `fipsPlain`
and then on the block `katPlain` leaves other bytes than one `EncryptStream` call on the two
blocks together; the second block differs. -/
theorem OFB_two_calls_differ_from_one :
    (AES_OFB.EncryptStream (sampleAES .AES_OFB) fipsPlain 16).2 ++
        (AES_OFB.EncryptStream (AES_OFB.EncryptStream (sampleAES .AES_OFB) fipsPlain 16).1
          katPlain 16).2 ≠
      (AES_OFB.EncryptStream (sampleAES .AES_OFB) (fipsPlain ++ katPlain) 32).2 := by
  decide
/-- C29, amended: every `EncryptStream` call starts from the stored IV.  For CBC, CFB and OFB,
every object (stored IV of 16 bytes), every chunk `A` whose length is a positive multiple of 16
and every chunk `B`: the first call leaves the key schedule and the stored IV as they
were, and the second of two successive calls, on `B`, leaves the bytes that a single call on
`B` leaves on the object as it was before the first call. -/
theorem successive_EncryptStream_calls_restart (self : AES_BASE) (A B : List Nat)
    (hA0 : 0 < A.length) (hA16 : A.length % 16 = 0) (hiv : self.keyset.iv.length = 16) :
    ((AES_CBC.EncryptStream self A A.length).1.keyset = self.keyset ∧
      (AES_CBC.EncryptStream (AES_CBC.EncryptStream self A A.length).1 B B.length).2 =
        (AES_CBC.EncryptStream self B B.length).2) ∧
    ((AES_CFB.EncryptStream self A A.length).1.keyset = self.keyset ∧
      (AES_CFB.EncryptStream (AES_CFB.EncryptStream self A A.length).1 B B.length).2 =
        (AES_CFB.EncryptStream self B B.length).2) ∧
    ((AES_OFB.EncryptStream self A A.length).1.keyset = self.keyset ∧
      (AES_OFB.EncryptStream (AES_OFB.EncryptStream self A A.length).1 B B.length).2 =
        (AES_OFB.EncryptStream self B B.length).2) := by
  obtain ⟨p1, e1⟩ := CBC_encrypt_eq self A A.length (by omega) hA16 (Nat.le_refl _) hiv
  obtain ⟨p2, out, e2, _⟩ := CFB_encrypt_eq self A A.length (by omega) (Nat.le_refl _)
  obtain ⟨p3, e3⟩ := OFB_stream_eq self A A.length (by omega) (Nat.le_refl _)
  rw [e1, e2, e3]
  exact ⟨⟨rfl, CBC_encrypt_withProc self p1 B B.length (Nat.le_refl _) hiv⟩,
    ⟨rfl, CFB_encrypt_withProc self p2 B B.length⟩,
    ⟨rfl, OFB_encrypt_withProc self p3 B B.length⟩⟩

theorem successive_EncryptStream_calls_restart_witness :
    ((AES_CBC.EncryptStream (sampleAES .AES_CBC) fipsPlain fipsPlain.length).1.keyset =
        (sampleAES .AES_CBC).keyset ∧
      (AES_CBC.EncryptStream (AES_CBC.EncryptStream (sampleAES .AES_CBC) fipsPlain
          fipsPlain.length).1 sampleStream sampleStream.length).2 =
        (AES_CBC.EncryptStream (sampleAES .AES_CBC) sampleStream sampleStream.length).2) ∧
    ((AES_CFB.EncryptStream (sampleAES .AES_CBC) fipsPlain fipsPlain.length).1.keyset =
        (sampleAES .AES_CBC).keyset ∧
      (AES_CFB.EncryptStream (AES_CFB.EncryptStream (sampleAES .AES_CBC) fipsPlain
          fipsPlain.length).1 sampleStream sampleStream.length).2 =
        (AES_CFB.EncryptStream (sampleAES .AES_CBC) sampleStream sampleStream.length).2) ∧
    ((AES_OFB.EncryptStream (sampleAES .AES_CBC) fipsPlain fipsPlain.length).1.keyset =
        (sampleAES .AES_CBC).keyset ∧
      (AES_OFB.EncryptStream (AES_OFB.EncryptStream (sampleAES .AES_CBC) fipsPlain
          fipsPlain.length).1 sampleStream sampleStream.length).2 =
        (AES_OFB.EncryptStream (sampleAES .AES_CBC) sampleStream sampleStream.length).2) :=
  successive_EncryptStream_calls_restart (sampleAES .AES_CBC) fipsPlain sampleStream
    (by decide) (by decide) (by decide)

/-- C30: for every block `b` of sixteen bytes, viewed as a 4x4 matrix filled column by column
(index `c * 4 + r` for row `r`, column `c`), `ShiftRowsLeft` leaves at row `r`, column `c` the
byte of `b` at row `r`, column `(c + r) mod 4`, and `ShiftRowsRight` the byte at row `r`,
column `(c - r) mod 4`, for all `r`, `c` in 0..3; `ShiftRowsRight` after `ShiftRowsLeft` gives
`b` back, and so does `ShiftRowsLeft` after `ShiftRowsRight`. -/
theorem ShiftRows_rotate_rows (self : AES_BASE) (b : List Nat) (hb : b.length = 16) :
    (∀ r c, r < 4 → c < 4 →
      (self.ShiftRowsLeft b).2.getD (c * 4 + r) 0 = b.getD (((c + r) % 4) * 4 + r) 0) ∧
    (∀ r c, r < 4 → c < 4 →
      (self.ShiftRowsRight b).2.getD (c * 4 + r) 0 = b.getD (((c + 4 - r) % 4) * 4 + r) 0) ∧
    ((self.ShiftRowsLeft b).1.ShiftRowsRight (self.ShiftRowsLeft b).2).2 = b ∧
    ((self.ShiftRowsRight b).1.ShiftRowsLeft (self.ShiftRowsRight b).2).2 = b := by
  rw [ShiftRowsLeft_eq self hb, ShiftRowsRight_eq self hb]
  simp only []
  rw [ShiftRowsRight_eq _ (shiftL_length b), ShiftRowsLeft_eq _ (shiftR_length b)]
  exact ⟨fun r c hr hc => shiftL_index b r c hr hc, fun r c hr hc => shiftR_index b r c hr hc,
    shiftR_shiftL hb, shiftL_shiftR hb⟩

theorem ShiftRows_rotate_rows_witness :
    (∀ r c, r < 4 → c < 4 →
      ((sampleAES .AES_ECB).ShiftRowsLeft fipsPlain).2.getD (c * 4 + r) 0 =
        fipsPlain.getD (((c + r) % 4) * 4 + r) 0) ∧
    (∀ r c, r < 4 → c < 4 →
      ((sampleAES .AES_ECB).ShiftRowsRight fipsPlain).2.getD (c * 4 + r) 0 =
        fipsPlain.getD (((c + 4 - r) % 4) * 4 + r) 0) ∧
    (((sampleAES .AES_ECB).ShiftRowsLeft fipsPlain).1.ShiftRowsRight
      ((sampleAES .AES_ECB).ShiftRowsLeft fipsPlain).2).2 = fipsPlain ∧
    (((sampleAES .AES_ECB).ShiftRowsRight fipsPlain).1.ShiftRowsLeft
      ((sampleAES .AES_ECB).ShiftRowsRight fipsPlain).2).2 = fipsPlain :=
  ShiftRows_rotate_rows (sampleAES .AES_ECB) fipsPlain (by decide)

/-- C31: for every coefficient `c` outside 1, 2, 3, 9, 11, 13, 14 and every byte `b` (and every
value of the constant `GF_MULT_OVERFLOW`), `GFMult(c, b)` is 0 and `GFMult(1, b)` is `b`; for
every coefficient `k` the `switch` of `GFMult` returns, so the statement after it is never
reached and the whole body gives what the `switch` returns, which is `b`, 0 or the entry at `b`
of one of the six tables. -/
theorem GFMult_coefficient_restriction (ovf c b : Nat) (hc : c ∉ [1, 2, 3, 9, 11, 13, 14]) :
    AES_BASE.GFMult 1 b = b ∧ AES_BASE.GFMult c b = 0 ∧
    ∀ k, AES_BASE.GFMult_switch k b = some (AES_BASE.GFMult k b) ∧
      AES_BASE.GFMult_body ovf k b = AES_BASE.GFMult k b ∧
      AES_BASE.GFMult k b ∈
        [b, 0, mul_2.getD b 0, mul_3.getD b 0, mul_9.getD b 0, mul_11.getD b 0,
          mul_13.getD b 0, mul_14.getD b 0] := by
  refine ⟨rfl, GFMult_other c b hc, fun k => ⟨GFMult_switch_eq k b, ?_, GFMult_lookup k b⟩⟩
  unfold AES_BASE.GFMult_body
  rw [GFMult_switch_eq]

theorem GFMult_coefficient_restriction_witness :
    AES_BASE.GFMult 1 0x57 = 0x57 ∧ AES_BASE.GFMult 4 0x57 = 0 ∧
    ∀ k, AES_BASE.GFMult_switch k 0x57 = some (AES_BASE.GFMult k 0x57) ∧
      AES_BASE.GFMult_body 0x80 k 0x57 = AES_BASE.GFMult k 0x57 ∧
      AES_BASE.GFMult k 0x57 ∈
        [0x57, 0, mul_2.getD 0x57 0, mul_3.getD 0x57 0, mul_9.getD 0x57 0, mul_11.getD 0x57 0,
          mul_13.getD 0x57 0, mul_14.getD 0x57 0] :=
  GFMult_coefficient_restriction 0x80 4 0x57 (by decide)

/-- C32, as stated, fails: 32 is a multiple of 16 and has bit 4 clear, so the test
`length & 16` lets it through: `AES_ECB::EncryptStream` with length 32 on the two blocks
`sampleTwoBlocks` replaces the first by `fipsCipher` and leaves other bytes than it was given,
and so does `AES_ECB::DecryptStream`. -/
theorem ECB_length_32_passes_check :
    32 % 16 = 0 ∧ 32 &&& 16 = 0 ∧
    readAt (AES_ECB.EncryptStream (sampleAES .AES_ECB) sampleTwoBlocks 32).2 0 16 = fipsCipher ∧
    (AES_ECB.EncryptStream (sampleAES .AES_ECB) sampleTwoBlocks 32).2 ≠ sampleTwoBlocks ∧
    (AES_ECB.DecryptStream (sampleAES .AES_ECB) sampleTwoBlocks 32).2 ≠ sampleTwoBlocks := by
  decide

/-- C32, amended: the length test of `AES_ECB` is `length & 16`, bit 4 of the length, not the
length modulo 16.  For every object, every buffer and every length within the buffer that is
not zero: with bit 4 set (16 is such a length, a valid one) `EncryptStream` and `DecryptStream`
return at once, object and buffer as they were; with bit 4 clear (32 is such a length) they
replace each of the `length / 16` blocks of the buffer by `EncryptBlock`, respectively
`DecryptBlock`, of it. -/
theorem ECB_length_check_tests_bit_4 (self : AES_BASE) (stream : List Nat) (length : Nat)
    (h0 : length ≠ 0) (hl : length ≤ stream.length) :
    16 &&& 16 ≠ 0 ∧ 16 % 16 = 0 ∧ 32 &&& 16 = 0 ∧
    (length &&& 16 ≠ 0 →
      AES_ECB.EncryptStream self stream length = (self, stream) ∧
      AES_ECB.DecryptStream self stream length = (self, stream)) ∧
    (length &&& 16 = 0 →
      (AES_ECB.EncryptStream self stream length).2 =
        mapBlocks (fun b => (self.EncryptBlock b).2) (length / 16) stream ∧
      (AES_ECB.DecryptStream self stream length).2 =
        mapBlocks (fun b => (self.DecryptBlock b).2) (length / 16) stream) := by
  have hm := div16_add length
  refine ⟨by decide, by decide, by decide, ?_, ?_⟩
  · intro hbit
    unfold AES_ECB.EncryptStream AES_ECB.DecryptStream
    rw [if_neg h0, if_pos hbit, if_neg h0, if_pos hbit]
    exact ⟨rfl, rfl⟩
  · intro hbit
    obtain ⟨p, hp⟩ := ECB_encrypt_eq self stream length hl
    obtain ⟨q, hq⟩ := ECB_decrypt_eq self stream length hl
    rw [if_neg (fun h => h hbit)] at hp hq
    rw [hp, hq]
    exact ⟨mapBlocks_congr _ _ (fun b hb => by rw [EncryptBlock_eq self hb]) _ _ (by omega),
      mapBlocks_congr _ _ (fun b hb => by rw [DecryptBlock_eq self hb]) _ _ (by omega)⟩

theorem ECB_length_check_tests_bit_4_witness :
    16 &&& 16 ≠ 0 ∧ 16 % 16 = 0 ∧ 32 &&& 16 = 0 ∧
    (16 &&& 16 ≠ 0 →
      AES_ECB.EncryptStream (sampleAES .AES_ECB) fipsPlain 16 =
        (sampleAES .AES_ECB, fipsPlain) ∧
      AES_ECB.DecryptStream (sampleAES .AES_ECB) fipsPlain 16 =
        (sampleAES .AES_ECB, fipsPlain)) ∧
    (16 &&& 16 = 0 →
      (AES_ECB.EncryptStream (sampleAES .AES_ECB) fipsPlain 16).2 =
        mapBlocks (fun b => ((sampleAES .AES_ECB).EncryptBlock b).2) (16 / 16) fipsPlain ∧
      (AES_ECB.DecryptStream (sampleAES .AES_ECB) fipsPlain 16).2 =
        mapBlocks (fun b => ((sampleAES .AES_ECB).DecryptBlock b).2) (16 / 16) fipsPlain) :=
  ECB_length_check_tests_bit_4 (sampleAES .AES_ECB) fipsPlain 16 (by decide) (by decide)

/-- C33 on the code: for the object that the constructor of any of the four mode classes
leaves, whatever the key, `GetMode()` returns `AES_BASE_M` and `GetModeStr()` returns
"AES BASE", not the identifier that the class declares for itself; no function of the
classes assigns the member, so this holds for the whole lifetime of the object. -/
theorem GetMode_returns_base_mode (cls : AES_CLASS) (ivMem key : List Nat) :
    ∃ a, AES_BASE.new cls ivMem (some key) = some a ∧ a.cls = cls ∧
      a.GetMode = AES_BASE_M ∧ a.GetModeStr = "AES BASE" ∧ a.GetMode ≠ cls.aesMode ∧
      [AES_CLASS.AES_ECB.aesMode, AES_CLASS.AES_CBC.aesMode, AES_CLASS.AES_CFB.aesMode,
        AES_CLASS.AES_OFB.aesMode] = [AES_ECB_M, AES_CBC_M, AES_CFB_M, AES_OFB_M] := by
  obtain ⟨a, h1, h2, h3, _⟩ := new_spec cls ivMem key
  refine ⟨a, h1, h2, h3, ?_, ?_, rfl⟩
  · unfold AES_BASE.GetModeStr
    rw [h3]
  · show a.aesMode ≠ cls.aesMode
    rw [h3]
    cases cls <;> decide

/-- C34: for every key schedule (eleven round keys of sixteen bytes) and every value `v`,
`ChangeIV(v)` leaves the eleven round keys and `IVmode` as they were; for every key `k`,
`ChangeSecretKey(k)` leaves the stored IV and `IVmode` as they were and leaves the round keys
of the key schedule that the constructor builds from `k`, whatever memory `ivMem` its member
`iv` occupies. -/
theorem key_and_IV_independent (self : AES_KEYSET) (v : Option (List Nat)) (k ivMem : List Nat)
    (h11 : self.keyset.length = 11) (h16 : ∀ j, j ≤ 10 → (self.keyset.getD j []).length = 16) :
    (self.ChangeIV v).keyset = self.keyset ∧ (self.ChangeIV v).IVmode = self.IVmode ∧
    ∃ ks fresh, self.ChangeSecretKey (some k) = some ks ∧
      AES_KEYSET.new ivMem (some k) = some fresh ∧
      ks.iv = self.iv ∧ ks.IVmode = self.IVmode ∧ ks.keyset = fresh.keyset := by
  refine ⟨?_, ?_, ?_⟩
  · unfold AES_KEYSET.ChangeIV
    cases v <;> rfl
  · unfold AES_KEYSET.ChangeIV
    cases v <;> rfl
  · obtain ⟨ks, e1, e2, e3, _, _⟩ := CalculateKeys_spec self k
    obtain ⟨fresh, f1, _, _, f4⟩ := CalculateKeys_rows
      { keyset := List.replicate 11 (List.replicate 16 0), iv := ivMem, IVmode := true } k rfl
      (by
        intro j hj
        interval_cases j <;> rfl)
    obtain ⟨kt, t1, t2⟩ := f4 self h11 h16
    rw [e1] at t1
    cases t1
    exact ⟨ks, fresh, e1, f1, e2, e3, t2⟩

theorem key_and_IV_independent_witness :
    ((sampleAES .AES_CBC).keyset.ChangeIV (some fipsPlain)).keyset =
      (sampleAES .AES_CBC).keyset.keyset ∧
    ((sampleAES .AES_CBC).keyset.ChangeIV (some fipsPlain)).IVmode =
      (sampleAES .AES_CBC).keyset.IVmode ∧
    ∃ ks fresh, (sampleAES .AES_CBC).keyset.ChangeSecretKey (some katKey) = some ks ∧
      AES_KEYSET.new sampleIV (some katKey) = some fresh ∧
      ks.iv = (sampleAES .AES_CBC).keyset.iv ∧ ks.IVmode = (sampleAES .AES_CBC).keyset.IVmode ∧
      ks.keyset = fresh.keyset :=
  key_and_IV_independent (sampleAES .AES_CBC).keyset (some fipsPlain) katKey sampleIV
    (by decide) (by decide)

/-- C35: for every key, every object `a` that the constructor of `AES_ECB` leaves and every
plaintext `P` of `n >= 1` bytes whose padded length `n + (16 - n mod 16)` has bit 4 set, as it
has for every `n` in 1..15, `EncryptBuffer` returns exactly `P` followed by `16 - n mod 16`
bytes of that value, and reports the padded length: no block went through the cipher. -/
theorem ECB_EncryptBuffer_pass_through (key ivMem P : List Nat) (rand : Nat → Nat) (sl0 : Nat)
    (a : AES_BASE) (ha : AES_BASE.new .AES_ECB ivMem (some key) = some a)
    (hiv : ivMem.length = 16) (h0 : 0 < P.length) (hbig : P.length + 32 < 2 ^ 64)
    (hbit : P.length < 16 ∨ (P.length + (16 - P.length % 16)) &&& 16 ≠ 0) :
    (a.EncryptBuffer rand P P.length sl0).2 =
      (some (P ++ List.replicate (16 - P.length % 16) (16 - P.length % 16)),
        P.length + (16 - P.length % 16)) := by
  obtain ⟨a1, ha1, hcls, hmode, hivm, hI, _, _⟩ := new_spec .AES_ECB ivMem key
  have ea : a1 = a := Option.some.inj (ha1.symm.trans ha)
  subst ea
  have hg : a1.GetMode < AES_CFB_M := by
    show a1.aesMode < 3
    rw [hmode]
    decide
  have hIf : ¬ a1.keyset.IVmode = true := by
    rw [hI]
    decide
  have hb : (P.length + (16 - P.length % 16)) &&& 16 ≠ 0 := by
    rcases hbit with h | h
    · rw [Nat.mod_eq_of_lt h, show P.length + (16 - P.length) = 16 by omega]
      decide
    · exact h
  obtain ⟨s, hs⟩ : ∃ s : AES_BASE, s = { a1 with keyset := a1.keyset.ClearIV rand } := ⟨_, rfl⟩
  obtain ⟨p, C, _, _, hE, _, _, hEB⟩ := EncryptBuffer_shape a1 s rand P sl0 hs hg
    (by rw [hivm]; exact hiv) h0 hbig
  rw [if_neg hIf] at hEB
  rw [padValue_eq] at hE hEB
  have hscls : s.cls = .AES_ECB := by rw [hs]; exact hcls
  have hS : s.EncryptStream (P ++ List.replicate (16 - P.length % 16) (16 - P.length % 16))
      (P.length + (16 - P.length % 16)) =
      (s, P ++ List.replicate (16 - P.length % 16) (16 - P.length % 16)) := by
    unfold AES_BASE.EncryptStream
    rw [hscls]
    show AES_ECB.EncryptStream s _ _ = _
    unfold AES_ECB.EncryptStream
    rw [if_neg (by omega), if_pos hb]
  rw [hS] at hE
  rw [hEB, ← (Prod.mk.inj hE).2]

theorem ECB_EncryptBuffer_pass_through_witness :
    ((sampleNew .AES_ECB sampleIV).EncryptBuffer sampleRand [0x41, 0x45, 0x53] 3 0).2 =
      (some ([0x41, 0x45, 0x53] ++ List.replicate (16 - 3 % 16) (16 - 3 % 16)),
        3 + (16 - 3 % 16)) :=
  ECB_EncryptBuffer_pass_through sampleKey sampleIV [0x41, 0x45, 0x53] sampleRand 0
    (sampleNew .AES_ECB sampleIV) (by decide) (by decide) (by decide) (by decide)
    (Or.inl (by decide))

/-- C36, as stated, fails: `Decrypt` with padding removal accepts the ciphertext `fipsPlain` of
16 bytes on an object of `AES_CBC`; the stream that `DecryptStream` leaves ends in the byte 112,
more than 16, and the length reported is `16 - 112` in the arithmetic of `size_t`,
`2^64 - 96`, more than 16.  On an object of `AES_ECB` the same input reports `2^64 - 36`. -/
theorem Decrypt_reported_length_wraps :
    ((sampleAES .AES_CBC).Decrypt fipsPlain 16 0 true).2.1.isSome = true ∧
    ((sampleAES .AES_CBC).Decrypt fipsPlain 16 0 true).2.2 = 2 ^ 64 - 96 ∧
    ((sampleAES .AES_ECB).Decrypt fipsPlain 16 0 true).2.2 = 2 ^ 64 - 36 ∧
    16 < 2 ^ 64 - 96 := by
  decide

/-- C36, amended: whenever the test of `Decrypt` on `GetMode()` passes, for every ciphertext of
`L` bytes, `L` a positive multiple of 16, such that the last byte `v` of the stream that
`DecryptStream` leaves is at most `L`, `Decrypt` with padding removal returns that stream and
reports the length `L - v`, which is at most `L`. -/
theorem Decrypt_reported_length_bounded (d : AES_BASE) (C : List Nat) (L sl : Nat)
    (hg : d.GetMode < AES_CFB_M) (h0 : 0 < L) (h16 : L % 16 = 0) (hl : C.length = L)
    (hbig : L < 2 ^ 64) (hv : (d.DecryptStream C L).2.getD (L - 1) 0 ≤ L) :
    (d.Decrypt C L sl true).2.1 = some (d.DecryptStream C L).2 ∧
    (d.Decrypt C L sl true).2.2 = L - (d.DecryptStream C L).2.getD (L - 1) 0 ∧
    (d.Decrypt C L sl true).2.2 ≤ L := by
  rw [Decrypt_last_byte d C L sl hg (by omega) h16 hl]
  refine ⟨rfl, ?_, ?_⟩
  · show (L + 2 ^ 64 - (d.DecryptStream C L).2.getD (L - 1) 0) % 2 ^ 64 = _
    omega
  · show (L + 2 ^ 64 - (d.DecryptStream C L).2.getD (L - 1) 0) % 2 ^ 64 ≤ L
    omega

theorem Decrypt_reported_length_bounded_witness :
    ((sampleAES .AES_ECB).Decrypt (fipsPlain.take 15 ++ [5]) 16 0 true).2.1 =
      some ((sampleAES .AES_ECB).DecryptStream (fipsPlain.take 15 ++ [5]) 16).2 ∧
    ((sampleAES .AES_ECB).Decrypt (fipsPlain.take 15 ++ [5]) 16 0 true).2.2 =
      16 - ((sampleAES .AES_ECB).DecryptStream (fipsPlain.take 15 ++ [5]) 16).2.getD (16 - 1) 0 ∧
    ((sampleAES .AES_ECB).Decrypt (fipsPlain.take 15 ++ [5]) 16 0 true).2.2 ≤ 16 :=
  Decrypt_reported_length_bounded (sampleAES .AES_ECB) (fipsPlain.take 15 ++ [5]) 16 0
    (by decide) (by decide) (by decide) (by decide) (by decide) (by decide)

/-- C37: the chunk loops end.  For every object, every chunk limit that `SetBufferLimit`
accepts (the multiples of 16, 0 among them) and every file content, `EncryptFile` and
`DecryptFile` return: their chunk loops end within the passes that the remaining length allows.
One pass of either loop, for any chunk size `c` and any remaining length `n > c`, either ends
the operation with an error (`Encrypt` or `Decrypt` returned a null pointer) or goes on with
the remaining length `n - c`, which is smaller than `n`; with the chunk size 0 the first pass
ends with the error. -/
theorem chunk_loops_terminate (a : AES_BASE) (limit : Nat) (rand : Nat → Nat)
    (input : List Nat) (hacc : (a.SetBufferLimit limit).2 = true) :
    limit % 16 = 0 ∧ (a.SetBufferLimit limit).1.GetBufferLimit = limit ∧
    (∃ r, (a.SetBufferLimit limit).1.EncryptFile rand input = some r) ∧
    (∃ r, (a.SetBufferLimit limit).1.DecryptFile input = some r) ∧
    (∀ (c fuel : Nat) (s : AES_BASE) (rest : List Nat) (n : Nat) (out : List Nat), c < n →
      ((∃ s2, AES_BASE.EncryptFile_loop c (fuel + 1) s rest n out =
          some (false, s2, rest.drop c, n, out)) ∨
        (∃ s2 out2, AES_BASE.EncryptFile_loop c (fuel + 1) s rest n out =
          AES_BASE.EncryptFile_loop c fuel s2 (rest.drop c) (n - c) out2 ∧ n - c < n)) ∧
      ((∃ s2, AES_BASE.DecryptFile_loop c (fuel + 1) s rest n out =
          some (false, s2, rest.drop c, n, out)) ∨
        (∃ s2 out2, AES_BASE.DecryptFile_loop c (fuel + 1) s rest n out =
          AES_BASE.DecryptFile_loop c fuel s2 (rest.drop c) (n - c) out2 ∧ n - c < n))) ∧
    (∀ (fuel : Nat) (s : AES_BASE) (rest : List Nat) (n : Nat) (out : List Nat), 0 < n →
      AES_BASE.EncryptFile_loop 0 (fuel + 1) s rest n out = some (false, s, rest, n, out) ∧
      AES_BASE.DecryptFile_loop 0 (fuel + 1) s rest n out = some (false, s, rest, n, out)) := by
  have h15 : limit &&& 0x0F = 0 := by
    unfold AES_BASE.SetBufferLimit at hacc
    by_cases h : limit &&& 0x0F ≠ 0
    · rw [if_pos h] at hacc
      exact Bool.noConfusion hacc
    · exact Decidable.of_not_not h
  refine ⟨by rw [← and15]; exact h15, ?_, EncryptFile_total _ rand input,
    DecryptFile_total _ input, ?_, ?_⟩
  · unfold AES_BASE.SetBufferLimit
    rw [if_neg (fun h => h h15)]
    rfl
  · intro c fuel s rest n out hn
    exact ⟨EncryptFile_loop_step c fuel s rest n out hn,
      DecryptFile_loop_step c fuel s rest n out hn⟩
  · intro fuel s rest n out hn
    rw [EncryptFile_loop_succ, DecryptFile_loop_succ, if_pos hn, if_pos hn, Encrypt_zero,
      Decrypt_zero]
    exact ⟨rfl, rfl⟩

theorem chunk_loops_terminate_witness :
    0 % 16 = 0 ∧ ((sampleNew .AES_CBC sampleIV).SetBufferLimit 0).1.GetBufferLimit = 0 ∧
    (∃ r, ((sampleNew .AES_CBC sampleIV).SetBufferLimit 0).1.EncryptFile sampleRand fipsPlain =
      some r) ∧
    (∃ r, ((sampleNew .AES_CBC sampleIV).SetBufferLimit 0).1.DecryptFile fipsPlain = some r) ∧
    (∀ (c fuel : Nat) (s : AES_BASE) (rest : List Nat) (n : Nat) (out : List Nat), c < n →
      ((∃ s2, AES_BASE.EncryptFile_loop c (fuel + 1) s rest n out =
          some (false, s2, rest.drop c, n, out)) ∨
        (∃ s2 out2, AES_BASE.EncryptFile_loop c (fuel + 1) s rest n out =
          AES_BASE.EncryptFile_loop c fuel s2 (rest.drop c) (n - c) out2 ∧ n - c < n)) ∧
      ((∃ s2, AES_BASE.DecryptFile_loop c (fuel + 1) s rest n out =
          some (false, s2, rest.drop c, n, out)) ∨
        (∃ s2 out2, AES_BASE.DecryptFile_loop c (fuel + 1) s rest n out =
          AES_BASE.DecryptFile_loop c fuel s2 (rest.drop c) (n - c) out2 ∧ n - c < n))) ∧
    (∀ (fuel : Nat) (s : AES_BASE) (rest : List Nat) (n : Nat) (out : List Nat), 0 < n →
      AES_BASE.EncryptFile_loop 0 (fuel + 1) s rest n out = some (false, s, rest, n, out) ∧
      AES_BASE.DecryptFile_loop 0 (fuel + 1) s rest n out = some (false, s, rest, n, out)) :=
  chunk_loops_terminate (sampleNew .AES_CBC sampleIV) 0 sampleRand fipsPlain (by decide)

end FractureCrypto
